import Mathlib

/-!
# StriDe: FM-index walk, segmentation and long-read correction

A shallow embedding of `FMIndexWalk/FMIndexWalkProcess.cpp` and
`PacBio/PacBioCorrectionProcess.cpp`.

Conventions of the embedding

* `std::string` is `List Char`; `std::pair<int, std::string>` is `Int × List Char`.
* `int` and `size_t` values are mathematical integers (reads, counts and positions are
  assumed to stay below `2^31`); the two conversions the code relies on are kept:
  a negative `int` handed to a `size_t` parameter becomes a huge value (`substr` below),
  and the explicit cast `(size_t) kmerThreshold` is `toSizeT`.
* A C++ function that can throw, abort on `assert`, or loop returns `Run α`; loops are
  recursive functions over an explicit step budget and fail with `Fault.fuel` when the
  budget is used up.
* The FM-index, the sequence utilities and the search trees live outside the two files and
  are parameters (`External`, `SearchTrees`).
-/

namespace StriDe

/-- Ways a run can end without a value: `std::out_of_range` (from `substr` or `at`, and the
model's account of a read of element 0 of an empty vector, where the program has no defined
behaviour), a failed `assert`, or the step budget of the model running out. -/
inductive Fault
  | outOfRange
  | assertion
  | fuel
  deriving DecidableEq, Repr

deriving instance DecidableEq for Except

abbrev Run := Except Fault

abbrev Seq := List Char

/-- A seed `std::pair<int, std::string>`: start position in the read and the seed string. -/
abbrev Seed := Int × Seq

/-- Conversion of an `int` to the 64-bit `size_t`. -/
def toSizeT (x : Int) : Nat := (x % 18446744073709551616).toNat

/-- Conversion of an integer value to the 32-bit `int`: the low 32 bits, read as a signed
number. -/
def toInt32 (x : Int) : Int := (2147483648 + x) % 4294967296 - 2147483648

/-- `s.substr(pos, len)` where `pos` and `len` are (possibly negative) integers converted
to `size_t`: a negative `pos` becomes larger than any string and throws like every
`pos > size()`; a negative `len` becomes larger than any string and means "to the end". -/
def substr (s : Seq) (pos len : Int) : Run Seq :=
  if pos < 0 ∨ (s.length : Int) < pos then .error .outOfRange
  else .ok ((s.drop pos.toNat).take (if len < 0 then s.length else len.toNat))

/-- `s.substr(pos)`. -/
def substrFrom (s : Seq) (pos : Int) : Run Seq :=
  if pos < 0 ∨ (s.length : Int) < pos then .error .outOfRange
  else .ok (s.drop pos.toNat)

/-- `BWTInterval` of the index library: a closed range of suffix-array ranks.
Modelled from the spec: the type is declared outside the two source files
(`findInterval(kmer) -> Interval|invalid`); valid means non-empty. -/
structure BWTInterval where
  lower : Int
  upper : Int
  deriving DecidableEq, Repr

def BWTInterval.isValid (b : BWTInterval) : Bool := decide (b.lower ≤ b.upper)

def BWTInterval.size (b : BWTInterval) : Int := b.upper - b.lower + 1

/-- The external index and sequence utilities the two files call.
`rbwt = true` selects `index.pRBWT`, `false` selects `index.pBWT`. -/
structure External where
  /-- `BWTAlgorithms::countSequenceOccurrencesSingleStrand(w, indices)` -/
  countSequenceOccurrencesSingleStrand : Seq → Nat
  /-- `BWTAlgorithms::countSequenceOccurrences(w, indices)` (both strands) -/
  countSequenceOccurrences : Seq → Nat
  /-- `BWTAlgorithms::countSequenceOccurrences(w, indices.pBWT)` -/
  countSequenceOccurrencesBWT : Seq → Nat
  /-- `BWTAlgorithms::findInterval(pBWT or pRBWT, w)` -/
  findInterval : Bool → Seq → BWTInterval
  /-- `BWTAlgorithms::updateInterval(interval, b, pBWT or pRBWT)` -/
  updateInterval : BWTInterval → Char → Bool → BWTInterval
  /-- `reverseComplement(w)` -/
  reverseComplement : Seq → Seq
  /-- `complement(b)` -/
  complement : Char → Char
  /-- `m_params.kd.getMedian()` -/
  median : Nat

/-- The parameter bundle `m_params` (both classes). -/
structure Parameters where
  kmerLength : Int
  minKmerLength : Int
  seedKmerThreshold : Int
  minOverlap : Int
  maxOverlap : Int
  maxInsertSize : Int
  maxLeaves : Int
  FMWKmerThreshold : Int
  downward : Int
  collectedSeeds : Int
  isSplit : Bool
  /-- `m_params.seedWalkDistance[kmerLen]` -/
  seedWalkDistance : Int → Int

/-! ## Seed extraction -/

namespace FMIndexWalkProcess

/-- Combined count of a k-mer in the index: its occurrences plus those of its reverse
complement. -/
def combinedCount (E : External) (kmer : Seq) : Int :=
  (E.countSequenceOccurrencesSingleStrand kmer : Int)
    + (E.countSequenceOccurrencesSingleStrand (E.reverseComplement kmer) : Int)

/-- The variable `int kmerFreqs` after the two `+=`: the two `size_t` counts are accumulated
into an `int`, which keeps the low 32 bits of their sum as a signed value. -/
def kmerFreqs (E : External) (kmer : Seq) : Int := toInt32 (combinedCount E kmer)

/-- Inner loop of `searchingSeedsUsingSolidKmer`:
`for(i++ ; i+kmerLen <= readLen; i++) { ... if(kmerFreqs >= kmerThreshold) seedLen++; else break; }`
entered at the already incremented `i`; returns the final `(i, seedLen)`. -/
def groupSolid (E : External) (P : Parameters) (readSeq : Seq) :
    Nat → Int → Int → Run (Int × Int)
  | 0, _, _ => .error .fuel
  | fuel + 1, i, seedLen =>
    if i + P.kmerLength ≤ (readSeq.length : Int) then do
      let kmer ← substr readSeq i P.kmerLength
      if kmerFreqs E kmer ≥ P.seedKmerThreshold then
        groupSolid E P readSeq fuel (i + 1) (seedLen + 1)
      else pure (i, seedLen)
    else pure (i, seedLen)

/-- Outer loop `for(int i = 0 ; i+kmerLen <= readLen ; i++)` of
`searchingSeedsUsingSolidKmer`, entered at `i` with the seeds pushed so far. -/
def seedLoop (E : External) (P : Parameters) (readSeq : Seq) :
    Nat → Int → List Seed → Run (List Seed)
  | 0, _, _ => .error .fuel
  | fuel + 1, i, seeds =>
    if i + P.kmerLength ≤ (readSeq.length : Int) then do
      let kmer ← substr readSeq i P.kmerLength
      if kmerFreqs E kmer ≥ P.seedKmerThreshold then do
        let seedStartPos := i
        let (i1, seedLen) ← groupSolid E P readSeq fuel (i + 1) 0
        let str ← substr readSeq seedStartPos (seedLen + P.kmerLength)
        let i2 := i1 - 2 + P.kmerLength
        seedLoop E P readSeq fuel (i2 + 1) (seeds ++ [(seedStartPos, str)])
      else seedLoop E P readSeq fuel (i + 1) seeds
    else pure seeds

/-- `FMIndexWalkProcess::searchingSeedsUsingSolidKmer`. -/
def searchingSeedsUsingSolidKmer (fuel : Nat) (E : External) (P : Parameters)
    (readSeq : Seq) : Run (List Seed) :=
  if (readSeq.length : Int) ≥ P.kmerLength then seedLoop E P readSeq fuel 0 []
  else pure []

end FMIndexWalkProcess

namespace PacBioCorrectionProcess

/-- The qualification test
`kmerFreqs >= (size_t) kmerThreshold && fwdKmerFreqs>=3 && rvcKmerFreqs>=3`. -/
def isSolid (P : Parameters) (fwdKmerFreqs rvcKmerFreqs : Nat) : Bool :=
  decide (fwdKmerFreqs + rvcKmerFreqs ≥ toSizeT P.seedKmerThreshold)
    && decide (fwdKmerFreqs ≥ 3) && decide (rvcKmerFreqs ≥ 3)

/-- Inner loop of `searchingSeedsUsingSolidKmer` ("group consecutive solid kmers"),
entered at the already incremented `i`; returns the final `(i, seedLen, maxKmerFreq)`. -/
def groupSolid (E : External) (P : Parameters) (readSeq : Seq) :
    Nat → Int → Int → Nat → Run (Int × Int × Nat)
  | 0, _, _, _ => .error .fuel
  | fuel + 1, i, seedLen, maxKmerFreq =>
    if i + P.kmerLength ≤ (readSeq.length : Int) then do
      let kmer ← substr readSeq i P.kmerLength
      let fwdKmerFreqs := E.countSequenceOccurrencesSingleStrand kmer
      let rvcKmerFreqs := E.countSequenceOccurrencesSingleStrand (E.reverseComplement kmer)
      let kmerFreqs := fwdKmerFreqs + rvcKmerFreqs
      let maxKmerFreq := max maxKmerFreq kmerFreqs
      if isSolid P fwdKmerFreqs rvcKmerFreqs then
        groupSolid E P readSeq fuel (i + 1) (seedLen + 1) maxKmerFreq
      else pure (i, seedLen, maxKmerFreq)
    else pure (i, seedLen, maxKmerFreq)

/-- Outer loop of `searchingSeedsUsingSolidKmer`, entered at `i` with the seeds so far. -/
def seedLoop (E : External) (P : Parameters) (readSeq : Seq) (contaminatedCutoff : Nat) :
    Nat → Int → List Seed → Run (List Seed)
  | 0, _, _ => .error .fuel
  | fuel + 1, i, seeds =>
    if i + P.kmerLength ≤ (readSeq.length : Int) then do
      let kmer ← substr readSeq i P.kmerLength
      let fwdKmerFreqs := E.countSequenceOccurrencesSingleStrand kmer
      let rvcKmerFreqs := E.countSequenceOccurrencesSingleStrand (E.reverseComplement kmer)
      let kmerFreqs := fwdKmerFreqs + rvcKmerFreqs
      if isSolid P fwdKmerFreqs rvcKmerFreqs then do
        let seedStartPos := i
        let (i1, seedLen, maxKmerFreq) ← groupSolid E P readSeq fuel (i + 1) 0 kmerFreqs
        if maxKmerFreq < contaminatedCutoff then do
          let str ← substr readSeq seedStartPos (seedLen + P.kmerLength)
          let i2 := i1 - 2 + P.kmerLength
          seedLoop E P readSeq contaminatedCutoff fuel (i2 + 1) (seeds ++ [(seedStartPos, str)])
        else seedLoop E P readSeq contaminatedCutoff fuel (i1 + 1) seeds
      else seedLoop E P readSeq contaminatedCutoff fuel (i + 1) seeds
    else pure seeds

/-- `PacBioCorrectionProcess::searchingSeedsUsingSolidKmer(readSeq, contaminatedCutoff)`. -/
def searchingSeedsUsingSolidKmer (fuel : Nat) (E : External) (P : Parameters)
    (readSeq : Seq) (contaminatedCutoff : Nat) : Run (List Seed) :=
  if (readSeq.length : Int) ≥ P.kmerLength then
    seedLoop E P readSeq contaminatedCutoff fuel 0 []
  else pure []

end PacBioCorrectionProcess

/-- The loop variables of `findSeedsUsingDynamicKmerLen` at the loop test. -/
structure DynState where
  i : Int
  kmerLen : Int
  start : Bool
  newStartPos : Int
  newStartPos2 : Int
  walkDistance : Int
  seeds : List Seed

/-- Inner loop of `findSeedsUsingDynamicKmerLen` ("until not contiguous"):
`for(i++ ; i+kmerLen <= readLen ; i++) { ... if(kmerFreqs < kmerThreshold) break; }`
entered at the already incremented `i`; returns the final `i`. -/
def dynContiguous (E : External) (P : Parameters) (readSeq : Seq) (kmerLen : Int) :
    Nat → Int → Run Int
  | 0, _ => .error .fuel
  | fuel + 1, i =>
    if i + kmerLen ≤ (readSeq.length : Int) then do
      let kmer ← substr readSeq i kmerLen
      if FMIndexWalkProcess.kmerFreqs E kmer < P.seedKmerThreshold then pure i
      else dynContiguous E P readSeq kmerLen fuel (i + 1)
    else pure i

/-- Main loop `for(int i = 0 ; i+kmerLen <= readLen ; i++)` of
`findSeedsUsingDynamicKmerLen`. -/
def dynLoop (E : External) (P : Parameters) (readSeq : Seq) :
    Nat → DynState → Run (List Seed)
  | 0, _ => .error .fuel
  | fuel + 1, st =>
    if st.i + st.kmerLen ≤ (readSeq.length : Int) then do
      let kmer ← substr readSeq st.i st.kmerLen
      let walkDistance := st.walkDistance + 1
      if FMIndexWalkProcess.kmerFreqs E kmer ≥ P.seedKmerThreshold then do
        let seedStartPos := st.i
        let i1 ← dynContiguous E P readSeq st.kmerLen fuel (st.i + 1)
        let str ← substr readSeq seedStartPos (st.kmerLen + i1 - seedStartPos - 1)
        let i2 := seedStartPos + (str.length : Int) - 1
        dynLoop E P readSeq fuel
          { i := i2 + 1, kmerLen := P.kmerLength, start := true,
            newStartPos := st.newStartPos, newStartPos2 := i2, walkDistance := 0,
            seeds := st.seeds ++ [(seedStartPos, str)] }
      else if walkDistance ≥ P.seedWalkDistance st.kmerLen then
        if st.kmerLen ≤ P.minKmerLength then
          dynLoop E P readSeq fuel
            { st with i := st.i + 1, kmerLen := P.kmerLength, newStartPos := st.i,
                      newStartPos2 := st.i, walkDistance := 0 }
        else
          let i2 := if st.start = false then st.newStartPos else st.newStartPos2
          dynLoop E P readSeq fuel
            { st with i := i2 + 1, kmerLen := st.kmerLen - 2, walkDistance := 0 }
      else dynLoop E P readSeq fuel { st with i := st.i + 1, walkDistance := walkDistance }
    else pure st.seeds

/-- `findSeedsUsingDynamicKmerLen` (the two classes carry the same text). -/
def findSeedsUsingDynamicKmerLen (fuel : Nat) (E : External) (P : Parameters)
    (readSeq : Seq) : Run (List Seed) :=
  if (readSeq.length : Int) ≥ P.kmerLength then
    dynLoop E P readSeq fuel
      { i := 0, kmerLen := P.kmerLength, start := false, newStartPos := -1,
        newStartPos2 := -1, walkDistance := 0, seeds := [] }
  else pure []

/-- The part of the read from position `a` up to but excluding position `b`. -/
def slice (readSeq : Seq) (a b : Int) : Seq := (readSeq.drop a.toNat).take (b - a).toNat

/-- End position (exclusive) of a seed in the read. -/
def seedEnd (s : Seed) : Int := s.1 + (s.2.length : Int)

/-- Seed positions strictly increase and no seed reaches into a later one. -/
def SeedsOrdered (seeds : List Seed) : Prop :=
  seeds.Pairwise (fun s t => s.1 < t.1 ∧ seedEnd s ≤ t.1)

/-- The anchor to which the scan is rewound: `newStartPos` before the first seed,
`newStartPos2` afterwards. -/
def DynState.anchor (st : DynState) : Int :=
  if st.start = false then st.newStartPos else st.newStartPos2

/-- Loop invariant of `findSeedsUsingDynamicKmerLen`. -/
def DynInv (E : External) (P : Parameters) (readSeq : Seq) (st : DynState) : Prop :=
  0 ≤ st.kmerLen ∧
  (-1 ≤ (if st.start = false then st.newStartPos else st.newStartPos2) ∧
    (if st.start = false then st.newStartPos else st.newStartPos2) < st.i) ∧
  (st.start = false → st.seeds = []) ∧
  (∀ s ∈ st.seeds, s.1 < st.newStartPos2 + 1 ∧ seedEnd s ≤ st.newStartPos2 + 1) ∧
  (st.kmerLen = 0 →
    st.i < (readSeq.length : Int) ∨ FMIndexWalkProcess.kmerFreqs E [] < P.seedKmerThreshold) ∧
  SeedsOrdered st.seeds

/-- Every seed lies inside the read and is the part of the read it covers. -/
def SeedsWithin (readSeq : Seq) (seeds : List Seed) : Prop :=
  ∀ s ∈ seeds, 0 ≤ s.1 ∧ seedEnd s ≤ (readSeq.length : Int) ∧
    s.2 = slice readSeq s.1 (seedEnd s)

/-! ## Extension counting and trimming -/

/-- `NextKmerDir`. -/
inductive NextKmerDir
  | NK_START
  | NK_END
  deriving DecidableEq, Repr

/-- `char nBases[4] = {'A','T','C','G'}`. -/
def nBases : List Char := ['A', 'T', 'C', 'G']

namespace FMIndexWalkProcess

/-- The neighbouring k-mer built in the loop body of `numNextKmer`:
`nBases[i] + kmer.substr(0,kmerLength-1)` for `NK_START`,
`kmer.substr(1,kmerLength-1) + nBases[i]` for `NK_END`. -/
def nextMer (kmer : Seq) (dir : NextKmerDir) (b : Char) : Run Seq :=
  let kmerLength : Int := kmer.length
  match dir with
  | .NK_START => do
    let rest ← substr kmer 0 (kmerLength - 1)
    pure (b :: rest)
  | .NK_END => do
    let rest ← substr kmer 1 (kmerLength - 1)
    pure (rest ++ [b])

/-- `FMIndexWalkProcess::numNextKmer`: the number of the four neighbouring k-mers whose
occurrence count reaches `threshold`. -/
def numNextKmer (E : External) (kmer : Seq) (dir : NextKmerDir) (threshold : Nat) : Run Nat :=
  nBases.foldlM
    (fun num b => do
      let next_mer ← nextMer kmer dir b
      pure (if E.countSequenceOccurrences next_mer ≥ threshold then num + 1 else num))
    0

/-- `FMIndexWalkProcess::isSimple`. -/
def isSimple (E : External) (Lkmer Rkmer : Seq) (threshold : Nat) : Run Bool := do
  let LKmerPathCount ← numNextKmer E Lkmer .NK_END threshold
  let RKmerPathCount ← numNextKmer E Rkmer .NK_START threshold
  pure (decide (LKmerPathCount = 1 ∧ RKmerPathCount = 1))

/-- Head scan of `trimRead`:
`for (head = head+1 ; head <= tail ; head++ ) if (numNextKmer(...) >= 2) break;`
entered at the already incremented `head`; returns the final `head`. -/
def trimHead (E : External) (readSeq : Seq) (kmerLength : Nat) (tail : Int) :
    Nat → Int → Run Int
  | 0, _ => .error .fuel
  | fuel + 1, head =>
    if head ≤ tail then do
      let kmer ← substr readSeq head kmerLength
      let n ← numNextKmer E kmer .NK_START 1
      if n ≥ 2 then pure head else trimHead E readSeq kmerLength tail fuel (head + 1)
    else pure head

/-- Tail scan of `trimRead`:
`for (tail = tail-1 ; tail >= head ; tail-- ) if (numNextKmer(...) >= 2) break;`
entered at the already decremented `tail`; returns the final `tail`. -/
def trimTail (E : External) (readSeq : Seq) (kmerLength : Nat) (head : Int) :
    Nat → Int → Run Int
  | 0, _ => .error .fuel
  | fuel + 1, tail =>
    if tail ≥ head then do
      let kmer ← substr readSeq tail kmerLength
      let n ← numNextKmer E kmer .NK_END 1
      if n ≥ 2 then pure tail else trimTail E readSeq kmerLength head fuel (tail - 1)
    else pure tail

/-- `FMIndexWalkProcess::trimRead(readSeq, kmerLength, threshold, index)`; the `threshold`
argument is unused in the source. -/
def trimRead (fuel : Nat) (E : External) (readSeq : Seq) (kmerLength : Nat) : Run Seq := do
  let head0 : Int := 0
  let tail0 : Int := (readSeq.length : Int) - (kmerLength : Int)
  let headKmer ← substr readSeq head0 kmerLength
  let nHead ← numNextKmer E headKmer .NK_START 1
  let head ← (if nHead = 0 then trimHead E readSeq kmerLength tail0 fuel (head0 + 1)
              else pure head0)
  let tailKmer ← substr readSeq tail0 kmerLength
  let nTail ← numNextKmer E tailKmer .NK_END 1
  let tail ← (if nTail = 0 then trimTail E readSeq kmerLength head fuel (tail0 - 1)
              else pure tail0)
  if head > tail then pure []
  else substr readSeq head (tail - head + (kmerLength : Int))

end FMIndexWalkProcess

/-! ## Segmentation -/

/-- `v.at(i)` of a `std::vector`: throws `std::out_of_range` past the end. -/
def vecAt {α : Type} (v : List α) (i : Nat) : Run α :=
  match v[i]? with
  | some x => pure x
  | none => .error .outOfRange

/-- `v.at(i)` with an index computed in (possibly negative) integers: a negative value
converts to a huge `size_t` and throws. -/
def vecAtI {α : Type} (v : List α) (i : Int) : Run α :=
  if i < 0 then .error .outOfRange else vecAt v i.toNat

/-- `KmerContext`, the frequency profile of a read.
Modelled from the spec: the type is declared outside the two source files; a profile owns
the sequence, its k-mers and the two count arrays, one entry per k-mer start position. -/
structure KmerContext where
  readSeq : Seq
  kmerLength : Nat
  numKmer : Nat
  kmers : List Seq
  kmerFreqs_same : List Nat
  kmerFreqs_revc : List Nat

/-- `KmerContext::empty()`.
Modelled from the spec: the profile is empty when it owns no sequence. -/
def KmerContext.empty (seq : KmerContext) : Bool := seq.readSeq.isEmpty

/-- The constructor `KmerContext(seq, kmerLength, indices)`.
Modelled from the spec: `numKmer = len(seq) - k + 1`, entry `i` of `same` (`revcomp`) is the
single-strand count of the k-mer at `i` (of its reverse complement); a sequence shorter than
`k` gives the empty profile. -/
def KmerContext.build (E : External) (seq : Seq) (kmerLength : Nat) : KmerContext :=
  if kmerLength ≤ seq.length then
    let numKmer := seq.length - kmerLength + 1
    let kmers := (List.range numKmer).map (fun i => (seq.drop i).take kmerLength)
    { readSeq := seq, kmerLength := kmerLength, numKmer := numKmer, kmers := kmers,
      kmerFreqs_same := kmers.map E.countSequenceOccurrencesSingleStrand,
      kmerFreqs_revc :=
        kmers.map (fun w => E.countSequenceOccurrencesSingleStrand (E.reverseComplement w)) }
  else
    { readSeq := [], kmerLength := 0, numKmer := 0, kmers := [], kmerFreqs_same := [],
      kmerFreqs_revc := [] }

/-- The interval-cutting loop shared by the three segmenters:
`for (size_t p = 1; p < numKmer ; p++) { if (<cut at p>) { intervals.push_back(std::make_pair
(start,p-1)); start = p; } }`, run for `remaining` more values of `p`; `cut p` is the
segmenter's test. Returns the intervals pushed and the final `start`. -/
def cutLoop (cut : Nat → Run Bool) :
    Nat → Nat → Nat → List (Nat × Nat) → Run (List (Nat × Nat) × Nat)
  | 0, _, start, intervals => pure (intervals, start)
  | remaining + 1, p, start, intervals => do
    if (← cut p) then cutLoop cut remaining (p + 1) p (intervals ++ [(start, p - 1)])
    else cutLoop cut remaining (p + 1) start intervals

/-- The intervals of a segmenter over `numKmer` k-mer positions: the cutting loop followed
by `intervals.push_back(std::make_pair (start,end))` with `end = numKmer-1`. -/
def cutIntervals (cut : Nat → Run Bool) (numKmer : Nat) : Run (List (Nat × Nat)) := do
  let (intervals, start) ← cutLoop cut (numKmer - 1) 1 0 []
  pure (intervals ++ [(start, numKmer - 1)])

namespace FMIndexWalkProcess

/-- Loop of `isIntervalExistStrongKmer` from `i` for `remaining` more positions. -/
def strongScan (countQualified : List Nat) : Nat → Nat → Run Bool
  | 0, _ => pure false
  | remaining + 1, i => do
    if (← vecAt countQualified i) = 2 then pure true
    else strongScan countQualified remaining (i + 1)

/-- `FMIndexWalkProcess::isIntervalExistStrongKmer`:
`for(size_t i = interval.first ; i<=interval.second ; i++ ) if (countQualified.at(i)== 2 ) return true;` -/
def isIntervalExistStrongKmer (interval : Nat × Nat) (countQualified : List Nat) : Run Bool :=
  strongScan countQualified (interval.2 + 1 - interval.1) interval.1

/-- The counting loop at the head of the profile-based `splitRead`:
entry `i` is the number of strands on which the k-mer at `i` reaches `threshold`. -/
def countQualifiedOf (seq : KmerContext) (threshold : Nat) : Run (List Nat) :=
  (List.range seq.numKmer).mapM (fun i => do
    let same ← vecAt seq.kmerFreqs_same i
    let revc ← vecAt seq.kmerFreqs_revc i
    pure ((if same ≥ threshold then 1 else 0) + (if revc ≥ threshold then 1 else 0)))

/-- The cut test of the profile-based `splitRead` at `p`: no cut when `p-1` and `p` are both
doubly qualified, otherwise a cut exactly when the pair of k-mers is not simple. -/
def splitReadCut (E : External) (seq : KmerContext) (countQualified : List Nat) (p : Nat) :
    Run Bool :=
  if countQualified.getD (p - 1) 0 = 2 ∧ countQualified.getD p 0 = 2 then pure false
  else do
    let simple ← isSimple E (seq.kmers.getD (p - 1) []) (seq.kmers.getD p []) 1
    pure (!simple)

/-- First half of the profile-based `splitRead`: `countQualified` and the intervals. -/
def splitReadIntervals (E : External) (seq : KmerContext) (threshold : Nat) :
    Run (List Nat × List (Nat × Nat)) := do
  let countQualified ← countQualifiedOf seq threshold
  let intervals ← cutIntervals (splitReadCut E seq countQualified) seq.numKmer
  pure (countQualified, intervals)

/-- The final loop of the profile-based `splitRead` and of `splitRepeat` over the remaining
intervals; `i` is the index of the next interval. Returns `mainSeedIdx` and `kmerReads`. -/
def pickMain (readSeq : Seq) (kmerLength : Nat) (countQualified : List Nat) :
    List (Nat × Nat) → Nat → Nat → Int → List Seq → Run (Int × List Seq)
  | [], _, _, mainSeedIdx, kmerReads => pure (mainSeedIdx, kmerReads)
  | interval :: rest, i, maxIntervalNum, mainSeedIdx, kmerReads => do
    let strong ← isIntervalExistStrongKmer interval countQualified
    let intervalNum := interval.2 - interval.1
    let better := strong && decide (maxIntervalNum < intervalNum)
    let k ← substr readSeq interval.1 ((interval.2 : Int) - interval.1 + kmerLength)
    pickMain readSeq kmerLength countQualified rest (i + 1)
      (if better then intervalNum else maxIntervalNum)
      (if better then (i : Int) else mainSeedIdx) (kmerReads ++ [k])

/-- `FMIndexWalkProcess::splitRead(KmerContext&, kmerReads, threshold, index)`: returns
`mainSeedIdx` and the fragments pushed to `kmerReads`. -/
def splitRead (E : External) (seq : KmerContext) (threshold : Nat) : Run (Int × List Seq) :=
  if seq.empty then pure (-1, [])
  else do
    let (countQualified, intervals) ← splitReadIntervals E seq threshold
    pickMain seq.readSeq seq.kmerLength countQualified intervals 0 0 (-1) []

/-- The counting loop of `splitRepeat`: strands on which the count exceeds the median. -/
def repeatQualifiedOf (E : External) (seq : KmerContext) : Run (List Nat) :=
  (List.range seq.numKmer).mapM (fun i => do
    let same ← vecAt seq.kmerFreqs_same i
    let revc ← vecAt seq.kmerFreqs_revc i
    pure ((if same > E.median then 1 else 0) + (if revc > E.median then 1 else 0)))

/-- The cut test of `splitRepeat` at `p`: `p-1` is not repeat and `p` is, or vice versa. -/
def splitRepeatCut (countQualified : List Nat) (p : Nat) : Run Bool :=
  pure (decide ((countQualified.getD (p - 1) 0 < 2 ∧ countQualified.getD p 0 = 2)
    ∨ (countQualified.getD (p - 1) 0 = 2 ∧ countQualified.getD p 0 < 2)))

/-- First half of `splitRepeat`: `countQualified` and the intervals. -/
def splitRepeatIntervals (E : External) (seq : KmerContext) :
    Run (List Nat × List (Nat × Nat)) := do
  let countQualified ← repeatQualifiedOf E seq
  let intervals ← cutIntervals (splitRepeatCut countQualified) seq.numKmer
  pure (countQualified, intervals)

/-- `FMIndexWalkProcess::splitRepeat`. -/
def splitRepeat (E : External) (seq : KmerContext) : Run (Int × List Seq) :=
  if seq.empty then pure (-1, [])
  else do
    let (countQualified, intervals) ← splitRepeatIntervals E seq
    pickMain seq.readSeq seq.kmerLength countQualified intervals 0 0 (-1) []

/-- `fwdInterval.isValid()?fwdInterval.size():0` plus the same for `rvcInterval`. -/
def intervalFreq (fwdInterval rvcInterval : BWTInterval) : Int :=
  (if fwdInterval.isValid then fwdInterval.size else 0)
    + (if rvcInterval.isValid then rvcInterval.size else 0)

/-- Loop variables of the classification loop of the streaming `splitRead`. -/
structure StreamState where
  i : Nat
  fwdInterval : BWTInterval
  rvcInterval : BWTInterval
  currKmerSize : Int
  currKmerFreq : Int
  countQualified : List Nat

/-- `findInterval` on both strands for the k-mer starting at `pos`, as done three times in
the streaming `splitRead`; resets `currKmerSize` and recomputes `currKmerFreq`. -/
def recompute (E : External) (P : Parameters) (seq : Seq) (pos : Int) (st : StreamState) :
    Run StreamState := do
  let newKmer ← substr seq pos P.kmerLength
  let fwdInterval := E.findInterval true newKmer.reverse
  let rvcInterval := E.findInterval false (E.reverseComplement newKmer)
  pure { st with fwdInterval := fwdInterval, rvcInterval := rvcInterval,
                 currKmerSize := P.kmerLength,
                 currKmerFreq := intervalFreq fwdInterval rvcInterval }

/-- Classification loop `for (size_t i=0 ;i<=seq.length()-m_params.kmerLength;i++)` of the
streaming `splitRead`. The second branch ends in `i--; continue;`, so that the next test
sees the same `i`. -/
def classify (E : External) (P : Parameters) (seq : Seq) (threshold : Nat) :
    Nat → StreamState → Run (List Nat)
  | 0, _ => .error .fuel
  | fuel + 1, st =>
    let last : Int := (seq.length : Int) - P.kmerLength
    if (st.i : Int) ≤ last then
      if st.currKmerFreq ≥ threshold then do
        let cq := st.countQualified.modify (· + 1) st.i
        if (st.i : Int) < last then do
          let b ← vecAtI seq ((st.i : Int) + P.kmerLength)
          let fwdInterval :=
            if st.fwdInterval.isValid then E.updateInterval st.fwdInterval b true
            else st.fwdInterval
          let rvcInterval :=
            if st.rvcInterval.isValid then
              E.updateInterval st.rvcInterval (E.complement b) false
            else st.rvcInterval
          classify E P seq threshold fuel
            { i := st.i + 1, fwdInterval := fwdInterval, rvcInterval := rvcInterval,
              currKmerSize := st.currKmerSize + 1,
              currKmerFreq := intervalFreq fwdInterval rvcInterval, countQualified := cq }
        else classify E P seq threshold fuel { st with i := st.i + 1, countQualified := cq }
      else if st.currKmerSize > P.kmerLength then do
        let st1 ← recompute E P seq st.i st
        classify E P seq threshold fuel st1
      else if st.currKmerSize = P.kmerLength then
        if (st.i : Int) < last then do
          let st1 ← recompute E P seq ((st.i : Int) + 1) st
          classify E P seq threshold fuel { st1 with i := st.i + 1 }
        else classify E P seq threshold fuel { st with i := st.i + 1 }
      else .error .assertion
    else pure st.countQualified

/-- The cut test of the streaming `splitRead` at `p`. -/
def streamCut (E : External) (P : Parameters) (seq : Seq) (countQualified : List Nat)
    (p : Nat) : Run Bool :=
  if countQualified.getD (p - 1) 0 = 1 ∧ countQualified.getD p 0 = 1 then pure false
  else do
    let Lkmer ← substr seq ((p : Int) - 1) P.kmerLength
    let Rkmer ← substr seq p P.kmerLength
    let simple ← isSimple E Lkmer Rkmer 1
    pure (!simple)

/-- The classification phase of the streaming `splitRead`. -/
def streamQualifiedOf (fuel : Nat) (E : External) (P : Parameters) (seq : Seq)
    (threshold : Nat) : Run (List Nat) := do
  let numKmer := ((seq.length : Int) - P.kmerLength + 1).toNat
  let startingKmer ← substr seq 0 P.kmerLength
  let fwdInterval := E.findInterval true startingKmer.reverse
  let rvcInterval := E.findInterval false (E.reverseComplement startingKmer)
  classify E P seq threshold fuel
    { i := 0, fwdInterval := fwdInterval, rvcInterval := rvcInterval,
      currKmerSize := P.kmerLength, currKmerFreq := intervalFreq fwdInterval rvcInterval,
      countQualified := List.replicate numKmer 0 }

/-- The intervals computed by the streaming `splitRead`. -/
def splitReadStreamIntervals (fuel : Nat) (E : External) (P : Parameters) (seq : Seq)
    (threshold : Nat) : Run (List (Nat × Nat)) := do
  let countQualified ← streamQualifiedOf fuel E P seq threshold
  cutIntervals (streamCut E P seq countQualified)
    ((seq.length : Int) - P.kmerLength + 1).toNat

/-- Final loop of the streaming `splitRead`: the widest interval becomes `mainSeedIdx`. -/
def pickMainStream (seq : Seq) (kmerLength : Int) :
    List (Nat × Nat) → Nat → Nat → Int → List Seq → Run (Int × List Seq)
  | [], _, _, mainSeedIdx, kmerReads => pure (mainSeedIdx, kmerReads)
  | interval :: rest, i, maxIntervalSize, mainSeedIdx, kmerReads => do
    let intervalSize := interval.2 - interval.1
    let better := decide (maxIntervalSize < intervalSize)
    let k ← substr seq interval.1 ((interval.2 : Int) - interval.1 + kmerLength)
    pickMainStream seq kmerLength rest (i + 1)
      (if better then intervalSize else maxIntervalSize)
      (if better then (i : Int) else mainSeedIdx) (kmerReads ++ [k])

/-- `FMIndexWalkProcess::splitRead(std::string&, kmerReads, threshold, index)`. -/
def splitReadStream (fuel : Nat) (E : External) (P : Parameters) (seq : Seq)
    (threshold : Nat) : Run (Int × List Seq) :=
  if (seq.length : Int) < P.kmerLength then pure (-1, [])
  else do
    let intervals ← splitReadStreamIntervals fuel E P seq threshold
    pickMainStream seq P.kmerLength intervals 0 0 (-1) []

end FMIndexWalkProcess

/-- The intervals tile the positions from `s` up to but excluding `e`: the first starts at
`s`, each has `start <= end`, each next one starts at the previous end plus one, and the
last one ends at `e - 1`. -/
def Tiles : Nat → List (Nat × Nat) → Nat → Prop
  | s, [], e => s = e
  | s, iv :: rest, e => iv.1 = s ∧ iv.1 ≤ iv.2 ∧ Tiles (iv.2 + 1) rest e

/-- The intervals partition the k-mer positions `[0, numKmer-1]`: the list is not empty,
the first interval starts at 0, every interval has `start <= end`, each next interval
starts at the previous end plus one, and the last interval ends at `numKmer - 1`. -/
def IsPartition (intervals : List (Nat × Nat)) (numKmer : Nat) : Prop :=
  intervals.head?.map Prod.fst = some 0 ∧
  (∀ iv ∈ intervals, iv.1 ≤ iv.2) ∧
  intervals.Chain' (fun a b => b.1 = a.2 + 1) ∧
  intervals.getLast?.map (fun iv => iv.2 + 1) = some numKmer

/-! ## Long-read correction -/

/-- Result of one directional `SAIntervalTree` search: the merged sequence written by
`mergeTwoReads`, `getMaxUsedLeaves()` and `getKmerCoverage()`. -/
structure TreeWalk where
  mergedseq : Seq
  maxUsedLeaves : Nat
  kmerCoverage : Nat

/-- The search-tree classes, declared outside the two files. Every tree is built afresh for
one attempt, so each call is a function of the constructor and call arguments that vary
between attempts (the fixed members of `m_params` are the same for all calls of a run).
A merged sequence passed by reference is an argument and a result.
The depth bounds `maxLength`, `minLength`, `expectedLength` of the self-correction tree are
computed in `double` from `dis_between_src_target`, the seed length and `smallKmerSize`;
the calls below receive those three values instead. -/
structure SearchTrees where
  /-- `SAIPBSelfCorrectTree::addHashBySingleSeed(sourceStr, largeKmerSize, smallKmerSize,
  maxLength)`, the first call on a fresh tree; arguments: `sourceStr`, `largeKmerSize`,
  `smallKmerSize`, `dis_between_src_target`. -/
  addHashLeft : Seq → Int → Int → Int → Bool
  /-- `addHashBySingleSeed(rvcTargetStr, largeKmerSize, smallKmerSize, maxLength,
  expectedLength)`, the second call on the same tree; arguments: `sourceStr`,
  `rvcTargetStr`, `largeKmerSize`, `smallKmerSize`, `dis_between_src_target`. -/
  addHashRight : Seq → Seq → Int → Int → Int → Bool
  /-- `SAIPBSelfCorrectTree::mergeTwoSeedsUsingHash(sourceStr, targetStr, mergedseq,
  smallKmerSize, maxLeaves, minLength, maxLength, expectedLength)`; arguments: `sourceStr`,
  `targetStr`, the current `mergedseq`, `largeKmerSize`, `smallKmerSize`,
  `dis_between_src_target`; result: return code and the new `mergedseq`. -/
  mergeTwoSeedsUsingHash : Seq → Seq → Seq → Int → Int → Int → Int × Seq
  /-- `SAIntervalTreeForPBGap(&source.second, minKmerLength, targets, ...)
  .mergeTwoSeedsUsingHash(mergedseq)`; arguments: source string, `targets`, the current
  `mergedseq`. -/
  gapMergeTwoSeedsUsingHash : Seq → List (Int × Seq) → Seq → Int × Seq
  /-- `SAIntervalPBHybridCTree(&src, minOverlap, maxOverlap, needWalkLen, maxLeaves, ...,
  target, ...).mergeTwoReads(mergedseq)`; arguments: `src`, `minOverlap`, `needWalkLen`,
  `target`, the current `mergedseq`. -/
  hybridMergeTwoReads : Seq → Int → Int → Seq → Seq → Int × Seq
  /-- `SAIntervalTree(&src, minOverlap, maxOverlap, maxInsertSize, maxLeaves, indices,
  target).mergeTwoReads(mergedseq)` on an empty `mergedseq`; arguments: `src`, `target`, and
  the sum of the two original read lengths from which `maxOverlap` is derived. -/
  mergeTwoReads : Seq → Seq → Nat → TreeWalk

/-- `PacBioCorrectionResult` (and the long-read fields of `FMIndexWalkResult`).
Modelled from the spec: the type is declared outside the two files; a result is created
fresh per input item, with `merge = false`, zero counters and no corrected strings. -/
structure PacBioCorrectionResult where
  merge : Bool := false
  totalReadsLen : Int := 0
  correctedLen : Int := 0
  totalSeedNum : Int := 0
  totalWalkNum : Int := 0
  correctedNum : Int := 0
  highErrorNum : Int := 0
  exceedDepthNum : Int := 0
  exceedLeaveNum : Int := 0
  seedDis : Int := 0
  correctedPacbioStrs : List Seq := []

/-- `pacbioCorrectedStrs.back().second += str` on a vector of pairs. -/
def appendToBack (strs : List Seed) (str : Seq) : List Seed :=
  match strs.getLast? with
  | none => strs
  | some last => strs.dropLast ++ [(last.1, last.2 ++ str)]

/-- `pacbioCorrectedStrs.back() += str` on a vector of strings. -/
def appendToBackStr (strs : List Seq) (str : Seq) : List Seq :=
  match strs.getLast? with
  | none => strs
  | some last => strs.dropLast ++ [last ++ str]

/-- `seeds[i]` on the vector of seeds. -/
def seedAt (seeds : List Seed) (i : Nat) : Seed := seeds.getD i (0, [])

/-- How the lookahead loop of `PBSelfCorrection` is left. -/
inductive LookaheadExit (σ : Type)
  /-- `return result;` from inside the loop (a seed was reported contaminated) -/
  | returned (result : PacBioCorrectionResult)
  /-- the loop ended by its test or by `break`, with the last `FMWalkReturnType` -/
  | finished (FMWalkReturnType : Int) (state : σ)

/-- Variables of the outer loop of `PBSelfCorrection`. -/
structure CorrectionState where
  targetSeed : Nat
  pacbioCorrectedStrs : List Seed
  result : PacBioCorrectionResult

namespace PacBioCorrectionProcess

/-- Variables local to the lookahead loop over `nextTargetSeed`. -/
structure LookaheadState where
  nextTargetSeed : Nat
  FMWalkReturnType : Int
  prevFMWalkReturnType : Int
  smallKmerSize : Int
  mergedseq : Seq

/-- The loop `for(int nextTargetSeed = 0 ; nextTargetSeed < m_params.downward &&
targetSeed + nextTargetSeed < seeds.size() ; nextTargetSeed++)` of `PBSelfCorrection`. -/
def lookahead (E : External) (T : SearchTrees) (P : Parameters) (seeds : List Seed)
    (source : Seed) : Nat → LookaheadState → CorrectionState →
      Run (LookaheadExit CorrectionState)
  | 0, _, _ => .error .fuel
  | fuel + 1, s, o =>
    if (s.nextTargetSeed : Int) < P.downward ∧ o.targetSeed + s.nextTargetSeed < seeds.length
    then
      let largeKmerSize := P.kmerLength
      let currTargetIndex := o.targetSeed + s.nextTargetSeed
      let sourceStr := source.2
      let targetStr := (seedAt seeds currTargetIndex).2
      let dis_between_src_target : Int :=
        (seedAt seeds currTargetIndex).1 - (seedAt seeds (o.targetSeed - 1)).1
          - ((seedAt seeds (o.targetSeed - 1)).2.length : Int)
      if dis_between_src_target ≥ 500 then pure (.finished s.FMWalkReturnType o)
      else
        let leftSeedSafe :=
          T.addHashLeft sourceStr largeKmerSize s.smallKmerSize dis_between_src_target
        let rvcTargetStr := E.reverseComplement targetStr
        let rightSeedSafe :=
          T.addHashRight sourceStr rvcTargetStr largeKmerSize s.smallKmerSize
            dis_between_src_target
        if !leftSeedSafe || !rightSeedSafe then pure (.returned o.result)
        else
          let walk := T.mergeTwoSeedsUsingHash sourceStr targetStr s.mergedseq largeKmerSize
            s.smallKmerSize dis_between_src_target
          let FMWalkReturnType := walk.1
          let mergedseq := walk.2
          if FMWalkReturnType > 0 then do
            let startPos : Int := sourceStr.length
            let extendedStr ← substrFrom mergedseq startPos
            pure (.finished FMWalkReturnType
              { targetSeed := o.targetSeed + s.nextTargetSeed,
                pacbioCorrectedStrs := appendToBack o.pacbioCorrectedStrs extendedStr,
                result := { o.result with
                  correctedLen := o.result.correctedLen + extendedStr.length,
                  correctedNum := o.result.correctedNum + 1,
                  seedDis := o.result.seedDis + dis_between_src_target } })
          else
            let retry := FMWalkReturnType = -1 ∨ FMWalkReturnType = -2 ∨ FMWalkReturnType = -4
            let smallKmerSize := if retry then P.minKmerLength else s.smallKmerSize
            if retry ∧ s.prevFMWalkReturnType = -4 ∧ FMWalkReturnType = -4 then
              pure (.finished FMWalkReturnType o)
            else
              lookahead E T P seeds source fuel
                { nextTargetSeed := s.nextTargetSeed + 1,
                  FMWalkReturnType := FMWalkReturnType,
                  prevFMWalkReturnType := FMWalkReturnType,
                  smallKmerSize := smallKmerSize, mergedseq := mergedseq } o
    else pure (.finished s.FMWalkReturnType o)

/-- The block `if(FMWalkReturnType <= 0) { ... }` after the lookahead loop: the gap is
copied from the read (`!m_params.isSplit`) or the seed starts a new fragment, and the
failure is tallied. -/
def onFailure (P : Parameters) (readSeq : Seq) (seeds : List Seed) (FMWalkReturnType : Int)
    (o : CorrectionState) : Run CorrectionState := do
  let prev := seedAt seeds (o.targetSeed - 1)
  let cur := seedAt seeds o.targetSeed
  let result := { o.result with
    seedDis := o.result.seedDis + (cur.1 - prev.1 - (prev.2.length : Int)),
    correctedLen := o.result.correctedLen + cur.2.length }
  let strs ←
    (if !P.isSplit then do
      let startPos : Int := prev.1 + (prev.2.length : Int)
      let extendedLen : Int := cur.1 + (cur.2.length : Int) - startPos
      let gap ← substr readSeq startPos extendedLen
      pure (appendToBack o.pacbioCorrectedStrs gap)
    else pure (o.pacbioCorrectedStrs ++ [cur]))
  let result :=
    if FMWalkReturnType = -1 ∨ FMWalkReturnType = -4 then
      { result with highErrorNum := result.highErrorNum + 1 }
    else if FMWalkReturnType = -2 then
      { result with exceedDepthNum := result.exceedDepthNum + 1 }
    else if FMWalkReturnType = -3 then
      { result with exceedLeaveNum := result.exceedLeaveNum + 1 }
    else result
  pure { o with pacbioCorrectedStrs := strs, result := result }

/-- The loop `for(size_t targetSeed = 1 ; targetSeed < seeds.size() ; targetSeed++)` of
`PBSelfCorrection` together with the statements after it. -/
def correctLoop (E : External) (T : SearchTrees) (P : Parameters) (readSeq : Seq)
    (seeds : List Seed) : Nat → CorrectionState → Run PacBioCorrectionResult
  | 0, _ => .error .fuel
  | fuel + 1, o =>
    if o.targetSeed < seeds.length then do
      let source := o.pacbioCorrectedStrs.getLastD (0, [])
      match ← lookahead E T P seeds source fuel
          { nextTargetSeed := 0, FMWalkReturnType := 0, prevFMWalkReturnType := 0,
            smallKmerSize := P.minKmerLength, mergedseq := [] } o with
      | .returned result => pure result
      | .finished FMWalkReturnType o1 =>
        let o2 ← (if FMWalkReturnType ≤ 0 then onFailure P readSeq seeds FMWalkReturnType o1
                  else pure o1)
        correctLoop E T P readSeq seeds fuel
          { o2 with targetSeed := o2.targetSeed + 1,
                    result := { o2.result with totalWalkNum := o2.result.totalWalkNum + 1 } }
    else
      pure { o.result with
        merge := true
        totalReadsLen := readSeq.length
        correctedPacbioStrs :=
          o.result.correctedPacbioStrs ++ o.pacbioCorrectedStrs.map Prod.snd }

/-- `PacBioCorrectionProcess::PBSelfCorrection`; `contaminatedCutoff` is the default
argument of `searchingSeedsUsingSolidKmer`, declared in the header. -/
def PBSelfCorrection (fuel : Nat) (E : External) (T : SearchTrees) (P : Parameters)
    (readSeq : Seq) (contaminatedCutoff : Nat) : Run PacBioCorrectionResult := do
  let result : PacBioCorrectionResult := {}
  let seeds ← searchingSeedsUsingSolidKmer fuel E P readSeq contaminatedCutoff
  let result := { result with totalSeedNum := seeds.length }
  if seeds.length > 1 then
    correctLoop E T P readSeq seeds fuel
      { targetSeed := 1, pacbioCorrectedStrs := [seedAt seeds 0],
        result := { result with
          correctedLen := result.correctedLen + (seedAt seeds 0).2.length } }
  else pure { result with merge := false }

end PacBioCorrectionProcess

namespace FMIndexWalkProcess

/-- The loop collecting `targets` in `PBSelfCorrection`:
`for(int collectedSeed = 0, currentTarget = targetSeed + nextTargetSeed ;
collectedSeed < m_params.collectedSeeds && (currentTarget + collectedSeed) < seeds.size() ;
collectedSeed++)`. -/
def collectTargets (P : Parameters) (seeds : List Seed) (targetSeed currentTarget : Nat) :
    Nat → Nat → List (Int × Seq) → Run (List (Int × Seq))
  | 0, _, _ => .error .fuel
  | fuel + 1, collectedSeed, targets =>
    if (collectedSeed : Int) < P.collectedSeeds ∧ currentTarget + collectedSeed < seeds.length
    then
      let dis_between_seeds : Int :=
        (seedAt seeds (currentTarget + collectedSeed)).1 - (seedAt seeds (targetSeed - 1)).1
          - ((seedAt seeds (targetSeed - 1)).2.length : Int)
      let target_str := (seedAt seeds (currentTarget + collectedSeed)).2
      collectTargets P seeds targetSeed currentTarget fuel (collectedSeed + 1)
        (targets ++ [(dis_between_seeds, target_str)])
    else pure targets

/-- The lookahead loop of `FMIndexWalkProcess::PBSelfCorrection`; the state is
`nextTargetSeed`, `FMWalkReturnType` and `mergedseq`. After each search the loop prints a
line that reads `targets[0].first`, an unchecked access: with no target collected the run
ends there. -/
def lookahead (T : SearchTrees) (P : Parameters) (seeds : List Seed) (source : Seed) :
    Nat → Nat → Int → Seq → CorrectionState → Run (LookaheadExit CorrectionState)
  | 0, _, _, _, _ => .error .fuel
  | fuel + 1, nextTargetSeed, FMWalkReturnType, mergedseq, o =>
    if (nextTargetSeed : Int) < P.downward ∧ o.targetSeed + nextTargetSeed < seeds.length
    then do
      let targets ← collectTargets P seeds o.targetSeed (o.targetSeed + nextTargetSeed)
        fuel 0 []
      let walk := T.gapMergeTwoSeedsUsingHash source.2 targets mergedseq
      let FMWalkReturnType := walk.1
      let mergedseq := walk.2
      if targets.isEmpty then .error .outOfRange
      else if FMWalkReturnType > 0 then do
        let gainPos : Int := source.2.length
        if ¬ ((mergedseq.length : Int) > gainPos) then .error .assertion
        else do
          let gainStr ← substrFrom mergedseq gainPos
          pure (.finished FMWalkReturnType
            { targetSeed := o.targetSeed + nextTargetSeed,
              pacbioCorrectedStrs := appendToBack o.pacbioCorrectedStrs gainStr,
              result := { o.result with
                correctedLen := o.result.correctedLen + gainStr.length,
                correctedNum := o.result.correctedNum + 1,
                seedDis := o.result.seedDis
                  + ((seedAt seeds (o.targetSeed + nextTargetSeed)).1 - source.1
                      - (source.2.length : Int)) } })
      else lookahead T P seeds source fuel (nextTargetSeed + 1) FMWalkReturnType mergedseq o
    else pure (.finished FMWalkReturnType o)

/-- The block `if(FMWalkReturnType < 0) { ... }` of `FMIndexWalkProcess::PBSelfCorrection`:
the seed starts a new fragment. -/
def onFailure (seeds : List Seed) (source : Seed) (FMWalkReturnType : Int)
    (o : CorrectionState) : CorrectionState :=
  let cur := seedAt seeds o.targetSeed
  let result := { o.result with
    seedDis := o.result.seedDis + (cur.1 - source.1 - (source.2.length : Int)),
    correctedLen := o.result.correctedLen + cur.2.length }
  let result :=
    if FMWalkReturnType = -1 then { result with highErrorNum := result.highErrorNum + 1 }
    else if FMWalkReturnType = -2 then
      { result with exceedDepthNum := result.exceedDepthNum + 1 }
    else if FMWalkReturnType = -3 then
      { result with exceedLeaveNum := result.exceedLeaveNum + 1 }
    else result
  { o with pacbioCorrectedStrs := o.pacbioCorrectedStrs ++ [cur], result := result }

/-- The loop `for(int targetSeed = 1 ; targetSeed < seeds.size() ; targetSeed++)` of
`FMIndexWalkProcess::PBSelfCorrection` together with the statements after it. -/
def correctLoop (T : SearchTrees) (P : Parameters) (readSeq : Seq) (seeds : List Seed) :
    Nat → CorrectionState → Run PacBioCorrectionResult
  | 0, _ => .error .fuel
  | fuel + 1, o =>
    if o.targetSeed < seeds.length then do
      let source := o.pacbioCorrectedStrs.getLastD (0, [])
      match ← lookahead T P seeds source fuel 0 (-1) [] o with
      | .returned result => pure result
      | .finished FMWalkReturnType o1 =>
        let o2 := if FMWalkReturnType < 0 then onFailure seeds source FMWalkReturnType o1
                  else o1
        correctLoop T P readSeq seeds fuel
          { o2 with targetSeed := o2.targetSeed + 1,
                    result := { o2.result with totalWalkNum := o2.result.totalWalkNum + 1 } }
    else
      pure { o.result with
        merge := true
        totalReadsLen := readSeq.length
        correctedPacbioStrs :=
          o.result.correctedPacbioStrs ++ o.pacbioCorrectedStrs.map Prod.snd }

/-- `FMIndexWalkProcess::PBSelfCorrection`. -/
def PBSelfCorrection (fuel : Nat) (E : External) (T : SearchTrees) (P : Parameters)
    (readSeq : Seq) : Run PacBioCorrectionResult := do
  let result : PacBioCorrectionResult := {}
  let seeds ← searchingSeedsUsingSolidKmer fuel E P readSeq
  let result := { result with totalSeedNum := seeds.length }
  if seeds.length ≥ 1 then
    correctLoop T P readSeq seeds fuel
      { targetSeed := 1, pacbioCorrectedStrs := [seedAt seeds 0],
        result := { result with
          correctedLen := result.correctedLen + (seedAt seeds 0).2.length } }
  else pure { result with merge := false }

end FMIndexWalkProcess

/-! ### Hybrid correction -/

/-- `doubleFMWalkForPacbio`: the search from the first seed to the second, then the search
between the reverse complements, and the comparison of the two lengths. `signedAssert`
tells the two classes apart: `PacBioCorrectionProcess` compares `minOverlap` with
`(int) length`, `FMIndexWalkProcess` with the unsigned `length`, for which a negative
`minOverlap` converts to a huge value. Returns the code and `*mergedseq`. -/
def doubleFMWalkForPacbio (signedAssert : Bool) (E : External) (T : SearchTrees)
    (firstSeed secondSeed : Seed) (minOverlap needWalkLen : Int) (mergedseq : Seq) :
    Run (Int × Seq) :=
  let fits (len : Nat) : Bool :=
    if signedAssert then decide (minOverlap ≤ (len : Int))
    else decide (toSizeT minOverlap ≤ len)
  if ¬ (fits firstSeed.2.length ∧ fits secondSeed.2.length) then .error .assertion
  else
    let walk1 := T.hybridMergeTwoReads firstSeed.2 minOverlap needWalkLen secondSeed.2 mergedseq
    let FMWalkReturnType := walk1.1
    let mergedseq := walk1.2
    if FMWalkReturnType < 0 then pure (FMWalkReturnType, mergedseq)
    else if mergedseq.isEmpty then .error .assertion
    else
      let firstSeq := E.reverseComplement firstSeed.2
      let secondSeq := E.reverseComplement secondSeed.2
      let walk2 := T.hybridMergeTwoReads secondSeq minOverlap needWalkLen firstSeq []
      let FMWalkReturnType := walk2.1
      let mergedseq2 := walk2.2
      if mergedseq.length = mergedseq2.length then pure (FMWalkReturnType, mergedseq)
      else if FMWalkReturnType > 0 then pure (-4, mergedseq)
      else if FMWalkReturnType < 0 then pure (FMWalkReturnType, mergedseq)
      else .error .assertion

/-- The `do { ... } while(FMWalkReturnType != 1 && minOverlapTmp >= m_params.minKmerLength)`
loop of `solveHighError`, entered with the current `minOverlapTmp` and `*mergedseq`;
`(minOverlapTmp*2)/3` is the truncating `int` division. -/
def solveHighErrorLoop (signedAssert : Bool) (E : External) (T : SearchTrees) (P : Parameters)
    (firstSeed secondSeed : Seed) (needWalkLen : Int) :
    Nat → Int → Seq → Run (Int × Seq)
  | 0, _, _ => .error .fuel
  | fuel + 1, minOverlapTmp, mergedseq => do
    let (FMWalkReturnType, mergedseq) ←
      doubleFMWalkForPacbio signedAssert E T firstSeed secondSeed minOverlapTmp needWalkLen
        mergedseq
    let minOverlapTmp := Int.tdiv (minOverlapTmp * 2) 3
    if FMWalkReturnType ≠ 1 ∧ minOverlapTmp ≥ P.minKmerLength then
      solveHighErrorLoop signedAssert E T P firstSeed secondSeed needWalkLen fuel minOverlapTmp
        mergedseq
    else pure (FMWalkReturnType, mergedseq)

/-- `solveHighError`. -/
def solveHighError (fuel : Nat) (signedAssert : Bool) (E : External) (T : SearchTrees)
    (P : Parameters) (firstSeed secondSeed : Seed) (minOverlap needWalkLen : Int)
    (mergedseq : Seq) : Run (Int × Seq) :=
  solveHighErrorLoop signedAssert E T P firstSeed secondSeed needWalkLen fuel minOverlap
    mergedseq

/-- Variables of the seed-pair loop of `PBHybridCorrection`. -/
structure HybridState where
  pacbioCorrectedStrs : List Seq
  result : PacBioCorrectionResult

/-- The loop `for(size_t i = 1 ; i < seeds.size() ; i++)` of `PBHybridCorrection` in round
`round`, run over the seed indices from `i` on (`remaining` of them are left). -/
def hybridGapLoop (fuel : Nat) (signedAssert : Bool) (E : External) (T : SearchTrees)
    (P : Parameters) (corReadSeq : Seq) (seeds : List Seed) (round : Nat) :
    Nat → Nat → HybridState → Run HybridState
  | 0, _, h => pure h
  | remaining + 1, i, h => do
    let source := seedAt seeds (i - 1)
    let target := seedAt seeds i
    let needWalkLen : Int := target.1 - source.1 - (source.2.length : Int)
    let minOverlap : Int :=
      if source.2.length ≥ toSizeT P.maxOverlap ∧ target.2.length ≥ toSizeT P.maxOverlap then
        P.maxOverlap - 2
      else if source.2.length ≤ target.2.length then (source.2.length : Int)
      else (target.2.length : Int)
    let (FMWalkReturnType, mergedseq) ←
      solveHighError fuel signedAssert E T P source target minOverlap needWalkLen []
    let h1 ←
      (if FMWalkReturnType = 1 then
        let gainPos : Int := source.2.length
        if (mergedseq.length : Int) > gainPos then do
          let gainStr ← substrFrom mergedseq gainPos
          pure { pacbioCorrectedStrs := appendToBackStr h.pacbioCorrectedStrs gainStr,
                 result :=
                  if round = 1 then
                    { h.result with correctedLen := h.result.correctedLen + gainStr.length }
                  else h.result }
        else pure h
      else if round ≠ 1 then do
        let startPos : Int := source.1 + (source.2.length : Int)
        let distanceBetweenSeeds : Int :=
          target.1 + (target.2.length : Int) - source.1 - (source.2.length : Int)
        let gap ← substr corReadSeq startPos distanceBetweenSeeds
        pure { h with pacbioCorrectedStrs := appendToBackStr h.pacbioCorrectedStrs gap }
      else
        pure { pacbioCorrectedStrs := h.pacbioCorrectedStrs ++ [target.2],
               result :=
                { h.result with correctedLen := h.result.correctedLen + target.2.length } })
    let result :=
      if round = 3 then
        let r := { h1.result with totalSeedNum := seeds.length,
                                  totalWalkNum := h1.result.totalWalkNum + 1 }
        if FMWalkReturnType = 1 then { r with correctedNum := r.correctedNum + 1 }
        else if FMWalkReturnType = -1 then { r with highErrorNum := r.highErrorNum + 1 }
        else if FMWalkReturnType = -2 then { r with exceedDepthNum := r.exceedDepthNum + 1 }
        else if FMWalkReturnType = -3 then { r with exceedLeaveNum := r.exceedLeaveNum + 1 }
        else r
      else h1.result
    hybridGapLoop fuel signedAssert E T P corReadSeq seeds round remaining (i + 1)
      { h1 with result := result }

/-- The loop `for(int round = 3 ; round > 0 ; round--)` of `PBHybridCorrection`, entered
with `round = rounds`, together with the statements after it. -/
def hybridRounds (fuel : Nat) (signedAssert : Bool) (E : External) (T : SearchTrees)
    (P : Parameters) (readSeq : Seq) :
    Nat → Seq → List Seq → PacBioCorrectionResult → Run PacBioCorrectionResult
  | 0, _, pacbioCorrectedStrs, result =>
    pure { result with
      merge := true
      totalReadsLen := readSeq.length
      correctedPacbioStrs := result.correctedPacbioStrs ++ pacbioCorrectedStrs }
  | round + 1, corReadSeq, _, result => do
    let result := { result with correctedLen := 0 }
    let seeds ← findSeedsUsingDynamicKmerLen fuel E P corReadSeq
    if seeds.length ≥ 1 then do
      let h ← hybridGapLoop fuel signedAssert E T P corReadSeq seeds (round + 1)
        (seeds.length - 1) 1
        { pacbioCorrectedStrs := [(seedAt seeds 0).2],
          result := { result with
            correctedLen := result.correctedLen + (seedAt seeds 0).2.length } }
      match h.pacbioCorrectedStrs.getLast? with
      | none => .error .assertion
      | some last =>
        hybridRounds fuel signedAssert E T P readSeq round last h.pacbioCorrectedStrs h.result
    else pure { result with merge := false }

/-- `PacBioCorrectionProcess::PBHybridCorrection`. -/
def PacBioCorrectionProcess.PBHybridCorrection (fuel : Nat) (E : External) (T : SearchTrees)
    (P : Parameters) (readSeq : Seq) : Run PacBioCorrectionResult :=
  hybridRounds fuel true E T P readSeq 3 readSeq [] {}

/-- `FMIndexWalkProcess::PBHybridCorrection`; the same text as in the other class up to the
casts noted at `doubleFMWalkForPacbio`. -/
def FMIndexWalkProcess.PBHybridCorrection (fuel : Nat) (E : External) (T : SearchTrees)
    (P : Parameters) (readSeq : Seq) : Run PacBioCorrectionResult :=
  hybridRounds fuel false E T P readSeq 3 readSeq [] {}

/-! ## Quality filters and paired-end merging -/

/-- `FMIndexWalkResult`, the fields written by the paired-end and single-read modes.
Modelled from the spec: the type is declared outside the two files; a result is created
fresh per input item, with the flags false and the sequences empty. -/
structure FMIndexWalkResult where
  merge : Bool := false
  kmerize : Bool := false
  kmerize2 : Bool := false
  correctSequence : Seq := []
  correctSequence2 : Seq := []
  kmerizedReads : List Seq := []
  kmerizedReads2 : List Seq := []

namespace FMIndexWalkProcess

/-- The counting loop of `isLowComplexity`: the numbers of `A`, `T`, `C` and `G`; any other
character runs into `default: assert(false)`. -/
def countBases : Seq → Nat → Nat → Nat → Nat → Run (Nat × Nat × Nat × Nat)
  | [], countA, countT, countC, countG => pure (countA, countT, countC, countG)
  | c :: rest, countA, countT, countC, countG =>
    if c = 'A' then countBases rest (countA + 1) countT countC countG
    else if c = 'T' then countBases rest countA (countT + 1) countC countG
    else if c = 'C' then countBases rest countA countT (countC + 1) countG
    else if c = 'G' then countBases rest countA countT countC (countG + 1)
    else .error .assertion

/-- The test `(float) count/seqLen >= 0.9`. The quotient is rounded to the nearest
single-precision value and compared with the double `0.9`, which lies strictly between the
neighbouring single-precision values `15099494/2^24` and `15099495/2^24`; the rounded
quotient reaches the upper one exactly when `count/seqLen` exceeds their midpoint
`30198989/2^25` (a tie rounds to the even lower neighbour). Exact for lengths below `2^24`;
`0/0` is a NaN and compares false. -/
def ratioAtLeastPoint9 (count seqLen : Nat) : Bool :=
  decide (count * 33554432 > 30198989 * seqLen)

/-- `FMIndexWalkProcess::isLowComplexity`; the out-parameter `GCratio` is not read by any
caller and is left out. -/
def isLowComplexity (seq : Seq) : Run Bool := do
  let seqLen := seq.length
  let (countA, countT, countC, countG) ← countBases seq 0 0 0 0
  pure (ratioAtLeastPoint9 countA seqLen || ratioAtLeastPoint9 countT seqLen
    || ratioAtLeastPoint9 countC seqLen || ratioAtLeastPoint9 countG seqLen)

/-- The loop `for (size_t i =1 ;i<s.length();i++)` of `maxCon` from `i` on, `remaining`
iterations left, with the running length `c` and the maximum so far. -/
def maxConLoop (s : Seq) : Nat → Nat → Nat → Nat → Nat
  | 0, _, _, max => max
  | remaining + 1, i, c, max =>
    if s.getD i 'N' = 'N' then maxConLoop s remaining (i + 1) c max
    else if s.getD i 'N' ≠ s.getD (i - 1) 'N' then
      maxConLoop s remaining (i + 1) 1 (if c > max then c else max)
    else
      let c := c + 1
      if i = s.length - 1 then maxConLoop s remaining (i + 1) c (if c > max then c else max)
      else if s.getD i 'N' ≠ s.getD (i + 1) 'N' then
        maxConLoop s remaining (i + 1) c (if c > max then c else max)
      else maxConLoop s remaining (i + 1) c max

/-- `FMIndexWalkProcess::maxCon`. -/
def maxCon (s : Seq) : Nat := maxConLoop s (s.length - 1) 1 1 1

/-- `FMIndexWalkProcess::isSuitableForFMWalk`. `RepeatKmerFreq = getMedian()*1.3` is a
`double` product truncated to `size_t`; for medians below `2^49` that is
`floor(13 * median / 10)`. -/
def isSuitableForFMWalk (E : External) (P : Parameters) (seqFirst seqSecond : Seq) : Bool :=
  let isBothReadLengthSufficient :=
    decide (seqFirst.length ≥ toSizeT P.minOverlap ∧ seqSecond.length ≥ toSizeT P.minOverlap)
  if !isBothReadLengthSufficient then false
  else
    let RepeatKmerFreq := E.median * 13 / 10
    let isFirstReadUnique := decide (E.countSequenceOccurrencesBWT seqFirst < RepeatKmerFreq)
    let isSecondReadUnique := decide (E.countSequenceOccurrencesBWT seqSecond < RepeatKmerFreq)
    isFirstReadUnique && isSecondReadUnique

/-- One of the two loops writing the kmerized fragments in `MergeAndKmerize`, over the
remaining fragments; `i` is the index of the next one. Returns the main fragment kept (if
any was assigned) and the fragments pushed. -/
def filterFragments (mainIdx : Int) :
    List Seq → Nat → Seq → List Seq → Run (Seq × List Seq)
  | [], _, correctSequence, kmerizedReads => pure (correctSequence, kmerizedReads)
  | kmerRead :: rest, i, correctSequence, kmerizedReads => do
    if (← isLowComplexity kmerRead) then
      filterFragments mainIdx rest (i + 1) correctSequence kmerizedReads
    else if maxCon kmerRead * 3 > kmerRead.length then
      filterFragments mainIdx rest (i + 1) correctSequence kmerizedReads
    else if (i : Int) = mainIdx then
      filterFragments mainIdx rest (i + 1) kmerRead kmerizedReads
    else filterFragments mainIdx rest (i + 1) correctSequence (kmerizedReads ++ [kmerRead])

/-- "Case 3" of `MergeAndKmerize`: segmentation of both trimmed reads and filtering of the
fragments. -/
def kmerizeBoth (E : External) (kmerLength threshold : Nat) (seqFirst seqSecond : Seq)
    (result : FMIndexWalkResult) : Run FMIndexWalkResult := do
  let seqFirstKC := KmerContext.build E seqFirst kmerLength
  let seqSecondKC := KmerContext.build E seqSecond kmerLength
  let (firstMainIdx, firstKR) ←
    (if seqFirst.length ≥ kmerLength then splitRead E seqFirstKC threshold
     else pure (-1, []))
  let (secondMainIdx, secondKR) ←
    (if seqSecond.length ≥ kmerLength then splitRead E seqSecondKC threshold
     else pure (-1, []))
  let result := if !firstKR.isEmpty then { result with kmerize := true } else result
  let result := if !secondKR.isEmpty then { result with kmerize2 := true } else result
  let (cs1, kr1) ← filterFragments firstMainIdx firstKR 0 result.correctSequence
    result.kmerizedReads
  let (cs2, kr2) ← filterFragments secondMainIdx secondKR 0 result.correctSequence2
    result.kmerizedReads2
  pure { result with correctSequence := cs1, kmerizedReads := kr1, correctSequence2 := cs2,
                     kmerizedReads2 := kr2 }

/-- One disjunct of the first test of `MergeAndKmerize` after trimming:
`seq.length()<=(size_t)m_params.minOverlap && seq.length()>=(size_t)kmerLength`. -/
def shortForOverlap (P : Parameters) (seq : Seq) : Bool :=
  decide (seq.length ≤ toSizeT P.minOverlap ∧ seq.length ≥ toSizeT P.kmerLength)

/-- `FMIndexWalkProcess::MergeAndKmerize` on the two reads of a pair; `threshold` is
`CorrectionThresholds::Instance().getRequiredSupport(0)-1`. -/
def MergeAndKmerize (fuel : Nat) (E : External) (T : SearchTrees) (P : Parameters)
    (threshold : Nat) (first second : Seq) : Run FMIndexWalkResult := do
  let result : FMIndexWalkResult := {}
  let kmerLength := toSizeT P.kmerLength
  let seqFirst ← trimRead fuel E first kmerLength
  let seqSecond ← trimRead fuel E second kmerLength
  let short := shortForOverlap P seqFirst || shortForOverlap P seqSecond
  if !short && decide (seqFirst.length < kmerLength ∨ seqSecond.length < kmerLength)
  then pure result
  else
    let result :=
      if short then
        { result with kmerize := true, kmerize2 := true, correctSequence := seqFirst,
                      correctSequence2 := seqSecond }
      else result
    let firstKRstr ← substr seqFirst 0 P.minOverlap
    let secondKRstr ← substr seqSecond 0 P.minOverlap
    let fallback := kmerizeBoth E kmerLength threshold seqFirst seqSecond result
    if isSuitableForFMWalk E P firstKRstr secondKRstr then
      let walk1 := T.mergeTwoReads firstKRstr (E.reverseComplement secondKRstr)
        (first.length + second.length)
      let walk2 := T.mergeTwoReads secondKRstr (E.reverseComplement firstKRstr)
        (first.length + second.length)
      let mergedseq1 := walk1.mergedseq
      let mergedseq2 := walk2.mergedseq
      if !mergedseq1.isEmpty && mergedseq2.isEmpty && decide (walk1.maxUsedLeaves ≤ 1)
          && decide (walk2.maxUsedLeaves ≤ 1) then
        pure { result with merge := true, correctSequence := mergedseq1 }
      else if mergedseq1.isEmpty && !mergedseq2.isEmpty && decide (walk2.maxUsedLeaves ≤ 1)
          && decide (walk1.maxUsedLeaves ≤ 1) then
        pure { result with merge := true, correctSequence := mergedseq2 }
      else if !mergedseq1.isEmpty && !mergedseq2.isEmpty
          && decide (mergedseq1 = E.reverseComplement mergedseq2) then
        pure { result with
          merge := true
          correctSequence :=
            if walk1.kmerCoverage > walk2.kmerCoverage then mergedseq1 else mergedseq2 }
      else fallback
    else fallback

end FMIndexWalkProcess

/-- The sequence consists of the four bases `A`, `T`, `C`, `G` only. -/
def IsDNA (s : Seq) : Prop := ∀ c ∈ s, c = 'A' ∨ c = 'T' ∨ c = 'C' ∨ c = 'G'

/-! ## Concrete inputs used to exercise the definitions -/

/-- An index in which every word occurs three times on each strand; `reverseComplement`
is the identity and suffices for counting. -/
def exampleIndex : External where
  countSequenceOccurrencesSingleStrand := fun _ => 3
  countSequenceOccurrences := fun _ => 6
  countSequenceOccurrencesBWT := fun _ => 3
  findInterval := fun _ _ => ⟨0, 2⟩
  updateInterval := fun b _ _ => b
  reverseComplement := fun w => w
  complement := fun c => c
  median := 10

/-- Seed length 2, threshold 5. -/
def exampleParams : Parameters where
  kmerLength := 2
  minKmerLength := 1
  seedKmerThreshold := 5
  minOverlap := 2
  maxOverlap := 3
  maxInsertSize := 10
  maxLeaves := 4
  FMWKmerThreshold := 1
  downward := 1
  collectedSeeds := 1
  isSplit := false
  seedWalkDistance := fun _ => 2

/-- An index in which no word occurs. -/
def emptyIndex : External :=
  { exampleIndex with
    countSequenceOccurrencesSingleStrand := fun _ => 0
    countSequenceOccurrences := fun _ => 0
    countSequenceOccurrencesBWT := fun _ => 0 }

/-- Search trees that report every seed safe and fail every walk with code `-1`. -/
def failingTrees : SearchTrees where
  addHashLeft := fun _ _ _ _ => true
  addHashRight := fun _ _ _ _ _ => true
  mergeTwoSeedsUsingHash := fun _ _ m _ _ _ => (-1, m)
  gapMergeTwoSeedsUsingHash := fun _ _ m => (-1, m)
  hybridMergeTwoReads := fun _ _ _ _ m => (-1, m)
  mergeTwoReads := fun _ _ _ => ⟨[], 0, 0⟩

/-- Search trees that report every seed safe and join every pair of seeds with one `G`
between them (return code `1`). -/
def bridgingTrees : SearchTrees :=
  { failingTrees with
    mergeTwoSeedsUsingHash := fun src tgt _ _ _ _ => (1, src ++ ['G'] ++ tgt) }

/-- An index in which only `AA` and `CC` occur (three times on each strand). -/
def islandIndex : External :=
  { exampleIndex with
    countSequenceOccurrencesSingleStrand :=
      fun w => if w = ['A', 'A'] ∨ w = ['C', 'C'] then 3 else 0 }

/-- The parameters of `exampleParams` in split mode. -/
def exampleSplitParams : Parameters := { exampleParams with isSplit := true }

/-- Search trees whose paired-end search succeeds from the source `AC` only, using one
leaf. -/
def oneWayTrees : SearchTrees :=
  { failingTrees with
    mergeTwoReads := fun src _ _ =>
      if src = ['A', 'C'] then ⟨['A', 'C', 'G', 'T'], 1, 5⟩ else ⟨[], 1, 0⟩ }

/-- The same search as `oneWayTrees`, with three leaves used by the successful search. -/
def branchingTrees : SearchTrees :=
  { failingTrees with
    mergeTwoReads := fun src _ _ =>
      if src = ['A', 'C'] then ⟨['A', 'C', 'G', 'T'], 3, 5⟩ else ⟨[], 1, 0⟩ }

/-- Watson-Crick complement of a base; other characters are left alone. -/
def complementBase : Char → Char
  | 'A' => 'T'
  | 'T' => 'A'
  | 'C' => 'G'
  | 'G' => 'C'
  | c => c

/-- The index of `exampleIndex` with the reverse complement of DNA words. -/
def strandIndex : External :=
  { exampleIndex with
    reverseComplement := fun w => (w.map complementBase).reverse
    complement := complementBase }

/-- Search trees whose paired-end searches both succeed and agree: `ACGAA` from the source
`AC`, its reverse complement `TTCGT` from the other end, the latter with the higher
coverage. -/
def twoWayTrees : SearchTrees :=
  { failingTrees with
    mergeTwoReads := fun src _ _ =>
      if src = ['A', 'C'] then ⟨['A', 'C', 'G', 'A', 'A'], 2, 5⟩
      else ⟨['T', 'T', 'C', 'G', 'T'], 3, 7⟩ }

/-- Search trees whose paired-end searches both succeed and disagree. -/
def disagreeingTrees : SearchTrees :=
  { failingTrees with
    mergeTwoReads := fun src _ _ =>
      if src = ['A', 'C'] then ⟨['A', 'C', 'G', 'A', 'A'], 1, 5⟩
      else ⟨['T', 'T', 'G', 'G', 'T'], 1, 7⟩ }

/-- The fuel-indexed computation never leaves its loop: whatever the number of loop
iterations allowed, that number is used up. -/
def Diverges {α : Type} (f : Nat → Run α) : Prop := ∀ fuel, f fuel = .error .fuel

/-- The parameters of `exampleParams` with `minKmerLength = 0`. -/
def zeroMinParams : Parameters := { exampleParams with minKmerLength := 0 }

/-- Search trees whose hybrid search succeeds in both orientations with merged sequences of
different lengths: `ACGT` from the source `AC`, `ACCGT` from any other source. -/
def lopsidedTrees : SearchTrees :=
  { failingTrees with
    hybridMergeTwoReads := fun src _ _ _ _ =>
      if src = ['A', 'C'] then (1, ['A', 'C', 'G', 'T']) else (1, ['A', 'C', 'C', 'G', 'T']) }

/-- The k-mer of the read that starts at position `p`. -/
def kmerAt (seq : Seq) (k p : Nat) : Seq := (seq.drop p).take k

/-- Number of strands (0, 1 or 2) on which the k-mer at `p` reaches the threshold in the
index: the entry of `countQualified` that the profile-based `splitRead` computes at `p`. -/
def qualifiedStrands (E : External) (seq : Seq) (k threshold p : Nat) : Nat :=
  (if E.countSequenceOccurrencesSingleStrand (kmerAt seq k p) ≥ threshold then 1 else 0)
    + (if E.countSequenceOccurrencesSingleStrand (E.reverseComplement (kmerAt seq k p))
          ≥ threshold then 1 else 0)

/-- The combined interval size of the k-mer at `p`, as the streaming `splitRead` computes it
afresh with `findInterval` on both strands. -/
def freshKmerFreq (E : External) (seq : Seq) (k p : Nat) : Int :=
  FMIndexWalkProcess.intervalFreq (E.findInterval true (kmerAt seq k p).reverse)
    (E.findInterval false (E.reverseComplement (kmerAt seq k p)))

/-- Interval of a word in the toy corpus made of three copies of the read `AAC`; a word
that does not occur has the empty interval. -/
def forwardWordInterval (w : Seq) : BWTInterval :=
  if w = ['A', 'A'] then ⟨10, 12⟩
  else if w = ['A', 'C'] then ⟨20, 22⟩
  else if w = ['A', 'A', 'C'] then ⟨30, 32⟩
  else ⟨0, -1⟩

/-- Number of occurrences of a word in the three copies of `AAC` (forward strand only). -/
def forwardWordCount (w : Seq) : Nat :=
  if w = ['A', 'A'] ∨ w = ['A', 'C'] ∨ w = ['A', 'A', 'C'] ∨ w = ['C'] then 3
  else if w = ['A'] then 6
  else 0

/-- An index over three copies of the read `AAC`, none of its reverse complement: every
word of the read occurs three times on the forward strand and never on the other. -/
def forwardStrandIndex : External where
  countSequenceOccurrencesSingleStrand := forwardWordCount
  countSequenceOccurrences := fun w =>
    forwardWordCount w + forwardWordCount ((w.map complementBase).reverse)
  countSequenceOccurrencesBWT := forwardWordCount
  findInterval := fun rbwt w => if rbwt then forwardWordInterval w.reverse
    else forwardWordInterval w
  updateInterval := fun iv b rbwt =>
    if rbwt ∧ iv = ⟨10, 12⟩ ∧ b = 'C' then ⟨30, 32⟩
    else if ¬ rbwt ∧ iv = ⟨20, 22⟩ ∧ b = 'A' then ⟨30, 32⟩
    else ⟨0, -1⟩
  reverseComplement := fun w => (w.map complementBase).reverse
  complement := complementBase
  median := 3

/-- What the final loop of the profile-based `splitRead` has chosen after the intervals
`ivs`, with `mx` the value of `maxIntervalNum`: either no main fragment, and then every
interval with a doubly-qualified position has `end - start = 0`; or the interval at index
`main`, which has a doubly-qualified position, `end - start = mx > 0`, and no interval with
a doubly-qualified position is wider. -/
def MainChoice (cq : List Nat) (ivs : List (Nat × Nat)) (mx : Nat) (main : Int) : Prop :=
  (main = -1 ∧ mx = 0 ∧
    ∀ iv ∈ ivs, FMIndexWalkProcess.isIntervalExistStrongKmer iv cq = .ok true →
      iv.2 - iv.1 = 0) ∨
  (∃ j : Nat, main = (j : Int) ∧ j < ivs.length ∧
    FMIndexWalkProcess.isIntervalExistStrongKmer (ivs.getD j (0, 0)) cq = .ok true ∧
    mx = (ivs.getD j (0, 0)).2 - (ivs.getD j (0, 0)).1 ∧ 0 < mx ∧
    ∀ iv ∈ ivs, FMIndexWalkProcess.isIntervalExistStrongKmer iv cq = .ok true →
      iv.2 - iv.1 ≤ mx)

/-! ## Single-precision arithmetic of `isLowComplexity`, spelled out -/

/-- Search for the binade of `c / n`: the least `j` from the start value on with
`n <= c * 2^j`, that is `2^(-j) <= c/n`. -/
def binadeShift (c n : Nat) : Nat → Nat → Nat
  | 0, j => j
  | fuel + 1, j => if n ≤ c * 2 ^ j then j else binadeShift c n fuel (j + 1)

/-- The IEEE-754 single-precision quotient of two integers `0 < c <= n < 2^24`, both exactly
representable: the pair `(m, e)` stands for the value `m / 2^e`, with `e` chosen so that
`c/n * 2^e` lies in `[2^23, 2^24)` and `m` that number rounded to the nearest integer, a tie
going to the even one. -/
def float32Quotient (c n : Nat) : Nat × Nat :=
  let e := 23 + binadeShift c n 25 0
  let num := c * 2 ^ e
  let q := num / n
  let r := num % n
  let m := if 2 * r < n then q else if n < 2 * r then q + 1 else if q % 2 = 0 then q else q + 1
  (m, e)

/-- The test `(float) count/seqLen >= 0.9` with the quotient rounded to single precision and
compared with the double constant `0.9 = 8106479329266893 / 2^53`. A zero count gives `0`
(or the NaN `0/0`), which compares false. -/
def floatRatioAtLeastPoint9 (count seqLen : Nat) : Bool :=
  if count = 0 ∨ seqLen = 0 then false
  else
    decide (8106479329266893 * 2 ^ (float32Quotient count seqLen).2
      ≤ (float32Quotient count seqLen).1 * 2 ^ 53)

/-! ## Blocks of equal characters -/

/-- The `n` characters of `s` from position `i` on exist and are all equal. -/
def IsBlock (s : Seq) (i n : Nat) : Prop :=
  i + n ≤ s.length ∧ ∀ j, j < n → s.getD (i + j) 'N' = s.getD i 'N'

/-- The number `n` is the length of the longest block of consecutive equal characters of
`s`: some block has that length and none is longer. -/
def IsLongestBlock (s : Seq) (n : Nat) : Prop :=
  (∃ i, IsBlock s i n) ∧ ∀ i m, IsBlock s i m → m ≤ n

/-- Loop invariant of `maxCon` at the loop test, for a sequence without `N`: `c` is the
length of the block that ends at `i-1` and cannot be extended to the left; `mx` is the
length of a block that ends before `i`; and every block that ends before `i` is at most
`mx` long unless it lies in the block ending at `i-1` while that block goes on at `i`. -/
def MaxConInv (s : Seq) (i c mx : Nat) : Prop :=
  1 ≤ c ∧ c ≤ i ∧
  (∀ j, i - c ≤ j → j < i → s.getD j 'N' = s.getD (i - 1) 'N') ∧
  (i - c = 0 ∨ s.getD (i - c - 1) 'N' ≠ s.getD (i - 1) 'N') ∧
  (∃ a, IsBlock s a mx ∧ a + mx ≤ i) ∧ 1 ≤ mx ∧
  (∀ a m, IsBlock s a m → a + m ≤ i →
    m ≤ mx ∨ (i - c ≤ a ∧ i < s.length ∧ s.getD i 'N' = s.getD (i - 1) 'N'))

/-! ## The filters of the segmentation fallback, as the rule reads -/

/-- The fragment passes both filters: it is not low-complexity, and three times its longest
run does not exceed its length. -/
def passesFilters (f : Seq) : Bool :=
  decide (FMIndexWalkProcess.isLowComplexity f = .ok false)
    && decide (3 * FMIndexWalkProcess.maxCon f ≤ f.length)

/-- The fragments, in order, that are not the main fragment and pass both filters; the
first fragment of the list has index `i`. -/
def keptFragments (mainIdx : Int) (i : Nat) (frags : List Seq) : List Seq :=
  ((frags.enumFrom i).filter
    (fun p => decide ((p.1 : Int) ≠ mainIdx) && passesFilters p.2)).map Prod.snd

/-- The corrected sequence after the filtering loop: the main fragment if it is in the list
and passes both filters, otherwise the value held before the loop. -/
def keptMain (mainIdx : Int) (i : Nat) (frags : List Seq) (previous : Seq) : Seq :=
  match (frags.enumFrom i).find?
      (fun p => decide ((p.1 : Int) = mainIdx) && passesFilters p.2) with
  | some p => p.2
  | none => previous

/-- One of the three accepting tests of `MergeAndKmerize` on the two directional searches
holds. -/
def walksAccepted (E : External) (walk1 walk2 : TreeWalk) : Bool :=
  (!walk1.mergedseq.isEmpty && walk2.mergedseq.isEmpty && decide (walk1.maxUsedLeaves ≤ 1)
      && decide (walk2.maxUsedLeaves ≤ 1))
  || (walk1.mergedseq.isEmpty && !walk2.mergedseq.isEmpty && decide (walk2.maxUsedLeaves ≤ 1)
      && decide (walk1.maxUsedLeaves ≤ 1))
  || (!walk1.mergedseq.isEmpty && !walk2.mergedseq.isEmpty
      && decide (walk1.mergedseq = E.reverseComplement walk2.mergedseq))

/-- A block of `n` consecutive equal characters from position `i` on whose character is not
`N`. -/
def IsBaseBlock (s : Seq) (i n : Nat) : Prop := IsBlock s i n ∧ s.getD i 'N' ≠ 'N'

/-- The number `r` is the length of the longest block of consecutive equal characters other
than `N`, or 1 when the sequence has no such block. -/
def IsLongestBaseBlock (s : Seq) (r : Nat) : Prop :=
  1 ≤ r ∧ (r = 1 ∨ ∃ i, IsBaseBlock s i r) ∧ ∀ i m, IsBaseBlock s i m → m ≤ r

/-- Loop invariant of `maxCon` at the loop test, for any sequence. When the character at
`i-1` is not `N`, `c` is the length of the block that ends at `i-1` and cannot be extended
to the left; when it is `N`, the stale `c` is at most `mx`. The value `mx` is 1 or the length
of a block without `N` that ends before `i`, and bounds every such block except those inside
the block ending at `i-1` while that block goes on at `i`. -/
def MaxConInvN (s : Seq) (i c mx : Nat) : Prop :=
  1 ≤ c ∧ 1 ≤ mx ∧
  (mx = 1 ∨ ∃ a, IsBaseBlock s a mx ∧ a + mx ≤ i) ∧
  (s.getD (i - 1) 'N' ≠ 'N' →
    c ≤ i ∧ (∀ j, i - c ≤ j → j < i → s.getD j 'N' = s.getD (i - 1) 'N') ∧
    (i - c = 0 ∨ s.getD (i - c - 1) 'N' ≠ s.getD (i - 1) 'N')) ∧
  (s.getD (i - 1) 'N' = 'N' → c ≤ mx) ∧
  (¬ (i < s.length ∧ s.getD i 'N' = s.getD (i - 1) 'N') → c ≤ mx) ∧
  (∀ a m, IsBaseBlock s a m → a + m ≤ i →
    m ≤ mx ∨ (s.getD (i - 1) 'N' ≠ 'N' ∧ i - c ≤ a ∧ i < s.length ∧
      s.getD i 'N' = s.getD (i - 1) 'N'))


/-! ## Single-read validation -/

/-- The validating search
`SAIntervalTree(&seq, minOverlap, maxOverlap, maxSearchDepth, maxLeaves, indices, threshold)
.validate(mergedseq)` on an empty `mergedseq`, declared outside the two files. Arguments: the
string walked and the length of the read, from which `maxOverlap` and `maxSearchDepth` are
derived; result: the returned flag and `mergedseq`. -/
structure ValidationSearch where
  validate : Seq → Nat → Int × Seq

namespace FMIndexWalkProcess

/-- The test `diff >= 1` of `ValidateReads`, where
`double diff = (double) mergedseq.length()/seqFirst.length()`. Both lengths are exact doubles
(below `2^53`) and the quotient is correctly rounded, so it reaches 1 exactly when the
numerator is not smaller than the denominator; `0/0` is a NaN and compares false. -/
def lengthRatioAtLeastOne (mergedseq seqFirst : Seq) : Bool :=
  decide (seqFirst.length ≤ mergedseq.length ∧ 0 < mergedseq.length)

/-- The loop writing the fragments in `ValidateReads`, over the remaining fragments; `i` is
the index of the next one: a low-complexity fragment is skipped, the fragment at `mainIdx`
becomes `correctSequence`, any other is pushed to `kmerizedReads`. -/
def validateFragments (mainIdx : Int) :
    List Seq → Nat → Seq → List Seq → Run (Seq × List Seq)
  | [], _, correctSequence, kmerizedReads => pure (correctSequence, kmerizedReads)
  | kmerRead :: rest, i, correctSequence, kmerizedReads => do
    if (← isLowComplexity kmerRead) then
      validateFragments mainIdx rest (i + 1) correctSequence kmerizedReads
    else if (i : Int) = mainIdx then
      validateFragments mainIdx rest (i + 1) kmerRead kmerizedReads
    else validateFragments mainIdx rest (i + 1) correctSequence (kmerizedReads ++ [kmerRead])

/-- `FMIndexWalkProcess::ValidateReads` on the sequence of the work item; `threshold` is
`CorrectionThresholds::Instance().getRequiredSupport(0)-1`. -/
def ValidateReads (fuel : Nat) (E : External) (V : ValidationSearch) (P : Parameters)
    (threshold : Nat) (seqFirst : Seq) : Run FMIndexWalkResult := do
  let result : FMIndexWalkResult := {}
  let kmerLength := toSizeT P.kmerLength
  if seqFirst.length ≤ toSizeT P.minOverlap then do
    if !(← isLowComplexity seqFirst) then
      pure { result with kmerize := true, correctSequence := seqFirst }
    else pure { result with correctSequence := seqFirst }
  else
    let walk1 := V.validate seqFirst seqFirst.length
    let flag1 := walk1.1
    let mergedseq1 := walk1.2
    let secondKRstr := E.reverseComplement seqFirst
    let walk2 := V.validate secondKRstr seqFirst.length
    let flag2 := walk2.1
    let mergedseq2 := walk2.2
    let diff1 := lengthRatioAtLeastOne mergedseq1 seqFirst
    let diff2 := lengthRatioAtLeastOne mergedseq2 seqFirst
    if !mergedseq1.isEmpty && mergedseq2.isEmpty && decide (flag2 ≠ -2) then
      pure { result with
        merge := true, correctSequence := if diff1 then mergedseq1 else seqFirst }
    else if !mergedseq2.isEmpty && mergedseq1.isEmpty && decide (flag1 ≠ -2) then
      pure { result with
        merge := true, correctSequence := if diff2 then mergedseq2 else seqFirst }
    else if !mergedseq1.isEmpty && !mergedseq2.isEmpty then
      pure { result with
        merge := true
        correctSequence :=
          if diff1 then mergedseq1 else if diff2 then mergedseq2 else seqFirst }
    else if ¬ (seqFirst.length ≥ kmerLength) then .error .assertion
    else do
      let (firstMainIdx, firstKR) ← splitReadStream fuel E P seqFirst threshold
      let result := if !firstKR.isEmpty then { result with kmerize := true } else result
      let (cs, kr) ← validateFragments firstMainIdx firstKR 0 result.correctSequence
        result.kmerizedReads
      pure { result with correctSequence := cs, kmerizedReads := kr }

end FMIndexWalkProcess

/-- A validating search that extends the read `ACGT` by one base and finds nothing from any
other string. -/
def extendingSearch : ValidationSearch where
  validate := fun w _ =>
    if w = ['A', 'C', 'G', 'T'] then (1, ['A', 'C', 'G', 'T', 'A']) else (-1, [])

/-- A validating search that collapses the read `ACGT` to `ACT` and finds nothing from any
other string. -/
def collapsingSearch : ValidationSearch where
  validate := fun w _ => if w = ['A', 'C', 'G', 'T'] then (1, ['A', 'C', 'T']) else (-1, [])

/-! ## Tallies of the self-correction loop -/

/-- Number of seed gaps tallied as a success or as one of the three failure kinds:
`correctedNum + highErrorNum + exceedDepthNum + exceedLeaveNum`. -/
def talliedWalks (r : PacBioCorrectionResult) : Int :=
  r.correctedNum + r.highErrorNum + r.exceedDepthNum + r.exceedLeaveNum

/-- The search between two seeds returns only a positive code or one of `-1`, `-2`, `-3`,
`-4`. -/
def ClassifiedCodes (T : SearchTrees) : Prop :=
  ∀ a b c d e f,
    0 < (T.mergeTwoSeedsUsingHash a b c d e f).1 ∨ (T.mergeTwoSeedsUsingHash a b c d e f).1 = -1
      ∨ (T.mergeTwoSeedsUsingHash a b c d e f).1 = -2
      ∨ (T.mergeTwoSeedsUsingHash a b c d e f).1 = -3
      ∨ (T.mergeTwoSeedsUsingHash a b c d e f).1 = -4

/-- Every seed starts less than 500 bases after the end of the seed before it. -/
def GapsBelow500 (seeds : List Seed) : Prop :=
  ∀ i, 1 ≤ i → i < seeds.length →
    (seedAt seeds i).1 - (seedAt seeds (i - 1)).1 - ((seedAt seeds (i - 1)).2.length : Int) < 500

/-- A read with the solid words `AA` at position 0 and `CC` at position 502 of `islandIndex`,
500 bases apart. -/
def farApartRead : Seq := ['A', 'A'] ++ List.replicate 500 'G' ++ ['C', 'C']

/-! ## Result aggregator -/

/-- The values of `m_params.algorithm` tested by the two files.
Modelled from the spec: the enumeration is declared outside the two source files. -/
inductive FMIndexWalkAlgorithm
  | FMW_HYBRID
  | FMW_MERGE
  | FMW_KMERIZE
  | FMW_VALIDATE
  | FMW_PACBIOSELF
  | FMW_PACBIOHYB
  deriving DecidableEq, Repr

/-- One record as it reaches an output stream: the identifier, the sequence, and the index
passed to `writeFasta(out, i)` (`none` for `write(out)`).
Modelled from the spec: `SeqRecord` and `SeqItem` are declared outside the two source files;
the quality string of a `SeqRecord` is not touched by the aggregator and is left out. -/
structure WrittenRecord where
  id : Seq
  seq : Seq
  fastaIndex : Option Nat
  deriving DecidableEq, Repr

/-- The members of `FMIndexWalkPostProcess`: the three output streams with what has been
written to each, the algorithm, and the counters. `m_pCorrectedWriter` is dereferenced
unconditionally; `m_pDiscardWriter` may be `NULL` (`none`); `m_pLowComplexWriter` is set by
the constructor only for `FMW_VALIDATE` (`none` otherwise). The member `m_equalSeedNum` sums a
field that no function of the two files writes and is left out. -/
structure FMIndexWalkPostProcess where
  m_pCorrectedWriter : List WrittenRecord
  m_pDiscardWriter : Option (List WrittenRecord)
  m_pLowComplexWriter : Option (List WrittenRecord)
  algorithm : FMIndexWalkAlgorithm
  m_kmerizePassed : Nat := 0
  m_mergePassed : Nat := 0
  m_qcFail : Nat := 0
  m_totalReadsLen : Int := 0
  m_correctedLen : Int := 0
  m_totalSeedNum : Int := 0
  m_totalWalkNum : Int := 0
  m_correctedNum : Int := 0
  m_highErrorNum : Int := 0
  m_exceedDepthNum : Int := 0
  m_exceedLeaveNum : Int := 0
  m_seedDis : Int := 0
  deriving DecidableEq

/-- Writing one record through a stream pointer, `record.write(*out)` or
`record.writeFasta(*out, i)`: the record is appended behind the pointer; writing through a
null or unset pointer has no defined result. -/
def writeTo (out : Option (List WrittenRecord)) (w : WrittenRecord) :
    Option (Option (List WrittenRecord)) :=
  out.map (fun written => some (written ++ [w]))

/-- The loop `for (size_t i=0 ; i< kmerizedReads.size() ; i++) { record.seq =
kmerizedReads[i]; record.writeFasta(*m_pDiscardWriter,i); }` over the remaining fragments. -/
def writeFragments (id : Seq) :
    List Seq → Nat → Option (List WrittenRecord) → Option (Option (List WrittenRecord))
  | [], _, out => some out
  | kmerRead :: rest, i, out => do
    let out ← writeTo out ⟨id, kmerRead, some i⟩
    writeFragments id rest (i + 1) out

/-- The statements `if (!correctSequence.empty()) record.write(*m_pDiscardWriter);` followed by
the loop over `kmerizedReads`, as they appear three times in the aggregator. -/
def writeKmerized (id : Seq) (correctSequence : Seq) (kmerizedReads : List Seq)
    (out : Option (List WrittenRecord)) : Option (Option (List WrittenRecord)) := do
  let out ← (if !correctSequence.isEmpty then writeTo out ⟨id, correctSequence, none⟩
             else some out)
  writeFragments id kmerizedReads 0 out

/-- The loop over `result.correctedPacbioStrs` in the long-read branch: record `i` has the
identifier `id_i_length`. -/
def writePacbioStrs (id : Seq) : List Seq → Nat → List WrittenRecord → List WrittenRecord
  | [], _, out => out
  | str :: rest, i, out =>
    writePacbioStrs id rest (i + 1)
      (out ++ [⟨id ++ ['_'] ++ (Nat.repr i).toList ++ ['_'] ++ (Nat.repr str.length).toList,
        str, none⟩])

namespace FMIndexWalkPostProcess

/-- `FMIndexWalkPostProcess::process(const SequenceWorkItem&, const FMIndexWalkResult&)`;
`id` is `item.read.id`. The fields of the result are spread over the two records of the
embedding: the long-read branch reads `longRead`, the other branch reads `result`. -/
def process (pp : FMIndexWalkPostProcess) (id : Seq) (result : FMIndexWalkResult)
    (longRead : PacBioCorrectionResult) : Option FMIndexWalkPostProcess :=
  if pp.algorithm = .FMW_PACBIOSELF ∨ pp.algorithm = .FMW_PACBIOHYB then
    let pp := { pp with
      m_totalReadsLen := pp.m_totalReadsLen + longRead.totalReadsLen
      m_correctedLen := pp.m_correctedLen + longRead.correctedLen
      m_totalSeedNum := pp.m_totalSeedNum + longRead.totalSeedNum
      m_totalWalkNum := pp.m_totalWalkNum + longRead.totalWalkNum
      m_correctedNum := pp.m_correctedNum + longRead.correctedNum
      m_highErrorNum := pp.m_highErrorNum + longRead.highErrorNum
      m_exceedDepthNum := pp.m_exceedDepthNum + longRead.exceedDepthNum
      m_exceedLeaveNum := pp.m_exceedLeaveNum + longRead.exceedLeaveNum
      m_seedDis := pp.m_seedDis + longRead.seedDis }
    if longRead.merge then
      some { pp with
        m_pCorrectedWriter :=
          writePacbioStrs id longRead.correctedPacbioStrs 0 pp.m_pCorrectedWriter }
    else some pp
  else
    let readQCPass := result.kmerize || result.merge
    let pp :=
      if result.kmerize then { pp with m_kmerizePassed := pp.m_kmerizePassed + 1 }
      else if result.merge then { pp with m_mergePassed := pp.m_mergePassed + 1 }
      else { pp with m_qcFail := pp.m_qcFail + 1 }
    let readQCPass := if !result.kmerize && !result.merge then false else readQCPass
    let record : WrittenRecord := ⟨id, result.correctSequence, none⟩
    if result.merge then
      some { pp with m_pCorrectedWriter := pp.m_pCorrectedWriter ++ [record] }
    else if result.kmerize then do
      let out ← writeKmerized id result.correctSequence result.kmerizedReads pp.m_pDiscardWriter
      some { pp with m_pDiscardWriter := out }
    else if readQCPass || pp.m_pDiscardWriter.isNone then
      some { pp with m_pCorrectedWriter := pp.m_pCorrectedWriter ++ [record] }
    else do
      let out ← writeTo pp.m_pLowComplexWriter record
      some { pp with m_pLowComplexWriter := out }

/-- `FMIndexWalkPostProcess::process(const SequenceWorkItemPair&, const FMIndexWalkResult&)`;
`firstId` and `secondId` are the identifiers of the two reads. The identifier of a merged
record is `firstRecord.id.substr(0, firstRecord.id.find('/'))`: the part before the first
`/`, or all of it. -/
def processPair (pp : FMIndexWalkPostProcess) (firstId secondId : Seq)
    (result : FMIndexWalkResult) : Option FMIndexWalkPostProcess :=
  let pp :=
    if result.merge then { pp with m_mergePassed := pp.m_mergePassed + 1 }
    else if pp.algorithm = .FMW_HYBRID ∧ (result.kmerize ∨ result.kmerize2) then
      let pp :=
        if result.kmerize then { pp with m_kmerizePassed := pp.m_kmerizePassed + 1 }
        else { pp with m_qcFail := pp.m_qcFail + 1 }
      if result.kmerize2 then { pp with m_kmerizePassed := pp.m_kmerizePassed + 1 }
      else { pp with m_qcFail := pp.m_qcFail + 1 }
    else { pp with m_qcFail := pp.m_qcFail + 2 }
  if result.merge then
    some { pp with
      m_pCorrectedWriter := pp.m_pCorrectedWriter
        ++ [⟨firstId.takeWhile (fun c => c != '/'), result.correctSequence, none⟩] }
  else if pp.algorithm = .FMW_HYBRID then do
    let out ← writeKmerized firstId result.correctSequence result.kmerizedReads
      pp.m_pDiscardWriter
    let out ← writeKmerized secondId result.correctSequence2 result.kmerizedReads2 out
    some { pp with m_pDiscardWriter := out }
  else some pp

end FMIndexWalkPostProcess

/-- The contents of the three output streams: corrected, discard, low-complexity. -/
def FMIndexWalkPostProcess.sinks (pp : FMIndexWalkPostProcess) :
    List WrittenRecord × Option (List WrittenRecord) × Option (List WrittenRecord) :=
  (pp.m_pCorrectedWriter, pp.m_pDiscardWriter, pp.m_pLowComplexWriter)

/-- The records that the aggregator writes for one read of a result that is not merged: the
main fragment when it is not empty, then the other fragments with their indices. -/
def kmerizedRecords (id : Seq) (correctSequence : Seq) (kmerizedReads : List Seq) :
    List WrittenRecord :=
  (if correctSequence.isEmpty then [] else [⟨id, correctSequence, none⟩])
    ++ (kmerizedReads.enumFrom 0).map (fun p => ⟨id, p.2, some p.1⟩)

/-- A validating search that finds nothing. -/
def rejectingSearch : ValidationSearch where
  validate := fun _ _ => (-1, [])

/-- A fresh aggregator for the single-read validation mode: nothing written, all three
streams open. -/
def validateAggregator : FMIndexWalkPostProcess where
  m_pCorrectedWriter := []
  m_pDiscardWriter := some []
  m_pLowComplexWriter := some []
  algorithm := .FMW_VALIDATE

/-! ## Extensions of a k-mer, as the segmentation rule reads -/

/-- Number of bases `b` among `A`, `T`, `C`, `G` for which the right extension of the k-mer
(the k-mer without its first base, followed by `b`) occurs in the index at least `threshold`
times, both strands counted. -/
def rightExtensions (E : External) (kmer : Seq) (threshold : Nat) : Nat :=
  (nBases.filter
    (fun b => decide (threshold ≤ E.countSequenceOccurrences (kmer.drop 1 ++ [b])))).length

/-- Number of bases `b` among `A`, `T`, `C`, `G` for which the left extension of the k-mer
(`b` followed by the k-mer without its last base) occurs in the index at least `threshold`
times, both strands counted. -/
def leftExtensions (E : External) (kmer : Seq) (threshold : Nat) : Nat :=
  (nBases.filter
    (fun b => decide (threshold ≤ E.countSequenceOccurrences
      (b :: kmer.take (kmer.length - 1))))).length

/-- The pair of neighbouring k-mers is simple: the left one has exactly one right extension
and the right one exactly one left extension that occur in the index at least once. -/
def SimplePair (E : External) (Lkmer Rkmer : Seq) : Prop :=
  rightExtensions E Lkmer 1 = 1 ∧ leftExtensions E Rkmer 1 = 1

/-- Some interval of the list starts at position `p`. -/
def StartsAt (intervals : List (Nat × Nat)) (p : Nat) : Prop := ∃ iv ∈ intervals, iv.1 = p

/-! ## Fragments of a segmentation -/

/-- The fragment that an interval `(start, end)` of k-mer positions stands for: the bases of
the read from the first base of the k-mer at `start` to the last base of the k-mer at `end`,
`read[start, end + k)`. -/
def fragmentOf (seq : Seq) (k : Nat) (iv : Nat × Nat) : Seq :=
  (seq.drop iv.1).take (iv.2 - iv.1 + k)

/-! ## Solid seeds of the fixed-k extractor -/

/-- The k-mer of the read that starts at position `q` passes the test of the extractor: the
`int` variable `kmerFreqs` computed for it reaches the seed threshold (`k = kmerLength`). -/
def PassesAt (E : External) (P : Parameters) (readSeq : Seq) (q : Int) : Prop :=
  FMIndexWalkProcess.kmerFreqs E (kmerAt readSeq P.kmerLength.toNat q.toNat)
    ≥ P.seedKmerThreshold

/-- The seed `(p, s)` is a maximal run of k-mers that pass the test: `s = read[p, p+|s|)`,
`|s| >= k`, every k-mer starting in `[p, p+|s|-k]` passes, and the k-mer starting at
`p+|s|-k+1` does not pass if it lies within the read. -/
def MaximalPassingSeed (E : External) (P : Parameters) (readSeq : Seq) (s : Seed) : Prop :=
  0 ≤ s.1 ∧ seedEnd s ≤ (readSeq.length : Int) ∧ s.2 = slice readSeq s.1 (seedEnd s) ∧
  P.kmerLength ≤ (s.2.length : Int) ∧
  (∀ q : Int, s.1 ≤ q → q ≤ seedEnd s - P.kmerLength → PassesAt E P readSeq q) ∧
  (seedEnd s + 1 ≤ (readSeq.length : Int) →
    ¬ PassesAt E P readSeq (seedEnd s - P.kmerLength + 1))

/-- The k-mer of the read that starts at position `q` reaches the seed threshold with its
combined forward and reverse-complement count in the index (`k = kmerLength`). -/
def SolidAt (E : External) (P : Parameters) (readSeq : Seq) (q : Int) : Prop :=
  FMIndexWalkProcess.combinedCount E (kmerAt readSeq P.kmerLength.toNat q.toNat)
    ≥ P.seedKmerThreshold

/-- The seed `(p, s)` is a maximal run of solid k-mers: `s = read[p, p+|s|)`, `|s| >= k`,
every k-mer starting in `[p, p+|s|-k]` is solid, and the k-mer starting at `p+|s|-k+1` is
not solid if it lies within the read. -/
def MaximalSolidSeed (E : External) (P : Parameters) (readSeq : Seq) (s : Seed) : Prop :=
  0 ≤ s.1 ∧ seedEnd s ≤ (readSeq.length : Int) ∧ s.2 = slice readSeq s.1 (seedEnd s) ∧
  P.kmerLength ≤ (s.2.length : Int) ∧
  (∀ q : Int, s.1 ≤ q → q ≤ seedEnd s - P.kmerLength → SolidAt E P readSeq q) ∧
  (seedEnd s + 1 ≤ (readSeq.length : Int) →
    ¬ SolidAt E P readSeq (seedEnd s - P.kmerLength + 1))

/-! ## The k-mer lengths used by the adaptive extractor -/

/-- The main loop of `findSeedsUsingDynamicKmerLen` as in `dynLoop`, recording in addition
the value of `kmerLen` at every index lookup made at the head of an iteration (the lookups of
the inner loop use the `kmerLen` of the iteration that entered it). -/
def dynLoopTraced (E : External) (P : Parameters) (readSeq : Seq) :
    Nat → DynState → List Int → Run (List Seed × List Int)
  | 0, _, _ => .error .fuel
  | fuel + 1, st, lookups =>
    if st.i + st.kmerLen ≤ (readSeq.length : Int) then do
      let kmer ← substr readSeq st.i st.kmerLen
      let lookups := lookups ++ [st.kmerLen]
      let walkDistance := st.walkDistance + 1
      if FMIndexWalkProcess.kmerFreqs E kmer ≥ P.seedKmerThreshold then do
        let seedStartPos := st.i
        let i1 ← dynContiguous E P readSeq st.kmerLen fuel (st.i + 1)
        let str ← substr readSeq seedStartPos (st.kmerLen + i1 - seedStartPos - 1)
        let i2 := seedStartPos + (str.length : Int) - 1
        dynLoopTraced E P readSeq fuel
          { i := i2 + 1, kmerLen := P.kmerLength, start := true,
            newStartPos := st.newStartPos, newStartPos2 := i2, walkDistance := 0,
            seeds := st.seeds ++ [(seedStartPos, str)] } lookups
      else if walkDistance ≥ P.seedWalkDistance st.kmerLen then
        if st.kmerLen ≤ P.minKmerLength then
          dynLoopTraced E P readSeq fuel
            { st with i := st.i + 1, kmerLen := P.kmerLength, newStartPos := st.i,
                      newStartPos2 := st.i, walkDistance := 0 } lookups
        else
          let i2 := if st.start = false then st.newStartPos else st.newStartPos2
          dynLoopTraced E P readSeq fuel
            { st with i := i2 + 1, kmerLen := st.kmerLen - 2, walkDistance := 0 } lookups
      else
        dynLoopTraced E P readSeq fuel { st with i := st.i + 1, walkDistance := walkDistance }
          lookups
    else pure (st.seeds, lookups)

/-- `findSeedsUsingDynamicKmerLen` returning the seeds together with the k-mer lengths of its
lookups, in order. -/
def findSeedsUsingDynamicKmerLenTraced (fuel : Nat) (E : External) (P : Parameters)
    (readSeq : Seq) : Run (List Seed × List Int) :=
  if (readSeq.length : Int) ≥ P.kmerLength then
    dynLoopTraced E P readSeq fuel
      { i := 0, kmerLen := P.kmerLength, start := false, newStartPos := -1,
        newStartPos2 := -1, walkDistance := 0, seeds := [] } []
  else pure ([], [])

/-- Seed length 4, minimum seed length 3, two positions walked before the seed length is
reduced. -/
def oddGapParams : Parameters :=
  { exampleParams with kmerLength := 4, minKmerLength := 3 }

/-! ## Inputs exercising the lookahead of the self-correction loop -/

/-- The parameters of `exampleParams` with two lookahead targets per gap. -/
def lookaheadParams : Parameters := { exampleParams with downward := 2 }

/-- Search trees that report every seed safe, fail with code `-3` towards the target `CC`
and reach any other target across `GCCG`; the multi-target search behaves alike on its first
target. -/
def skippingTrees : SearchTrees :=
  { failingTrees with
    mergeTwoSeedsUsingHash := fun src tgt m _ _ _ =>
      if tgt = ['C', 'C'] then (-3, m) else (1, src ++ ['G', 'C', 'C', 'G'] ++ tgt)
    gapMergeTwoSeedsUsingHash := fun src targets m =>
      match targets with
      | [] => (-1, m)
      | t :: _ => if t.2 = ['C', 'C'] then (-3, m) else (1, src ++ ['G', 'C', 'C', 'G'] ++ t.2) }

/-! ## The retry schedule of `solveHighError` -/

/-- The overlaps of the retry schedule: `m_0 = M` and `m_{j+1} = (m_j * 2) / 3` with the
truncating `int` division of the loop body. -/
def overlapAt (M : Int) : Nat → Int
  | 0 => M
  | j + 1 => Int.tdiv (overlapAt M j * 2) 3

/-- The integer part of the logarithm of `M` to the base `3/2`: the largest `j` with
`(3/2)^j <= M`, that is `3^j <= M * 2^j` (searched up to `2 * M`, which no such `j`
exceeds). -/
def floorLogThreeHalves (M : Nat) : Nat :=
  Nat.findGreatest (fun j => 3 ^ j ≤ M * 2 ^ j) (2 * M)

/-- A run of the retry policy as the rule reads, for an attempt function that takes the
overlap and the merged sequence so far: `n >= 1` attempts are made, attempt `j` with the
overlap `m_j` on the sequence left by attempt `j-1`; every attempt but the last returns a
code other than 1 and is followed by an overlap not below the minimum; the last attempt
either returns 1 or is followed by an overlap below the minimum, and its code and sequence
are the outcome; or the last attempt throws and so does the run. -/
def RetryRun (attempt : Int → Seq → Run (Int × Seq)) (minKmerLength M : Int) (mergedseq : Seq)
    (outcome : Run (Int × Seq)) (n : Nat) (codes : Nat → Int) (seqs : Nat → Seq) : Prop :=
  1 ≤ n ∧ seqs 0 = mergedseq ∧
  (∀ j, j + 1 < n →
    attempt (overlapAt M j) (seqs j) = .ok (codes j, seqs (j + 1)) ∧ codes j ≠ 1 ∧
      minKmerLength ≤ overlapAt M (j + 1)) ∧
  ((attempt (overlapAt M (n - 1)) (seqs (n - 1)) = .ok (codes (n - 1), seqs n) ∧
      (codes (n - 1) = 1 ∨ overlapAt M n < minKmerLength) ∧
      outcome = .ok (codes (n - 1), seqs n)) ∨
    (∃ e, attempt (overlapAt M (n - 1)) (seqs (n - 1)) = .error e ∧ outcome = .error e))

namespace FMIndexWalkProcess

/-- `FMIndexWalkProcess::MergePairedReads` on the two reads of a pair. The `threshold`
(`getRequiredSupport(0)-1`) is passed to `trimRead`, which ignores it, and to the
constructor of the two search trees, which are the parameter `T`; `maxOverlap` is derived
from the two original read lengths. -/
def MergePairedReads (fuel : Nat) (E : External) (T : SearchTrees) (P : Parameters)
    (first second : Seq) : Run FMIndexWalkResult := do
  let result : FMIndexWalkResult := {}
  let seqFirst ← trimRead fuel E first (toSizeT P.kmerLength)
  let seqSecond ← trimRead fuel E second (toSizeT P.kmerLength)
  if seqFirst.length < toSizeT P.minOverlap ∨ seqSecond.length < toSizeT P.minOverlap then
    pure result
  else
    let firstKRstr ← substr seqFirst 0 P.minOverlap
    let secondKRstr ← substr seqSecond 0 P.minOverlap
    let SAITree := T.mergeTwoReads firstKRstr (E.reverseComplement secondKRstr)
      (first.length + second.length)
    let mergedseq := SAITree.mergedseq
    let SAITree2 := T.mergeTwoReads secondKRstr (E.reverseComplement firstKRstr)
      (first.length + second.length)
    let mergedseq2 := SAITree2.mergedseq
    if !mergedseq.isEmpty && mergedseq2.isEmpty then
      pure { result with merge := true, correctSequence := mergedseq }
    else if mergedseq.isEmpty && !mergedseq2.isEmpty then
      pure { result with merge := true, correctSequence := mergedseq2 }
    else if !mergedseq.isEmpty && !mergedseq2.isEmpty
        && decide (mergedseq.length = mergedseq2.length) then
      pure { result with
        merge := true
        correctSequence :=
          if SAITree.kmerCoverage > SAITree2.kmerCoverage then mergedseq else mergedseq2 }
    else pure result

end FMIndexWalkProcess

/-- Single-strand counts of an index holding three copies of `AA`, three of `TT` and a
thousand of `AG` (whose reverse complement `CT` does not occur). -/
def repeatWordCount (w : Seq) : Nat :=
  if w = ['A', 'A'] ∨ w = ['T', 'T'] then 3
  else if w = ['A', 'G'] then 1000
  else 0

/-- An index with the counts of `repeatWordCount` and the reverse complement of DNA words;
intervals are not used. -/
def repeatIndex : External where
  countSequenceOccurrencesSingleStrand := repeatWordCount
  countSequenceOccurrences := fun w =>
    repeatWordCount w + repeatWordCount ((w.map complementBase).reverse)
  countSequenceOccurrencesBWT := repeatWordCount
  findInterval := fun _ _ => ⟨0, -1⟩
  updateInterval := fun _ _ _ => ⟨0, -1⟩
  reverseComplement := fun w => (w.map complementBase).reverse
  complement := complementBase
  median := 3

/-- Sum of the lengths of a list of strings. -/
def totalLength (strs : List Seq) : Int := (strs.map (fun s => (s.length : Int))).sum

/-- The bookkeeping of `PBSelfCorrection` when gaps are cut: there is a last corrected
string, `correctedLen` is the total length of the corrected strings so far, and the result
is still unmerged with no string copied into it. -/
def CutInvariant (o : CorrectionState) : Prop :=
  o.pacbioCorrectedStrs ≠ [] ∧
  o.result.correctedLen = totalLength (o.pacbioCorrectedStrs.map Prod.snd) ∧
  o.result.merge = false ∧ o.result.correctedPacbioStrs = []

/-! ## The minimum overlap of the hybrid correction -/

/-- The `minOverlap` chosen for a gap in the seed-pair loop of `PBHybridCorrection`:
`maxOverlap-2` when both seeds are at least `(size_t) maxOverlap` long, otherwise the length
of the shorter seed. -/
def hybridMinOverlap (P : Parameters) (source target : Seed) : Int :=
  if source.2.length ≥ toSizeT P.maxOverlap ∧ target.2.length ≥ toSizeT P.maxOverlap then
    P.maxOverlap - 2
  else if source.2.length ≤ target.2.length then (source.2.length : Int)
  else (target.2.length : Int)

/-- The condition of the `assert` that opens `doubleFMWalkForPacbio`, with the signed
comparison of `PacBioCorrectionProcess` or the unsigned one of `FMIndexWalkProcess`. -/
def entryAssertion (signedAssert : Bool) (firstSeed secondSeed : Seed) (minOverlap : Int) :
    Bool :=
  let fits (len : Nat) : Bool :=
    if signedAssert then decide (minOverlap ≤ (len : Int))
    else decide (toSizeT minOverlap ≤ len)
  fits firstSeed.2.length && fits secondSeed.2.length

/-- The body of `doubleFMWalkForPacbio` after its opening `assert`. -/
def doubleFMWalkAfterAssert (E : External) (T : SearchTrees) (firstSeed secondSeed : Seed)
    (minOverlap needWalkLen : Int) (mergedseq : Seq) : Run (Int × Seq) :=
  let walk1 := T.hybridMergeTwoReads firstSeed.2 minOverlap needWalkLen secondSeed.2 mergedseq
  let FMWalkReturnType := walk1.1
  let mergedseq := walk1.2
  if FMWalkReturnType < 0 then pure (FMWalkReturnType, mergedseq)
  else if mergedseq.isEmpty then .error .assertion
  else
    let firstSeq := E.reverseComplement firstSeed.2
    let secondSeq := E.reverseComplement secondSeed.2
    let walk2 := T.hybridMergeTwoReads secondSeq minOverlap needWalkLen firstSeq []
    let FMWalkReturnType := walk2.1
    let mergedseq2 := walk2.2
    if mergedseq.length = mergedseq2.length then pure (FMWalkReturnType, mergedseq)
    else if FMWalkReturnType > 0 then pure (-4, mergedseq)
    else if FMWalkReturnType < 0 then pure (FMWalkReturnType, mergedseq)
    else .error .assertion

/-- The `do { ... } while(...)` loop of `solveHighError` over an arbitrary attempt in place
of the call of `doubleFMWalkForPacbio`. -/
def retryLoop (attempt : Int → Seq → Run (Int × Seq)) (minKmerLength : Int) :
    Nat → Int → Seq → Run (Int × Seq)
  | 0, _, _ => .error .fuel
  | fuel + 1, minOverlapTmp, mergedseq => do
    let (FMWalkReturnType, mergedseq) ← attempt minOverlapTmp mergedseq
    let minOverlapTmp := Int.tdiv (minOverlapTmp * 2) 3
    if FMWalkReturnType ≠ 1 ∧ minOverlapTmp ≥ minKmerLength then
      retryLoop attempt minKmerLength fuel minOverlapTmp mergedseq
    else pure (FMWalkReturnType, mergedseq)

/-! ## Interval sizes as occurrence counts -/

/-- Interval of a word on the forward strand as the streaming `splitRead` looks it up:
`findInterval(index.pRBWT, reverse(w))`. -/
def fwdFind (E : External) (w : Seq) : BWTInterval := E.findInterval true w.reverse

/-- Interval of a word on the other strand:
`findInterval(index.pBWT, reverseComplement(w))`. -/
def rvcFind (E : External) (w : Seq) : BWTInterval :=
  E.findInterval false (E.reverseComplement w)

/-- Forward plus reverse-complement occurrence count of a word: the sizes of its two
intervals, an invalid interval counting zero. -/
def wordFreq (E : External) (w : Seq) : Int :=
  FMIndexWalkProcess.intervalFreq (fwdFind E w) (rvcFind E w)

/-- The intervals of the index behave as occurrence counts on the windows of the read that
are at least `k` long: for the window `w` of length `len` at `s` followed by the base `b`,
extending the interval of `w` by `b` (by `complement(b)` on the other strand) gives the
interval of `w ++ [b]`, a word that does not occur has no occurring extension, and the
extended window occurs at most as often as the k-mer at its end. -/
def IntervalsCountWindows (E : External) (seq : Seq) (k : Nat) : Prop :=
  ∀ s, s < seq.length → ∀ len, len < seq.length → k ≤ len → s + len < seq.length →
    ((fwdFind E (kmerAt seq len s)).isValid = true →
      E.updateInterval (fwdFind E (kmerAt seq len s)) (seq.getD (s + len) 'N') true
        = fwdFind E (kmerAt seq (len + 1) s)) ∧
    ((fwdFind E (kmerAt seq len s)).isValid = false →
      (fwdFind E (kmerAt seq (len + 1) s)).isValid = false) ∧
    ((rvcFind E (kmerAt seq len s)).isValid = true →
      E.updateInterval (rvcFind E (kmerAt seq len s))
          (E.complement (seq.getD (s + len) 'N')) false
        = rvcFind E (kmerAt seq (len + 1) s)) ∧
    ((rvcFind E (kmerAt seq len s)).isValid = false →
      (rvcFind E (kmerAt seq (len + 1) s)).isValid = false) ∧
    wordFreq E (kmerAt seq (len + 1) s) ≤ wordFreq E (kmerAt seq k (s + len + 1 - k))

/-- An interval held by the streaming loop stands for the looked-up interval of a word: it is
that interval when valid, and the word does not occur when it is invalid. -/
def Tracks (held found : BWTInterval) : Prop :=
  (held.isValid = true → held = found) ∧ (held.isValid = false → found.isValid = false)

/-- Interval of a word in a corpus holding three copies of `AA` and three of `AC`, and no
longer word. -/
def pairWordInterval (w : Seq) : BWTInterval :=
  if w = ['A', 'A'] then ⟨10, 12⟩
  else if w = ['A', 'C'] then ⟨20, 22⟩
  else ⟨0, -1⟩

/-- An index over the corpus of `pairWordInterval` (forward strand only): no interval can be
extended. -/
def pairIndex : External where
  countSequenceOccurrencesSingleStrand := fun w => (pairWordInterval w).size.toNat
  countSequenceOccurrences := fun w =>
    (pairWordInterval w).size.toNat
      + (pairWordInterval ((w.map complementBase).reverse)).size.toNat
  countSequenceOccurrencesBWT := fun w => (pairWordInterval w).size.toNat
  findInterval := fun rbwt w => if rbwt then pairWordInterval w.reverse else pairWordInterval w
  updateInterval := fun _ _ _ => ⟨0, -1⟩
  reverseComplement := fun w => (w.map complementBase).reverse
  complement := complementBase
  median := 3

/-! ## The iterations of the streaming classification loop -/

namespace FMIndexWalkProcess

/-- The classification loop of the streaming `splitRead` as in `classify`, recording in
addition one entry per iteration that passes the loop test: the position `i` examined and
whether the iteration took the branch that ends in `i--`. -/
def classifyTraced (E : External) (P : Parameters) (seq : Seq) (threshold : Nat) :
    Nat → StreamState → List (Nat × Bool) → Run (List Nat × List (Nat × Bool))
  | 0, _, _ => .error .fuel
  | fuel + 1, st, log =>
    let last : Int := (seq.length : Int) - P.kmerLength
    if (st.i : Int) ≤ last then
      if st.currKmerFreq ≥ threshold then do
        let log := log ++ [(st.i, false)]
        let cq := st.countQualified.modify (· + 1) st.i
        if (st.i : Int) < last then do
          let b ← vecAtI seq ((st.i : Int) + P.kmerLength)
          let fwdInterval :=
            if st.fwdInterval.isValid then E.updateInterval st.fwdInterval b true
            else st.fwdInterval
          let rvcInterval :=
            if st.rvcInterval.isValid then
              E.updateInterval st.rvcInterval (E.complement b) false
            else st.rvcInterval
          classifyTraced E P seq threshold fuel
            { i := st.i + 1, fwdInterval := fwdInterval, rvcInterval := rvcInterval,
              currKmerSize := st.currKmerSize + 1,
              currKmerFreq := intervalFreq fwdInterval rvcInterval, countQualified := cq } log
        else
          classifyTraced E P seq threshold fuel { st with i := st.i + 1, countQualified := cq }
            log
      else if st.currKmerSize > P.kmerLength then do
        let log := log ++ [(st.i, true)]
        let st1 ← recompute E P seq st.i st
        classifyTraced E P seq threshold fuel st1 log
      else if st.currKmerSize = P.kmerLength then
        let log := log ++ [(st.i, false)]
        if (st.i : Int) < last then do
          let st1 ← recompute E P seq ((st.i : Int) + 1) st
          classifyTraced E P seq threshold fuel { st1 with i := st.i + 1 } log
        else classifyTraced E P seq threshold fuel { st with i := st.i + 1 } log
      else .error .assertion
    else pure (st.countQualified, log)

/-- The classification phase of the streaming `splitRead` as in `streamQualifiedOf`, with the
log of `classifyTraced`. -/
def streamQualifiedTraced (fuel : Nat) (E : External) (P : Parameters) (seq : Seq)
    (threshold : Nat) : Run (List Nat × List (Nat × Bool)) := do
  let numKmer := ((seq.length : Int) - P.kmerLength + 1).toNat
  let startingKmer ← substr seq 0 P.kmerLength
  let fwdInterval := E.findInterval true startingKmer.reverse
  let rvcInterval := E.findInterval false (E.reverseComplement startingKmer)
  classifyTraced E P seq threshold fuel
    { i := 0, fwdInterval := fwdInterval, rvcInterval := rvcInterval,
      currKmerSize := P.kmerLength, currKmerFreq := intervalFreq fwdInterval rvcInterval,
      countQualified := List.replicate numKmer 0 } []

end FMIndexWalkProcess

/-- What holds of the log of `classifyTraced` when the loop is at position `i` with
`currKmerSize = size`: no position was examined more than twice, no logged position lies
beyond `i`, every `i--` happened at a position of at least 1, and position `i` itself was
examined at most once so far, not at all if the current interval is an extended one. -/
def LogInvariant (k i : Nat) (size : Int) (log : List (Nat × Bool)) : Prop :=
  (∀ p, (log.map Prod.fst).count p ≤ 2) ∧
  (∀ e ∈ log, e.1 ≤ i ∧ (e.2 = true → 1 ≤ e.1)) ∧
  (log.map Prod.fst).count i ≤ 1 ∧
  (size > (k : Int) → (log.map Prod.fst).count i = 0)

/-! ## Merging over-segmented intervals -/

namespace FMIndexWalkProcess

/-- The loop of `isPathReliable` from `i` for `remaining` more positions:
`if (countQualified[i]==0) return false;` (unchecked access). -/
def pathScan (countQualified : List Nat) : Nat → Nat → Bool
  | 0, _ => true
  | remaining + 1, i =>
    if countQualified.getD i 0 = 0 then false
    else pathScan countQualified remaining (i + 1)

/-- `FMIndexWalkProcess::isPathReliable`; `intervalY.first-1` is a `size_t` subtraction, which
wraps at zero. -/
def isPathReliable (intervalX intervalY : Nat × Nat) (countQualified : List Nat) :
    Run Bool :=
  if intervalX.2 + 1 = intervalY.1 then pure true
  else
    let start := intervalX.2 + 1
    let stop := if intervalY.1 = 0 then 18446744073709551615 else intervalY.1 - 1
    if ¬ start ≤ stop then .error .assertion
    else pure (pathScan countQualified (stop + 1 - start) start)

/-- The two statements that merge in `isIntervalMerge`:
`intervals[s].second = intervals[e].second;` and
`intervals.erase(intervals.begin()+s+1, intervals.begin()+e+1);`. -/
def mergeAt (intervals : List (Nat × Nat)) (s e : Nat) : List (Nat × Nat) :=
  let merged := intervals.set s ((intervals.getD s (0, 0)).1, (intervals.getD e (0, 0)).2)
  merged.take (s + 1) ++ merged.drop (e + 1)

/-- The second loop of `isIntervalMerge`, `for (int i=0 ;i<(int)intervals.size();i++)`, from
`i` for `remaining` more intervals; `s` is the index of the last strong interval seen, or
`-1`. Returns the value of `isIntervalMerge` and the intervals as it leaves them. -/
def mergeScan (intervals : List (Nat × Nat)) (countQualified : List Nat)
    (stongInterval : List Bool) : Nat → Nat → Int → Run (Bool × List (Nat × Nat))
  | 0, _, _ => pure (false, intervals)
  | remaining + 1, i, s => do
    let first ← vecAt stongInterval i
    if first = true ∧ s < 0 then
      mergeScan intervals countQualified stongInterval remaining (i + 1) i
    else if stongInterval.getD i false = true then do
      let e := i
      let reliable ← isPathReliable (intervals.getD s.toNat (0, 0)) (intervals.getD e (0, 0))
        countQualified
      if reliable then pure (true, mergeAt intervals s.toNat e)
      else mergeScan intervals countQualified stongInterval remaining (i + 1) e
    else mergeScan intervals countQualified stongInterval remaining (i + 1) s

/-- `FMIndexWalkProcess::isIntervalMerge`: the returned flag and the intervals afterwards. -/
def isIntervalMerge (intervals : List (Nat × Nat)) (countQualified : List Nat) :
    Run (Bool × List (Nat × Nat)) := do
  let stongInterval ← intervals.mapM (fun iv => isIntervalExistStrongKmer iv countQualified)
  let count := stongInterval.count true
  if count < 2 then pure (false, intervals)
  else mergeScan intervals countQualified stongInterval intervals.length 0 (-1)

/-- The loop `while (isIntervalMerge(intervals,countQualified));` that the profile-based
`splitRead` carries in a comment, with a count of the merges made. -/
def mergeRepeat (countQualified : List Nat) :
    Nat → List (Nat × Nat) → Nat → Run (List (Nat × Nat) × Nat)
  | 0, _, _ => .error .fuel
  | fuel + 1, intervals, merges => do
    let (merged, intervals) ← isIntervalMerge intervals countQualified
    if merged then mergeRepeat countQualified fuel intervals (merges + 1)
    else pure (intervals, merges)

end FMIndexWalkProcess

/-! ## The iterations of the adaptive extractor -/

/-- What one iteration of the main loop of `findSeedsUsingDynamicKmerLen` does: it pushes a
seed, gives up at the minimum k-mer length and moves the rewind anchor, shrinks the k-mer
length and rewinds the cursor to the anchor, or just walks on. -/
inductive DynMove
  | seed
  | giveUp
  | rewind
  | walk
  deriving DecidableEq, Repr

/-- One iteration of the main loop of `findSeedsUsingDynamicKmerLen`, the `i++` of the `for`
included: `none` when the loop test fails, otherwise the branch taken and the loop variables
at the next loop test. -/
def dynStep (E : External) (P : Parameters) (readSeq : Seq) (fuel : Nat) (st : DynState) :
    Run (Option (DynMove × DynState)) :=
  if st.i + st.kmerLen ≤ (readSeq.length : Int) then do
    let kmer ← substr readSeq st.i st.kmerLen
    let walkDistance := st.walkDistance + 1
    if FMIndexWalkProcess.kmerFreqs E kmer ≥ P.seedKmerThreshold then do
      let seedStartPos := st.i
      let i1 ← dynContiguous E P readSeq st.kmerLen fuel (st.i + 1)
      let str ← substr readSeq seedStartPos (st.kmerLen + i1 - seedStartPos - 1)
      let i2 := seedStartPos + (str.length : Int) - 1
      pure (some (.seed,
        { i := i2 + 1, kmerLen := P.kmerLength, start := true,
          newStartPos := st.newStartPos, newStartPos2 := i2, walkDistance := 0,
          seeds := st.seeds ++ [(seedStartPos, str)] }))
    else if walkDistance ≥ P.seedWalkDistance st.kmerLen then
      if st.kmerLen ≤ P.minKmerLength then
        pure (some (.giveUp,
          { st with i := st.i + 1, kmerLen := P.kmerLength, newStartPos := st.i,
                    newStartPos2 := st.i, walkDistance := 0 }))
      else
        let i2 := if st.start = false then st.newStartPos else st.newStartPos2
        pure (some (.rewind,
          { st with i := i2 + 1, kmerLen := st.kmerLen - 2, walkDistance := 0 }))
    else pure (some (.walk, { st with i := st.i + 1, walkDistance := walkDistance }))
  else pure none

/-- A record of the rewind anchors of a run: the anchor set by each seed or give-up, in
order, the number of rewinds made since the anchor was last set, and the largest number of
rewinds made at one anchor. -/
structure AnchorLog where
  anchors : List Int := []
  rewinds : Nat := 0
  maxRewinds : Nat := 0
  deriving DecidableEq, Repr

/-- The record after an iteration that made `move` and left the anchor at `anchor`. -/
def AnchorLog.record (log : AnchorLog) (move : DynMove) (anchor : Int) : AnchorLog :=
  match move with
  | .seed => { log with anchors := log.anchors ++ [anchor], rewinds := 0 }
  | .giveUp => { log with anchors := log.anchors ++ [anchor], rewinds := 0 }
  | .rewind => { log with rewinds := log.rewinds + 1,
                          maxRewinds := max log.maxRewinds (log.rewinds + 1) }
  | .walk => log

/-- The main loop of `findSeedsUsingDynamicKmerLen` run iteration by iteration, with the
record of its rewind anchors. -/
def dynLoopAnchored (E : External) (P : Parameters) (readSeq : Seq) :
    Nat → DynState → AnchorLog → Run (List Seed × AnchorLog)
  | 0, _, _ => .error .fuel
  | fuel + 1, st, log => do
    match ← dynStep E P readSeq fuel st with
    | none => pure (st.seeds, log)
    | some (move, st1) => dynLoopAnchored E P readSeq fuel st1 (log.record move st1.anchor)

/-- `findSeedsUsingDynamicKmerLen` returning the seeds together with the record of its rewind
anchors. -/
def findSeedsUsingDynamicKmerLenAnchored (fuel : Nat) (E : External) (P : Parameters)
    (readSeq : Seq) : Run (List Seed × AnchorLog) :=
  if (readSeq.length : Int) ≥ P.kmerLength then
    dynLoopAnchored E P readSeq fuel
      { i := 0, kmerLen := P.kmerLength, start := false, newStartPos := -1,
        newStartPos2 := -1, walkDistance := 0, seeds := [] } {}
  else pure ([], {})

/-- What an iteration does to the rewind anchor and the k-mer length: a seed or a give-up
moves the anchor strictly forward and resets the k-mer length; a rewind keeps the anchor,
happens only above the minimum k-mer length, takes two off the k-mer length and puts the
cursor just after the anchor; a walk keeps anchor and k-mer length and moves the cursor one
position on. -/
def MoveFacts (P : Parameters) (move : DynMove) (st st1 : DynState) : Prop :=
  match move with
  | .seed => st.anchor < st1.anchor ∧ st1.kmerLen = P.kmerLength
  | .giveUp => st.anchor < st1.anchor ∧ st1.kmerLen = P.kmerLength ∧
      st.kmerLen ≤ P.minKmerLength
  | .rewind => st1.anchor = st.anchor ∧ st1.kmerLen = st.kmerLen - 2 ∧
      P.minKmerLength < st.kmerLen ∧ st1.i = st.anchor + 1
  | .walk => st1.anchor = st.anchor ∧ st1.kmerLen = st.kmerLen ∧ st1.i = st.i + 1

/-- Number of rewinds still possible at the current anchor when the k-mer length is `k`:
one for each of `k`, `k - 2`, ... above the minimum. -/
def rewindsLeft (P : Parameters) (k : Int) : Nat := ((k - P.minKmerLength + 1) / 2).toNat

/-- Seed length 1, minimum seed length 0, one position walked before the seed length is
reduced. -/
def shrinkParams : Parameters :=
  { exampleParams with kmerLength := 1, minKmerLength := 0, seedWalkDistance := fun _ => 1 }

/-- An index in which only the words `AC` and `C` occur (five times each, forward strand). -/
def suffixIndex : External :=
  { strandIndex with
    countSequenceOccurrencesSingleStrand :=
      fun w => if w = ['A', 'C'] ∨ w = ['C'] then 5 else 0 }

/-! ## Inputs at the edge of the parameter and count ranges -/

/-- An index in which `AA` has the combined count 6 and `AC` the combined count `2^31`
(the reverse complement is the identity of `exampleIndex`, so each count is doubled). -/
def wrapIndex : External :=
  { exampleIndex with
    countSequenceOccurrencesSingleStrand :=
      fun w => if w = ['A', 'A'] then 3 else if w = ['A', 'C'] then 1073741824 else 0 }

/-- Seed length 1, minimum seed length 0, and a walk-distance table with the entry 1 for the
k-mer length 1 and 2 for every other length. -/
def zeroFloorParams : Parameters :=
  { exampleParams with
    kmerLength := 1, minKmerLength := 0,
    seedWalkDistance := fun k => if k = 1 then 1 else 2 }

/-- An index in which only the words `A` and `AA` occur (five times each, forward strand). -/
def repeatAIndex : External :=
  { strandIndex with
    countSequenceOccurrencesSingleStrand :=
      fun w => if w = ['A'] ∨ w = ['A', 'A'] then 5 else 0 }

/-- The parameters of `exampleParams` with no target collected for a search. -/
def noTargetParams : Parameters := { exampleParams with collectedSeeds := 0 }

/-- Search trees whose multi-target search returns code 1 and the source extended by `G`
whatever the targets. -/
def eagerTrees : SearchTrees :=
  { failingTrees with gapMergeTwoSeedsUsingHash := fun src _ _ => (1, src ++ ['G']) }

/-! ## Theorems -/

theorem substr_length_le {s : Seq} {pos len : Int} {r : Seq}
    (h : substr s pos len = .ok r) (hl : 0 ≤ len) : (r.length : Int) ≤ len := by
  unfold substr at h
  split at h
  · cases h
  · cases h
    simp only [List.length_take, List.length_drop]
    rw [if_neg (by omega)]
    omega

theorem substr_ok_of_range (s : Seq) (pos len : Int) (h0 : 0 ≤ pos)
    (h1 : pos ≤ (s.length : Int)) : ∃ r, substr s pos len = .ok r := by
  unfold substr
  rw [if_neg (by omega)]
  exact ⟨_, rfl⟩

namespace FMIndexWalkProcess

theorem groupSolid_spec (E : External) (P : Parameters) (readSeq : Seq) :
    ∀ (fuel : Nat) (i seedLen : Int) (r : Int × Int),
      groupSolid E P readSeq fuel i seedLen = .ok r →
        r.1 - r.2 = i - seedLen ∧ seedLen ≤ r.2 := by
  intro fuel
  induction fuel with
  | zero => intro i seedLen r h; simp [groupSolid] at h
  | succ n ih =>
    intro i seedLen r h
    simp only [groupSolid] at h
    split at h
    · cases hs : substr readSeq i P.kmerLength with
      | error e => simp [hs, bind, Except.bind] at h
      | ok kmer =>
        simp only [hs, bind, Except.bind] at h
        split at h
        · have := ih _ _ _ h
          omega
        · simp [pure, Except.pure] at h
          subst h
          simp
    · simp [pure, Except.pure] at h
      subst h
      simp


theorem groupSolid_total (E : External) (P : Parameters) (readSeq : Seq)
    (hk : 0 ≤ P.kmerLength) :
    ∀ (fuel : Nat) (i seedLen : Int), 0 ≤ i →
      ((readSeq.length : Int) - i - P.kmerLength + 1).toNat < fuel →
        ∃ r, groupSolid E P readSeq fuel i seedLen = .ok r := by
  intro fuel
  induction fuel with
  | zero => intro i seedLen hi hf; omega
  | succ n ih =>
    intro i seedLen hi hf
    simp only [groupSolid]
    split
    · obtain ⟨kmer, hs⟩ := substr_ok_of_range readSeq i P.kmerLength hi (by omega)
      simp only [hs, bind, Except.bind]
      split
      · exact ih _ _ (by omega) (by omega)
      · exact ⟨_, rfl⟩
    · exact ⟨_, rfl⟩

theorem seedLoop_ordered (E : External) (P : Parameters) (readSeq : Seq)
    (hk : 1 ≤ P.kmerLength) :
    ∀ (fuel : Nat) (i : Int) (seeds out : List Seed),
      (∀ a ∈ seeds, a.1 < i ∧ seedEnd a ≤ i) → SeedsOrdered seeds →
      seedLoop E P readSeq fuel i seeds = .ok out → SeedsOrdered out := by
  intro fuel
  induction fuel with
  | zero => intro i seeds out _ _ h; simp [seedLoop] at h
  | succ n ih =>
    intro i seeds out hb ho h
    simp only [seedLoop] at h
    split at h
    · cases hs : substr readSeq i P.kmerLength with
      | error e => simp [hs, bind, Except.bind] at h
      | ok kmer =>
        simp only [hs, bind, Except.bind] at h
        split at h
        · cases hg : groupSolid E P readSeq n (i + 1) 0 with
          | error e => simp [hg] at h
          | ok r =>
            obtain ⟨i1, seedLen⟩ := r
            simp only [hg] at h
            cases hs2 : substr readSeq i (seedLen + P.kmerLength) with
            | error e => simp [hs2] at h
            | ok str =>
              simp only [hs2] at h
              have hg2 := groupSolid_spec E P readSeq _ _ _ _ hg
              simp only at hg2
              have hlen := substr_length_le hs2 (by omega)
              refine ih _ _ _ ?_ ?_ h
              · intro a ha
                rcases List.mem_append.1 ha with ha | ha
                · have := hb a ha
                  omega
                · simp only [List.mem_singleton] at ha
                  subst ha
                  simp only [seedEnd]
                  omega
              · refine List.pairwise_append.2 ⟨ho, List.pairwise_singleton _ _, ?_⟩
                intro a ha b hb2
                simp only [List.mem_singleton] at hb2
                subst hb2
                exact hb a ha
        · refine ih _ _ _ ?_ ho h
          intro a ha
          have := hb a ha
          omega
    · simp [pure, Except.pure] at h
      subst h
      exact ho

theorem seedLoop_total (E : External) (P : Parameters) (readSeq : Seq)
    (hk : 1 ≤ P.kmerLength) :
    ∀ (fuel : Nat) (i : Int) (seeds : List Seed), 0 ≤ i →
      ((readSeq.length : Int) - i - P.kmerLength + 1).toNat < fuel →
        ∃ out, seedLoop E P readSeq fuel i seeds = .ok out := by
  intro fuel
  induction fuel with
  | zero => intro i seeds hi hf; omega
  | succ n ih =>
    intro i seeds hi hf
    simp only [seedLoop]
    split
    · obtain ⟨kmer, hs⟩ := substr_ok_of_range readSeq i P.kmerLength hi (by omega)
      simp only [hs, bind, Except.bind]
      split
      · obtain ⟨r, hg⟩ := groupSolid_total E P readSeq (by omega) n (i + 1) 0 (by omega)
          (by omega)
        obtain ⟨i1, seedLen⟩ := r
        simp only [hg]
        obtain ⟨str, hs2⟩ := substr_ok_of_range readSeq i (seedLen + P.kmerLength) hi
          (by omega)
        simp only [hs2]
        have hg2 := groupSolid_spec E P readSeq _ _ _ _ hg
        simp only at hg2
        exact ih _ _ (by omega) (by omega)
      · exact ih _ _ (by omega) (by omega)
    · exact ⟨_, rfl⟩

end FMIndexWalkProcess

namespace PacBioCorrectionProcess

theorem pb_groupSolid_spec (E : External) (P : Parameters) (readSeq : Seq) :
    ∀ (fuel : Nat) (i seedLen : Int) (m : Nat) (r : Int × Int × Nat),
      groupSolid E P readSeq fuel i seedLen m = .ok r →
        r.1 - r.2.1 = i - seedLen ∧ seedLen ≤ r.2.1 := by
  intro fuel
  induction fuel with
  | zero => intro i seedLen m r h; simp [groupSolid] at h
  | succ n ih =>
    intro i seedLen m r h
    simp only [groupSolid] at h
    split at h
    · cases hs : substr readSeq i P.kmerLength with
      | error e => simp [hs, bind, Except.bind] at h
      | ok kmer =>
        simp only [hs, bind, Except.bind] at h
        split at h
        · have := ih _ _ _ _ h
          omega
        · simp [pure, Except.pure] at h
          subst h
          simp
    · simp [pure, Except.pure] at h
      subst h
      simp

theorem pb_groupSolid_total (E : External) (P : Parameters) (readSeq : Seq)
    (hk : 0 ≤ P.kmerLength) :
    ∀ (fuel : Nat) (i seedLen : Int) (m : Nat), 0 ≤ i →
      ((readSeq.length : Int) - i - P.kmerLength + 1).toNat < fuel →
        ∃ r, groupSolid E P readSeq fuel i seedLen m = .ok r := by
  intro fuel
  induction fuel with
  | zero => intro i seedLen m hi hf; omega
  | succ n ih =>
    intro i seedLen m hi hf
    simp only [groupSolid]
    split
    · obtain ⟨kmer, hs⟩ := substr_ok_of_range readSeq i P.kmerLength hi (by omega)
      simp only [hs, bind, Except.bind]
      split
      · exact ih _ _ _ (by omega) (by omega)
      · exact ⟨_, rfl⟩
    · exact ⟨_, rfl⟩

theorem pb_seedLoop_ordered (E : External) (P : Parameters) (readSeq : Seq) (cutoff : Nat)
    (hk : 1 ≤ P.kmerLength) :
    ∀ (fuel : Nat) (i : Int) (seeds out : List Seed),
      (∀ a ∈ seeds, a.1 < i ∧ seedEnd a ≤ i) → SeedsOrdered seeds →
      seedLoop E P readSeq cutoff fuel i seeds = .ok out → SeedsOrdered out := by
  intro fuel
  induction fuel with
  | zero => intro i seeds out _ _ h; simp [seedLoop] at h
  | succ n ih =>
    intro i seeds out hb ho h
    simp only [seedLoop] at h
    split at h
    · cases hs : substr readSeq i P.kmerLength with
      | error e => simp [hs, bind, Except.bind] at h
      | ok kmer =>
        simp only [hs, bind, Except.bind] at h
        split at h
        · cases hg : groupSolid E P readSeq n (i + 1) 0
              (E.countSequenceOccurrencesSingleStrand kmer
                + E.countSequenceOccurrencesSingleStrand (E.reverseComplement kmer)) with
          | error e => simp [hg] at h
          | ok r =>
            obtain ⟨i1, seedLen, mx⟩ := r
            simp only [hg] at h
            have hg2 := pb_groupSolid_spec E P readSeq _ _ _ _ _ hg
            simp only at hg2
            split at h
            · cases hs2 : substr readSeq i (seedLen + P.kmerLength) with
              | error e => simp [hs2] at h
              | ok str =>
                simp only [hs2] at h
                have hlen := substr_length_le hs2 (by omega)
                refine ih _ _ _ ?_ ?_ h
                · intro a ha
                  rcases List.mem_append.1 ha with ha | ha
                  · have := hb a ha
                    omega
                  · simp only [List.mem_singleton] at ha
                    subst ha
                    simp only [seedEnd]
                    omega
                · refine List.pairwise_append.2 ⟨ho, List.pairwise_singleton _ _, ?_⟩
                  intro a ha b hb2
                  simp only [List.mem_singleton] at hb2
                  subst hb2
                  exact hb a ha
            · refine ih _ _ _ ?_ ho h
              intro a ha
              have := hb a ha
              omega
        · refine ih _ _ _ ?_ ho h
          intro a ha
          have := hb a ha
          omega
    · simp [pure, Except.pure] at h
      subst h
      exact ho

theorem pb_seedLoop_total (E : External) (P : Parameters) (readSeq : Seq) (cutoff : Nat)
    (hk : 1 ≤ P.kmerLength) :
    ∀ (fuel : Nat) (i : Int) (seeds : List Seed), 0 ≤ i →
      ((readSeq.length : Int) - i - P.kmerLength + 1).toNat < fuel →
        ∃ out, seedLoop E P readSeq cutoff fuel i seeds = .ok out := by
  intro fuel
  induction fuel with
  | zero => intro i seeds hi hf; omega
  | succ n ih =>
    intro i seeds hi hf
    simp only [seedLoop]
    split
    · obtain ⟨kmer, hs⟩ := substr_ok_of_range readSeq i P.kmerLength hi (by omega)
      simp only [hs, bind, Except.bind]
      split
      · obtain ⟨r, hg⟩ := pb_groupSolid_total E P readSeq (by omega) n (i + 1) 0
          (E.countSequenceOccurrencesSingleStrand kmer
            + E.countSequenceOccurrencesSingleStrand (E.reverseComplement kmer))
          (by omega) (by omega)
        obtain ⟨i1, seedLen, mx⟩ := r
        simp only [hg]
        have hg2 := pb_groupSolid_spec E P readSeq _ _ _ _ _ hg
        simp only at hg2
        split
        · obtain ⟨str, hs2⟩ := substr_ok_of_range readSeq i (seedLen + P.kmerLength) hi
            (by omega)
          simp only [hs2]
          exact ih _ _ (by omega) (by omega)
        · exact ih _ _ (by omega) (by omega)
      · exact ih _ _ (by omega) (by omega)
    · exact ⟨_, rfl⟩

end PacBioCorrectionProcess

/-! ### The adaptive extractor -/

theorem substr_zero {s : Seq} {pos : Int} {r : Seq} (h : substr s pos 0 = .ok r) : r = [] := by
  unfold substr at h
  split at h
  · cases h
  · cases h
    simp

theorem substr_length_ge {s : Seq} {pos len : Int} {r : Seq}
    (h : substr s pos len = .ok r) (hl : 0 ≤ len) (hp : pos + len ≤ (s.length : Int)) :
    (r.length : Int) = len := by
  unfold substr at h
  split at h
  · cases h
  · cases h
    simp only [List.length_take, List.length_drop]
    rw [if_neg (by omega)]
    omega

theorem dynContiguous_ge (E : External) (P : Parameters) (readSeq : Seq) (k : Int) :
    ∀ (fuel : Nat) (i r : Int), dynContiguous E P readSeq k fuel i = .ok r →
      i ≤ r ∧ r + k ≤ (readSeq.length : Int) + 1 ∨ i ≤ r ∧ r = i := by
  intro fuel
  induction fuel with
  | zero => intro i r h; simp [dynContiguous] at h
  | succ n ih =>
    intro i r h
    simp only [dynContiguous] at h
    split at h
    · cases hs : substr readSeq i k with
      | error e => simp [hs, bind, Except.bind] at h
      | ok kmer =>
        simp only [hs, bind, Except.bind] at h
        split at h
        · simp [pure, Except.pure] at h
          omega
        · have := ih _ _ h
          omega
    · simp [pure, Except.pure] at h
      omega

theorem dynContiguous_zero (E : External) (P : Parameters) (readSeq : Seq)
    (hq : ¬ FMIndexWalkProcess.kmerFreqs E [] < P.seedKmerThreshold) :
    ∀ (fuel : Nat) (i r : Int), i ≤ (readSeq.length : Int) →
      dynContiguous E P readSeq 0 fuel i = .ok r → i + 1 ≤ r := by
  intro fuel i r hi h
  cases fuel with
  | zero => simp [dynContiguous] at h
  | succ n =>
    simp only [dynContiguous] at h
    rw [if_pos (by omega)] at h
    cases hs : substr readSeq i 0 with
    | error e => simp [hs, bind, Except.bind] at h
    | ok kmer =>
      simp only [hs, bind, Except.bind] at h
      have hk := substr_zero hs
      subst hk
      rw [if_neg hq] at h
      have := dynContiguous_ge E P readSeq 0 _ _ _ h
      omega

theorem dynLoop_ordered (E : External) (P : Parameters) (readSeq : Seq)
    (hk : 1 ≤ P.kmerLength) (hm : 1 ≤ P.minKmerLength) :
    ∀ (fuel : Nat) (st : DynState) (out : List Seed), DynInv E P readSeq st →
      dynLoop E P readSeq fuel st = .ok out → SeedsOrdered out := by
  intro fuel
  induction fuel with
  | zero => intro st out _ h; simp [dynLoop] at h
  | succ n ih =>
    intro st out hinv h
    obtain ⟨hk0, ⟨ha1, ha2⟩, hst, hbd, hJ, hord⟩ := hinv
    have hlink : st.seeds ≠ [] →
        (if st.start = false then st.newStartPos else st.newStartPos2) = st.newStartPos2 := by
      intro hne
      cases hstart : st.start
      · exact absurd (hst hstart) hne
      · simp
    simp only [dynLoop] at h
    set anchor := (if st.start = false then st.newStartPos else st.newStartPos2) with hanchor
    have hbd2 : ∀ s ∈ st.seeds, s.1 < anchor + 1 ∧ seedEnd s ≤ anchor + 1 := by
      intro s hsm
      have h1 := hbd s hsm
      have h2 := hlink (List.ne_nil_of_mem hsm)
      omega
    split at h
    next hcond =>
      cases hs : substr readSeq st.i st.kmerLen with
      | error e => simp [hs, bind, Except.bind] at h
      | ok kmer =>
        simp only [hs, bind, Except.bind] at h
        split at h
        next hq =>
          cases hg : dynContiguous E P readSeq st.kmerLen n (st.i + 1) with
          | error e => simp [hg] at h
          | ok i1 =>
            simp only [hg] at h
            cases hs2 : substr readSeq st.i (st.kmerLen + i1 - st.i - 1) with
            | error e => simp [hs2] at h
            | ok str =>
              simp only [hs2] at h
              have hge := dynContiguous_ge E P readSeq st.kmerLen _ _ _ hg
              have hlen1 : (1 : Int) ≤ str.length := by
                by_cases hk1 : st.kmerLen = 0
                · rw [hk1] at hs hg hs2
                  have hkm := substr_zero hs
                  subst hkm
                  have hlt : st.i < (readSeq.length : Int) := by
                    rcases hJ hk1 with h1 | h1
                    · exact h1
                    · omega
                  have h2 := dynContiguous_zero E P readSeq (by omega) _ _ _ (by omega) hg
                  have hge2 := dynContiguous_ge E P readSeq 0 _ _ _ hg
                  have := substr_length_ge hs2 (by omega) (by omega)
                  omega
                · have := substr_length_ge hs2 (by omega) (by omega)
                  omega
              refine ih _ _ ?_ h
              refine ⟨by simp only; omega, ?_, ?_, ?_, ?_, ?_⟩
              · simp only [Bool.true_eq_false, if_false]
                omega
              · simp
              · simp only
                intro s hsm
                rcases List.mem_append.1 hsm with hsm | hsm
                · have := hbd2 s hsm
                  omega
                · simp only [List.mem_singleton] at hsm
                  subst hsm
                  simp only [seedEnd]
                  omega
              · simp only
                intro h0
                omega
              · simp only
                refine List.pairwise_append.2 ⟨hord, List.pairwise_singleton _ _, ?_⟩
                intro a ha b hb2
                simp only [List.mem_singleton] at hb2
                subst hb2
                have := hbd2 a ha
                simp only
                omega
        next hq =>
          split at h
          · split at h
            · refine ih _ _ ?_ h
              refine ⟨by simp only; omega, ?_, ?_, ?_, ?_, hord⟩
              · simp only [ite_self]
                omega
              · simpa using hst
              · simp only
                intro s hsm
                have := hbd2 s hsm
                omega
              · simp only
                intro h0
                omega
            · refine ih _ _ ?_ h
              refine ⟨by simp only; omega, ?_, ?_, ?_, ?_, hord⟩
              · simp only
                rw [← hanchor]
                omega
              · simpa using hst
              · simpa using hbd
              · simp only
                intro h0
                left
                omega
          · refine ih _ _ ?_ h
            refine ⟨by simpa using hk0, ?_, ?_, ?_, ?_, hord⟩
            · simp only
              rw [← hanchor]
              omega
            · simpa using hst
            · simpa using hbd
            · simp only
              intro h0
              right
              rw [h0] at hs
              have := substr_zero hs
              subst this
              omega
    next hcond =>
      simp [pure, Except.pure] at h
      subst h
      exact hord

/-! ### Termination of the adaptive extractor -/

theorem dynContiguous_total (E : External) (P : Parameters) (readSeq : Seq) (k : Int)
    (hk : 0 ≤ k) :
    ∀ (fuel : Nat) (i : Int), 0 ≤ i → ((readSeq.length : Int) - i - k + 1).toNat < fuel →
      ∃ r, dynContiguous E P readSeq k fuel i = .ok r := by
  intro fuel
  induction fuel with
  | zero => intro i _ hf; omega
  | succ n ih =>
    intro i hi hf
    simp only [dynContiguous]
    split
    · obtain ⟨kmer, hs⟩ := substr_ok_of_range readSeq i k hi (by omega)
      simp only [hs, bind, Except.bind]
      split
      · exact ⟨_, rfl⟩
      · exact ih _ (by omega) (by omega)
    · exact ⟨_, rfl⟩

theorem dynContiguous_mono (E : External) (P : Parameters) (readSeq : Seq) (k : Int) :
    ∀ (fuel : Nat) (i r : Int), dynContiguous E P readSeq k fuel i = .ok r →
      ∀ fuel', fuel ≤ fuel' → dynContiguous E P readSeq k fuel' i = .ok r := by
  intro fuel
  induction fuel with
  | zero => intro i r h; simp [dynContiguous] at h
  | succ n ih =>
    intro i r h fuel' hf
    obtain ⟨m, rfl⟩ : ∃ m, fuel' = m + 1 := ⟨fuel' - 1, by omega⟩
    simp only [dynContiguous] at h ⊢
    split
    · rename_i hc
      rw [if_pos hc] at h
      cases hs : substr readSeq i k with
      | error e => simp [hs, bind, Except.bind] at h
      | ok kmer =>
        simp only [hs, bind, Except.bind] at h ⊢
        split
        · rename_i hq
          rw [if_pos hq] at h
          exact h
        · rename_i hq
          rw [if_neg hq] at h
          exact ih _ _ h m (by omega)
    · rename_i hc
      rw [if_neg hc] at h
      exact h

theorem dynLoop_total_aux (E : External) (P : Parameters) (readSeq : Seq)
    (hk : 1 ≤ P.kmerLength) (hm : 1 ≤ P.minKmerLength) :
    ∀ (A K I : Nat) (st : DynState),
      ((readSeq.length : Int) + 1 - st.anchor).toNat = A → st.kmerLen.toNat = K →
      ((readSeq.length : Int) + 1 - st.i).toNat = I → DynInv E P readSeq st →
      ∃ N out, ∀ fuel, N ≤ fuel → dynLoop E P readSeq fuel st = .ok out := by
  intro A
  induction A using Nat.strong_induction_on with
  | _ A ihA =>
  intro K
  induction K using Nat.strong_induction_on with
  | _ K ihK =>
  intro I
  induction I using Nat.strong_induction_on with
  | _ I ihI =>
  intro st hA hK hI hinv
  obtain ⟨hk0, ⟨ha1, ha2⟩, hst, hbd, hJ, hord⟩ := hinv
  have hlink : st.seeds ≠ [] → st.anchor = st.newStartPos2 := by
    intro hne
    unfold DynState.anchor
    cases hstart : st.start
    · exact absurd (hst hstart) hne
    · simp
  have hanc : st.anchor = (if st.start = false then st.newStartPos else st.newStartPos2) := rfl
  rw [← hanc] at ha1 ha2
  have hbd2 : ∀ s ∈ st.seeds, s.1 < st.anchor + 1 ∧ seedEnd s ≤ st.anchor + 1 := by
    intro s hsm
    have h1 := hbd s hsm
    have h2 := hlink (List.ne_nil_of_mem hsm)
    omega
  by_cases hcond : st.i + st.kmerLen ≤ (readSeq.length : Int)
  · obtain ⟨kmer, hs⟩ := substr_ok_of_range readSeq st.i st.kmerLen (by omega) (by omega)
    by_cases hq : FMIndexWalkProcess.kmerFreqs E kmer ≥ P.seedKmerThreshold
    · -- a seed starts here
      obtain ⟨i1, hg⟩ := dynContiguous_total E P readSeq st.kmerLen hk0
        (readSeq.length + 2) (st.i + 1) (by omega) (by omega)
      obtain ⟨str, hs2⟩ := substr_ok_of_range readSeq st.i (st.kmerLen + i1 - st.i - 1)
        (by omega) (by omega)
      have hge := dynContiguous_ge E P readSeq st.kmerLen _ _ _ hg
      have hlen1 : (1 : Int) ≤ str.length := by
        by_cases hk1 : st.kmerLen = 0
        · rw [hk1] at hs hg hs2
          have hkm := substr_zero hs
          subst hkm
          have hlt : st.i < (readSeq.length : Int) := by
            rcases hJ hk1 with h1 | h1
            · exact h1
            · omega
          have h2 := dynContiguous_zero E P readSeq (by omega) _ _ _ (by omega) hg
          have hge2 := dynContiguous_ge E P readSeq 0 _ _ _ hg
          have := substr_length_ge hs2 (by omega) (by omega)
          omega
        · have := substr_length_ge hs2 (by omega) (by omega)
          omega
      have hnext : ∃ N out, ∀ fuel, N ≤ fuel → dynLoop E P readSeq fuel
          { i := st.i + (str.length : Int) - 1 + 1, kmerLen := P.kmerLength, start := true,
            newStartPos := st.newStartPos, newStartPos2 := st.i + (str.length : Int) - 1,
            walkDistance := 0, seeds := st.seeds ++ [(st.i, str)] } = .ok out := by
        refine ihA (((readSeq.length : Int) + 1 - (st.i + (str.length : Int) - 1)).toNat) ?_
          _ _ _ ?_ rfl rfl ?_
        · omega
        · simp [DynState.anchor]
        · refine ⟨by simp only; omega, ?_, ?_, ?_, ?_, ?_⟩
          · simp only [Bool.true_eq_false, if_false]
            omega
          · simp
          · simp only
            intro s hsm
            rcases List.mem_append.1 hsm with hsm | hsm
            · have := hbd2 s hsm
              omega
            · simp only [List.mem_singleton] at hsm
              subst hsm
              simp only [seedEnd]
              omega
          · simp only
            intro h0
            omega
          · simp only
            refine List.pairwise_append.2 ⟨hord, List.pairwise_singleton _ _, ?_⟩
            intro a ha b hb2
            simp only [List.mem_singleton] at hb2
            subst hb2
            have := hbd2 a ha
            simp only
            omega
      obtain ⟨N, out, hN⟩ := hnext
      refine ⟨max N (readSeq.length + 2) + 1, out, ?_⟩
      intro fuel hfuel
      obtain ⟨f, rfl⟩ : ∃ f, fuel = f + 1 := ⟨fuel - 1, by omega⟩
      have hg' := dynContiguous_mono E P readSeq st.kmerLen _ _ _ hg f (by omega)
      simp only [dynLoop, if_pos hcond, hs, bind, Except.bind, if_pos hq, hg', hs2]
      exact hN f (by omega)
    · by_cases hwd : st.walkDistance + 1 ≥ P.seedWalkDistance st.kmerLen
      · by_cases hmin : st.kmerLen ≤ P.minKmerLength
        · -- give up at the smallest k-mer length: the anchor moves to `i`
          have hnext : ∃ N out, ∀ fuel, N ≤ fuel → dynLoop E P readSeq fuel
              { st with i := st.i + 1, kmerLen := P.kmerLength, newStartPos := st.i,
                        newStartPos2 := st.i, walkDistance := 0 } = .ok out := by
            refine ihA (((readSeq.length : Int) + 1 - st.i).toNat) ?_ _ _ _ ?_ rfl rfl ?_
            · omega
            · simp [DynState.anchor]
            · refine ⟨by simp only; omega, ?_, ?_, ?_, ?_, hord⟩
              · simp only [ite_self]
                omega
              · simpa using hst
              · simp only
                intro s hsm
                have := hbd2 s hsm
                omega
              · simp only
                intro h0
                omega
          obtain ⟨N, out, hN⟩ := hnext
          refine ⟨N + 1, out, ?_⟩
          intro fuel hfuel
          obtain ⟨f, rfl⟩ : ∃ f, fuel = f + 1 := ⟨fuel - 1, by omega⟩
          simp only [dynLoop, if_pos hcond, hs, bind, Except.bind, if_neg hq, if_pos hwd,
            if_pos hmin]
          exact hN f (by omega)
        · -- shrink the k-mer length and rewind to the anchor
          have hnext : ∃ N out, ∀ fuel, N ≤ fuel → dynLoop E P readSeq fuel
              { st with i := st.anchor + 1, kmerLen := st.kmerLen - 2, walkDistance := 0 }
                = .ok out := by
            refine ihK ((st.kmerLen - 2).toNat) ?_ _ _ ?_ rfl rfl ?_
            · omega
            · simp only [DynState.anchor] at hA ⊢
              exact hA
            · refine ⟨by simp only; omega, ?_, ?_, ?_, ?_, hord⟩
              · simp only
                rw [← hanc]
                omega
              · simpa using hst
              · simpa using hbd
              · simp only
                intro h0
                left
                omega
          obtain ⟨N, out, hN⟩ := hnext
          refine ⟨N + 1, out, ?_⟩
          intro fuel hfuel
          obtain ⟨f, rfl⟩ : ∃ f, fuel = f + 1 := ⟨fuel - 1, by omega⟩
          simp only [dynLoop, if_pos hcond, hs, bind, Except.bind, if_neg hq, if_pos hwd,
            if_neg hmin]
          exact hN f (by omega)
      · -- an ordinary step
        have hnext : ∃ N out, ∀ fuel, N ≤ fuel → dynLoop E P readSeq fuel
            { st with i := st.i + 1, walkDistance := st.walkDistance + 1 } = .ok out := by
          refine ihI (((readSeq.length : Int) + 1 - (st.i + 1)).toNat) ?_ _ ?_ ?_ rfl ?_
          · omega
          · simp only [DynState.anchor] at hA ⊢
            exact hA
          · simpa using hK
          · refine ⟨by simpa using hk0, ?_, ?_, ?_, ?_, hord⟩
            · simp only
              rw [← hanc]
              omega
            · simpa using hst
            · simpa using hbd
            · simp only
              intro h0
              right
              rw [h0] at hs
              have := substr_zero hs
              subst this
              omega
        obtain ⟨N, out, hN⟩ := hnext
        refine ⟨N + 1, out, ?_⟩
        intro fuel hfuel
        obtain ⟨f, rfl⟩ : ∃ f, fuel = f + 1 := ⟨fuel - 1, by omega⟩
        simp only [dynLoop, if_pos hcond, hs, bind, Except.bind, if_neg hq, if_neg hwd]
        exact hN f (by omega)
  · refine ⟨1, st.seeds, ?_⟩
    intro fuel hfuel
    obtain ⟨f, rfl⟩ : ∃ f, fuel = f + 1 := ⟨fuel - 1, by omega⟩
    simp only [dynLoop, if_neg hcond]
    rfl

/-- With enough step budget the adaptive extractor returns. -/
theorem findSeedsUsingDynamicKmerLen_total (E : External) (P : Parameters) (readSeq : Seq)
    (hk : 1 ≤ P.kmerLength) (hm : 1 ≤ P.minKmerLength) :
    ∃ N seeds, ∀ fuel, N ≤ fuel → findSeedsUsingDynamicKmerLen fuel E P readSeq = .ok seeds := by
  unfold findSeedsUsingDynamicKmerLen
  split
  · refine dynLoop_total_aux E P readSeq hk hm _ _ _ _ rfl rfl rfl ?_
    refine ⟨by simp only; omega, ?_, ?_, ?_, ?_, List.Pairwise.nil⟩
    · simp
    · simp
    · simp
    · simp only
      intro h0
      omega
  · exact ⟨0, [], fun _ _ => rfl⟩

/-- C1 (amended): for `kmerLength >= 1` and `minKmerLength >= 1`, and every read, index,
cutoff and walk-distance table, the seeds returned by the two fixed-k extractors and by the
adaptive extractor have strictly increasing positions and no seed reaches into a later one
(`t.position >= s.position + length(s.substring)`); each extractor does return: the fixed-k
extractors within `readLen + 2` loop tests, the adaptive one with enough step budget. -/
theorem seeds_ordered_nonoverlapping (E : External) (P : Parameters) (readSeq : Seq)
    (contaminatedCutoff : Nat) (hk : 1 ≤ P.kmerLength) (hm : 1 ≤ P.minKmerLength) :
    (∀ fuel seeds, FMIndexWalkProcess.searchingSeedsUsingSolidKmer fuel E P readSeq = .ok seeds →
        SeedsOrdered seeds) ∧
    (∃ seeds, FMIndexWalkProcess.searchingSeedsUsingSolidKmer (readSeq.length + 2) E P readSeq
        = .ok seeds) ∧
    (∀ fuel seeds, PacBioCorrectionProcess.searchingSeedsUsingSolidKmer fuel E P readSeq
        contaminatedCutoff = .ok seeds → SeedsOrdered seeds) ∧
    (∃ seeds, PacBioCorrectionProcess.searchingSeedsUsingSolidKmer (readSeq.length + 2) E P
        readSeq contaminatedCutoff = .ok seeds) ∧
    (∀ fuel seeds, findSeedsUsingDynamicKmerLen fuel E P readSeq = .ok seeds →
        SeedsOrdered seeds) ∧
    (∃ N seeds, ∀ fuel, N ≤ fuel →
        findSeedsUsingDynamicKmerLen fuel E P readSeq = .ok seeds) := by
  refine ⟨?_, ?_, ?_, ?_, ?_, findSeedsUsingDynamicKmerLen_total E P readSeq hk hm⟩
  · intro fuel seeds h
    unfold FMIndexWalkProcess.searchingSeedsUsingSolidKmer at h
    split at h
    · exact FMIndexWalkProcess.seedLoop_ordered E P readSeq hk fuel 0 [] seeds (by simp)
        List.Pairwise.nil h
    · cases h
      exact List.Pairwise.nil
  · unfold FMIndexWalkProcess.searchingSeedsUsingSolidKmer
    split
    · exact FMIndexWalkProcess.seedLoop_total E P readSeq hk _ 0 [] (le_refl 0) (by omega)
    · exact ⟨_, rfl⟩
  · intro fuel seeds h
    unfold PacBioCorrectionProcess.searchingSeedsUsingSolidKmer at h
    split at h
    · exact PacBioCorrectionProcess.pb_seedLoop_ordered E P readSeq contaminatedCutoff hk fuel 0 []
        seeds (by simp) List.Pairwise.nil h
    · cases h
      exact List.Pairwise.nil
  · unfold PacBioCorrectionProcess.searchingSeedsUsingSolidKmer
    split
    · exact PacBioCorrectionProcess.pb_seedLoop_total E P readSeq contaminatedCutoff hk _ 0 []
        (le_refl 0) (by omega)
    · exact ⟨_, rfl⟩
  · intro fuel seeds h
    unfold findSeedsUsingDynamicKmerLen at h
    split at h
    · refine dynLoop_ordered E P readSeq hk hm fuel _ seeds ?_ h
      refine ⟨by simp only; omega, ?_, ?_, ?_, ?_, List.Pairwise.nil⟩
      · simp
      · simp
      · simp
      · simp only
        intro h0
        omega
    · cases h
      exact List.Pairwise.nil

/-- The theorem `seeds_ordered_nonoverlapping` at the read `GAAGCCT` over the index in which
only `AA` and `CC` are solid: each of the three extractors returns the two seeds `AA` at 1 and
`CC` at 4, and the second starts where the first has ended. -/
theorem seeds_ordered_nonoverlapping_witness :
    (1 : Int) ≤ exampleParams.kmerLength ∧ (1 : Int) ≤ exampleParams.minKmerLength ∧
    FMIndexWalkProcess.searchingSeedsUsingSolidKmer 9 islandIndex exampleParams
      ['G', 'A', 'A', 'G', 'C', 'C', 'T'] = .ok [(1, ['A', 'A']), (4, ['C', 'C'])] ∧
    PacBioCorrectionProcess.searchingSeedsUsingSolidKmer 9 islandIndex exampleParams
      ['G', 'A', 'A', 'G', 'C', 'C', 'T'] 100 = .ok [(1, ['A', 'A']), (4, ['C', 'C'])] ∧
    findSeedsUsingDynamicKmerLen 12 islandIndex exampleParams
      ['G', 'A', 'A', 'G', 'C', 'C', 'T'] = .ok [(1, ['A', 'A']), (4, ['C', 'C'])] ∧
    SeedsOrdered [((1 : Int), ['A', 'A']), (4, ['C', 'C'])] ∧
    ((1 : Int) < 4 ∧ seedEnd (1, ['A', 'A']) ≤ 4) :=
  ⟨by decide, by decide, by decide, by decide, by decide,
    (seeds_ordered_nonoverlapping islandIndex exampleParams
      ['G', 'A', 'A', 'G', 'C', 'C', 'T'] 100 (by decide) (by decide)).2.2.2.2.1 12 _
      (by decide),
    List.rel_of_pairwise_cons
      ((seeds_ordered_nonoverlapping islandIndex exampleParams
        ['G', 'A', 'A', 'G', 'C', 'C', 'T'] 100 (by decide) (by decide)).1 9
        [(1, ['A', 'A']), (4, ['C', 'C'])] (by decide))
      (List.mem_singleton.2 rfl)⟩

/-- C1 (counterexample). With `kmerLength = 1`, `minKmerLength = 0` and a walk-distance table
with the entries 1 for the length 1 and 2 otherwise, over an index in which only `A` and `AA`
occur, the adaptive extractor on the read `GAA` drops the k-mer length from 1 to -1 after the
miss at `G`, finds `AA` at position 1 with `substr(1, -1)`, extends the run while the empty
k-mers `substr(2, -1)` and `substr(3, -1)` are looked up, and pushes `substr(1, 0)`, the empty
seed at 1; back at the k-mer length 1 it then pushes the seed `AA` at 1. The two seeds have
the same position. -/
theorem findSeeds_repeats_position_with_zero_minimum :
    zeroFloorParams.kmerLength = 1 ∧ zeroFloorParams.minKmerLength = 0 ∧
    findSeedsUsingDynamicKmerLen 30 repeatAIndex zeroFloorParams ['G', 'A', 'A']
      = .ok [(1, []), (1, ['A', 'A'])] ∧
    ¬ SeedsOrdered [((1 : Int), ([] : Seq)), (1, ['A', 'A'])] := by
  refine ⟨rfl, rfl, by decide, fun h => ?_⟩
  have := (List.rel_of_pairwise_cons h (List.mem_singleton.2 rfl)).1
  exact absurd this (by decide)

/-! ### Trimming -/

namespace FMIndexWalkProcess

theorem nextMer_ok (kmer : Seq) (dir : NextKmerDir) (b : Char) (h : 1 ≤ kmer.length) :
    ∃ r, nextMer kmer dir b = .ok r := by
  unfold nextMer
  cases dir with
  | NK_START =>
    obtain ⟨r, hr⟩ := substr_ok_of_range kmer 0 ((kmer.length : Int) - 1) (le_refl 0) (by omega)
    simp only [hr, bind, Except.bind]
    exact ⟨_, rfl⟩
  | NK_END =>
    obtain ⟨r, hr⟩ := substr_ok_of_range kmer 1 ((kmer.length : Int) - 1) (by omega) (by omega)
    simp only [hr, bind, Except.bind]
    exact ⟨_, rfl⟩

theorem numNextKmer_ok (E : External) (kmer : Seq) (dir : NextKmerDir) (threshold : Nat)
    (h : 1 ≤ kmer.length) : ∃ n, numNextKmer E kmer dir threshold = .ok n := by
  obtain ⟨a, ha⟩ := nextMer_ok kmer dir 'A' h
  obtain ⟨t, ht⟩ := nextMer_ok kmer dir 'T' h
  obtain ⟨c, hc⟩ := nextMer_ok kmer dir 'C' h
  obtain ⟨g, hg⟩ := nextMer_ok kmer dir 'G' h
  simp only [numNextKmer, nBases, List.foldlM, ha, ht, hc, hg, bind, Except.bind, pure,
    Except.pure]
  exact ⟨_, rfl⟩

theorem substr_kmer_ok (readSeq : Seq) (k : Nat) (pos : Int) (hk : 1 ≤ k) (h0 : 0 ≤ pos)
    (h1 : pos + k ≤ (readSeq.length : Int)) :
    ∃ kmer, substr readSeq pos k = .ok kmer ∧ 1 ≤ kmer.length := by
  obtain ⟨kmer, hs⟩ := substr_ok_of_range readSeq pos k h0 (by omega)
  have := substr_length_ge hs (by omega) h1
  exact ⟨kmer, hs, by omega⟩

theorem trimHead_spec (E : External) (readSeq : Seq) (k : Nat) (tail : Int) (hk : 1 ≤ k)
    (ht : tail + k ≤ (readSeq.length : Int)) :
    ∀ (fuel : Nat) (head : Int), 0 ≤ head → (tail - head + 1).toNat < fuel →
      ∃ h, trimHead E readSeq k tail fuel head = .ok h ∧ head ≤ h ∧ (h ≤ tail + 1 ∨ h = head) := by
  intro fuel
  induction fuel with
  | zero => intro head _ hf; omega
  | succ n ih =>
    intro head h0 hf
    simp only [trimHead]
    split
    · obtain ⟨kmer, hs, hl⟩ := substr_kmer_ok readSeq k head hk h0 (by omega)
      obtain ⟨m, hm⟩ := numNextKmer_ok E kmer .NK_START 1 hl
      simp only [hs, hm, bind, Except.bind]
      split
      · exact ⟨head, rfl, le_refl _, Or.inr rfl⟩
      · obtain ⟨h, hh, h1, h2⟩ := ih (head + 1) (by omega) (by omega)
        exact ⟨h, hh, by omega, by omega⟩
    · exact ⟨head, rfl, le_refl _, Or.inr rfl⟩

theorem trimTail_spec (E : External) (readSeq : Seq) (k : Nat) (head : Int) (hk : 1 ≤ k)
    (hh : 0 ≤ head) :
    ∀ (fuel : Nat) (tail : Int), tail + k ≤ (readSeq.length : Int) →
      (tail - head + 1).toNat < fuel →
      ∃ t, trimTail E readSeq k head fuel tail = .ok t ∧ t ≤ tail ∧ (head - 1 ≤ t ∨ t = tail) := by
  intro fuel
  induction fuel with
  | zero => intro tail _ hf; omega
  | succ n ih =>
    intro tail ht hf
    simp only [trimTail]
    split
    · obtain ⟨kmer, hs, hl⟩ := substr_kmer_ok readSeq k tail hk (by omega) ht
      obtain ⟨m, hm⟩ := numNextKmer_ok E kmer .NK_END 1 hl
      simp only [hs, hm, bind, Except.bind]
      split
      · exact ⟨tail, rfl, le_refl _, Or.inr rfl⟩
      · obtain ⟨t, htt, h1, h2⟩ := ih (tail - 1) (by omega) (by omega)
        exact ⟨t, htt, by omega, by omega⟩
    · exact ⟨tail, rfl, le_refl _, Or.inr rfl⟩

theorem substr_infix {s r : Seq} {pos len : Int} (h : substr s pos len = .ok r) : r <:+: s := by
  unfold substr at h
  split at h
  · cases h
  · cases h
    exact (List.take_prefix _ _).isInfix.trans (List.drop_suffix _ _).isInfix

end FMIndexWalkProcess

/-- C3: for a k-mer length of at least one and a read of length at least k, `trimRead`
returns (for every step budget of at least the read length) a contiguous substring of the
read, possibly empty, hence a result no longer than the read. -/
theorem trimRead_returns_substring (E : External) (readSeq : Seq) (kmerLength fuel : Nat)
    (hk : 1 ≤ kmerLength) (hlen : kmerLength ≤ readSeq.length) (hfuel : readSeq.length ≤ fuel) :
    ∃ out, FMIndexWalkProcess.trimRead fuel E readSeq kmerLength = .ok out ∧
      out <:+: readSeq ∧ out.length ≤ readSeq.length := by
  open FMIndexWalkProcess in
  suffices hmain : ∃ out, trimRead fuel E readSeq kmerLength = .ok out ∧ out <:+: readSeq by
    obtain ⟨out, h1, h2⟩ := hmain
    exact ⟨out, h1, h2, h2.length_le⟩
  obtain ⟨hkm, hs, hl⟩ := FMIndexWalkProcess.substr_kmer_ok readSeq kmerLength 0 hk (le_refl 0)
    (by omega)
  obtain ⟨nH, hnH⟩ := FMIndexWalkProcess.numNextKmer_ok E hkm .NK_START 1 hl
  obtain ⟨tkm, hts, htl⟩ := FMIndexWalkProcess.substr_kmer_ok readSeq kmerLength
    ((readSeq.length : Int) - (kmerLength : Int)) hk (by omega) (by omega)
  obtain ⟨nT, hnT⟩ := FMIndexWalkProcess.numNextKmer_ok E tkm .NK_END 1 htl
  have hHead : ∃ head, (if nH = 0 then
        FMIndexWalkProcess.trimHead E readSeq kmerLength
          ((readSeq.length : Int) - (kmerLength : Int)) fuel (0 + 1)
      else (pure 0 : Run Int)) = .ok head ∧ 0 ≤ head := by
    split
    · obtain ⟨h, hh, h1, _⟩ := FMIndexWalkProcess.trimHead_spec E readSeq kmerLength
        ((readSeq.length : Int) - (kmerLength : Int)) hk (by omega) fuel (0 + 1) (by omega)
        (by omega)
      exact ⟨h, hh, by omega⟩
    · exact ⟨0, rfl, le_refl 0⟩
  obtain ⟨head, hhead, hhead0⟩ := hHead
  have hTail : ∃ tail, (if nT = 0 then
        FMIndexWalkProcess.trimTail E readSeq kmerLength head fuel
          ((readSeq.length : Int) - (kmerLength : Int) - 1)
      else (pure ((readSeq.length : Int) - (kmerLength : Int)) : Run Int)) = .ok tail ∧
      tail + kmerLength ≤ (readSeq.length : Int) := by
    split
    · obtain ⟨t, ht, h1, _⟩ := FMIndexWalkProcess.trimTail_spec E readSeq kmerLength head hk
        hhead0 fuel ((readSeq.length : Int) - (kmerLength : Int) - 1) (by omega) (by omega)
      exact ⟨t, ht, by omega⟩
    · exact ⟨_, rfl, by omega⟩
  obtain ⟨tail, htail, htailb⟩ := hTail
  simp only [FMIndexWalkProcess.trimRead, hs, hnH, hhead, hts, hnT, htail, bind, Except.bind]
  split
  · exact ⟨[], rfl, List.nil_infix⟩
  · obtain ⟨r, hr⟩ := substr_ok_of_range readSeq head (tail - head + (kmerLength : Int)) hhead0
      (by omega)
    exact ⟨r, hr, FMIndexWalkProcess.substr_infix hr⟩

theorem trimRead_returns_substring_witness :
    1 ≤ 2 ∧ 2 ≤ ['A', 'C', 'G', 'T'].length ∧ ['A', 'C', 'G', 'T'].length ≤ 4 ∧
    ∃ out, FMIndexWalkProcess.trimRead 4 exampleIndex ['A', 'C', 'G', 'T'] 2 = .ok out ∧
      out <:+: ['A', 'C', 'G', 'T'] ∧ out.length ≤ ['A', 'C', 'G', 'T'].length :=
  ⟨by decide, by decide, by decide,
    trimRead_returns_substring exampleIndex ['A', 'C', 'G', 'T'] 2 4 (by decide) (by decide)
      (by decide)⟩

/-! ### Segmentation -/

theorem tiles_append {s m b : Nat} {ivs : List (Nat × Nat)} (h : Tiles s ivs m) (hb : m ≤ b) :
    Tiles s (ivs ++ [(m, b)]) (b + 1) := by
  induction ivs generalizing s with
  | nil =>
    simp only [Tiles] at h
    subst h
    simp [Tiles, hb]
  | cons iv rest ih =>
    simp only [Tiles] at h
    simp only [List.cons_append, Tiles]
    exact ⟨h.1, h.2.1, ih h.2.2⟩

theorem tiles_isPartition {ivs : List (Nat × Nat)} {e : Nat} (h : Tiles 0 ivs e)
    (hne : ivs ≠ []) : IsPartition ivs e := by
  have key : ∀ (l : List (Nat × Nat)) (s : Nat), Tiles s l e → l ≠ [] →
      l.head?.map Prod.fst = some s ∧ (∀ iv ∈ l, iv.1 ≤ iv.2) ∧
      l.Chain' (fun a b => b.1 = a.2 + 1) ∧
      l.getLast?.map (fun iv => iv.2 + 1) = some e := by
    intro l
    induction l with
    | nil => intro s _ h; exact absurd rfl h
    | cons iv rest ih =>
      intro s ht _
      simp only [Tiles] at ht
      obtain ⟨h1, h2, h3⟩ := ht
      cases rest with
      | nil =>
        simp only [Tiles] at h3
        refine ⟨by simp [h1], ?_, List.chain'_singleton _, by simp [h3]⟩
        intro x hx
        simp only [List.mem_singleton] at hx
        subst hx
        exact h2
      | cons iv2 rest2 =>
        obtain ⟨g1, g2, g3, g4⟩ := ih (iv.2 + 1) h3 (by simp)
        refine ⟨by simp [h1], ?_, ?_, ?_⟩
        · intro x hx
          rcases List.mem_cons.1 hx with hx | hx
          · subst hx; exact h2
          · exact g2 x hx
        · refine List.chain'_cons.2 ⟨?_, g3⟩
          simpa using g1
        · rw [List.getLast?_cons_cons]
          exact g4
  exact key ivs 0 h hne

theorem cutLoop_tiles (cut : Nat → Run Bool) :
    ∀ (remaining p start : Nat) (ivs : List (Nat × Nat)) (r : List (Nat × Nat) × Nat),
      start < p → Tiles 0 ivs start → cutLoop cut remaining p start ivs = .ok r →
        Tiles 0 r.1 r.2 ∧ r.2 < p + remaining := by
  intro remaining
  induction remaining with
  | zero =>
    intro p start ivs r hs ht h
    simp only [cutLoop, pure, Except.pure] at h
    cases h
    exact ⟨ht, by simpa using hs⟩
  | succ n ih =>
    intro p start ivs r hs ht h
    simp only [cutLoop, bind, Except.bind] at h
    cases hc : cut p with
    | error e => simp [hc] at h
    | ok b =>
      simp only [hc] at h
      cases b with
      | true =>
        simp only [if_true] at h
        have ht2 : Tiles 0 (ivs ++ [(start, p - 1)]) p := by
          have := tiles_append ht (show start ≤ p - 1 by omega)
          rwa [show p - 1 + 1 = p by omega] at this
        have := ih (p + 1) p _ r (by omega) ht2 h
        exact ⟨this.1, by omega⟩
      | false =>
        simp only [Bool.false_eq_true, if_false] at h
        have := ih (p + 1) start _ r (by omega) ht h
        exact ⟨this.1, by omega⟩

theorem cutLoop_total (cut : Nat → Run Bool) :
    ∀ (remaining p start : Nat) (ivs : List (Nat × Nat)),
      (∀ q, p ≤ q → q < p + remaining → ∃ b, cut q = .ok b) →
        ∃ r, cutLoop cut remaining p start ivs = .ok r := by
  intro remaining
  induction remaining with
  | zero => intro p start ivs _; exact ⟨_, rfl⟩
  | succ n ih =>
    intro p start ivs hcut
    obtain ⟨b, hb⟩ := hcut p (le_refl _) (by omega)
    simp only [cutLoop, bind, Except.bind, hb]
    cases b with
    | true =>
      simp only [if_true]
      exact ih _ _ _ (fun q h1 h2 => hcut q (by omega) (by omega))
    | false =>
      simp only [Bool.false_eq_true, if_false]
      exact ih _ _ _ (fun q h1 h2 => hcut q (by omega) (by omega))

theorem cutIntervals_tiles (cut : Nat → Run Bool) (numKmer : Nat) (hn : 1 ≤ numKmer)
    (hcut : ∀ q, 1 ≤ q → q < numKmer → ∃ b, cut q = .ok b) :
    ∃ ivs, cutIntervals cut numKmer = .ok ivs ∧ Tiles 0 ivs numKmer ∧ ivs ≠ [] := by
  obtain ⟨r, hr⟩ := cutLoop_total cut (numKmer - 1) 1 0 []
    (fun q h1 h2 => hcut q h1 (by omega))
  have ht := cutLoop_tiles cut _ _ _ _ r (by omega) (by simp [Tiles]) hr
  obtain ⟨ivs, start⟩ := r
  simp only [cutIntervals, hr, bind, Except.bind, pure, Except.pure]
  refine ⟨_, rfl, ?_, by simp⟩
  have := tiles_append ht.1 (show start ≤ numKmer - 1 by simp only at ht; omega)
  rwa [show numKmer - 1 + 1 = numKmer by omega] at this

/-- Whenever the cut test succeeds at every position, the intervals tile `[0, numKmer-1]`. -/
theorem cutIntervals_partition (cut : Nat → Run Bool) (numKmer : Nat) (hn : 1 ≤ numKmer)
    (hcut : ∀ q, 1 ≤ q → q < numKmer → ∃ b, cut q = .ok b) :
    ∃ ivs, cutIntervals cut numKmer = .ok ivs ∧ IsPartition ivs numKmer := by
  obtain ⟨ivs, h1, h2, h3⟩ := cutIntervals_tiles cut numKmer hn hcut
  exact ⟨ivs, h1, tiles_isPartition h2 h3⟩

theorem tiles_bounds {s e : Nat} {ivs : List (Nat × Nat)} (h : Tiles s ivs e) :
    ∀ iv ∈ ivs, s ≤ iv.1 ∧ iv.1 ≤ iv.2 ∧ iv.2 < e := by
  induction ivs generalizing s with
  | nil => intro iv hiv; simp at hiv
  | cons a rest ih =>
    simp only [Tiles] at h
    obtain ⟨h1, h2, h3⟩ := h
    have hrest := ih h3
    have hle : a.2 + 1 ≤ e := by
      cases rest with
      | nil => simp only [Tiles] at h3; omega
      | cons b rest2 =>
        have := hrest b (List.mem_cons_self _ _)
        omega
    intro iv hiv
    rcases List.mem_cons.1 hiv with hiv | hiv
    · subst hiv; omega
    · have := hrest iv hiv
      omega

theorem mapM_ok {α β : Type} (f : α → Run β) :
    ∀ (l : List α), (∀ a ∈ l, ∃ b, f a = .ok b) →
      ∃ r, l.mapM f = .ok r ∧ r.length = l.length := by
  intro l
  induction l with
  | nil => intro _; exact ⟨[], by rw [List.mapM_nil]; rfl, rfl⟩
  | cons a rest ih =>
    intro h
    obtain ⟨b, hb⟩ := h a (List.mem_cons_self _ _)
    obtain ⟨r, hr, hl⟩ := ih (fun x hx => h x (List.mem_cons_of_mem _ hx))
    exact ⟨b :: r, by rw [List.mapM_cons, hb, hr]; rfl, by simp [hl]⟩

theorem vecAt_ok {α : Type} (v : List α) (i : Nat) (h : i < v.length) :
    ∃ x, vecAt v i = .ok x := by
  unfold vecAt
  rw [List.getElem?_eq_getElem h]
  exact ⟨_, rfl⟩

namespace FMIndexWalkProcess

theorem isSimple_ok (E : External) (Lkmer Rkmer : Seq) (threshold : Nat)
    (hL : 1 ≤ Lkmer.length) (hR : 1 ≤ Rkmer.length) :
    ∃ b, isSimple E Lkmer Rkmer threshold = .ok b := by
  obtain ⟨a, ha⟩ := numNextKmer_ok E Lkmer .NK_END threshold hL
  obtain ⟨c, hc⟩ := numNextKmer_ok E Rkmer .NK_START threshold hR
  simp only [isSimple, ha, hc, bind, Except.bind]
  exact ⟨_, rfl⟩

end FMIndexWalkProcess

theorem build_numKmer (E : External) (seq : Seq) (k : Nat) (hlen : k ≤ seq.length) :
    (KmerContext.build E seq k).numKmer = seq.length - k + 1 ∧
    (KmerContext.build E seq k).kmerFreqs_same.length = seq.length - k + 1 ∧
    (KmerContext.build E seq k).kmerFreqs_revc.length = seq.length - k + 1 ∧
    (KmerContext.build E seq k).readSeq = seq ∧
    (KmerContext.build E seq k).kmerLength = k ∧
    ∀ p, p < seq.length - k + 1 →
      (KmerContext.build E seq k).kmers.getD p [] = (seq.drop p).take k := by
  unfold KmerContext.build
  rw [if_pos hlen]
  refine ⟨rfl, by simp, by simp, rfl, rfl, ?_⟩
  intro p hp
  simp only
  rw [List.getD_eq_getElem _ _ (by simpa using hp)]
  simp

namespace FMIndexWalkProcess

theorem countQualifiedOf_ok (E : External) (seq : Seq) (k threshold : Nat)
    (hlen : k ≤ seq.length) :
    ∃ cq, countQualifiedOf (KmerContext.build E seq k) threshold = .ok cq ∧
      cq.length = seq.length - k + 1 := by
  obtain ⟨h1, h2, h3, _⟩ := build_numKmer E seq k hlen
  unfold countQualifiedOf
  have key : ∀ i ∈ List.range (KmerContext.build E seq k).numKmer, ∃ b,
      (do
        let same ← vecAt (KmerContext.build E seq k).kmerFreqs_same i
        let revc ← vecAt (KmerContext.build E seq k).kmerFreqs_revc i
        (pure ((if same ≥ threshold then 1 else 0) + (if revc ≥ threshold then 1 else 0))
          : Run Nat)) = .ok b := ?_
  · obtain ⟨r, hr, hl⟩ := mapM_ok _ _ key
    exact ⟨r, hr, by rw [hl, List.length_range, h1]⟩
  intro i hi
  rw [h1] at hi
  have hi' : i < seq.length - k + 1 := List.mem_range.1 hi
  obtain ⟨a, ha⟩ := vecAt_ok (KmerContext.build E seq k).kmerFreqs_same i (by omega)
  obtain ⟨b, hb⟩ := vecAt_ok (KmerContext.build E seq k).kmerFreqs_revc i (by omega)
  simp only [ha, hb, bind, Except.bind]
  exact ⟨_, rfl⟩

theorem repeatQualifiedOf_ok (E : External) (seq : Seq) (k : Nat) (hlen : k ≤ seq.length) :
    ∃ cq, repeatQualifiedOf E (KmerContext.build E seq k) = .ok cq := by
  obtain ⟨h1, h2, h3, _⟩ := build_numKmer E seq k hlen
  unfold repeatQualifiedOf
  refine (mapM_ok _ _ ?_).imp (fun _ h => h.1)
  intro i hi
  rw [h1] at hi
  have hi' : i < seq.length - k + 1 := List.mem_range.1 hi
  obtain ⟨a, ha⟩ := vecAt_ok (KmerContext.build E seq k).kmerFreqs_same i (by omega)
  obtain ⟨b, hb⟩ := vecAt_ok (KmerContext.build E seq k).kmerFreqs_revc i (by omega)
  simp only [ha, hb, bind, Except.bind]
  exact ⟨_, rfl⟩

theorem splitReadCut_ok (E : External) (seq : Seq) (k : Nat) (cq : List Nat) (p : Nat)
    (hk : 1 ≤ k) (hlen : k ≤ seq.length) (hp1 : 1 ≤ p) (hp : p < seq.length - k + 1) :
    ∃ b, splitReadCut E (KmerContext.build E seq k) cq p = .ok b := by
  obtain ⟨_, _, _, _, _, hkm⟩ := build_numKmer E seq k hlen
  unfold splitReadCut
  split
  · exact ⟨_, rfl⟩
  · obtain ⟨b, hb⟩ := isSimple_ok E ((KmerContext.build E seq k).kmers.getD (p - 1) [])
      ((KmerContext.build E seq k).kmers.getD p []) 1
      (by rw [hkm (p - 1) (by omega)]; simp; omega)
      (by rw [hkm p hp]; simp; omega)
    simp only [hb, bind, Except.bind]
    exact ⟨_, rfl⟩

theorem streamCut_ok (E : External) (P : Parameters) (seq : Seq) (cq : List Nat) (p : Nat)
    (hk : 1 ≤ P.kmerLength) (hp1 : 1 ≤ p)
    (hp : (p : Int) + P.kmerLength ≤ (seq.length : Int)) :
    ∃ b, streamCut E P seq cq p = .ok b := by
  unfold streamCut
  split
  · exact ⟨_, rfl⟩
  · obtain ⟨L, hL⟩ := substr_ok_of_range seq ((p : Int) - 1) P.kmerLength (by omega) (by omega)
    obtain ⟨R, hR⟩ := substr_ok_of_range seq (p : Int) P.kmerLength (by omega) (by omega)
    have hLl := substr_length_ge hL (by omega) (by omega)
    have hRl := substr_length_ge hR (by omega) (by omega)
    obtain ⟨b, hb⟩ := isSimple_ok E L R 1 (by omega) (by omega)
    simp only [hL, hR, hb, bind, Except.bind]
    exact ⟨_, rfl⟩

theorem recompute_ok (E : External) (P : Parameters) (seq : Seq) (pos : Int)
    (st : StreamState) (h0 : 0 ≤ pos) (h1 : pos ≤ (seq.length : Int)) :
    ∃ st1, recompute E P seq pos st = .ok st1 ∧ st1.i = st.i ∧
      st1.currKmerSize = P.kmerLength := by
  obtain ⟨w, hw⟩ := substr_ok_of_range seq pos P.kmerLength h0 h1
  simp only [recompute, hw, bind, Except.bind]
  exact ⟨_, rfl, rfl, rfl⟩

theorem classify_total (E : External) (P : Parameters) (seq : Seq) (threshold : Nat)
    (hk : 0 ≤ P.kmerLength) :
    ∀ (fuel : Nat) (st : StreamState), P.kmerLength ≤ st.currKmerSize →
      (2 * ((seq.length : Int) - P.kmerLength + 1 - st.i)
        + (if st.currKmerSize > P.kmerLength then 1 else 0)).toNat < fuel →
      ∃ cq, classify E P seq threshold fuel st = .ok cq := by
  intro fuel
  induction fuel with
  | zero => intro st _ hf; omega
  | succ n ih =>
    intro st hsz hf
    simp only [classify]
    split
    next hi =>
      split
      · split
        next hlt =>
          obtain ⟨b, hb⟩ := vecAt_ok seq ((st.i : Int) + P.kmerLength).toNat (by omega)
          have hb' : vecAtI seq ((st.i : Int) + P.kmerLength) = .ok b := by
            unfold vecAtI
            rw [if_neg (by omega)]
            exact hb
          simp only [hb', bind, Except.bind]
          refine ih _ (by simp only; omega) ?_
          simp only
          split at hf <;> split <;> push_cast <;> omega
        · refine ih _ (by simpa using hsz) ?_
          simp only
          split at hf <;> push_cast <;> omega
      · split
        next hgt =>
          obtain ⟨st1, h1, h2, h3⟩ := recompute_ok E P seq st.i st (by omega) (by omega)
          simp only [h1, bind, Except.bind]
          refine ih _ (by omega) ?_
          rw [h2, h3, if_pos hgt] at *
          simp only [gt_iff_lt, lt_self_iff_false, if_false]
          omega
        · split
          next heq =>
            split
            · obtain ⟨st1, h1, h2, h3⟩ :=
                recompute_ok E P seq ((st.i : Int) + 1) st (by omega) (by omega)
              simp only [h1, bind, Except.bind]
              refine ih _ (by simp only; omega) ?_
              simp only [h3, gt_iff_lt, lt_self_iff_false, if_false]
              split at hf <;> push_cast <;> omega
            · refine ih _ (by simpa using hsz) ?_
              simp only
              split at hf <;> push_cast <;> omega
          · omega
    · exact ⟨_, rfl⟩

end FMIndexWalkProcess

/-- C2: for a k-mer length `k >= 1` and a read of length at least `k`, the intervals
computed by the profile-based `splitRead`, by the streaming `splitRead` and by
`splitRepeat` partition the k-mer positions `[0, numKmer-1]`, `numKmer = len - k + 1`:
the first interval starts at 0, each next interval starts at the previous end plus one,
every interval has `start <= end`, and the last interval ends at `numKmer-1`. -/
theorem segmenter_intervals_partition (E : External) (P : Parameters) (seq : Seq)
    (k threshold fuel : Nat) (hk : 1 ≤ k) (hlen : k ≤ seq.length)
    (hP : P.kmerLength = (k : Int)) (hfuel : 2 * (seq.length - k + 1) < fuel) :
    (∃ cq ivs, FMIndexWalkProcess.splitReadIntervals E (KmerContext.build E seq k) threshold
        = .ok (cq, ivs) ∧ IsPartition ivs (seq.length - k + 1)) ∧
    (∃ ivs, FMIndexWalkProcess.splitReadStreamIntervals fuel E P seq threshold = .ok ivs ∧
        IsPartition ivs (seq.length - k + 1)) ∧
    (∃ cq ivs, FMIndexWalkProcess.splitRepeatIntervals E (KmerContext.build E seq k)
        = .ok (cq, ivs) ∧ IsPartition ivs (seq.length - k + 1)) := by
  obtain ⟨hn, _, _, _, _, _⟩ := build_numKmer E seq k hlen
  refine ⟨?_, ?_, ?_⟩
  · obtain ⟨cq, hcq, _⟩ := FMIndexWalkProcess.countQualifiedOf_ok E seq k threshold hlen
    obtain ⟨ivs, hivs, hpart⟩ := cutIntervals_partition
      (FMIndexWalkProcess.splitReadCut E (KmerContext.build E seq k) cq) (seq.length - k + 1)
      (by omega)
      (fun q h1 h2 => FMIndexWalkProcess.splitReadCut_ok E seq k cq q hk hlen h1 h2)
    refine ⟨cq, ivs, ?_, hpart⟩
    simp only [FMIndexWalkProcess.splitReadIntervals, hcq, hn, hivs, bind, Except.bind]
    rfl
  · have hnum : ((seq.length : Int) - P.kmerLength + 1).toNat = seq.length - k + 1 := by
      rw [hP]; omega
    obtain ⟨w, hw⟩ := substr_ok_of_range seq 0 P.kmerLength (le_refl 0) (by omega)
    obtain ⟨cq, hcq⟩ := FMIndexWalkProcess.classify_total E P seq threshold (by omega) fuel
      { i := 0, fwdInterval := E.findInterval true w.reverse,
        rvcInterval := E.findInterval false (E.reverseComplement w),
        currKmerSize := P.kmerLength,
        currKmerFreq := FMIndexWalkProcess.intervalFreq (E.findInterval true w.reverse)
          (E.findInterval false (E.reverseComplement w)),
        countQualified := List.replicate ((seq.length : Int) - P.kmerLength + 1).toNat 0 }
      (le_refl _) (by simp only [gt_iff_lt, lt_self_iff_false, if_false]; rw [hP]; omega)
    obtain ⟨ivs, hivs, hpart⟩ := cutIntervals_partition
      (FMIndexWalkProcess.streamCut E P seq cq) (seq.length - k + 1) (by omega)
      (fun q h1 h2 => FMIndexWalkProcess.streamCut_ok E P seq cq q (by omega) h1
        (by rw [hP]; omega))
    refine ⟨ivs, ?_, hpart⟩
    rw [hnum] at hcq
    simp only [FMIndexWalkProcess.splitReadStreamIntervals,
      FMIndexWalkProcess.streamQualifiedOf, hw, hnum, hcq, hivs, bind, Except.bind]
  · obtain ⟨cq, hcq⟩ := FMIndexWalkProcess.repeatQualifiedOf_ok E seq k hlen
    obtain ⟨ivs, hivs, hpart⟩ := cutIntervals_partition
      (FMIndexWalkProcess.splitRepeatCut cq) (seq.length - k + 1) (by omega)
      (fun q _ _ => ⟨_, rfl⟩)
    refine ⟨cq, ivs, ?_, hpart⟩
    simp only [FMIndexWalkProcess.splitRepeatIntervals, hcq, hn, hivs, bind, Except.bind]
    rfl

theorem segmenter_intervals_partition_witness :
    1 ≤ 2 ∧ 2 ≤ ['A', 'C', 'G', 'T'].length ∧ exampleParams.kmerLength = ((2 : Nat) : Int) ∧
    2 * (['A', 'C', 'G', 'T'].length - 2 + 1) < 7 ∧
    FMIndexWalkProcess.splitReadStreamIntervals 7 exampleIndex exampleParams
      ['A', 'C', 'G', 'T'] 2 = .ok [(0, 2)] ∧
    ∃ ivs, FMIndexWalkProcess.splitReadStreamIntervals 7 exampleIndex exampleParams
      ['A', 'C', 'G', 'T'] 2 = .ok ivs ∧ IsPartition ivs (['A', 'C', 'G', 'T'].length - 2 + 1) :=
  ⟨by decide, by decide, by decide, by decide, by decide,
    (segmenter_intervals_partition exampleIndex exampleParams ['A', 'C', 'G', 'T'] 2 2 7
      (by decide) (by decide) (by decide) (by decide)).2.1⟩

/-! ### Trimming of short reads -/

/-- On a read shorter than the k-mer length `trimRead` computes a negative `tail` and calls
`readSeq.substr(tail, kmerLength)`, which throws `std::out_of_range`. -/
theorem trimRead_short_read (E : External) (readSeq : Seq) (kmerLength fuel : Nat)
    (hshort : readSeq.length < kmerLength) (hfuel : 0 < fuel) :
    FMIndexWalkProcess.trimRead fuel E readSeq kmerLength = .error .outOfRange := by
  obtain ⟨hkm, hs⟩ := substr_ok_of_range readSeq 0 kmerLength (le_refl 0) (by omega)
  have hnext : ∀ b, ∃ r, FMIndexWalkProcess.nextMer hkm .NK_START b = .ok r := by
    intro b
    obtain ⟨r, hr⟩ := substr_ok_of_range hkm 0 ((hkm.length : Int) - 1) (le_refl 0) (by omega)
    simp only [FMIndexWalkProcess.nextMer, hr, bind, Except.bind]
    exact ⟨_, rfl⟩
  obtain ⟨a, ha⟩ := hnext 'A'
  obtain ⟨t, ht⟩ := hnext 'T'
  obtain ⟨c, hc⟩ := hnext 'C'
  obtain ⟨g, hg⟩ := hnext 'G'
  have hnum : ∃ n, FMIndexWalkProcess.numNextKmer E hkm .NK_START 1 = .ok n := by
    simp only [FMIndexWalkProcess.numNextKmer, nBases, List.foldlM, ha, ht, hc, hg, bind,
      Except.bind, pure, Except.pure]
    exact ⟨_, rfl⟩
  obtain ⟨n, hn⟩ := hnum
  have hhead : ∃ head, (if n = 0 then
        FMIndexWalkProcess.trimHead E readSeq kmerLength
          ((readSeq.length : Int) - (kmerLength : Int)) fuel (0 + 1)
      else (pure 0 : Run Int)) = .ok head := by
    split
    · obtain ⟨f, hf⟩ : ∃ f, fuel = f + 1 := ⟨fuel - 1, by omega⟩
      subst hf
      simp only [FMIndexWalkProcess.trimHead]
      rw [if_neg (by omega)]
      exact ⟨_, rfl⟩
    · exact ⟨_, rfl⟩
  obtain ⟨head, hhead⟩ := hhead
  have htail : substr readSeq ((readSeq.length : Int) - (kmerLength : Int)) kmerLength
      = .error .outOfRange := by
    unfold substr
    rw [if_pos (Or.inl (by omega))]
  simp only [FMIndexWalkProcess.trimRead, hs, hn, hhead, htail, bind, Except.bind]

/-- C5: `trimRead` fails on reads shorter than the k-mer length: on the read `AC` and on
the empty read with `k = 3` it ends in `std::out_of_range` instead of returning a
sequence. -/
theorem trimRead_throws_on_short_reads :
    FMIndexWalkProcess.trimRead 5 exampleIndex ['A', 'C'] 3 = .error .outOfRange ∧
    FMIndexWalkProcess.trimRead 5 exampleIndex [] 3 = .error .outOfRange :=
  ⟨trimRead_short_read exampleIndex ['A', 'C'] 3 5 (by decide) (by decide),
   trimRead_short_read exampleIndex [] 3 5 (by decide) (by decide)⟩

/-- C4: `trimRead` is not idempotent when its output is empty: the read `AAA` with `k = 3`
and an index without occurrences is trimmed to the empty sequence, and `trimRead` applied
to that output throws `std::out_of_range` instead of returning it. -/
theorem trimRead_reapplied_to_empty_output_throws :
    FMIndexWalkProcess.trimRead 5 emptyIndex ['A', 'A', 'A'] 3 = .ok [] ∧
    FMIndexWalkProcess.trimRead 5 emptyIndex [] 3 = .error .outOfRange :=
  ⟨by decide, trimRead_short_read emptyIndex [] 3 5 (by decide) (by decide)⟩

/-! ### Multi-seed correction -/

/-- C6: when the seed extractor of an entry point finds no seed in the read, that entry point
(`PBSelfCorrection` and `PBHybridCorrection` of both classes) returns a result, without
error, with `merge = false` and no corrected string. -/
theorem zero_seeds_report_no_merge (fuel : Nat) (E : External) (T : SearchTrees)
    (P : Parameters) (readSeq : Seq) (contaminatedCutoff : Nat) :
    (PacBioCorrectionProcess.searchingSeedsUsingSolidKmer fuel E P readSeq contaminatedCutoff
        = .ok [] →
      ∃ r, PacBioCorrectionProcess.PBSelfCorrection fuel E T P readSeq contaminatedCutoff = .ok r
        ∧ r.merge = false ∧ r.correctedPacbioStrs = []) ∧
    (FMIndexWalkProcess.searchingSeedsUsingSolidKmer fuel E P readSeq = .ok [] →
      ∃ r, FMIndexWalkProcess.PBSelfCorrection fuel E T P readSeq = .ok r
        ∧ r.merge = false ∧ r.correctedPacbioStrs = []) ∧
    (findSeedsUsingDynamicKmerLen fuel E P readSeq = .ok [] →
      (∃ r, PacBioCorrectionProcess.PBHybridCorrection fuel E T P readSeq = .ok r
        ∧ r.merge = false ∧ r.correctedPacbioStrs = []) ∧
      (∃ r, FMIndexWalkProcess.PBHybridCorrection fuel E T P readSeq = .ok r
        ∧ r.merge = false ∧ r.correctedPacbioStrs = [])) := by
  refine ⟨?_, ?_, ?_⟩
  · intro h
    simp only [PacBioCorrectionProcess.PBSelfCorrection, h, bind, Except.bind]
    exact ⟨_, rfl, rfl, rfl⟩
  · intro h
    simp only [FMIndexWalkProcess.PBSelfCorrection, h, bind, Except.bind]
    exact ⟨_, rfl, rfl, rfl⟩
  · intro h
    constructor
    · simp only [PacBioCorrectionProcess.PBHybridCorrection, hybridRounds, h, bind,
        Except.bind]
      exact ⟨_, rfl, rfl, rfl⟩
    · simp only [FMIndexWalkProcess.PBHybridCorrection, hybridRounds, h, bind, Except.bind]
      exact ⟨_, rfl, rfl, rfl⟩

theorem zero_seeds_report_no_merge_witness :
    PacBioCorrectionProcess.searchingSeedsUsingSolidKmer 8 emptyIndex exampleParams
      ['A', 'C', 'G', 'T'] 100 = .ok [] ∧
    (∃ r, PacBioCorrectionProcess.PBSelfCorrection 8 emptyIndex failingTrees exampleParams
      ['A', 'C', 'G', 'T'] 100 = .ok r ∧ r.merge = false ∧ r.correctedPacbioStrs = []) :=
  ⟨by decide,
    (zero_seeds_report_no_merge 8 emptyIndex failingTrees exampleParams ['A', 'C', 'G', 'T']
      100).1 (by decide)⟩

/-- A read with exactly one seed: `PacBioCorrectionProcess::PBSelfCorrection` tests
`seeds.size() > 1` and reports failure. -/
theorem pbSelfCorrection_single_seed (fuel : Nat) (E : External) (T : SearchTrees)
    (P : Parameters) (readSeq : Seq) (contaminatedCutoff : Nat) (s : Seed)
    (h : PacBioCorrectionProcess.searchingSeedsUsingSolidKmer fuel E P readSeq
      contaminatedCutoff = .ok [s]) :
    ∃ r, PacBioCorrectionProcess.PBSelfCorrection fuel E T P readSeq contaminatedCutoff = .ok r
      ∧ r.merge = false ∧ r.correctedPacbioStrs = [] := by
  simp only [PacBioCorrectionProcess.PBSelfCorrection, h, bind, Except.bind]
  exact ⟨_, rfl, rfl, rfl⟩

/-- C7: on the read `ACGT` with seed length 2 the extractor returns exactly one seed (the
whole read); `PacBioCorrectionProcess::PBSelfCorrection` returns `merge = false` and no
corrected string, while `FMIndexWalkProcess::PBSelfCorrection` returns `merge = true` with
that seed as the corrected sequence. -/
theorem pbSelfCorrection_single_seed_fails :
    PacBioCorrectionProcess.searchingSeedsUsingSolidKmer 8 exampleIndex exampleParams
      ['A', 'C', 'G', 'T'] 100 = .ok [(0, ['A', 'C', 'G', 'T'])] ∧
    (PacBioCorrectionProcess.PBSelfCorrection 8 exampleIndex failingTrees exampleParams
      ['A', 'C', 'G', 'T'] 100).map (fun r => (r.merge, r.correctedPacbioStrs))
      = .ok (false, []) ∧
    (FMIndexWalkProcess.PBSelfCorrection 8 exampleIndex failingTrees exampleParams
      ['A', 'C', 'G', 'T']).map (fun r => (r.merge, r.correctedPacbioStrs))
      = .ok (true, [['A', 'C', 'G', 'T']]) := by
  refine ⟨by decide, by decide, by decide⟩

theorem substr_slice {s r : Seq} {pos len : Int} (h : substr s pos len = .ok r) :
    0 ≤ pos ∧ pos + (r.length : Int) ≤ (s.length : Int) ∧
      r = slice s pos (pos + (r.length : Int)) := by
  unfold substr at h
  split at h
  · cases h
  · next hc =>
    cases h
    refine ⟨by omega, ?_, ?_⟩
    · simp only [List.length_take, List.length_drop]
      omega
    · unfold slice
      have hp := List.take_prefix (if len < 0 then s.length else len.toNat)
        (List.drop pos.toNat s)
      have := List.prefix_iff_eq_take.1 hp
      rw [show (pos + ((List.take (if len < 0 then s.length else len.toNat)
        (List.drop pos.toNat s)).length : Int) - pos).toNat
        = (List.take (if len < 0 then s.length else len.toNat)
            (List.drop pos.toNat s)).length by omega]
      exact this

theorem substr_eq_slice {s : Seq} {a b : Int} (h0 : 0 ≤ a) (hab : a ≤ b)
    (hb : b ≤ (s.length : Int)) : substr s a (b - a) = .ok (slice s a b) := by
  unfold substr slice
  rw [if_neg (by omega), if_neg (by omega)]

theorem slice_append (s : Seq) {a b c : Int} (h0 : 0 ≤ a) (hab : a ≤ b) (hbc : b ≤ c) :
    slice s a b ++ slice s b c = slice s a c := by
  unfold slice
  have h1 : (c - a).toNat = (b - a).toNat + (c - b).toNat := by omega
  rw [h1, List.take_add, List.drop_drop]
  have h2 : a.toNat + (b - a).toNat = b.toNat := by omega
  rw [h2]

namespace PacBioCorrectionProcess

theorem pb_seedLoop_within (E : External) (P : Parameters) (readSeq : Seq) (cutoff : Nat)
    (hk : 1 ≤ P.kmerLength) :
    ∀ (fuel : Nat) (i : Int) (seeds out : List Seed), 0 ≤ i →
      SeedsWithin readSeq seeds → (seeds.length : Int) ≤ i →
      seeds.length ≤ readSeq.length →
      seedLoop E P readSeq cutoff fuel i seeds = .ok out →
        SeedsWithin readSeq out ∧ out.length ≤ readSeq.length := by
  intro fuel
  induction fuel with
  | zero => intro i seeds out _ _ _ _ h; simp [seedLoop] at h
  | succ n ih =>
    intro i seeds out hi hw hl hl2 h
    simp only [seedLoop] at h
    split at h
    · cases hs : substr readSeq i P.kmerLength with
      | error e => simp [hs, bind, Except.bind] at h
      | ok kmer =>
        simp only [hs, bind, Except.bind] at h
        split at h
        · cases hg : groupSolid E P readSeq n (i + 1) 0
              (E.countSequenceOccurrencesSingleStrand kmer
                + E.countSequenceOccurrencesSingleStrand (E.reverseComplement kmer)) with
          | error e => simp [hg] at h
          | ok r =>
            obtain ⟨i1, seedLen, mx⟩ := r
            simp only [hg] at h
            have hg2 := pb_groupSolid_spec E P readSeq _ _ _ _ _ hg
            simp only at hg2
            split at h
            · cases hs2 : substr readSeq i (seedLen + P.kmerLength) with
              | error e => simp [hs2] at h
              | ok str =>
                simp only [hs2] at h
                have hsl := substr_slice hs2
                refine ih _ _ _ (by omega) ?_ ?_ ?_ h
                · intro a ha
                  rcases List.mem_append.1 ha with ha | ha
                  · exact hw a ha
                  · simp only [List.mem_singleton] at ha
                    subst ha
                    exact ⟨hi, hsl.2.1, hsl.2.2⟩
                · simp only [List.length_append, List.length_singleton]
                  push_cast
                  omega
                · simp only [List.length_append, List.length_singleton]
                  omega
            · exact ih _ _ _ (by omega) hw (by omega) hl2 h
        · exact ih _ _ _ (by omega) hw (by omega) hl2 h
    · simp [pure, Except.pure] at h
      subst h
      exact ⟨hw, hl2⟩

/-- All walks fail and no seed is reported contaminated: the lookahead loop ends with a
code `<= 0` and leaves the outer state untouched. -/
theorem lookahead_all_fail (E : External) (T : SearchTrees) (P : Parameters)
    (seeds : List Seed) (source : Seed)
    (hL : ∀ a b c d, T.addHashLeft a b c d = true)
    (hR : ∀ a b c d e, T.addHashRight a b c d e = true)
    (hF : ∀ a b c d e f, (T.mergeTwoSeedsUsingHash a b c d e f).1 ≤ 0) :
    ∀ (fuel : Nat) (s : LookaheadState) (o : CorrectionState),
      seeds.length - (o.targetSeed + s.nextTargetSeed) < fuel → s.FMWalkReturnType ≤ 0 →
      ∃ code, lookahead E T P seeds source fuel s o = .ok (.finished code o) ∧ code ≤ 0 := by
  intro fuel
  induction fuel with
  | zero => intro s o hf _; omega
  | succ n ih =>
    intro s o hf hc
    simp only [lookahead]
    split
    next hcond =>
      split
      · exact ⟨_, rfl, hc⟩
      · simp only [hL, hR, Bool.not_true, Bool.or_self, Bool.false_eq_true, if_false]
        rw [if_neg (not_lt.2 (hF _ _ _ _ _ _))]
        split
        · exact ⟨_, rfl, hF _ _ _ _ _ _⟩
        · exact ih _ _ (by simp only; omega) (hF _ _ _ _ _ _)
    · exact ⟨_, rfl, hc⟩

end PacBioCorrectionProcess

theorem seedAt_mem (seeds : List Seed) (i : Nat) (h : i < seeds.length) :
    seedAt seeds i ∈ seeds := by
  unfold seedAt
  rw [List.getD_eq_getElem _ _ h]
  exact List.getElem_mem h

theorem seedAt_rel (seeds : List Seed) (hord : SeedsOrdered seeds) (i j : Nat) (hij : i < j)
    (hj : j < seeds.length) :
    (seedAt seeds i).1 < (seedAt seeds j).1 ∧ seedEnd (seedAt seeds i) ≤ (seedAt seeds j).1 := by
  unfold seedAt
  rw [List.getD_eq_getElem _ _ hj, List.getD_eq_getElem _ _ (by omega : i < seeds.length)]
  exact List.pairwise_iff_getElem.1 hord i j (by omega) hj hij

theorem appendToBack_singleton (p : Int) (acc str : Seq) :
    appendToBack [(p, acc)] str = [(p, acc ++ str)] := rfl

namespace PacBioCorrectionProcess

theorem onFailure_nonsplit (P : Parameters) (readSeq : Seq) (seeds : List Seed) (code : Int)
    (o : CorrectionState) (gap : Seq) (hsplit : P.isSplit = false)
    (hgap : substr readSeq
      ((seedAt seeds (o.targetSeed - 1)).1 + ((seedAt seeds (o.targetSeed - 1)).2.length : Int))
      ((seedAt seeds o.targetSeed).1 + ((seedAt seeds o.targetSeed).2.length : Int)
        - ((seedAt seeds (o.targetSeed - 1)).1
            + ((seedAt seeds (o.targetSeed - 1)).2.length : Int))) = .ok gap) :
    ∃ res, onFailure P readSeq seeds code o
        = .ok { targetSeed := o.targetSeed,
                pacbioCorrectedStrs := appendToBack o.pacbioCorrectedStrs gap, result := res }
      ∧ res.correctedPacbioStrs = o.result.correctedPacbioStrs := by
  simp only [onFailure, hsplit, Bool.not_false, if_true, hgap, bind, Except.bind, pure,
    Except.pure]
  split
  · exact ⟨_, rfl, rfl⟩
  · split
    · exact ⟨_, rfl, rfl⟩
    · split
      · exact ⟨_, rfl, rfl⟩
      · exact ⟨_, rfl, rfl⟩

theorem onFailure_split (P : Parameters) (readSeq : Seq) (seeds : List Seed) (code : Int)
    (o : CorrectionState) (hsplit : P.isSplit = true) :
    ∃ res, onFailure P readSeq seeds code o
        = .ok { targetSeed := o.targetSeed,
                pacbioCorrectedStrs := o.pacbioCorrectedStrs ++ [seedAt seeds o.targetSeed],
                result := res }
      ∧ res.correctedPacbioStrs = o.result.correctedPacbioStrs := by
  simp only [onFailure, hsplit, Bool.not_true, Bool.false_eq_true, if_false, bind, Except.bind,
    pure, Except.pure]
  split
  · exact ⟨_, rfl, rfl⟩
  · split
    · exact ⟨_, rfl, rfl⟩
    · split
      · exact ⟨_, rfl, rfl⟩
      · exact ⟨_, rfl, rfl⟩

theorem correctLoop_nonsplit (E : External) (T : SearchTrees) (P : Parameters)
    (readSeq : Seq) (seeds : List Seed) (hsplit : P.isSplit = false)
    (hL : ∀ a b c d, T.addHashLeft a b c d = true)
    (hR : ∀ a b c d e, T.addHashRight a b c d e = true)
    (hF : ∀ a b c d e f, (T.mergeTwoSeedsUsingHash a b c d e f).1 ≤ 0)
    (hord : SeedsOrdered seeds) (hw : SeedsWithin readSeq seeds) :
    ∀ (fuel : Nat) (o : CorrectionState), 1 ≤ o.targetSeed → o.targetSeed ≤ seeds.length →
      seeds.length + 1 - o.targetSeed < fuel →
      o.pacbioCorrectedStrs = [((seedAt seeds 0).1,
        slice readSeq (seedAt seeds 0).1 (seedEnd (seedAt seeds (o.targetSeed - 1))))] →
      o.result.correctedPacbioStrs = [] →
      ∃ r, correctLoop E T P readSeq seeds fuel o = .ok r ∧ r.merge = true ∧
        r.correctedPacbioStrs =
          [slice readSeq (seedAt seeds 0).1 (seedEnd (seedAt seeds (seeds.length - 1)))] := by
  intro fuel
  induction fuel with
  | zero => intro o _ _ hf; omega
  | succ n ih =>
    intro o h1 h2 hf hstrs hres
    simp only [correctLoop]
    split
    next hlt =>
      obtain ⟨code, hlk, hcode⟩ := lookahead_all_fail E T P seeds
        (o.pacbioCorrectedStrs.getLastD (0, [])) hL hR hF n
        { nextTargetSeed := 0, FMWalkReturnType := 0, prevFMWalkReturnType := 0,
          smallKmerSize := P.minKmerLength, mergedseq := [] } o (by simp only; omega)
        (le_refl 0)
      have hprev := hw _ (seedAt_mem seeds (o.targetSeed - 1) (by omega))
      have hcur := hw _ (seedAt_mem seeds o.targetSeed hlt)
      have hrel := seedAt_rel seeds hord (o.targetSeed - 1) o.targetSeed (by omega) hlt
      have h0 := hw _ (seedAt_mem seeds 0 (by omega))
      have hp0 : (seedAt seeds 0).1 ≤ seedEnd (seedAt seeds (o.targetSeed - 1)) := by
        by_cases ht : o.targetSeed - 1 = 0
        · rw [ht]; simp only [seedEnd]; omega
        · have := seedAt_rel seeds hord 0 (o.targetSeed - 1) (by omega) (by omega)
          simp only [seedEnd] at this ⊢
          omega
      have hgap := substr_eq_slice (s := readSeq)
        (a := seedEnd (seedAt seeds (o.targetSeed - 1)))
        (b := seedEnd (seedAt seeds o.targetSeed)) (by simp only [seedEnd] at *; omega)
        (by simp only [seedEnd] at *; omega) hcur.2.1
      obtain ⟨res, hof, hres2⟩ := onFailure_nonsplit P readSeq seeds code o _ hsplit hgap
      simp only [hlk, bind, Except.bind, if_pos hcode, hof]
      obtain ⟨r, hr, hm, hs⟩ := ih
        { targetSeed := o.targetSeed + 1,
          pacbioCorrectedStrs := appendToBack o.pacbioCorrectedStrs
            (slice readSeq (seedEnd (seedAt seeds (o.targetSeed - 1)))
              (seedEnd (seedAt seeds o.targetSeed))),
          result := { res with totalWalkNum := res.totalWalkNum + 1 } }
        (by simp) (by simp only; omega) (by simp only; omega)
        (by
          simp only [hstrs, appendToBack_singleton, Nat.add_sub_cancel]
          rw [slice_append readSeq h0.1 hp0 (by simp only [seedEnd] at *; omega)])
        (by simp only; rw [hres2, hres])
      exact ⟨r, hr, hm, hs⟩
    next hge =>
      refine ⟨_, rfl, rfl, ?_⟩
      simp only [hres, hstrs, List.nil_append, List.map_cons, List.map_nil]
      rw [show o.targetSeed = seeds.length by omega]

theorem correctLoop_split (E : External) (T : SearchTrees) (P : Parameters)
    (readSeq : Seq) (seeds : List Seed) (hsplit : P.isSplit = true)
    (hL : ∀ a b c d, T.addHashLeft a b c d = true)
    (hR : ∀ a b c d e, T.addHashRight a b c d e = true)
    (hF : ∀ a b c d e f, (T.mergeTwoSeedsUsingHash a b c d e f).1 ≤ 0) :
    ∀ (fuel : Nat) (o : CorrectionState), o.targetSeed ≤ seeds.length →
      seeds.length + 1 - o.targetSeed < fuel →
      o.pacbioCorrectedStrs = seeds.take o.targetSeed →
      o.result.correctedPacbioStrs = [] →
      ∃ r, correctLoop E T P readSeq seeds fuel o = .ok r ∧ r.merge = true ∧
        r.correctedPacbioStrs = seeds.map Prod.snd := by
  intro fuel
  induction fuel with
  | zero => intro o _ hf; omega
  | succ n ih =>
    intro o h2 hf hstrs hres
    simp only [correctLoop]
    split
    next hlt =>
      obtain ⟨code, hlk, hcode⟩ := lookahead_all_fail E T P seeds
        (o.pacbioCorrectedStrs.getLastD (0, [])) hL hR hF n
        { nextTargetSeed := 0, FMWalkReturnType := 0, prevFMWalkReturnType := 0,
          smallKmerSize := P.minKmerLength, mergedseq := [] } o (by simp only; omega)
        (le_refl 0)
      obtain ⟨res, hof, hres2⟩ := onFailure_split P readSeq seeds code o hsplit
      simp only [hlk, bind, Except.bind, if_pos hcode, hof]
      obtain ⟨r, hr, hm, hs⟩ := ih
        { targetSeed := o.targetSeed + 1,
          pacbioCorrectedStrs := o.pacbioCorrectedStrs ++ [seedAt seeds o.targetSeed],
          result := { res with totalWalkNum := res.totalWalkNum + 1 } }
        (by simp only; omega) (by simp only; omega)
        (by
          simp only [hstrs, List.take_succ, seedAt]
          rw [List.getD_eq_getElem _ _ hlt, List.getElem?_eq_getElem hlt]
          rfl)
        (by simp only; rw [hres2, hres])
      exact ⟨r, hr, hm, hs⟩
    next hge =>
      refine ⟨_, rfl, rfl, ?_⟩
      simp only [hres, hstrs, List.nil_append]
      rw [List.take_of_length_le (by omega)]

end PacBioCorrectionProcess

theorem pb_seeds_facts (fuel : Nat) (E : External) (P : Parameters) (readSeq : Seq)
    (cutoff : Nat) (seeds : List Seed) (hk : 1 ≤ P.kmerLength)
    (h : PacBioCorrectionProcess.searchingSeedsUsingSolidKmer fuel E P readSeq cutoff
      = .ok seeds) :
    SeedsOrdered seeds ∧ SeedsWithin readSeq seeds ∧ seeds.length ≤ readSeq.length := by
  unfold PacBioCorrectionProcess.searchingSeedsUsingSolidKmer at h
  split at h
  · have h1 := PacBioCorrectionProcess.pb_seedLoop_ordered E P readSeq cutoff hk fuel 0 []
      seeds (by simp) List.Pairwise.nil h
    have h2 := PacBioCorrectionProcess.pb_seedLoop_within E P readSeq cutoff hk fuel 0 []
      seeds (le_refl 0) (by intro s hs; simp at hs) (by simp) (by simp) h
    exact ⟨h1, h2.1, h2.2⟩
  · cases h
    exact ⟨List.Pairwise.nil, by intro s hs; simp at hs, by simp⟩

/-- C8: in non-split mode, for a read with at least two seeds on which every bridge attempt
fails (code `<= 0`, or the target is skipped) and no seed is reported contaminated,
`PacBioCorrectionProcess::PBSelfCorrection` returns `merge = true` with exactly one
corrected string: the part of the read from the start of the first seed to the end of the
last seed. -/
theorem pbSelfCorrection_nonsplit_copies_read (fuel : Nat) (E : External) (T : SearchTrees)
    (P : Parameters) (readSeq : Seq) (contaminatedCutoff : Nat) (seeds : List Seed)
    (hk : 1 ≤ P.kmerLength) (hsplit : P.isSplit = false)
    (hL : ∀ a b c d, T.addHashLeft a b c d = true)
    (hR : ∀ a b c d e, T.addHashRight a b c d e = true)
    (hF : ∀ a b c d e f, (T.mergeTwoSeedsUsingHash a b c d e f).1 ≤ 0)
    (hseeds : PacBioCorrectionProcess.searchingSeedsUsingSolidKmer fuel E P readSeq
      contaminatedCutoff = .ok seeds)
    (h2 : 2 ≤ seeds.length) (hfuel : readSeq.length < fuel) :
    ∃ r, PacBioCorrectionProcess.PBSelfCorrection fuel E T P readSeq contaminatedCutoff = .ok r
      ∧ r.merge = true
      ∧ r.correctedPacbioStrs =
          [slice readSeq (seedAt seeds 0).1 (seedEnd (seedAt seeds (seeds.length - 1)))] := by
  obtain ⟨hord, hw, hlen⟩ := pb_seeds_facts fuel E P readSeq contaminatedCutoff seeds hk hseeds
  have h0 := hw _ (seedAt_mem seeds 0 (by omega))
  simp only [PacBioCorrectionProcess.PBSelfCorrection, hseeds, bind, Except.bind]
  rw [if_pos (by omega)]
  exact PacBioCorrectionProcess.correctLoop_nonsplit E T P readSeq seeds hsplit hL hR hF hord hw
    fuel _ (le_refl 1) (by simp only; omega) (by simp only; omega)
    (by
      simp only [Nat.sub_self]
      rw [← h0.2.2])
    rfl

theorem pbSelfCorrection_nonsplit_copies_read_witness :
    (PacBioCorrectionProcess.searchingSeedsUsingSolidKmer 8 islandIndex exampleParams
      ['A', 'A', 'G', 'C', 'C'] 100 = .ok [(0, ['A', 'A']), (3, ['C', 'C'])]) ∧
    ∃ r, PacBioCorrectionProcess.PBSelfCorrection 8 islandIndex failingTrees exampleParams
        ['A', 'A', 'G', 'C', 'C'] 100 = .ok r
      ∧ r.merge = true
      ∧ r.correctedPacbioStrs =
          [slice ['A', 'A', 'G', 'C', 'C'] (seedAt [(0, ['A', 'A']), (3, ['C', 'C'])] 0).1
            (seedEnd (seedAt [(0, ['A', 'A']), (3, ['C', 'C'])]
              ([((0 : Int), ['A', 'A']), (3, ['C', 'C'])].length - 1)))] :=
  ⟨by decide,
    pbSelfCorrection_nonsplit_copies_read 8 islandIndex failingTrees exampleParams
      ['A', 'A', 'G', 'C', 'C'] 100 [(0, ['A', 'A']), (3, ['C', 'C'])] (by decide) rfl
      (fun _ _ _ _ => rfl) (fun _ _ _ _ _ => rfl)
      (fun _ _ _ _ _ _ => by show (-1 : Int) ≤ 0; decide) (by decide) (by decide) (by decide)⟩

/-- C9: in split mode, for a read with at least two seeds on which every bridge attempt
fails and no seed is reported contaminated, `PacBioCorrectionProcess::PBSelfCorrection`
returns `merge = true` and the corrected strings are exactly the seed strings, one
fragment per seed, in seed order. -/
theorem pbSelfCorrection_split_emits_seeds (fuel : Nat) (E : External) (T : SearchTrees)
    (P : Parameters) (readSeq : Seq) (contaminatedCutoff : Nat) (seeds : List Seed)
    (hk : 1 ≤ P.kmerLength) (hsplit : P.isSplit = true)
    (hL : ∀ a b c d, T.addHashLeft a b c d = true)
    (hR : ∀ a b c d e, T.addHashRight a b c d e = true)
    (hF : ∀ a b c d e f, (T.mergeTwoSeedsUsingHash a b c d e f).1 ≤ 0)
    (hseeds : PacBioCorrectionProcess.searchingSeedsUsingSolidKmer fuel E P readSeq
      contaminatedCutoff = .ok seeds)
    (h2 : 2 ≤ seeds.length) (hfuel : readSeq.length < fuel) :
    ∃ r, PacBioCorrectionProcess.PBSelfCorrection fuel E T P readSeq contaminatedCutoff = .ok r
      ∧ r.merge = true ∧ r.correctedPacbioStrs = seeds.map Prod.snd := by
  obtain ⟨_, _, hlen⟩ := pb_seeds_facts fuel E P readSeq contaminatedCutoff seeds hk hseeds
  simp only [PacBioCorrectionProcess.PBSelfCorrection, hseeds, bind, Except.bind]
  rw [if_pos (by omega)]
  refine PacBioCorrectionProcess.correctLoop_split E T P readSeq seeds hsplit hL hR hF
    fuel _ (by simp only; omega) (by simp only; omega) ?_ rfl
  simp only [seedAt]
  rw [List.getD_eq_getElem _ _ (by omega : 0 < seeds.length)]
  cases seeds with
  | nil => simp at h2
  | cons a rest => simp

theorem pbSelfCorrection_split_emits_seeds_witness :
    (PacBioCorrectionProcess.searchingSeedsUsingSolidKmer 8 islandIndex exampleSplitParams
      ['A', 'A', 'G', 'C', 'C'] 100 = .ok [(0, ['A', 'A']), (3, ['C', 'C'])]) ∧
    ∃ r, PacBioCorrectionProcess.PBSelfCorrection 8 islandIndex failingTrees exampleSplitParams
        ['A', 'A', 'G', 'C', 'C'] 100 = .ok r
      ∧ r.merge = true
      ∧ r.correctedPacbioStrs = [((0 : Int), ['A', 'A']), (3, ['C', 'C'])].map Prod.snd :=
  ⟨by decide,
    pbSelfCorrection_split_emits_seeds 8 islandIndex failingTrees exampleSplitParams
      ['A', 'A', 'G', 'C', 'C'] 100 [(0, ['A', 'A']), (3, ['C', 'C'])] (by decide) rfl
      (fun _ _ _ _ => rfl) (fun _ _ _ _ _ => rfl)
      (fun _ _ _ _ _ _ => by show (-1 : Int) ≤ 0; decide) (by decide) (by decide) (by decide)⟩

/-! ### The seed-count guard of the self-correction entry point -/

/-- The first fragment of the list starts with the string `w`. -/
theorem headPrefix_appendToBack (w : Seq) (strs : List Seed) (str : Seq)
    (h : ∃ x rest, strs = x :: rest ∧ w <+: x.2) :
    ∃ x rest, appendToBack strs str = x :: rest ∧ w <+: x.2 := by
  obtain ⟨x, rest, rfl, hp⟩ := h
  cases rest with
  | nil => exact ⟨(x.1, x.2 ++ str), [], rfl, hp.trans (List.prefix_append _ _)⟩
  | cons y rest2 =>
    unfold appendToBack
    cases hl : (x :: y :: rest2).getLast? with
    | none => simp at hl
    | some last =>
      simp only [List.dropLast_cons₂, List.cons_append]
      exact ⟨x, _, rfl, hp⟩

namespace PacBioCorrectionProcess

theorem lookahead_general (E : External) (T : SearchTrees) (P : Parameters)
    (seeds : List Seed) (source : Seed)
    (hL : ∀ a b c d, T.addHashLeft a b c d = true)
    (hR : ∀ a b c d e, T.addHashRight a b c d e = true)
    (hW : ∀ a b c d e f, 0 < (T.mergeTwoSeedsUsingHash a b c d e f).1 →
      a.length ≤ (T.mergeTwoSeedsUsingHash a b c d e f).2.length) :
    ∀ (fuel : Nat) (s : LookaheadState) (o : CorrectionState),
      seeds.length - (o.targetSeed + s.nextTargetSeed) < fuel →
      ∃ code o', lookahead E T P seeds source fuel s o = .ok (.finished code o') ∧
        o.targetSeed ≤ o'.targetSeed ∧
        (o'.targetSeed < seeds.length ∨ o'.targetSeed = o.targetSeed) ∧
        (o'.pacbioCorrectedStrs = o.pacbioCorrectedStrs ∨
          ∃ str, o'.pacbioCorrectedStrs = appendToBack o.pacbioCorrectedStrs str) ∧
        o'.result.correctedPacbioStrs = o.result.correctedPacbioStrs := by
  intro fuel
  induction fuel with
  | zero => intro s o hf; omega
  | succ n ih =>
    intro s o hf
    simp only [lookahead]
    split
    next hcond =>
      split
      · exact ⟨_, o, rfl, le_refl _, Or.inr rfl, Or.inl rfl, rfl⟩
      · simp only [hL, hR, Bool.not_true, Bool.or_self, Bool.false_eq_true, if_false]
        split
        next hpos =>
          have hlen := hW _ _ _ _ _ _ hpos
          have hsub : ∃ ext, substrFrom (T.mergeTwoSeedsUsingHash source.2
              (seedAt seeds (o.targetSeed + s.nextTargetSeed)).2 s.mergedseq P.kmerLength
              s.smallKmerSize
              ((seedAt seeds (o.targetSeed + s.nextTargetSeed)).1
                - (seedAt seeds (o.targetSeed - 1)).1
                - ((seedAt seeds (o.targetSeed - 1)).2.length : Int))).2
              (source.2.length : Int) = .ok ext := by
            unfold substrFrom
            rw [if_neg (by omega)]
            exact ⟨_, rfl⟩
          obtain ⟨ext, hext⟩ := hsub
          simp only [hext, bind, Except.bind, pure, Except.pure]
          exact ⟨_, _, rfl, by simp, Or.inl hcond.2, Or.inr ⟨ext, rfl⟩, rfl⟩
        · split
          · exact ⟨_, o, rfl, le_refl _, Or.inr rfl, Or.inl rfl, rfl⟩
          · exact ih _ _ (by simp only; omega)
    · exact ⟨_, o, rfl, le_refl _, Or.inr rfl, Or.inl rfl, rfl⟩

theorem onFailure_general (P : Parameters) (readSeq : Seq) (seeds : List Seed) (code : Int)
    (o : CorrectionState)
    (hprev : 0 ≤ (seedAt seeds (o.targetSeed - 1)).1 ∧
      seedEnd (seedAt seeds (o.targetSeed - 1)) ≤ (readSeq.length : Int)) :
    ∃ o2, onFailure P readSeq seeds code o = .ok o2 ∧ o2.targetSeed = o.targetSeed ∧
      ((∃ str, o2.pacbioCorrectedStrs = appendToBack o.pacbioCorrectedStrs str) ∨
        o2.pacbioCorrectedStrs = o.pacbioCorrectedStrs ++ [seedAt seeds o.targetSeed]) ∧
      o2.result.correctedPacbioStrs = o.result.correctedPacbioStrs := by
  cases hsplit : P.isSplit with
  | false =>
    obtain ⟨gap, hgap⟩ := substr_ok_of_range readSeq
      ((seedAt seeds (o.targetSeed - 1)).1 + ((seedAt seeds (o.targetSeed - 1)).2.length : Int))
      ((seedAt seeds o.targetSeed).1 + ((seedAt seeds o.targetSeed).2.length : Int)
        - ((seedAt seeds (o.targetSeed - 1)).1
            + ((seedAt seeds (o.targetSeed - 1)).2.length : Int)))
      (by omega) (by simp only [seedEnd] at hprev; omega)
    obtain ⟨res, hof, hres⟩ := onFailure_nonsplit P readSeq seeds code o gap hsplit hgap
    exact ⟨_, hof, rfl, Or.inl ⟨gap, rfl⟩, hres⟩
  | true =>
    obtain ⟨res, hof, hres⟩ := onFailure_split P readSeq seeds code o hsplit
    exact ⟨_, hof, rfl, Or.inr rfl, hres⟩

theorem correctLoop_general (E : External) (T : SearchTrees) (P : Parameters)
    (readSeq : Seq) (seeds : List Seed) (w : Seq)
    (hL : ∀ a b c d, T.addHashLeft a b c d = true)
    (hR : ∀ a b c d e, T.addHashRight a b c d e = true)
    (hW : ∀ a b c d e f, 0 < (T.mergeTwoSeedsUsingHash a b c d e f).1 →
      a.length ≤ (T.mergeTwoSeedsUsingHash a b c d e f).2.length)
    (hw : SeedsWithin readSeq seeds) :
    ∀ (fuel : Nat) (o : CorrectionState), 1 ≤ o.targetSeed →
      seeds.length + 1 - o.targetSeed < fuel →
      (∃ x rest, o.pacbioCorrectedStrs = x :: rest ∧ w <+: x.2) →
      o.result.correctedPacbioStrs = [] →
      ∃ r first rest, correctLoop E T P readSeq seeds fuel o = .ok r ∧ r.merge = true ∧
        r.correctedPacbioStrs = first :: rest ∧ w <+: first := by
  intro fuel
  induction fuel with
  | zero => intro o _ hf; omega
  | succ n ih =>
    intro o h1 hf hhead hres
    simp only [correctLoop]
    split
    next hlt =>
      obtain ⟨code, o1, hlk, ht1, ht2, hstr, hres1⟩ := lookahead_general E T P seeds
        (o.pacbioCorrectedStrs.getLastD (0, [])) hL hR hW n
        { nextTargetSeed := 0, FMWalkReturnType := 0, prevFMWalkReturnType := 0,
          smallKmerSize := P.minKmerLength, mergedseq := [] } o (by simp only; omega)
      have hhead1 : ∃ x rest, o1.pacbioCorrectedStrs = x :: rest ∧ w <+: x.2 := by
        rcases hstr with h | ⟨str, h⟩
        · rw [h]; exact hhead
        · rw [h]; exact headPrefix_appendToBack w _ str hhead
      have hlt1 : o1.targetSeed < seeds.length := by omega
      have hO2 : ∃ o2, (if code ≤ 0 then onFailure P readSeq seeds code o1
          else (pure o1 : Run CorrectionState)) = .ok o2 ∧ o2.targetSeed = o1.targetSeed ∧
          (∃ x rest, o2.pacbioCorrectedStrs = x :: rest ∧ w <+: x.2) ∧
          o2.result.correctedPacbioStrs = [] := by
        split
        · have hp := hw _ (seedAt_mem seeds (o1.targetSeed - 1) (by omega))
          obtain ⟨o2, hof, ht, hs, hr⟩ := onFailure_general P readSeq seeds code o1
            ⟨hp.1, hp.2.1⟩
          refine ⟨o2, hof, ht, ?_, by rw [hr, hres1, hres]⟩
          rcases hs with ⟨str, hs⟩ | hs
          · rw [hs]; exact headPrefix_appendToBack w _ str hhead1
          · obtain ⟨x, rest, hx, hp⟩ := hhead1
            exact ⟨x, rest ++ [seedAt seeds o1.targetSeed], by rw [hs, hx]; rfl, hp⟩
        · exact ⟨o1, rfl, rfl, hhead1, by rw [hres1, hres]⟩
      obtain ⟨o2, ho2, ht, hh2, hr2⟩ := hO2
      simp only [hlk, bind, Except.bind, ho2]
      exact ih _ (by simp only; omega) (by simp only; omega) hh2 hr2
    next hge =>
      obtain ⟨x, rest, hx, hp⟩ := hhead
      refine ⟨_, x.2, rest.map Prod.snd, rfl, rfl, ?_, hp⟩
      simp only [hres, hx, List.nil_append, List.map_cons]

end PacBioCorrectionProcess

/-- The seed-count guard of `PacBioCorrectionProcess::PBSelfCorrection` on every input:
with fewer than two seeds it returns `merge = false` and no corrected string; with two or
more seeds, none reported contaminated and every successful walk returning a merged
sequence at least as long as its source, it returns `merge = true` and a first corrected
string that begins with the first seed. -/
theorem pbSelfCorrection_needs_two_seeds (fuel : Nat) (E : External) (T : SearchTrees)
    (P : Parameters) (readSeq : Seq) (contaminatedCutoff : Nat) (seeds : List Seed)
    (hk : 1 ≤ P.kmerLength)
    (hL : ∀ a b c d, T.addHashLeft a b c d = true)
    (hR : ∀ a b c d e, T.addHashRight a b c d e = true)
    (hW : ∀ a b c d e f, 0 < (T.mergeTwoSeedsUsingHash a b c d e f).1 →
      a.length ≤ (T.mergeTwoSeedsUsingHash a b c d e f).2.length)
    (hseeds : PacBioCorrectionProcess.searchingSeedsUsingSolidKmer fuel E P readSeq
      contaminatedCutoff = .ok seeds)
    (hfuel : readSeq.length < fuel) :
    (seeds.length ≤ 1 →
      ∃ r, PacBioCorrectionProcess.PBSelfCorrection fuel E T P readSeq contaminatedCutoff
          = .ok r ∧ r.merge = false ∧ r.correctedPacbioStrs = []) ∧
    (2 ≤ seeds.length →
      ∃ r first rest,
        PacBioCorrectionProcess.PBSelfCorrection fuel E T P readSeq contaminatedCutoff = .ok r ∧
        r.merge = true ∧ r.correctedPacbioStrs = first :: rest ∧
        (seedAt seeds 0).2 <+: first) := by
  obtain ⟨_, hw, hlen⟩ := pb_seeds_facts fuel E P readSeq contaminatedCutoff seeds hk hseeds
  constructor
  · intro h1
    simp only [PacBioCorrectionProcess.PBSelfCorrection, hseeds, bind, Except.bind]
    rw [if_neg (by omega)]
    exact ⟨_, rfl, rfl, rfl⟩
  · intro h2
    simp only [PacBioCorrectionProcess.PBSelfCorrection, hseeds, bind, Except.bind]
    rw [if_pos (by omega)]
    exact PacBioCorrectionProcess.correctLoop_general E T P readSeq seeds (seedAt seeds 0).2
      hL hR hW hw fuel _ (le_refl 1) (by simp only; omega)
      ⟨seedAt seeds 0, [], rfl, List.prefix_refl _⟩ rfl

theorem pbSelfCorrection_needs_two_seeds_witness :
    (PacBioCorrectionProcess.searchingSeedsUsingSolidKmer 8 islandIndex exampleParams
      ['A', 'A', 'G', 'C', 'C'] 100 = .ok [(0, ['A', 'A']), (3, ['C', 'C'])]) ∧
    (PacBioCorrectionProcess.PBSelfCorrection 8 islandIndex bridgingTrees exampleParams
      ['A', 'A', 'G', 'C', 'C'] 100).map (fun r => (r.merge, r.correctedPacbioStrs))
        = .ok (true, [['A', 'A', 'G', 'C', 'C']]) ∧
    ∃ r first rest,
      PacBioCorrectionProcess.PBSelfCorrection 8 islandIndex bridgingTrees exampleParams
        ['A', 'A', 'G', 'C', 'C'] 100 = .ok r ∧
      r.merge = true ∧ r.correctedPacbioStrs = first :: rest ∧
      (seedAt [((0 : Int), ['A', 'A']), (3, ['C', 'C'])] 0).2 <+: first :=
  ⟨by decide, by decide,
    (pbSelfCorrection_needs_two_seeds 8 islandIndex bridgingTrees exampleParams
      ['A', 'A', 'G', 'C', 'C'] 100 [(0, ['A', 'A']), (3, ['C', 'C'])] (by decide)
      (fun _ _ _ _ => rfl) (fun _ _ _ _ _ => rfl)
      (fun a b _ _ _ _ _ => by
        show a.length ≤ (a ++ ['G'] ++ b).length
        simp only [List.length_append]; omega)
      (by decide) (by decide)).2 (by decide)⟩

/-! ### The always-cutting variant of the other class -/

namespace FMIndexWalkProcess

theorem collectTargets_total (P : Parameters) (seeds : List Seed) (targetSeed cur : Nat) :
    ∀ (fuel collected : Nat) (targets : List (Int × Seq)),
      seeds.length - (cur + collected) < fuel →
      ∃ r, collectTargets P seeds targetSeed cur fuel collected targets = .ok r := by
  intro fuel
  induction fuel with
  | zero => intro c t hf; omega
  | succ n ih =>
    intro c t hf
    simp only [collectTargets]
    split
    · exact ih _ _ (by omega)
    · exact ⟨_, rfl⟩

theorem collectTargets_grows (P : Parameters) (seeds : List Seed) (targetSeed cur : Nat) :
    ∀ (fuel collected : Nat) (targets r : List (Int × Seq)),
      collectTargets P seeds targetSeed cur fuel collected targets = .ok r →
      targets.length ≤ r.length := by
  intro fuel
  induction fuel with
  | zero => intro c t r h; simp only [collectTargets] at h; cases h
  | succ n ih =>
    intro c t r h
    simp only [collectTargets] at h
    split at h
    · have := ih _ _ _ h
      simp only [List.length_append, List.length_singleton] at this
      omega
    · simp only [pure, Except.pure, Except.ok.injEq] at h
      subst h
      exact le_refl _

theorem collectTargets_nonempty (P : Parameters) (seeds : List Seed) (targetSeed cur : Nat)
    (fuel : Nat) (targets : List (Int × Seq)) (hcs : 1 ≤ P.collectedSeeds)
    (hcur : cur < seeds.length)
    (h : collectTargets P seeds targetSeed cur fuel 0 [] = .ok targets) :
    targets.isEmpty = false := by
  cases fuel with
  | zero => simp only [collectTargets] at h; cases h
  | succ n =>
    simp only [collectTargets] at h
    rw [if_pos ⟨by simp only [Nat.cast_zero]; omega, by omega⟩] at h
    have := collectTargets_grows P seeds targetSeed cur _ _ _ _ h
    simp only [List.nil_append, List.length_singleton] at this
    cases targets with
    | nil => simp at this
    | cons a rest => rfl

theorem fmi_lookahead_all_fail (T : SearchTrees) (P : Parameters) (seeds : List Seed)
    (source : Seed) (hcs : 1 ≤ P.collectedSeeds)
    (hF : ∀ a b c, (T.gapMergeTwoSeedsUsingHash a b c).1 < 0) :
    ∀ (fuel next : Nat) (code : Int) (m : Seq) (o : CorrectionState),
      seeds.length + 1 - (o.targetSeed + next) < fuel → code < 0 →
      ∃ code', lookahead T P seeds source fuel next code m o = .ok (.finished code' o)
        ∧ code' < 0 := by
  intro fuel
  induction fuel with
  | zero => intro next code m o hf _; omega
  | succ n ih =>
    intro next code m o hf hc
    simp only [lookahead]
    split
    · rename_i hcond
      obtain ⟨targets, ht⟩ := collectTargets_total P seeds o.targetSeed (o.targetSeed + next)
        n 0 [] (by omega)
      have hne := collectTargets_nonempty P seeds o.targetSeed (o.targetSeed + next) n targets
        hcs hcond.2 ht
      simp only [ht, bind, Except.bind, hne, Bool.false_eq_true, if_false]
      rw [if_neg (by have := hF source.2 targets m; omega)]
      exact ih _ _ _ _ (by omega) (hF _ _ _)
    · exact ⟨_, rfl, hc⟩

theorem fmi_correctLoop_cut (T : SearchTrees) (P : Parameters) (readSeq : Seq)
    (seeds : List Seed) (hcs : 1 ≤ P.collectedSeeds)
    (hF : ∀ a b c, (T.gapMergeTwoSeedsUsingHash a b c).1 < 0) :
    ∀ (fuel : Nat) (o : CorrectionState), o.targetSeed ≤ seeds.length →
      seeds.length + 2 - o.targetSeed < fuel →
      o.pacbioCorrectedStrs = seeds.take o.targetSeed →
      o.result.correctedPacbioStrs = [] →
      ∃ r, correctLoop T P readSeq seeds fuel o = .ok r ∧ r.merge = true ∧
        r.correctedPacbioStrs = seeds.map Prod.snd := by
  intro fuel
  induction fuel with
  | zero => intro o _ hf; omega
  | succ n ih =>
    intro o h2 hf hstrs hres
    simp only [correctLoop]
    split
    next hlt =>
      obtain ⟨code, hlk, hcode⟩ := fmi_lookahead_all_fail T P seeds
        (o.pacbioCorrectedStrs.getLastD (0, [])) hcs hF n 0 (-1) [] o (by omega) (by omega)
      simp only [hlk, bind, Except.bind, if_pos hcode]
      refine ih _ (by simp only [onFailure]; omega) (by simp only [onFailure]; omega) ?_ ?_
      · simp only [onFailure, hstrs, List.take_succ, seedAt]
        rw [List.getD_eq_getElem _ _ hlt, List.getElem?_eq_getElem hlt]
        rfl
      · simp only [onFailure]
        split
        · exact hres
        · split
          · exact hres
          · split
            · exact hres
            · exact hres
    next hge =>
      refine ⟨_, rfl, rfl, ?_⟩
      simp only [hres, hstrs, List.nil_append]
      rw [List.take_of_length_le (by omega)]

end FMIndexWalkProcess

/-- `FMIndexWalkProcess::PBSelfCorrection`, which always cuts: when at least one target is
collected for each search (`collectedSeeds >= 1`) and every walk returns a negative code,
the corrected strings are the seed strings in seed order. -/
theorem fmi_pbSelfCorrection_emits_seeds (fuel : Nat) (E : External) (T : SearchTrees)
    (P : Parameters) (readSeq : Seq) (seeds : List Seed) (hcs : 1 ≤ P.collectedSeeds)
    (hF : ∀ a b c, (T.gapMergeTwoSeedsUsingHash a b c).1 < 0)
    (hseeds : FMIndexWalkProcess.searchingSeedsUsingSolidKmer fuel E P readSeq = .ok seeds)
    (h1 : 1 ≤ seeds.length) (hfuel : seeds.length + 1 < fuel) :
    ∃ r, FMIndexWalkProcess.PBSelfCorrection fuel E T P readSeq = .ok r
      ∧ r.merge = true ∧ r.correctedPacbioStrs = seeds.map Prod.snd := by
  simp only [FMIndexWalkProcess.PBSelfCorrection, hseeds, bind, Except.bind]
  rw [if_pos (by omega)]
  refine FMIndexWalkProcess.fmi_correctLoop_cut T P readSeq seeds hcs hF
    fuel _ (by simp only; omega) (by simp only; omega) ?_ rfl
  simp only [seedAt]
  rw [List.getD_eq_getElem _ _ (by omega : 0 < seeds.length)]
  cases seeds with
  | nil => simp at h1
  | cons a rest => simp

/-! ### The segmentation fallback returns -/

theorem isDNA_of_infix {s t : Seq} (hs : IsDNA s) (h : t <:+: s) : IsDNA t :=
  fun c hc => hs c (h.subset hc)

namespace FMIndexWalkProcess

theorem trimRead_infix (fuel : Nat) (E : External) (readSeq out : Seq) (k : Nat)
    (h : trimRead fuel E readSeq k = .ok out) : out <:+: readSeq := by
  simp only [trimRead, bind, Except.bind] at h
  split at h
  · cases h
  · split at h
    · cases h
    · split at h
      · cases h
      · split at h
        · cases h
        · split at h
          · cases h
          · split at h
            · cases h
            · split at h
              · simp only [pure, Except.pure, Except.ok.injEq] at h
                subst h
                exact List.nil_infix
              · exact substr_infix h

theorem countBases_ok : ∀ (s : Seq) (a t c g : Nat), IsDNA s →
    ∃ r, countBases s a t c g = .ok r := by
  intro s
  induction s with
  | nil => intro a t c g _; exact ⟨_, rfl⟩
  | cons x rest ih =>
    intro a t c g h
    have hrest : IsDNA rest := fun y hy => h y (List.mem_cons_of_mem _ hy)
    simp only [countBases]
    rcases h x (List.mem_cons_self _ _) with hx | hx | hx | hx
    · subst hx
      simpa using ih _ _ _ _ hrest
    · subst hx
      simpa using ih _ _ _ _ hrest
    · subst hx
      simpa using ih _ _ _ _ hrest
    · subst hx
      simpa using ih _ _ _ _ hrest

theorem isLowComplexity_ok (s : Seq) (h : IsDNA s) : ∃ b, isLowComplexity s = .ok b := by
  obtain ⟨r, hr⟩ := countBases_ok s 0 0 0 0 h
  obtain ⟨a, t, c, g⟩ := r
  simp only [isLowComplexity, hr, bind, Except.bind]
  exact ⟨_, rfl⟩

theorem filterFragments_ok (mainIdx : Int) : ∀ (frags : List Seq) (i : Nat) (cs : Seq)
    (krs : List Seq), (∀ f ∈ frags, IsDNA f) →
    ∃ r, filterFragments mainIdx frags i cs krs = .ok r := by
  intro frags
  induction frags with
  | nil => intro i cs krs _; exact ⟨_, rfl⟩
  | cons f rest ih =>
    intro i cs krs h
    obtain ⟨b, hb⟩ := isLowComplexity_ok f (h f (List.mem_cons_self _ _))
    have hrest : ∀ g ∈ rest, IsDNA g := fun g hg => h g (List.mem_cons_of_mem _ hg)
    simp only [filterFragments, hb, bind, Except.bind]
    split
    · exact ih _ _ _ hrest
    · split
      · exact ih _ _ _ hrest
      · split
        · exact ih _ _ _ hrest
        · exact ih _ _ _ hrest

theorem strongScan_ok (cq : List Nat) : ∀ (remaining i : Nat),
    (remaining = 0 ∨ i + remaining ≤ cq.length) → ∃ b, strongScan cq remaining i = .ok b := by
  intro remaining
  induction remaining with
  | zero => intro i _; exact ⟨_, rfl⟩
  | succ n ih =>
    intro i h
    obtain ⟨x, hx⟩ := vecAt_ok cq i (by omega)
    simp only [strongScan, hx, bind, Except.bind]
    split
    · exact ⟨_, rfl⟩
    · exact ih _ (by omega)

theorem pickMain_ok (readSeq : Seq) (k : Nat) (cq : List Nat) :
    ∀ (ivs : List (Nat × Nat)) (i mx : Nat) (main : Int) (frags : List Seq),
      (∀ iv ∈ ivs, iv.2 < cq.length ∧ iv.1 ≤ readSeq.length) →
      (∀ f ∈ frags, f <:+: readSeq) →
      ∃ r, pickMain readSeq k cq ivs i mx main frags = .ok r ∧ ∀ f ∈ r.2, f <:+: readSeq := by
  intro ivs
  induction ivs with
  | nil => intro i mx main frags _ hf; exact ⟨_, rfl, hf⟩
  | cons iv rest ih =>
    intro i mx main frags h hf
    obtain ⟨h1, h2⟩ := h iv (List.mem_cons_self _ _)
    obtain ⟨b, hb⟩ := strongScan_ok cq (iv.2 + 1 - iv.1) iv.1 (by omega)
    obtain ⟨w, hw⟩ := substr_ok_of_range readSeq (iv.1 : Int)
      ((iv.2 : Int) - iv.1 + k) (by omega) (by omega)
    simp only [pickMain, isIntervalExistStrongKmer, hb, hw, bind, Except.bind]
    refine ih _ _ _ _ (fun x hx => h x (List.mem_cons_of_mem _ hx)) ?_
    intro f hfm
    rcases List.mem_append.1 hfm with hfm | hfm
    · exact hf f hfm
    · simp only [List.mem_singleton] at hfm
      subst hfm
      exact substr_infix hw

theorem splitRead_ok (E : External) (seq : Seq) (k threshold : Nat) (hk : 1 ≤ k)
    (hlen : k ≤ seq.length) :
    ∃ r, splitRead E (KmerContext.build E seq k) threshold = .ok r ∧
      ∀ f ∈ r.2, f <:+: seq := by
  obtain ⟨hn, _, _, hrs, hkl, _⟩ := build_numKmer E seq k hlen
  obtain ⟨cq, hcq, hcql⟩ := countQualifiedOf_ok E seq k threshold hlen
  obtain ⟨ivs, hivs, htiles, _⟩ := cutIntervals_tiles
    (splitReadCut E (KmerContext.build E seq k) cq) (seq.length - k + 1) (by omega)
    (fun q h1 h2 => splitReadCut_ok E seq k cq q hk hlen h1 h2)
  have hb := tiles_bounds htiles
  obtain ⟨r, hr, hfr⟩ := pickMain_ok seq k cq ivs 0 0 (-1) []
    (fun iv hiv => by have := hb iv hiv; omega) (by intro f hf; simp at hf)
  have hne : (KmerContext.build E seq k).empty = false := by
    unfold KmerContext.empty
    rw [hrs]
    cases seq with
    | nil => simp at hlen; omega
    | cons a l => rfl
  refine ⟨r, ?_, hfr⟩
  simp only [splitRead, hne, splitReadIntervals, hcq, hn, hivs, hrs, hkl, bind, Except.bind,
    Bool.false_eq_true, if_false]
  exact hr

theorem kmerizeBoth_ok (E : External) (k threshold : Nat) (seqFirst seqSecond : Seq)
    (result : FMIndexWalkResult) (hk : 1 ≤ k) (h1 : IsDNA seqFirst) (h2 : IsDNA seqSecond) :
    ∃ r, kmerizeBoth E k threshold seqFirst seqSecond result = .ok r := by
  have hA : ∃ r, (if seqFirst.length ≥ k then splitRead E (KmerContext.build E seqFirst k)
      threshold else (pure (-1, []) : Run (Int × List Seq))) = .ok r ∧
      ∀ f ∈ r.2, IsDNA f := by
    split
    · rename_i hl
      obtain ⟨r, hr, hf⟩ := splitRead_ok E seqFirst k threshold hk hl
      exact ⟨r, hr, fun f hfm => isDNA_of_infix h1 (hf f hfm)⟩
    · exact ⟨_, rfl, by intro f hf; simp at hf⟩
  have hB : ∃ r, (if seqSecond.length ≥ k then splitRead E (KmerContext.build E seqSecond k)
      threshold else (pure (-1, []) : Run (Int × List Seq))) = .ok r ∧
      ∀ f ∈ r.2, IsDNA f := by
    split
    · rename_i hl
      obtain ⟨r, hr, hf⟩ := splitRead_ok E seqSecond k threshold hk hl
      exact ⟨r, hr, fun f hfm => isDNA_of_infix h2 (hf f hfm)⟩
    · exact ⟨_, rfl, by intro f hf; simp at hf⟩
  obtain ⟨⟨m1, f1⟩, hr1, hd1⟩ := hA
  obtain ⟨⟨m2, f2⟩, hr2, hd2⟩ := hB
  simp only [kmerizeBoth, hr1, hr2, bind, Except.bind]
  obtain ⟨x, hx⟩ := filterFragments_ok m1 f1 0
    (if (!f2.isEmpty) = true then
      { (if (!f1.isEmpty) = true then { result with kmerize := true } else result) with
        kmerize2 := true }
     else (if (!f1.isEmpty) = true then { result with kmerize := true } else result)).correctSequence
    (if (!f2.isEmpty) = true then
      { (if (!f1.isEmpty) = true then { result with kmerize := true } else result) with
        kmerize2 := true }
     else (if (!f1.isEmpty) = true then { result with kmerize := true } else result)).kmerizedReads
    hd1
  obtain ⟨y, hy⟩ := filterFragments_ok m2 f2 0
    (if (!f2.isEmpty) = true then
      { (if (!f1.isEmpty) = true then { result with kmerize := true } else result) with
        kmerize2 := true }
     else (if (!f1.isEmpty) = true then { result with kmerize := true } else result)).correctSequence2
    (if (!f2.isEmpty) = true then
      { (if (!f1.isEmpty) = true then { result with kmerize := true } else result) with
        kmerize2 := true }
     else (if (!f1.isEmpty) = true then { result with kmerize := true } else result)).kmerizedReads2
    hd2
  simp only [hx, hy]
  exact ⟨_, rfl⟩

end FMIndexWalkProcess

/-! ### Re-trimming a non-empty result -/

namespace FMIndexWalkProcess

theorem trimHead_found (E : External) (readSeq : Seq) (k : Nat) (tail : Int) :
    ∀ (fuel : Nat) (head h : Int), trimHead E readSeq k tail fuel head = .ok h → h ≤ tail →
      ∃ kmer n, substr readSeq h k = .ok kmer ∧ numNextKmer E kmer .NK_START 1 = .ok n ∧
        n ≠ 0 := by
  intro fuel
  induction fuel with
  | zero => intro head h hh; simp [trimHead] at hh
  | succ m ih =>
    intro head h hh hle
    simp only [trimHead] at hh
    split at hh
    · cases hs : substr readSeq head k with
      | error e => simp [hs, bind, Except.bind] at hh
      | ok kmer =>
        simp only [hs, bind, Except.bind] at hh
        cases hn : numNextKmer E kmer .NK_START 1 with
        | error e => simp [hn] at hh
        | ok n =>
          simp only [hn] at hh
          split at hh
          · simp only [pure, Except.pure, Except.ok.injEq] at hh
            subst hh
            exact ⟨kmer, n, hs, hn, by omega⟩
          · exact ih _ _ hh hle
    · simp only [pure, Except.pure, Except.ok.injEq] at hh
      omega

theorem trimTail_found (E : External) (readSeq : Seq) (k : Nat) (head : Int) :
    ∀ (fuel : Nat) (tail t : Int), trimTail E readSeq k head fuel tail = .ok t → head ≤ t →
      ∃ kmer n, substr readSeq t k = .ok kmer ∧ numNextKmer E kmer .NK_END 1 = .ok n ∧
        n ≠ 0 := by
  intro fuel
  induction fuel with
  | zero => intro tail t hh; simp [trimTail] at hh
  | succ m ih =>
    intro tail t hh hle
    simp only [trimTail] at hh
    split at hh
    · cases hs : substr readSeq tail k with
      | error e => simp [hs, bind, Except.bind] at hh
      | ok kmer =>
        simp only [hs, bind, Except.bind] at hh
        cases hn : numNextKmer E kmer .NK_END 1 with
        | error e => simp [hn] at hh
        | ok n =>
          simp only [hn] at hh
          split at hh
          · simp only [pure, Except.pure, Except.ok.injEq] at hh
            subst hh
            exact ⟨kmer, n, hs, hn, by omega⟩
          · exact ih _ _ hh hle
    · simp only [pure, Except.pure, Except.ok.injEq] at hh
      omega

theorem trimHead_range (E : External) (readSeq : Seq) (k : Nat) (tail : Int) :
    ∀ (fuel : Nat) (head h : Int), trimHead E readSeq k tail fuel head = .ok h → head ≤ h := by
  intro fuel
  induction fuel with
  | zero => intro head h hh; simp [trimHead] at hh
  | succ m ih =>
    intro head h hh
    simp only [trimHead] at hh
    split at hh
    · cases hs : substr readSeq head k with
      | error e => simp [hs, bind, Except.bind] at hh
      | ok kmer =>
        simp only [hs, bind, Except.bind] at hh
        cases hn : numNextKmer E kmer .NK_START 1 with
        | error e => simp [hn] at hh
        | ok n =>
          simp only [hn] at hh
          split at hh
          · simp only [pure, Except.pure, Except.ok.injEq] at hh
            omega
          · have := ih _ _ hh
            omega
    · simp only [pure, Except.pure, Except.ok.injEq] at hh
      omega

theorem trimTail_range (E : External) (readSeq : Seq) (k : Nat) (head : Int) :
    ∀ (fuel : Nat) (tail t : Int), trimTail E readSeq k head fuel tail = .ok t → t ≤ tail := by
  intro fuel
  induction fuel with
  | zero => intro tail t hh; simp [trimTail] at hh
  | succ m ih =>
    intro tail t hh
    simp only [trimTail] at hh
    split at hh
    · cases hs : substr readSeq tail k with
      | error e => simp [hs, bind, Except.bind] at hh
      | ok kmer =>
        simp only [hs, bind, Except.bind] at hh
        cases hn : numNextKmer E kmer .NK_END 1 with
        | error e => simp [hn] at hh
        | ok n =>
          simp only [hn] at hh
          split at hh
          · simp only [pure, Except.pure, Except.ok.injEq] at hh
            omega
          · have := ih _ _ hh
            omega
    · simp only [pure, Except.pure, Except.ok.injEq] at hh
      omega

/-- What a successful run of `trimRead` with a non-empty result looks like: the result is
the part of the read from `head` to `tail + k`, the k-mer at `head` has an extension to the
left and the k-mer at `tail` has one to the right. -/
theorem trimRead_shape (fuel : Nat) (E : External) (readSeq out : Seq) (k : Nat)
    (h : trimRead fuel E readSeq k = .ok out) (hne : out ≠ []) :
    ∃ head tail : Int, 0 ≤ head ∧ head ≤ tail ∧ tail + k ≤ (readSeq.length : Int) ∧
      out = slice readSeq head (tail + k) ∧
      (∃ kmer n, substr readSeq head k = .ok kmer ∧ numNextKmer E kmer .NK_START 1 = .ok n ∧
        n ≠ 0) ∧
      (∃ kmer n, substr readSeq tail k = .ok kmer ∧ numNextKmer E kmer .NK_END 1 = .ok n ∧
        n ≠ 0) := by
  simp only [trimRead, bind, Except.bind] at h
  cases hs : substr readSeq 0 k with
  | error e => simp [hs] at h
  | ok headKmer =>
    simp only [hs] at h
    cases hn : numNextKmer E headKmer .NK_START 1 with
    | error e => simp [hn] at h
    | ok nH =>
      simp only [hn] at h
      cases hh : (if nH = 0 then trimHead E readSeq k ((readSeq.length : Int) - (k : Int)) fuel
          (0 + 1) else (pure 0 : Run Int)) with
      | error e => rw [hh] at h; cases h
      | ok head =>
        simp only [hh] at h
        cases hts : substr readSeq ((readSeq.length : Int) - (k : Int)) k with
        | error e => simp [hts] at h
        | ok tailKmer =>
          simp only [hts] at h
          cases hnt : numNextKmer E tailKmer .NK_END 1 with
          | error e => simp [hnt] at h
          | ok nT =>
            simp only [hnt] at h
            cases htl : (if nT = 0 then trimTail E readSeq k head fuel
                ((readSeq.length : Int) - (k : Int) - 1)
                else (pure ((readSeq.length : Int) - (k : Int)) : Run Int)) with
            | error e => rw [htl] at h; cases h
            | ok tail =>
              simp only [htl] at h
              split at h
              · simp only [pure, Except.pure, Except.ok.injEq] at h
                exact absurd h.symm hne
              · rename_i hgt
                have hhead0 : 0 ≤ head := by
                  split at hh
                  · have := trimHead_range E readSeq k _ _ _ _ hh
                    omega
                  · simp only [pure, Except.pure, Except.ok.injEq] at hh
                    omega
                have htailb : tail + k ≤ (readSeq.length : Int) := by
                  split at htl
                  · have := trimTail_range E readSeq k _ _ _ _ htl
                    omega
                  · simp only [pure, Except.pure, Except.ok.injEq] at htl
                    omega
                refine ⟨head, tail, hhead0, by omega, htailb, ?_, ?_, ?_⟩
                · have := substr_eq_slice (s := readSeq) (a := head) (b := tail + k) hhead0
                    (by omega) htailb
                  rw [show tail + (k : Int) - head = tail - head + (k : Int) by ring] at this
                  rw [this] at h
                  simp only [Except.ok.injEq] at h
                  exact h.symm
                · split at hh
                  · exact trimHead_found E readSeq k _ _ _ _ hh (by omega)
                  · rename_i hnz
                    simp only [pure, Except.pure, Except.ok.injEq] at hh
                    subst hh
                    exact ⟨headKmer, nH, hs, hn, hnz⟩
                · split at htl
                  · exact trimTail_found E readSeq k _ _ _ _ htl (by omega)
                  · rename_i hnz
                    simp only [pure, Except.pure, Except.ok.injEq] at htl
                    subst htl
                    exact ⟨tailKmer, nT, hts, hnt, hnz⟩

theorem substr_of_slice (s : Seq) (a b p len : Int) (ha : 0 ≤ a) (hp : 0 ≤ p) (hl : 0 ≤ len)
    (hb : b ≤ (s.length : Int)) (hpl : a + p + len ≤ b) :
    substr (slice s a b) p len = substr s (a + p) len := by
  have hlen : ((slice s a b).length : Int) = b - a := by
    unfold slice
    simp only [List.length_take, List.length_drop]
    omega
  unfold substr
  rw [if_neg (by omega), if_neg (by omega), if_neg (by omega), if_neg (by omega)]
  congr 1
  unfold slice
  rw [List.drop_take, List.take_take, List.drop_drop]
  congr 1
  · omega
  · congr 1
    omega

/-- Applied to its own non-empty output, `trimRead` returns that output unchanged. -/
theorem trimRead_idempotent_of_nonempty (fuel : Nat) (E : External) (readSeq out : Seq)
    (k : Nat) (h : trimRead fuel E readSeq k = .ok out) (hne : out ≠ []) :
    trimRead fuel E out k = .ok out := by
  obtain ⟨head, tail, h0, hht, htb, hout, ⟨hk1, n1, hs1, hn1, hz1⟩, ⟨hk2, n2, hs2, hn2, hz2⟩⟩ :=
    trimRead_shape fuel E readSeq out k h hne
  have hol : (out.length : Int) = tail + k - head := by
    rw [hout]
    unfold slice
    simp only [List.length_take, List.length_drop]
    omega
  have e1 : substr out 0 k = .ok hk1 := by
    rw [hout, substr_of_slice readSeq head (tail + k) 0 k h0 (le_refl 0) (by omega) htb
      (by omega)]
    simpa using hs1
  have e2 : substr out ((out.length : Int) - (k : Int)) k = .ok hk2 := by
    rw [hol]
    rw [hout, substr_of_slice readSeq head (tail + k) (tail + k - head - k) k h0 (by omega)
      (by omega) htb (by omega)]
    rw [show head + (tail + (k : Int) - head - k) = tail by ring]
    exact hs2
  have e3 : substr out 0 ((out.length : Int) - (k : Int) - 0 + (k : Int)) = .ok out := by
    unfold substr
    rw [if_neg (by omega), if_neg (by omega)]
    simp
  simp only [trimRead, e1, hn1, if_neg hz1, e2, hn2, if_neg hz2, bind, Except.bind, pure,
    Except.pure]
  rw [if_neg (by omega)]
  exact e3

end FMIndexWalkProcess

/-! ### Paired-end merging -/

namespace FMIndexWalkProcess

/-- The segmentation fallback never touches the `merge` flag. -/
theorem kmerizeBoth_merge (E : External) (k threshold : Nat) (seqFirst seqSecond : Seq)
    (result r : FMIndexWalkResult)
    (h : kmerizeBoth E k threshold seqFirst seqSecond result = .ok r) :
    r.merge = result.merge := by
  simp only [kmerizeBoth, bind, Except.bind] at h
  split at h
  · cases h
  · rename_i v1 _
    split at h
    · cases h
    · rename_i v2 _
      split at h
      · cases h
      · rename_i v3 _
        split at h
        · cases h
        · rename_i v4 _
          simp only [pure, Except.pure, Except.ok.injEq] at h
          subst h
          simp only
          split <;> split <;> rfl

end FMIndexWalkProcess

/-- C10: in `MergeAndKmerize`, when both reads are trimmed, the prefixes pass the
suitability gate, and exactly one of the two directional searches returns a non-empty
sequence: if both searches used at most one leaf the result has `merge = true` and
`correctSequence` equal to that sequence; if either search used more than one leaf, no
result with `merge = true` is returned, and for reads over `A`, `C`, `G`, `T` the
segmentation fallback returns a result with `merge = false`. -/
theorem mergeAndKmerize_one_direction (fuel : Nat) (E : External) (T : SearchTrees)
    (P : Parameters) (threshold : Nat) (first second seqFirst seqSecond : Seq)
    (firstKRstr secondKRstr : Seq)
    (hT1 : FMIndexWalkProcess.trimRead fuel E first (toSizeT P.kmerLength) = .ok seqFirst)
    (hT2 : FMIndexWalkProcess.trimRead fuel E second (toSizeT P.kmerLength) = .ok seqSecond)
    (hreach : (FMIndexWalkProcess.shortForOverlap P seqFirst
        || FMIndexWalkProcess.shortForOverlap P seqSecond) = true
      ∨ (toSizeT P.kmerLength ≤ seqFirst.length ∧ toSizeT P.kmerLength ≤ seqSecond.length))
    (hK1 : substr seqFirst 0 P.minOverlap = .ok firstKRstr)
    (hK2 : substr seqSecond 0 P.minOverlap = .ok secondKRstr)
    (hgate : FMIndexWalkProcess.isSuitableForFMWalk E P firstKRstr secondKRstr = true)
    (hone :
      ((T.mergeTwoReads firstKRstr (E.reverseComplement secondKRstr)
          (first.length + second.length)).mergedseq ≠ [] ∧
        (T.mergeTwoReads secondKRstr (E.reverseComplement firstKRstr)
          (first.length + second.length)).mergedseq = []) ∨
      ((T.mergeTwoReads firstKRstr (E.reverseComplement secondKRstr)
          (first.length + second.length)).mergedseq = [] ∧
        (T.mergeTwoReads secondKRstr (E.reverseComplement firstKRstr)
          (first.length + second.length)).mergedseq ≠ [])) :
    (((T.mergeTwoReads firstKRstr (E.reverseComplement secondKRstr)
          (first.length + second.length)).maxUsedLeaves ≤ 1 ∧
      (T.mergeTwoReads secondKRstr (E.reverseComplement firstKRstr)
          (first.length + second.length)).maxUsedLeaves ≤ 1) →
      ∃ r, FMIndexWalkProcess.MergeAndKmerize fuel E T P threshold first second = .ok r ∧
        r.merge = true ∧
        r.correctSequence =
          (if (T.mergeTwoReads firstKRstr (E.reverseComplement secondKRstr)
              (first.length + second.length)).mergedseq = [] then
            (T.mergeTwoReads secondKRstr (E.reverseComplement firstKRstr)
              (first.length + second.length)).mergedseq
          else
            (T.mergeTwoReads firstKRstr (E.reverseComplement secondKRstr)
              (first.length + second.length)).mergedseq)) ∧
    (¬ ((T.mergeTwoReads firstKRstr (E.reverseComplement secondKRstr)
          (first.length + second.length)).maxUsedLeaves ≤ 1 ∧
      (T.mergeTwoReads secondKRstr (E.reverseComplement firstKRstr)
          (first.length + second.length)).maxUsedLeaves ≤ 1) →
      (∀ r, FMIndexWalkProcess.MergeAndKmerize fuel E T P threshold first second = .ok r →
        r.merge = false) ∧
      (IsDNA first → IsDNA second → 1 ≤ toSizeT P.kmerLength →
        ∃ r, FMIndexWalkProcess.MergeAndKmerize fuel E T P threshold first second = .ok r ∧
          r.merge = false)) := by
  have hguard : (!(FMIndexWalkProcess.shortForOverlap P seqFirst
        || FMIndexWalkProcess.shortForOverlap P seqSecond)
      && decide (seqFirst.length < toSizeT P.kmerLength
          ∨ seqSecond.length < toSizeT P.kmerLength)) = false := by
    rcases hreach with h | h
    · simp [h]
    · have : ¬ (seqFirst.length < toSizeT P.kmerLength
          ∨ seqSecond.length < toSizeT P.kmerLength) := by omega
      simp [this]
  generalize hw1 : T.mergeTwoReads firstKRstr (E.reverseComplement secondKRstr)
    (first.length + second.length) = walk1 at hone ⊢
  generalize hw2 : T.mergeTwoReads secondKRstr (E.reverseComplement firstKRstr)
    (first.length + second.length) = walk2 at hone ⊢
  constructor
  · intro hleaves
    simp only [FMIndexWalkProcess.MergeAndKmerize, hT1, hT2, hguard, hK1, hK2, hgate, hw1, hw2,
      bind, Except.bind, Bool.false_eq_true, if_false, if_true]
    rcases hone with ⟨h1, h2⟩ | ⟨h1, h2⟩
    · have e1 : walk1.mergedseq.isEmpty = false := by
        cases hm : walk1.mergedseq with
        | nil => exact absurd hm h1
        | cons a l => rfl
      simp only [e1, h2, hleaves.1, hleaves.2, List.isEmpty_nil, Bool.not_false, Bool.and_self,
        decide_True, if_true, if_neg h1]
      exact ⟨_, rfl, rfl, rfl⟩
    · have e2 : walk2.mergedseq.isEmpty = false := by
        cases hm : walk2.mergedseq with
        | nil => exact absurd hm h2
        | cons a l => rfl
      simp only [e2, h1, hleaves.1, hleaves.2, List.isEmpty_nil, Bool.not_true, Bool.not_false,
        Bool.false_and, Bool.and_self, Bool.true_and, decide_True, Bool.false_eq_true,
        if_false, if_true]
      exact ⟨_, rfl, rfl, rfl⟩
  · intro hleaves
    have hpart : ∀ r, FMIndexWalkProcess.MergeAndKmerize fuel E T P threshold first second
        = .ok r → r.merge = false := ?_
    · refine ⟨hpart, ?_⟩
      intro hd1 hd2 hk
      suffices hex : ∃ r, FMIndexWalkProcess.MergeAndKmerize fuel E T P threshold first second
          = .ok r from hex.imp (fun r hr => ⟨hr, hpart r hr⟩)
      have hs1 := isDNA_of_infix hd1 (FMIndexWalkProcess.trimRead_infix _ _ _ _ _ hT1)
      have hs2 := isDNA_of_infix hd2 (FMIndexWalkProcess.trimRead_infix _ _ _ _ _ hT2)
      have hfb := fun res => FMIndexWalkProcess.kmerizeBoth_ok E (toSizeT P.kmerLength)
        threshold seqFirst seqSecond res hk hs1 hs2
      simp only [FMIndexWalkProcess.MergeAndKmerize, hT1, hT2, hguard, hK1, hK2, hgate, hw1,
        hw2, bind, Except.bind, Bool.false_eq_true, if_false, if_true]
      split
      · exact ⟨_, rfl⟩
      · split
        · exact ⟨_, rfl⟩
        · split
          · exact ⟨_, rfl⟩
          · exact hfb _
    intro r hr
    simp only [FMIndexWalkProcess.MergeAndKmerize, hT1, hT2, hguard, hK1, hK2, hgate, hw1, hw2,
      bind, Except.bind, Bool.false_eq_true, if_false, if_true] at hr
    have hl : (decide (walk1.maxUsedLeaves ≤ 1) && decide (walk2.maxUsedLeaves ≤ 1)) = false := by
      by_cases a : walk1.maxUsedLeaves ≤ 1
      · by_cases b : walk2.maxUsedLeaves ≤ 1
        · exact absurd ⟨a, b⟩ hleaves
        · simp [b]
      · simp [a]
    have hl' : (decide (walk2.maxUsedLeaves ≤ 1) && decide (walk1.maxUsedLeaves ≤ 1)) = false := by
      rw [Bool.and_comm]; exact hl
    have hboth : (!walk1.mergedseq.isEmpty && !walk2.mergedseq.isEmpty) = false := by
      rcases hone with ⟨_, h2⟩ | ⟨h1, _⟩
      · simp [h2]
      · simp [h1]
    simp only [Bool.and_assoc, hl, hl', hboth, Bool.and_false, Bool.false_and,
      Bool.false_eq_true, if_false] at hr
    have := FMIndexWalkProcess.kmerizeBoth_merge E _ threshold seqFirst seqSecond _ r hr
    rw [this]
    split <;> rfl

theorem mergeAndKmerize_one_direction_witness :
    FMIndexWalkProcess.trimRead 8 exampleIndex ['A', 'C', 'G', 'T']
      (toSizeT exampleParams.kmerLength) = .ok ['A', 'C', 'G', 'T'] ∧
    FMIndexWalkProcess.isSuitableForFMWalk exampleIndex exampleParams ['A', 'C'] ['T', 'T']
      = true ∧
    (∃ r, FMIndexWalkProcess.MergeAndKmerize 8 exampleIndex oneWayTrees exampleParams 2
        ['A', 'C', 'G', 'T'] ['T', 'T', 'G', 'A'] = .ok r ∧
      r.merge = true ∧ r.correctSequence = ['A', 'C', 'G', 'T']) ∧
    (∃ r, FMIndexWalkProcess.MergeAndKmerize 8 exampleIndex branchingTrees exampleParams 2
        ['A', 'C', 'G', 'T'] ['T', 'T', 'G', 'A'] = .ok r ∧ r.merge = false) :=
  ⟨by decide, by decide,
    (mergeAndKmerize_one_direction 8 exampleIndex oneWayTrees exampleParams 2
      ['A', 'C', 'G', 'T'] ['T', 'T', 'G', 'A'] ['A', 'C', 'G', 'T'] ['T', 'T', 'G', 'A']
      ['A', 'C'] ['T', 'T'] (by decide) (by decide) (by decide) (by decide) (by decide)
      (by decide) (by decide)).1 (by decide),
    ((mergeAndKmerize_one_direction 8 exampleIndex branchingTrees exampleParams 2
      ['A', 'C', 'G', 'T'] ['T', 'T', 'G', 'A'] ['A', 'C', 'G', 'T'] ['T', 'T', 'G', 'A']
      ['A', 'C'] ['T', 'T'] (by decide) (by decide) (by decide) (by decide) (by decide)
      (by decide) (by decide)).2 (by decide)).2 (by unfold IsDNA; decide)
      (by unfold IsDNA; decide) (by decide)⟩

/-! ### Both directional searches succeed -/

/-- C11: in `MergeAndKmerize`, when both reads are trimmed, the prefixes pass the
suitability gate and both directional searches return non-empty sequences: if the first
output equals the reverse complement of the second, the result has `merge = true` and
`correctSequence` is the first output when its k-mer coverage is the higher one and the
second output otherwise; if the two outputs are not reverse complements, no result with
`merge = true` is returned, and for reads over `A`, `C`, `G`, `T` the segmentation fallback
returns a result with `merge = false`. -/
theorem mergeAndKmerize_both_directions (fuel : Nat) (E : External) (T : SearchTrees)
    (P : Parameters) (threshold : Nat) (first second seqFirst seqSecond : Seq)
    (firstKRstr secondKRstr : Seq)
    (hT1 : FMIndexWalkProcess.trimRead fuel E first (toSizeT P.kmerLength) = .ok seqFirst)
    (hT2 : FMIndexWalkProcess.trimRead fuel E second (toSizeT P.kmerLength) = .ok seqSecond)
    (hreach : (FMIndexWalkProcess.shortForOverlap P seqFirst
        || FMIndexWalkProcess.shortForOverlap P seqSecond) = true
      ∨ (toSizeT P.kmerLength ≤ seqFirst.length ∧ toSizeT P.kmerLength ≤ seqSecond.length))
    (hK1 : substr seqFirst 0 P.minOverlap = .ok firstKRstr)
    (hK2 : substr seqSecond 0 P.minOverlap = .ok secondKRstr)
    (hgate : FMIndexWalkProcess.isSuitableForFMWalk E P firstKRstr secondKRstr = true)
    (hboth :
      (T.mergeTwoReads firstKRstr (E.reverseComplement secondKRstr)
          (first.length + second.length)).mergedseq ≠ [] ∧
      (T.mergeTwoReads secondKRstr (E.reverseComplement firstKRstr)
          (first.length + second.length)).mergedseq ≠ []) :
    ((T.mergeTwoReads firstKRstr (E.reverseComplement secondKRstr)
          (first.length + second.length)).mergedseq
        = E.reverseComplement (T.mergeTwoReads secondKRstr (E.reverseComplement firstKRstr)
          (first.length + second.length)).mergedseq →
      ∃ r, FMIndexWalkProcess.MergeAndKmerize fuel E T P threshold first second = .ok r ∧
        r.merge = true ∧
        r.correctSequence =
          (if (T.mergeTwoReads firstKRstr (E.reverseComplement secondKRstr)
                (first.length + second.length)).kmerCoverage
              > (T.mergeTwoReads secondKRstr (E.reverseComplement firstKRstr)
                (first.length + second.length)).kmerCoverage then
            (T.mergeTwoReads firstKRstr (E.reverseComplement secondKRstr)
              (first.length + second.length)).mergedseq
          else
            (T.mergeTwoReads secondKRstr (E.reverseComplement firstKRstr)
              (first.length + second.length)).mergedseq)) ∧
    ((T.mergeTwoReads firstKRstr (E.reverseComplement secondKRstr)
          (first.length + second.length)).mergedseq
        ≠ E.reverseComplement (T.mergeTwoReads secondKRstr (E.reverseComplement firstKRstr)
          (first.length + second.length)).mergedseq →
      (∀ r, FMIndexWalkProcess.MergeAndKmerize fuel E T P threshold first second = .ok r →
        r.merge = false) ∧
      (IsDNA first → IsDNA second → 1 ≤ toSizeT P.kmerLength →
        ∃ r, FMIndexWalkProcess.MergeAndKmerize fuel E T P threshold first second = .ok r ∧
          r.merge = false)) := by
  have hguard : (!(FMIndexWalkProcess.shortForOverlap P seqFirst
        || FMIndexWalkProcess.shortForOverlap P seqSecond)
      && decide (seqFirst.length < toSizeT P.kmerLength
          ∨ seqSecond.length < toSizeT P.kmerLength)) = false := by
    rcases hreach with h | h
    · simp [h]
    · have : ¬ (seqFirst.length < toSizeT P.kmerLength
          ∨ seqSecond.length < toSizeT P.kmerLength) := by omega
      simp [this]
  generalize hw1 : T.mergeTwoReads firstKRstr (E.reverseComplement secondKRstr)
    (first.length + second.length) = walk1 at hboth ⊢
  generalize hw2 : T.mergeTwoReads secondKRstr (E.reverseComplement firstKRstr)
    (first.length + second.length) = walk2 at hboth ⊢
  have e1 : walk1.mergedseq.isEmpty = false := by
    cases hm : walk1.mergedseq with
    | nil => exact absurd hm hboth.1
    | cons a l => rfl
  have e2 : walk2.mergedseq.isEmpty = false := by
    cases hm : walk2.mergedseq with
    | nil => exact absurd hm hboth.2
    | cons a l => rfl
  constructor
  · intro heq
    simp only [FMIndexWalkProcess.MergeAndKmerize, hT1, hT2, hguard, hK1, hK2, hgate, hw1, hw2,
      bind, Except.bind, Bool.false_eq_true, if_false, if_true, e1, e2, Bool.not_false,
      Bool.true_and, Bool.false_and, Bool.and_false, Bool.and_true, Bool.not_true,
      decide_eq_true_eq]
    rw [if_pos heq]
    exact ⟨_, rfl, rfl, rfl⟩
  · intro hne
    have hpart : ∀ r, FMIndexWalkProcess.MergeAndKmerize fuel E T P threshold first second
        = .ok r → r.merge = false := by
      intro r hr
      simp only [FMIndexWalkProcess.MergeAndKmerize, hT1, hT2, hguard, hK1, hK2, hgate, hw1,
        hw2, bind, Except.bind, Bool.false_eq_true, if_false, if_true, e1, e2, Bool.not_false,
        Bool.true_and, Bool.false_and, Bool.and_false, Bool.and_true, Bool.not_true,
        decide_eq_true_eq] at hr
      rw [if_neg hne] at hr
      have := FMIndexWalkProcess.kmerizeBoth_merge E _ threshold seqFirst seqSecond _ r hr
      rw [this]
      split <;> rfl
    refine ⟨hpart, ?_⟩
    intro hd1 hd2 hk
    suffices hex : ∃ r, FMIndexWalkProcess.MergeAndKmerize fuel E T P threshold first second
        = .ok r from hex.imp (fun r hr => ⟨hr, hpart r hr⟩)
    have hs1 := isDNA_of_infix hd1 (FMIndexWalkProcess.trimRead_infix _ _ _ _ _ hT1)
    have hs2 := isDNA_of_infix hd2 (FMIndexWalkProcess.trimRead_infix _ _ _ _ _ hT2)
    have hfb := fun res => FMIndexWalkProcess.kmerizeBoth_ok E (toSizeT P.kmerLength)
      threshold seqFirst seqSecond res hk hs1 hs2
    simp only [FMIndexWalkProcess.MergeAndKmerize, hT1, hT2, hguard, hK1, hK2, hgate, hw1,
      hw2, bind, Except.bind, Bool.false_eq_true, if_false, if_true, e1, e2, Bool.not_false,
      Bool.true_and, Bool.false_and, Bool.and_false, Bool.and_true, Bool.not_true,
      decide_eq_true_eq]
    rw [if_neg hne]
    exact hfb _

theorem mergeAndKmerize_both_directions_witness :
    FMIndexWalkProcess.isSuitableForFMWalk strandIndex exampleParams ['A', 'C'] ['T', 'T']
      = true ∧
    (∃ r, FMIndexWalkProcess.MergeAndKmerize 8 strandIndex twoWayTrees exampleParams 2
        ['A', 'C', 'G', 'T'] ['T', 'T', 'G', 'A'] = .ok r ∧
      r.merge = true ∧ r.correctSequence = ['T', 'T', 'C', 'G', 'T']) ∧
    (∃ r, FMIndexWalkProcess.MergeAndKmerize 8 strandIndex disagreeingTrees exampleParams 2
        ['A', 'C', 'G', 'T'] ['T', 'T', 'G', 'A'] = .ok r ∧ r.merge = false) :=
  ⟨by decide,
    (mergeAndKmerize_both_directions 8 strandIndex twoWayTrees exampleParams 2
      ['A', 'C', 'G', 'T'] ['T', 'T', 'G', 'A'] ['A', 'C', 'G', 'T'] ['T', 'T', 'G', 'A']
      ['A', 'C'] ['T', 'T'] (by decide) (by decide) (by decide) (by decide) (by decide)
      (by decide) (by decide)).1 (by decide),
    ((mergeAndKmerize_both_directions 8 strandIndex disagreeingTrees exampleParams 2
      ['A', 'C', 'G', 'T'] ['T', 'T', 'G', 'A'] ['A', 'C', 'G', 'T'] ['T', 'T', 'G', 'A']
      ['A', 'C'] ['T', 'T'] (by decide) (by decide) (by decide) (by decide) (by decide)
      (by decide) (by decide)).2 (by decide)).2 (by unfold IsDNA; decide)
      (by unfold IsDNA; decide) (by decide)⟩

/-! ### The shrinking-overlap retry loop -/

theorem tdiv_two_thirds_nonpos (m : Int) (h : m ≤ 1) : Int.tdiv (m * 2) 3 ≤ 0 := by
  rcases le_or_lt 0 m with h0 | h0
  · rw [Int.tdiv_eq_ediv (by omega) (by omega)]; omega
  · have h1 : m * 2 = -(-(m * 2)) := by omega
    rw [h1, Int.neg_tdiv]
    have := Int.tdiv_nonneg (a := -(m * 2)) (b := 3) (by omega) (by omega)
    omega

theorem tdiv_two_thirds_eq (m : Int) (h : 0 ≤ m) : Int.tdiv (m * 2) 3 = m * 2 / 3 :=
  Int.tdiv_eq_ediv (by omega) (by omega)

/-- The double search has no loop of its own: it never runs out of iterations. -/
theorem doubleFMWalkForPacbio_ne_fuel (signedAssert : Bool) (E : External) (T : SearchTrees)
    (firstSeed secondSeed : Seed) (minOverlap needWalkLen : Int) (mergedseq : Seq) :
    doubleFMWalkForPacbio signedAssert E T firstSeed secondSeed minOverlap needWalkLen mergedseq
      ≠ .error .fuel := by
  unfold doubleFMWalkForPacbio
  simp only [pure, Except.pure]
  repeat' split
  all_goals simp

/-- One iteration of the retry loop: it ends the loop, or the next iteration starts from
`(minOverlapTmp*2)/3`, which is at least `minKmerLength`. -/
theorem solveHighErrorLoop_step (signedAssert : Bool) (E : External) (T : SearchTrees)
    (P : Parameters) (firstSeed secondSeed : Seed) (needWalkLen : Int) (fuel : Nat)
    (m : Int) (mergedseq : Seq) :
    solveHighErrorLoop signedAssert E T P firstSeed secondSeed needWalkLen (fuel + 1) m
        mergedseq ≠ .error .fuel ∨
    (P.minKmerLength ≤ Int.tdiv (m * 2) 3 ∧
      ∃ ms, solveHighErrorLoop signedAssert E T P firstSeed secondSeed needWalkLen (fuel + 1) m
          mergedseq
        = solveHighErrorLoop signedAssert E T P firstSeed secondSeed needWalkLen fuel
            (Int.tdiv (m * 2) 3) ms) := by
  simp only [solveHighErrorLoop, bind, Except.bind]
  cases hd : doubleFMWalkForPacbio signedAssert E T firstSeed secondSeed m needWalkLen
      mergedseq with
  | error e =>
    left
    intro h
    simp only [Except.error.injEq] at h
    subst h
    exact doubleFMWalkForPacbio_ne_fuel _ _ _ _ _ _ _ _ hd
  | ok p =>
    simp only
    split
    next hc => exact Or.inr ⟨hc.2, _, rfl⟩
    next hc => left; simp [pure, Except.pure]

/-- Once the retry loop has ended within its budget, a larger budget changes nothing. -/
theorem solveHighErrorLoop_mono (signedAssert : Bool) (E : External) (T : SearchTrees)
    (P : Parameters) (firstSeed secondSeed : Seed) (needWalkLen : Int) :
    ∀ (fuel : Nat) (m : Int) (mergedseq : Seq),
      solveHighErrorLoop signedAssert E T P firstSeed secondSeed needWalkLen fuel m mergedseq
        ≠ .error .fuel →
      ∀ extra, solveHighErrorLoop signedAssert E T P firstSeed secondSeed needWalkLen
          (fuel + extra) m mergedseq
        = solveHighErrorLoop signedAssert E T P firstSeed secondSeed needWalkLen fuel m
            mergedseq := by
  intro fuel
  induction fuel with
  | zero => intro m ms h; exact absurd rfl h
  | succ n ih =>
    intro m ms h extra
    rw [show n + 1 + extra = (n + extra) + 1 by omega]
    simp only [solveHighErrorLoop, bind, Except.bind] at h ⊢
    cases hd : doubleFMWalkForPacbio signedAssert E T firstSeed secondSeed m needWalkLen ms with
    | error e => rfl
    | ok p =>
      simp only [hd] at h ⊢
      split
      next hc =>
        rw [if_pos hc] at h
        exact ih _ _ h extra
      next hc => rfl

/-- The retry loop ends within `2 * log2(minOverlap) + 1` iterations when the minimum
k-mer length is positive. -/
theorem solveHighErrorLoop_exits (signedAssert : Bool) (E : External) (T : SearchTrees)
    (P : Parameters) (firstSeed secondSeed : Seed) (needWalkLen : Int)
    (hmin : 1 ≤ P.minKmerLength) :
    ∀ (n : Nat) (m : Int), m.toNat = n → ∀ (fuel : Nat) (mergedseq : Seq),
      2 * Nat.log 2 n + 1 ≤ fuel →
      solveHighErrorLoop signedAssert E T P firstSeed secondSeed needWalkLen fuel m mergedseq
        ≠ .error .fuel := by
  intro n
  induction n using Nat.strong_induction_on with
  | _ n ih =>
    intro m hm fuel ms hfuel
    obtain ⟨f1, rfl⟩ : ∃ f1, fuel = f1 + 1 := ⟨fuel - 1, by omega⟩
    rcases solveHighErrorLoop_step signedAssert E T P firstSeed secondSeed needWalkLen f1 m ms
      with h | ⟨hge, ms1, h⟩
    · exact h
    · have hm2 : 2 ≤ m := by
        by_contra hlt
        have := tdiv_two_thirds_nonpos m (by omega)
        omega
      have hn2 : 2 ≤ n := by omega
      have hlog : 1 ≤ Nat.log 2 n := Nat.log_pos (by omega) hn2
      have e1 := tdiv_two_thirds_eq m (by omega)
      rw [h]
      obtain ⟨f2, rfl⟩ : ∃ f2, f1 = f2 + 1 := ⟨f1 - 1, by omega⟩
      rcases solveHighErrorLoop_step signedAssert E T P firstSeed secondSeed needWalkLen f2
        (Int.tdiv (m * 2) 3) ms1 with h2 | ⟨hge2, ms2, h2⟩
      · exact h2
      · rw [h2]
        have e2 := tdiv_two_thirds_eq (Int.tdiv (m * 2) 3) (by omega)
        have hhalf : (Int.tdiv (Int.tdiv (m * 2) 3 * 2) 3).toNat ≤ n / 2 := by
          rw [e2, e1]
          have : m * 2 / 3 * 2 / 3 ≤ m / 2 := by omega
          have hn : (n : Int) = m := by omega
          have : ((n / 2 : Nat) : Int) = m / 2 := by rw [← hn]; rfl
          omega
        have hl := Nat.log_mono_right (b := 2) hhalf
        rw [Nat.log_div_base] at hl
        exact ih _ (by omega) _ rfl _ _ (by omega)

/-- C12 (amended): `solveHighError` (both classes) ends its retry loop for every pair of
seeds, every initial `minOverlap` and every behaviour of the underlying search, provided
`minKmerLength >= 1`: the loop is left within `2 * log2(minOverlap) + 1` iterations (one
iteration when `minOverlap <= 1`), and a larger iteration budget gives the same outcome. -/
theorem solveHighError_exits_for_positive_minKmerLength (signedAssert : Bool) (E : External)
    (T : SearchTrees) (P : Parameters) (firstSeed secondSeed : Seed)
    (minOverlap needWalkLen : Int) (mergedseq : Seq) (hmin : 1 ≤ P.minKmerLength) :
    solveHighError (2 * Nat.log 2 minOverlap.toNat + 1) signedAssert E T P firstSeed secondSeed
        minOverlap needWalkLen mergedseq ≠ .error .fuel ∧
    ∀ extra, solveHighError (2 * Nat.log 2 minOverlap.toNat + 1 + extra) signedAssert E T P
        firstSeed secondSeed minOverlap needWalkLen mergedseq
      = solveHighError (2 * Nat.log 2 minOverlap.toNat + 1) signedAssert E T P firstSeed
          secondSeed minOverlap needWalkLen mergedseq := by
  have h := solveHighErrorLoop_exits signedAssert E T P firstSeed secondSeed needWalkLen hmin
    minOverlap.toNat minOverlap rfl (2 * Nat.log 2 minOverlap.toNat + 1) mergedseq (le_refl _)
  exact ⟨h, solveHighErrorLoop_mono signedAssert E T P firstSeed secondSeed needWalkLen _ _ _ h⟩

theorem solveHighError_exits_for_positive_minKmerLength_witness :
    solveHighError 5 true exampleIndex failingTrees exampleParams (0, ['A', 'C', 'G', 'T'])
        (6, ['G', 'G', 'T', 'A']) 4 2 [] = .ok (-1, []) ∧
    solveHighError (2 * Nat.log 2 (4 : Int).toNat + 1) true exampleIndex failingTrees
        exampleParams (0, ['A', 'C', 'G', 'T']) (6, ['G', 'G', 'T', 'A']) 4 2 []
      ≠ .error .fuel :=
  ⟨by decide,
    (solveHighError_exits_for_positive_minKmerLength true exampleIndex failingTrees
      exampleParams (0, ['A', 'C', 'G', 'T']) (6, ['G', 'G', 'T', 'A']) 4 2 []
      (by decide)).1⟩

theorem solveHighErrorLoop_zero_minimum (signedAssert : Bool) :
    ∀ (fuel : Nat) (m : Int), 0 ≤ m → m ≤ 2 →
      solveHighErrorLoop signedAssert exampleIndex failingTrees zeroMinParams
        (0, ['A', 'C']) (3, ['G', 'T']) 1 fuel m [] = .error .fuel := by
  intro fuel
  induction fuel with
  | zero => intro m _ _; rfl
  | succ n ih =>
    intro m h0 h2
    have hfit : toSizeT m ≤ 2 := by
      unfold toSizeT
      rw [Int.emod_eq_of_lt h0 (by omega)]
      omega
    have hd : doubleFMWalkForPacbio signedAssert exampleIndex failingTrees (0, ['A', 'C'])
        (3, ['G', 'T']) m 1 [] = .ok (-1, []) := by
      cases signedAssert <;>
        simp [doubleFMWalkForPacbio, failingTrees, h2, hfit, pure, Except.pure]
    have e := tdiv_two_thirds_eq m h0
    simp only [solveHighErrorLoop, bind, Except.bind, hd]
    rw [if_pos ⟨by decide, by rw [e]; show (0 : Int) ≤ m * 2 / 3; omega⟩]
    exact ih _ (by rw [e]; omega) (by rw [e]; omega)

/-- Counterexample to C12 as stated: with `minKmerLength = 0` and a search that always
fails with code `-1`, `minOverlapTmp` goes `2, 1, 0, 0, ...` and the loop test
`minOverlapTmp >= minKmerLength` holds for ever, in both classes. -/
theorem solveHighError_zero_minKmerLength_diverges :
    Diverges (fun fuel => solveHighError fuel true exampleIndex failingTrees zeroMinParams
      (0, ['A', 'C']) (3, ['G', 'T']) 2 1 []) ∧
    Diverges (fun fuel => solveHighError fuel false exampleIndex failingTrees zeroMinParams
      (0, ['A', 'C']) (3, ['G', 'T']) 2 1 []) :=
  ⟨fun fuel => solveHighErrorLoop_zero_minimum true fuel 2 (by decide) (by decide),
    fun fuel => solveHighErrorLoop_zero_minimum false fuel 2 (by decide) (by decide)⟩

/-! ### The double search -/

/-- C13: `doubleFMWalkForPacbio` (both classes), entered with its assertion on `minOverlap`
satisfied. When the forward search fails (code `< 0`) the result is the forward search's
code and merged sequence, whatever the reverse search would do. Otherwise, for a reverse
search whose own codes do not include `-4`, the returned code is `-4` exactly when the
reverse search succeeds (`> 0`) and the two merged sequences differ in length; a positive
returned code implies that the two merged sequences have equal length; and the function
returns whenever the forward merged sequence is not empty and the reverse search does not
return `0` on a length mismatch. -/
theorem doubleFMWalkForPacbio_length_check (signedAssert : Bool) (E : External)
    (T : SearchTrees) (firstSeed secondSeed : Seed) (minOverlap needWalkLen : Int)
    (mergedseq : Seq)
    (hpre : if signedAssert then
        minOverlap ≤ (firstSeed.2.length : Int) ∧ minOverlap ≤ (secondSeed.2.length : Int)
      else toSizeT minOverlap ≤ firstSeed.2.length ∧ toSizeT minOverlap ≤ secondSeed.2.length)
    (hrev : (T.hybridMergeTwoReads (E.reverseComplement secondSeed.2) minOverlap needWalkLen
        (E.reverseComplement firstSeed.2) []).1 ≠ -4) :
    ((T.hybridMergeTwoReads firstSeed.2 minOverlap needWalkLen secondSeed.2 mergedseq).1 < 0 →
      doubleFMWalkForPacbio signedAssert E T firstSeed secondSeed minOverlap needWalkLen
          mergedseq
        = .ok (T.hybridMergeTwoReads firstSeed.2 minOverlap needWalkLen secondSeed.2
            mergedseq)) ∧
    (0 ≤ (T.hybridMergeTwoReads firstSeed.2 minOverlap needWalkLen secondSeed.2 mergedseq).1 →
      (∀ code out,
        doubleFMWalkForPacbio signedAssert E T firstSeed secondSeed minOverlap needWalkLen
          mergedseq = .ok (code, out) →
        (code = -4 ↔
          (0 < (T.hybridMergeTwoReads (E.reverseComplement secondSeed.2) minOverlap
              needWalkLen (E.reverseComplement firstSeed.2) []).1 ∧
           (T.hybridMergeTwoReads firstSeed.2 minOverlap needWalkLen secondSeed.2
              mergedseq).2.length
            ≠ (T.hybridMergeTwoReads (E.reverseComplement secondSeed.2) minOverlap
              needWalkLen (E.reverseComplement firstSeed.2) []).2.length)) ∧
        (0 < code →
          (T.hybridMergeTwoReads firstSeed.2 minOverlap needWalkLen secondSeed.2
              mergedseq).2.length
            = (T.hybridMergeTwoReads (E.reverseComplement secondSeed.2) minOverlap
              needWalkLen (E.reverseComplement firstSeed.2) []).2.length)) ∧
      ((T.hybridMergeTwoReads firstSeed.2 minOverlap needWalkLen secondSeed.2 mergedseq).2 ≠ [] →
        ((T.hybridMergeTwoReads (E.reverseComplement secondSeed.2) minOverlap needWalkLen
            (E.reverseComplement firstSeed.2) []).1 ≠ 0 ∨
          (T.hybridMergeTwoReads firstSeed.2 minOverlap needWalkLen secondSeed.2
              mergedseq).2.length
            = (T.hybridMergeTwoReads (E.reverseComplement secondSeed.2) minOverlap
              needWalkLen (E.reverseComplement firstSeed.2) []).2.length) →
        ∃ r, doubleFMWalkForPacbio signedAssert E T firstSeed secondSeed minOverlap
          needWalkLen mergedseq = .ok r)) := by
  generalize hw1 : T.hybridMergeTwoReads firstSeed.2 minOverlap needWalkLen secondSeed.2
    mergedseq = walk1
  generalize hw2 : T.hybridMergeTwoReads (E.reverseComplement secondSeed.2) minOverlap
    needWalkLen (E.reverseComplement firstSeed.2) [] = walk2 at hrev
  have hfit : ¬ ¬ (((if signedAssert then decide (minOverlap ≤ (firstSeed.2.length : Int))
        else decide (toSizeT minOverlap ≤ firstSeed.2.length)) = true) ∧
      ((if signedAssert then decide (minOverlap ≤ (secondSeed.2.length : Int))
        else decide (toSizeT minOverlap ≤ secondSeed.2.length)) = true)) := by
    cases signedAssert
    · simp only [Bool.false_eq_true, if_false] at hpre ⊢
      simp [hpre.1, hpre.2]
    · simp only [if_true] at hpre ⊢
      simp [hpre.1, hpre.2]
  refine ⟨?_, ?_⟩
  · intro hneg
    simp only [doubleFMWalkForPacbio, hw1]
    rw [if_neg hfit, if_pos hneg]
    rfl
  · intro hpos
    have hnn : ¬ walk1.1 < 0 := by omega
    refine ⟨?_, ?_⟩
    · intro code out h
      simp only [doubleFMWalkForPacbio, hw1, hw2] at h
      rw [if_neg hfit, if_neg hnn] at h
      split at h
      · cases h
      · split at h
        next hlen =>
          simp only [pure, Except.pure, Except.ok.injEq, Prod.mk.injEq] at h
          obtain ⟨hc, _⟩ := h
          subst hc
          exact ⟨⟨fun h4 => absurd h4 hrev, fun hh => absurd hlen hh.2⟩, fun _ => hlen⟩
        next hlen =>
          split at h
          next hgt =>
            simp only [pure, Except.pure, Except.ok.injEq, Prod.mk.injEq] at h
            obtain ⟨hc, _⟩ := h
            subst hc
            exact ⟨⟨fun _ => ⟨hgt, hlen⟩, fun _ => rfl⟩, fun hh => absurd hh (by decide)⟩
          next hgt =>
            split at h
            next hlt =>
              simp only [pure, Except.pure, Except.ok.injEq, Prod.mk.injEq] at h
              obtain ⟨hc, _⟩ := h
              subst hc
              exact ⟨⟨fun h4 => absurd h4 hrev, fun hh => absurd hh.1 hgt⟩,
                fun hh => absurd hh (by omega)⟩
            next hlt => cases h
    · intro hne hret
      simp only [doubleFMWalkForPacbio, hw1, hw2]
      rw [if_neg hfit, if_neg hnn]
      have he : walk1.2.isEmpty = false := by
        cases hm : walk1.2 with
        | nil => exact absurd hm hne
        | cons a l => rfl
      simp only [he, Bool.false_eq_true, if_false]
      split
      · exact ⟨_, rfl⟩
      · split
        · exact ⟨_, rfl⟩
        · split
          · exact ⟨_, rfl⟩
          · rename_i hlen hgt hlt
            rcases hret with h0 | h0
            · exact absurd (by omega) h0
            · exact absurd h0 hlen

theorem doubleFMWalkForPacbio_length_check_witness :
    doubleFMWalkForPacbio true strandIndex lopsidedTrees (0, ['A', 'C']) (5, ['G', 'G']) 2 3 []
      = .ok (-4, ['A', 'C', 'G', 'T']) ∧
    ((-4 : Int) = -4 ↔
      (0 < (lopsidedTrees.hybridMergeTwoReads (strandIndex.reverseComplement ['G', 'G']) 2 3
          (strandIndex.reverseComplement ['A', 'C']) []).1 ∧
       (lopsidedTrees.hybridMergeTwoReads ['A', 'C'] 2 3 ['G', 'G'] []).2.length
        ≠ (lopsidedTrees.hybridMergeTwoReads (strandIndex.reverseComplement ['G', 'G']) 2 3
          (strandIndex.reverseComplement ['A', 'C']) []).2.length)) :=
  ⟨by decide,
    (((doubleFMWalkForPacbio_length_check true strandIndex lopsidedTrees (0, ['A', 'C'])
      (5, ['G', 'G']) 2 3 [] (by decide) (by decide)).2 (by decide)).1 (-4)
      ['A', 'C', 'G', 'T'] (by decide)).1⟩

/-! ### Segmentation: the main fragment and reads without errors -/

theorem mapM_eq_map {α β : Type} (f : α → Run β) (g : α → β) :
    ∀ (l : List α), (∀ a ∈ l, f a = .ok (g a)) → l.mapM f = .ok (l.map g) := by
  intro l
  induction l with
  | nil => intro _; rw [List.mapM_nil]; rfl
  | cons a rest ih =>
    intro h
    have ha := h a (List.mem_cons_self _ _)
    have hr := ih (fun b hb => h b (List.mem_cons_of_mem _ hb))
    rw [List.mapM_cons, ha, hr]; rfl

theorem build_freqs (E : External) (seq : Seq) (k p : Nat) (hlen : k ≤ seq.length)
    (hp : p < seq.length - k + 1) :
    vecAt (KmerContext.build E seq k).kmerFreqs_same p
      = .ok (E.countSequenceOccurrencesSingleStrand (kmerAt seq k p)) ∧
    vecAt (KmerContext.build E seq k).kmerFreqs_revc p
      = .ok (E.countSequenceOccurrencesSingleStrand (E.reverseComplement (kmerAt seq k p))) := by
  unfold KmerContext.build
  rw [if_pos hlen]
  simp only [vecAt, kmerAt, List.getElem?_map, List.getElem?_range hp, Option.map_some',
    pure, Except.pure, and_self]

namespace FMIndexWalkProcess

theorem countQualifiedOf_eq (E : External) (seq : Seq) (k threshold : Nat)
    (hlen : k ≤ seq.length) :
    countQualifiedOf (KmerContext.build E seq k) threshold
      = .ok ((List.range (seq.length - k + 1)).map (qualifiedStrands E seq k threshold)) := by
  obtain ⟨h1, _⟩ := build_numKmer E seq k hlen
  unfold countQualifiedOf
  rw [h1]
  apply mapM_eq_map
  intro i hi
  have hi' : i < seq.length - k + 1 := List.mem_range.1 hi
  obtain ⟨ha, hb⟩ := build_freqs E seq k i hlen hi'
  simp only [ha, hb, bind, Except.bind]
  rfl

theorem getD_qualified (E : External) (seq : Seq) (k threshold p : Nat)
    (hp : p < seq.length - k + 1) :
    ((List.range (seq.length - k + 1)).map (qualifiedStrands E seq k threshold)).getD p 0
      = qualifiedStrands E seq k threshold p := by
  rw [List.getD_eq_getElem _ _ (by simpa using hp)]
  simp

end FMIndexWalkProcess

theorem cutLoop_congr (cut1 cut2 : Nat → Run Bool) :
    ∀ (remaining p start : Nat) (ivs : List (Nat × Nat)),
      (∀ q, p ≤ q → q < p + remaining → cut1 q = cut2 q) →
      cutLoop cut1 remaining p start ivs = cutLoop cut2 remaining p start ivs := by
  intro remaining
  induction remaining with
  | zero => intro p start ivs _; rfl
  | succ n ih =>
    intro p start ivs h
    simp only [cutLoop, bind, Except.bind]
    rw [h p (le_refl _) (by omega)]
    cases cut2 p with
    | error e => rfl
    | ok b =>
      simp only
      cases b
      · simp only [Bool.false_eq_true, if_false]
        exact ih _ _ _ (fun q h1 h2 => h q (by omega) (by omega))
      · simp only [if_true]
        exact ih _ _ _ (fun q h1 h2 => h q (by omega) (by omega))

theorem cutIntervals_congr (cut1 cut2 : Nat → Run Bool) (numKmer : Nat)
    (h : ∀ q, 1 ≤ q → q < numKmer → cut1 q = cut2 q) :
    cutIntervals cut1 numKmer = cutIntervals cut2 numKmer := by
  unfold cutIntervals
  rw [cutLoop_congr cut1 cut2 (numKmer - 1) 1 0 [] (fun q h1 h2 => h q h1 (by omega))]

theorem cutLoop_never : ∀ (remaining p start : Nat) (ivs : List (Nat × Nat)),
    cutLoop (fun _ => (pure false : Run Bool)) remaining p start ivs = .ok (ivs, start) := by
  intro remaining
  induction remaining with
  | zero => intro p start ivs; rfl
  | succ n ih =>
    intro p start ivs
    simp only [cutLoop, bind, Except.bind, pure, Except.pure, Bool.false_eq_true, if_false]
    exact ih _ _ _

/-- When no position is cut, the segmenter has the single interval `[0, numKmer-1]`. -/
theorem cutIntervals_never (cut : Nat → Run Bool) (numKmer : Nat)
    (h : ∀ q, 1 ≤ q → q < numKmer → cut q = .ok false) :
    cutIntervals cut numKmer = .ok [(0, numKmer - 1)] := by
  rw [cutIntervals_congr cut (fun _ => (pure false : Run Bool)) numKmer h]
  unfold cutIntervals
  rw [cutLoop_never]
  rfl

theorem substr_whole (s : Seq) (len : Int) (h : len = (s.length : Int)) :
    substr s 0 len = .ok s := by
  unfold substr
  rw [if_neg (by omega), if_neg (by omega)]
  subst h
  simp

/-- C14: on the read `AC` with k-mer length 2, `AC` and its reverse complement `GT` each
occurring three times and threshold 2, the profile-based `splitRead` has the single interval
`[0, 0]`, which contains a doubly-qualified position, and returns `mainSeedIdx = -1`: the
test `maxIntervalNum < intervalNum` compares `0 < 0`. -/
theorem splitRead_single_kmer_has_no_main :
    FMIndexWalkProcess.splitReadIntervals strandIndex
        (KmerContext.build strandIndex ['A', 'C'] 2) 2 = .ok ([2], [(0, 0)]) ∧
    FMIndexWalkProcess.isIntervalExistStrongKmer (0, 0) [2] = .ok true ∧
    FMIndexWalkProcess.splitRead strandIndex (KmerContext.build strandIndex ['A', 'C'] 2) 2
      = .ok (-1, [['A', 'C']]) :=
  ⟨by decide, by decide, by decide⟩

namespace FMIndexWalkProcess

theorem vecAt_qualified (E : External) (seq : Seq) (k threshold p : Nat)
    (hp : p < seq.length - k + 1) :
    vecAt ((List.range (seq.length - k + 1)).map (qualifiedStrands E seq k threshold)) p
      = .ok (qualifiedStrands E seq k threshold p) := by
  simp only [vecAt, List.getElem?_map, List.getElem?_range hp, Option.map_some']
  rfl

/-- The profile-based `splitRead` on a read whose k-mers are all qualified on both
strands. -/
theorem splitRead_all_solid (E : External) (seq : Seq) (k threshold : Nat) (hk : 1 ≤ k)
    (hlen : k ≤ seq.length)
    (hsolid : ∀ p, p < seq.length - k + 1 → qualifiedStrands E seq k threshold p = 2) :
    splitReadIntervals E (KmerContext.build E seq k) threshold
      = .ok ((List.range (seq.length - k + 1)).map (qualifiedStrands E seq k threshold),
          [(0, seq.length - k)]) ∧
    splitRead E (KmerContext.build E seq k) threshold
      = .ok ((if seq.length - k = 0 then -1 else 0), [seq]) := by
  obtain ⟨h1, _, _, h4, h5, _⟩ := build_numKmer E seq k hlen
  have hI : splitReadIntervals E (KmerContext.build E seq k) threshold
      = .ok ((List.range (seq.length - k + 1)).map (qualifiedStrands E seq k threshold),
          [(0, seq.length - k)]) := by
    unfold splitReadIntervals
    rw [countQualifiedOf_eq E seq k threshold hlen]
    simp only [bind, Except.bind]
    rw [cutIntervals_never _ _ ?_, h1]
    · rfl
    · intro q hq1 hq
      rw [h1] at hq
      unfold splitReadCut
      rw [getD_qualified E seq k threshold _ (by omega), getD_qualified E seq k threshold _ hq,
        hsolid _ (by omega), hsolid _ hq, if_pos ⟨rfl, rfl⟩]
      rfl
  refine ⟨hI, ?_⟩
  have hne : (KmerContext.build E seq k).empty = false := by
    unfold KmerContext.empty
    rw [h4]
    cases seq with
    | nil => simp at hlen; omega
    | cons a l => rfl
  have hstrong : isIntervalExistStrongKmer (0, seq.length - k)
      ((List.range (seq.length - k + 1)).map (qualifiedStrands E seq k threshold))
        = .ok true := by
    unfold isIntervalExistStrongKmer
    simp only [Nat.sub_zero]
    simp only [strongScan, bind, Except.bind]
    rw [vecAt_qualified E seq k threshold 0 (by omega), hsolid 0 (by omega)]
    rfl
  have hsub : substr seq ((0 : Nat) : Int)
      (((seq.length - k : Nat) : Int) - ((0 : Nat) : Int) + (k : Int)) = .ok seq :=
    substr_whole seq _ (by omega)
  unfold splitRead
  rw [hne, hI]
  simp only [Bool.false_eq_true, if_false, bind, Except.bind, pickMain, hstrong, h4, h5, hsub,
    Bool.true_and, Nat.sub_zero, List.nil_append, pure, Except.pure]
  by_cases h0 : seq.length - k = 0
  · simp [h0]
  · have : 0 < seq.length - k := by omega
    simp [h0, this]

end FMIndexWalkProcess

theorem substr_kmerAt (seq : Seq) (k p : Nat) (hp : p ≤ seq.length) :
    substr seq (p : Int) (k : Int) = .ok (kmerAt seq k p) := by
  unfold substr kmerAt
  rw [if_neg (by omega), if_neg (by omega)]
  simp

namespace FMIndexWalkProcess

theorem recompute_fresh (E : External) (P : Parameters) (seq : Seq) (k p : Nat)
    (st : StreamState) (hP : P.kmerLength = (k : Int)) (hp : p ≤ seq.length) :
    recompute E P seq (p : Int) st
      = .ok { st with fwdInterval := E.findInterval true (kmerAt seq k p).reverse,
                      rvcInterval := E.findInterval false (E.reverseComplement (kmerAt seq k p)),
                      currKmerSize := (k : Int),
                      currKmerFreq := freshKmerFreq E seq k p } := by
  unfold recompute
  rw [hP, substr_kmerAt seq k p hp]
  rfl

/-- The classification loop of the streaming `splitRead` on a read whose k-mers all have a
combined interval size of at least the threshold: every position is counted once. -/
theorem classify_all_solid (E : External) (P : Parameters) (seq : Seq) (k threshold : Nat)
    (hP : P.kmerLength = (k : Int)) (hlen : k ≤ seq.length)
    (hsolid : ∀ p, p < seq.length - k + 1 → (threshold : Int) ≤ freshKmerFreq E seq k p) :
    ∀ (fuel : Nat) (st : StreamState), st.i ≤ seq.length - k + 1 →
      (k : Int) ≤ st.currKmerSize →
      (st.currKmerSize = (k : Int) → st.i < seq.length - k + 1 →
        st.currKmerFreq = freshKmerFreq E seq k st.i) →
      st.countQualified.length = seq.length - k + 1 →
      (∀ j, j < seq.length - k + 1 →
        st.countQualified[j]? = some (if j < st.i then 1 else 0)) →
      2 * (seq.length - k + 1 - st.i) + (if st.currKmerSize > (k : Int) then 1 else 0) < fuel →
      ∃ cq, classify E P seq threshold fuel st = .ok cq ∧ cq.length = seq.length - k + 1 ∧
        ∀ j, j < seq.length - k + 1 → cq[j]? = some 1 := by
  intro fuel
  induction fuel with
  | zero => intro st _ _ _ _ _ hf; omega
  | succ n ih =>
    intro st hi hsz hfr hl hcq hf
    obtain ⟨i, fw, rv, sz, fr, cq⟩ := st
    simp only at hi hsz hfr hl hcq hf
    simp only [classify, hP]
    split
    next hin =>
      have hin' : i < seq.length - k + 1 := by omega
      split
      next hq =>
        have hmod : ∀ j, j < seq.length - k + 1 →
            (List.modify (fun x => x + 1) i cq)[j]? = some (if j < i + 1 then 1 else 0) := by
          intro j hj
          by_cases hji : j = i
          · subst hji
            rw [List.getElem?_modify_eq, hcq j hj]
            simp
          · rw [List.getElem?_modify_ne _ _ (Ne.symm hji), hcq j hj]
            by_cases hlt : j < i
            · simp [hlt, Nat.lt_succ_of_lt hlt]
            · have : ¬ j < i + 1 := by omega
              simp [hlt, this]
        split
        next hlt =>
          obtain ⟨b, hb⟩ := vecAt_ok seq ((i : Int) + (k : Int)).toNat (by omega)
          have hb' : vecAtI seq ((i : Int) + (k : Int)) = .ok b := by
            unfold vecAtI
            rw [if_neg (by omega)]
            exact hb
          simp only [hb', bind, Except.bind]
          refine ih _ (by simp only; omega) (by simp only; omega) ?_ (by simp [hl]) hmod ?_
          · intro h1; simp only at h1; omega
          · simp only
            split at hf <;> split <;> omega
        next hlt =>
          refine ih _ (by simp only; omega) hsz ?_ (by simp [hl]) hmod ?_
          · intro _ h2; simp only at h2; omega
          · simp only
            split at hf <;> split <;> omega
      next hq =>
        split
        next hgt =>
          rw [recompute_fresh E P seq k i _ hP (by omega)]
          simp only [bind, Except.bind]
          refine ih _ hi (le_refl _) (fun _ _ => rfl) hl hcq ?_
          simp only [gt_iff_lt, lt_self_iff_false, if_false]
          rw [if_pos hgt] at hf
          omega
        next hgt =>
          have hsk : sz = (k : Int) := by omega
          have := hfr hsk hin'
          have := hsolid i hin'
          omega
    next hin =>
      have hi' : i = seq.length - k + 1 := by omega
      refine ⟨cq, rfl, hl, ?_⟩
      intro j hj
      rw [hcq j hj, if_pos (by omega)]

end FMIndexWalkProcess

namespace FMIndexWalkProcess

theorem streamQualifiedOf_all_solid (fuel : Nat) (E : External) (P : Parameters) (seq : Seq)
    (k threshold : Nat) (hP : P.kmerLength = (k : Int)) (hlen : k ≤ seq.length)
    (hsolid : ∀ p, p < seq.length - k + 1 → (threshold : Int) ≤ freshKmerFreq E seq k p)
    (hfuel : 2 * (seq.length - k + 1) < fuel) :
    ∃ cq, streamQualifiedOf fuel E P seq threshold = .ok cq ∧
      ∀ j, j < seq.length - k + 1 → cq.getD j 0 = 1 := by
  have hnum : ((seq.length : Int) - (k : Int) + 1).toNat = seq.length - k + 1 := by omega
  have h0 := substr_kmerAt seq k 0 (by omega)
  unfold streamQualifiedOf
  rw [hP]
  simp only [Nat.cast_zero] at h0
  simp only [h0, bind, Except.bind, hnum]
  obtain ⟨cq, hcq, _, hall⟩ := classify_all_solid E P seq k threshold hP hlen hsolid fuel
    { i := 0, fwdInterval := E.findInterval true (kmerAt seq k 0).reverse,
      rvcInterval := E.findInterval false (E.reverseComplement (kmerAt seq k 0)),
      currKmerSize := (k : Int),
      currKmerFreq := intervalFreq (E.findInterval true (kmerAt seq k 0).reverse)
        (E.findInterval false (E.reverseComplement (kmerAt seq k 0))),
      countQualified := List.replicate (seq.length - k + 1) 0 }
    (by simp only; omega) (le_refl _) (fun _ _ => rfl) (by simp)
    (fun j hj => by simp [List.getElem?_replicate, hj])
    (by simp only [gt_iff_lt, lt_self_iff_false, if_false]; omega)
  refine ⟨cq, hcq, ?_⟩
  intro j hj
  rw [List.getD_eq_getElem?_getD, hall j hj]
  rfl

/-- The streaming `splitRead` on a read whose k-mers all reach the threshold. -/
theorem splitReadStream_all_solid (fuel : Nat) (E : External) (P : Parameters) (seq : Seq)
    (k threshold : Nat) (hP : P.kmerLength = (k : Int)) (hlen : k ≤ seq.length)
    (hsolid : ∀ p, p < seq.length - k + 1 → (threshold : Int) ≤ freshKmerFreq E seq k p)
    (hfuel : 2 * (seq.length - k + 1) < fuel) :
    splitReadStreamIntervals fuel E P seq threshold = .ok [(0, seq.length - k)] ∧
    splitReadStream fuel E P seq threshold
      = .ok ((if seq.length - k = 0 then -1 else 0), [seq]) := by
  have hnum : ((seq.length : Int) - (k : Int) + 1).toNat = seq.length - k + 1 := by omega
  obtain ⟨cq, hcq, hall⟩ :=
    streamQualifiedOf_all_solid fuel E P seq k threshold hP hlen hsolid hfuel
  have hI : splitReadStreamIntervals fuel E P seq threshold = .ok [(0, seq.length - k)] := by
    unfold splitReadStreamIntervals
    rw [hcq, hP, hnum]
    simp only [bind, Except.bind]
    rw [cutIntervals_never _ _ ?_]
    · rfl
    · intro q hq1 hq
      unfold streamCut
      rw [hall _ (by omega), hall _ hq, if_pos ⟨rfl, rfl⟩]
      rfl
  refine ⟨hI, ?_⟩
  have hsub : substr seq ((0 : Nat) : Int)
      (((seq.length - k : Nat) : Int) - ((0 : Nat) : Int) + (k : Int)) = .ok seq :=
    substr_whole seq _ (by omega)
  unfold splitReadStream
  rw [hI, if_neg (by rw [hP]; omega)]
  simp only [bind, Except.bind, pickMainStream, hP, hsub, Nat.sub_zero, List.nil_append, pure,
    Except.pure]
  by_cases h0 : seq.length - k = 0
  · simp [h0]
  · have : 0 < seq.length - k := by omega
    simp [h0, this]

end FMIndexWalkProcess

/-- C15: for a k-mer length `k >= 1` and a read of length at least `k`. If every k-mer of
the read is qualified on both strands (count `>= threshold` for the k-mer and for its
reverse complement), the profile-based `splitRead` computes the single interval
`[0, numKmer-1]` and returns exactly one fragment, the whole read. If the combined interval
size of every k-mer is `>= threshold`, the streaming `splitRead` does the same. -/
theorem splitRead_error_free_read_single_fragment (fuel : Nat) (E : External) (P : Parameters)
    (seq : Seq) (k threshold : Nat) (hk : 1 ≤ k) (hlen : k ≤ seq.length)
    (hP : P.kmerLength = (k : Int)) (hfuel : 2 * (seq.length - k + 1) < fuel) :
    ((∀ p, p < seq.length - k + 1 → qualifiedStrands E seq k threshold p = 2) →
      (∃ cq, FMIndexWalkProcess.splitReadIntervals E (KmerContext.build E seq k) threshold
        = .ok (cq, [(0, seq.length - k + 1 - 1)])) ∧
      ∃ main, FMIndexWalkProcess.splitRead E (KmerContext.build E seq k) threshold
        = .ok (main, [seq])) ∧
    ((∀ p, p < seq.length - k + 1 → (threshold : Int) ≤ freshKmerFreq E seq k p) →
      FMIndexWalkProcess.splitReadStreamIntervals fuel E P seq threshold
        = .ok [(0, seq.length - k + 1 - 1)] ∧
      ∃ main, FMIndexWalkProcess.splitReadStream fuel E P seq threshold = .ok (main, [seq])) := by
  constructor
  · intro hsolid
    obtain ⟨h1, h2⟩ := FMIndexWalkProcess.splitRead_all_solid E seq k threshold hk hlen hsolid
    exact ⟨⟨_, h1⟩, _, h2⟩
  · intro hsolid
    obtain ⟨h1, h2⟩ := FMIndexWalkProcess.splitReadStream_all_solid fuel E P seq k threshold
      hP hlen hsolid hfuel
    exact ⟨h1, _, h2⟩

theorem splitRead_error_free_read_single_fragment_witness :
    (∃ main, FMIndexWalkProcess.splitRead exampleIndex
        (KmerContext.build exampleIndex ['A', 'C', 'G', 'T'] 2) 2
      = .ok (main, [['A', 'C', 'G', 'T']])) ∧
    (∃ main, FMIndexWalkProcess.splitReadStream 9 exampleIndex exampleParams
        ['A', 'C', 'G', 'T'] 2 = .ok (main, [['A', 'C', 'G', 'T']])) :=
  ⟨((splitRead_error_free_read_single_fragment 9 exampleIndex exampleParams
      ['A', 'C', 'G', 'T'] 2 2 (by decide) (by decide) (by decide) (by decide)).1
      (by decide)).2,
    ((splitRead_error_free_read_single_fragment 9 exampleIndex exampleParams
      ['A', 'C', 'G', 'T'] 2 2 (by decide) (by decide) (by decide) (by decide)).2
      (by decide)).2⟩

/-! ### The two segmenters side by side -/

namespace FMIndexWalkProcess

theorem strong_ok_of_bound (cq : List Nat) (iv : Nat × Nat) (h : iv.2 < cq.length) :
    ∃ b, isIntervalExistStrongKmer iv cq = .ok b := by
  unfold isIntervalExistStrongKmer
  apply strongScan_ok
  by_cases h0 : iv.2 + 1 - iv.1 = 0
  · exact Or.inl h0
  · right; omega

/-- The two final loops push the same fragments. -/
theorem pickMain_fragments (readSeq : Seq) (k : Nat) (cq : List Nat) :
    ∀ (ivs : List (Nat × Nat)) (i mxP mxS : Nat) (mainP mainS : Int) (frags : List Seq),
      (∀ iv ∈ ivs, iv.2 < cq.length) →
      (pickMain readSeq k cq ivs i mxP mainP frags).map Prod.snd
        = (pickMainStream readSeq (k : Int) ivs i mxS mainS frags).map Prod.snd := by
  intro ivs
  induction ivs with
  | nil => intro i mxP mxS mainP mainS frags _; rfl
  | cons iv rest ih =>
    intro i mxP mxS mainP mainS frags hb
    obtain ⟨b, hs⟩ := strong_ok_of_bound cq iv (hb iv (List.mem_cons_self _ _))
    simp only [pickMain, pickMainStream, hs, bind, Except.bind]
    cases substr readSeq (iv.1 : Int) ((iv.2 : Int) - (iv.1 : Int) + (k : Int)) with
    | error e => rfl
    | ok w =>
      simp only
      exact ih _ _ _ _ _ _ (fun x hx => hb x (List.mem_cons_of_mem _ hx))

/-- When every interval of more than one position contains a doubly-qualified position,
the two final loops also choose the same main fragment. -/
theorem pickMain_eq_stream (readSeq : Seq) (k : Nat) (cq : List Nat) :
    ∀ (ivs : List (Nat × Nat)) (i mx : Nat) (main : Int) (frags : List Seq),
      (∀ iv ∈ ivs, iv.2 < cq.length) →
      (∀ iv ∈ ivs, iv.1 < iv.2 → isIntervalExistStrongKmer iv cq = .ok true) →
      pickMain readSeq k cq ivs i mx main frags
        = pickMainStream readSeq (k : Int) ivs i mx main frags := by
  intro ivs
  induction ivs with
  | nil => intro i mx main frags _ _; rfl
  | cons iv rest ih =>
    intro i mx main frags hb hstrong
    obtain ⟨b, hs⟩ := strong_ok_of_bound cq iv (hb iv (List.mem_cons_self _ _))
    have hbetter : (b && decide (mx < iv.2 - iv.1)) = decide (mx < iv.2 - iv.1) := by
      by_cases hlt : mx < iv.2 - iv.1
      · have h1 := hstrong iv (List.mem_cons_self _ _) (by omega)
        rw [hs] at h1
        cases h1
        simp
      · simp [hlt]
    simp only [pickMain, pickMainStream, hs, bind, Except.bind, hbetter]
    cases substr readSeq (iv.1 : Int) ((iv.2 : Int) - (iv.1 : Int) + (k : Int)) with
    | error e => rfl
    | ok w =>
      simp only
      exact ih _ _ _ _ (fun x hx => hb x (List.mem_cons_of_mem _ hx))
        (fun x hx => hstrong x (List.mem_cons_of_mem _ hx))

/-- The two cut tests agree at `q` when the two qualification rules agree on the pair of
positions `q-1`, `q`. -/
theorem cut_agree (E : External) (P : Parameters) (seq : Seq) (k : Nat) (cqP cqS : List Nat)
    (q : Nat) (hP : P.kmerLength = (k : Int)) (hlen : k ≤ seq.length) (hq1 : 1 ≤ q)
    (hq : q < seq.length - k + 1)
    (hagree : (cqP.getD (q - 1) 0 = 2 ∧ cqP.getD q 0 = 2)
      ↔ (cqS.getD (q - 1) 0 = 1 ∧ cqS.getD q 0 = 1)) :
    splitReadCut E (KmerContext.build E seq k) cqP q = streamCut E P seq cqS q := by
  obtain ⟨_, _, _, _, _, hkm⟩ := build_numKmer E seq k hlen
  unfold splitReadCut streamCut
  by_cases h : cqP.getD (q - 1) 0 = 2 ∧ cqP.getD q 0 = 2
  · rw [if_pos h, if_pos (hagree.1 h)]
  · rw [if_neg h, if_neg (fun h2 => h (hagree.2 h2))]
    have e1 : ((q : Int) - 1) = ((q - 1 : Nat) : Int) := by omega
    rw [hkm _ (by omega), hkm _ hq, hP, e1, substr_kmerAt seq k (q - 1) (by omega),
      substr_kmerAt seq k q (by omega)]
    rfl

end FMIndexWalkProcess

/-- C16 (amended): for a k-mer length `k >= 1`, a read of length at least `k`, a threshold
and an index (the profile built from that same index) on which the two qualification rules
agree, that is, adjacent positions `q-1`, `q` are both doubly-qualified in the profile
exactly when both are counted by the streaming scan: the profile-based `splitRead` and the
streaming `splitRead` compute the same intervals and return the same list of fragments;
they return the same `mainSeedIdx` when in addition every interval of more than one
position contains a doubly-qualified position. -/
theorem segmenters_agree_when_qualification_agrees (fuel : Nat) (E : External)
    (P : Parameters) (seq : Seq) (k threshold : Nat) (cqS : List Nat) (hk : 1 ≤ k)
    (hlen : k ≤ seq.length) (hP : P.kmerLength = (k : Int))
    (hS : FMIndexWalkProcess.streamQualifiedOf fuel E P seq threshold = .ok cqS)
    (hagree : ∀ q, 1 ≤ q → q < seq.length - k + 1 →
      ((qualifiedStrands E seq k threshold (q - 1) = 2 ∧ qualifiedStrands E seq k threshold q = 2)
        ↔ (cqS.getD (q - 1) 0 = 1 ∧ cqS.getD q 0 = 1))) :
    ∃ cqP ivs mainP mainS frags,
      FMIndexWalkProcess.splitReadIntervals E (KmerContext.build E seq k) threshold
        = .ok (cqP, ivs) ∧
      FMIndexWalkProcess.splitReadStreamIntervals fuel E P seq threshold = .ok ivs ∧
      FMIndexWalkProcess.splitRead E (KmerContext.build E seq k) threshold
        = .ok (mainP, frags) ∧
      FMIndexWalkProcess.splitReadStream fuel E P seq threshold = .ok (mainS, frags) ∧
      ((∀ iv ∈ ivs, iv.1 < iv.2 →
          FMIndexWalkProcess.isIntervalExistStrongKmer iv cqP = .ok true) →
        mainP = mainS) := by
  obtain ⟨h1, _, _, h4, h5, _⟩ := build_numKmer E seq k hlen
  have hnum : ((seq.length : Int) - (k : Int) + 1).toNat = seq.length - k + 1 := by omega
  obtain ⟨ivs, hivs, htiles, _⟩ := cutIntervals_tiles
    (FMIndexWalkProcess.splitReadCut E (KmerContext.build E seq k)
      ((List.range (seq.length - k + 1)).map (qualifiedStrands E seq k threshold)))
    (seq.length - k + 1) (by omega)
    (fun q hq1 hq => FMIndexWalkProcess.splitReadCut_ok E seq k _ q hk hlen hq1 hq)
  have hcut : cutIntervals (FMIndexWalkProcess.streamCut E P seq cqS) (seq.length - k + 1)
      = .ok ivs := by
    rw [← hivs]
    symm
    apply cutIntervals_congr
    intro q hq1 hq
    apply FMIndexWalkProcess.cut_agree E P seq k _ cqS q hP hlen hq1 hq
    rw [FMIndexWalkProcess.getD_qualified E seq k threshold _ (by omega),
      FMIndexWalkProcess.getD_qualified E seq k threshold _ hq]
    exact hagree q hq1 hq
  have hIP : FMIndexWalkProcess.splitReadIntervals E (KmerContext.build E seq k) threshold
      = .ok ((List.range (seq.length - k + 1)).map (qualifiedStrands E seq k threshold), ivs)
      := by
    unfold FMIndexWalkProcess.splitReadIntervals
    rw [FMIndexWalkProcess.countQualifiedOf_eq E seq k threshold hlen]
    simp only [bind, Except.bind]
    rw [h1, hivs]
    rfl
  have hIS : FMIndexWalkProcess.splitReadStreamIntervals fuel E P seq threshold = .ok ivs := by
    unfold FMIndexWalkProcess.splitReadStreamIntervals
    rw [hS, hP, hnum]
    exact hcut
  have hbound : ∀ iv ∈ ivs, iv.2 <
      ((List.range (seq.length - k + 1)).map (qualifiedStrands E seq k threshold)).length := by
    intro iv hiv
    have := tiles_bounds htiles iv hiv
    simp only [List.length_map, List.length_range]
    omega
  have hne : (KmerContext.build E seq k).empty = false := by
    unfold KmerContext.empty
    rw [h4]
    cases seq with
    | nil => simp at hlen; omega
    | cons a l => rfl
  have hSP : FMIndexWalkProcess.splitRead E (KmerContext.build E seq k) threshold
      = FMIndexWalkProcess.pickMain seq k
          ((List.range (seq.length - k + 1)).map (qualifiedStrands E seq k threshold))
          ivs 0 0 (-1) [] := by
    unfold FMIndexWalkProcess.splitRead
    rw [hne, hIP, h4, h5]
    rfl
  have hSS : FMIndexWalkProcess.splitReadStream fuel E P seq threshold
      = FMIndexWalkProcess.pickMainStream seq (k : Int) ivs 0 0 (-1) [] := by
    unfold FMIndexWalkProcess.splitReadStream
    rw [hIS, if_neg (by rw [hP]; omega), hP]
    rfl
  obtain ⟨r, hr, _⟩ := FMIndexWalkProcess.pickMain_ok seq k
    ((List.range (seq.length - k + 1)).map (qualifiedStrands E seq k threshold)) ivs 0 0 (-1) []
    (fun iv hiv => ⟨hbound iv hiv, by
      have := tiles_bounds htiles iv hiv
      omega⟩)
    (fun f hf => absurd hf (List.not_mem_nil f))
  have hfr := FMIndexWalkProcess.pickMain_fragments seq k
    ((List.range (seq.length - k + 1)).map (qualifiedStrands E seq k threshold)) ivs 0 0 0
    (-1) (-1) [] hbound
  rw [hr] at hfr
  cases hs : FMIndexWalkProcess.pickMainStream seq (k : Int) ivs 0 0 (-1) [] with
  | error e => rw [hs] at hfr; cases hfr
  | ok s =>
    rw [hs] at hfr
    simp only [Except.map, Except.ok.injEq] at hfr
    refine ⟨_, ivs, r.1, s.1, r.2, hIP, hIS, by rw [hSP, hr], by rw [hSS, hs, hfr], ?_⟩
    intro hstrong
    have heq := FMIndexWalkProcess.pickMain_eq_stream seq k
      ((List.range (seq.length - k + 1)).map (qualifiedStrands E seq k threshold)) ivs 0 0 (-1)
      [] hbound hstrong
    rw [hr, hs] at heq
    simp only [Except.ok.injEq] at heq
    rw [heq]

theorem segmenters_agree_when_qualification_agrees_witness :
    ∃ cqP ivs mainP mainS frags,
      FMIndexWalkProcess.splitReadIntervals exampleIndex
        (KmerContext.build exampleIndex ['A', 'C', 'G', 'T'] 2) 2 = .ok (cqP, ivs) ∧
      FMIndexWalkProcess.splitReadStreamIntervals 9 exampleIndex exampleParams
        ['A', 'C', 'G', 'T'] 2 = .ok ivs ∧
      FMIndexWalkProcess.splitRead exampleIndex
        (KmerContext.build exampleIndex ['A', 'C', 'G', 'T'] 2) 2 = .ok (mainP, frags) ∧
      FMIndexWalkProcess.splitReadStream 9 exampleIndex exampleParams ['A', 'C', 'G', 'T'] 2
        = .ok (mainS, frags) ∧
      ((∀ iv ∈ ivs, iv.1 < iv.2 →
          FMIndexWalkProcess.isIntervalExistStrongKmer iv cqP = .ok true) →
        mainP = mainS) :=
  segmenters_agree_when_qualification_agrees 9 exampleIndex exampleParams
    ['A', 'C', 'G', 'T'] 2 2 [1, 1, 1] (by decide) (by decide) (by decide) (by decide)
    (by decide)

/-- Counterexample to C16 as stated: over an index that holds three copies of the read
`AAC` and none of its reverse complement, with k-mer length 2 and threshold 2, the
profile-based `splitRead` qualifies each k-mer on one strand only and cuts the read into
`AA` and `AC` with no main fragment, while the streaming `splitRead` counts both positions
and returns the whole read as the main fragment. -/
theorem segmenters_disagree_on_single_strand_index :
    FMIndexWalkProcess.splitRead forwardStrandIndex
        (KmerContext.build forwardStrandIndex ['A', 'A', 'C'] 2) 2
      = .ok (-1, [['A', 'A'], ['A', 'C']]) ∧
    FMIndexWalkProcess.splitReadStream 9 forwardStrandIndex exampleParams ['A', 'A', 'C'] 2
      = .ok (0, [['A', 'A', 'C']]) := by
  decide

/-! ### What the main fragment of the profile-based segmenter is -/

namespace FMIndexWalkProcess

theorem pickMain_choice (readSeq : Seq) (k : Nat) (cq : List Nat) :
    ∀ (rest done : List (Nat × Nat)) (mx : Nat) (main : Int) (frags : List Seq)
      (out : Int × List Seq),
      pickMain readSeq k cq rest done.length mx main frags = .ok out →
      MainChoice cq done mx main → ∃ mx1, MainChoice cq (done ++ rest) mx1 out.1 := by
  intro rest
  induction rest with
  | nil =>
    intro done mx main frags out h hinv
    simp only [pickMain, pure, Except.pure, Except.ok.injEq] at h
    subst h
    exact ⟨mx, by simpa using hinv⟩
  | cons iv rest ih =>
    intro done mx main frags out h hinv
    simp only [pickMain, bind, Except.bind] at h
    cases hs : isIntervalExistStrongKmer iv cq with
    | error e => rw [hs] at h; cases h
    | ok b =>
      rw [hs] at h
      simp only at h
      cases hsub : substr readSeq (iv.1 : Int) ((iv.2 : Int) - (iv.1 : Int) + (k : Int)) with
      | error e => rw [hsub] at h; cases h
      | ok w =>
        rw [hsub] at h
        simp only at h
        have hlen : (done ++ [iv]).length = done.length + 1 := by simp
        rw [← hlen] at h
        have hstep : MainChoice cq (done ++ [iv])
            (if (b && decide (mx < iv.2 - iv.1)) = true then iv.2 - iv.1 else mx)
            (if (b && decide (mx < iv.2 - iv.1)) = true then (done.length : Int) else main) := by
          by_cases hb : (b && decide (mx < iv.2 - iv.1)) = true
          · rw [if_pos hb, if_pos hb]
            simp only [Bool.and_eq_true, decide_eq_true_eq] at hb
            obtain ⟨hb1, hb2⟩ := hb
            subst hb1
            right
            refine ⟨done.length, rfl, by simp, ?_, ?_, by omega, ?_⟩
            · simpa using hs
            · simp
            · intro x hx hxs
              rcases List.mem_append.1 hx with hx | hx
              · rcases hinv with ⟨_, hm, hall⟩ | ⟨j, _, _, _, hm, _, hall⟩
                · have := hall x hx hxs; omega
                · have := hall x hx hxs; omega
              · simp only [List.mem_singleton] at hx
                subst hx
                exact le_refl _
          · rw [if_neg hb, if_neg hb]
            have hno : b = true → iv.2 - iv.1 ≤ mx := by
              intro hbt
              subst hbt
              simp only [Bool.true_and, decide_eq_true_eq] at hb
              omega
            rcases hinv with ⟨hm1, hm, hall⟩ | ⟨j, hj, hjl, hjs, hm, hpos, hall⟩
            · left
              refine ⟨hm1, hm, ?_⟩
              intro x hx hxs
              rcases List.mem_append.1 hx with hx | hx
              · exact hall x hx hxs
              · simp only [List.mem_singleton] at hx
                subst hx
                rw [hs] at hxs
                cases hxs
                have := hno rfl
                omega
            · right
              have hget : (done ++ [iv]).getD j (0, 0) = done.getD j (0, 0) := by
                rw [List.getD_eq_getElem?_getD, List.getD_eq_getElem?_getD,
                  List.getElem?_append_left hjl]
              refine ⟨j, hj, by simp; omega, by rw [hget]; exact hjs, by rw [hget]; exact hm,
                hpos, ?_⟩
              intro x hx hxs
              rcases List.mem_append.1 hx with hx | hx
              · exact hall x hx hxs
              · simp only [List.mem_singleton] at hx
                subst hx
                rw [hs] at hxs
                cases hxs
                exact hno rfl
        obtain ⟨mx1, hfin⟩ := ih (done ++ [iv]) _ _ _ out h hstep
        exact ⟨mx1, by simpa using hfin⟩

/-- The main fragment returned by the profile-based `splitRead`: `-1` exactly when every
interval that contains a doubly-qualified position has a single position; otherwise the
index of an interval that contains a doubly-qualified position and is at least as wide as
every such interval. -/
theorem splitRead_main_choice (E : External) (seq : KmerContext) (threshold : Nat)
    (cq : List Nat) (ivs : List (Nat × Nat)) (out : Int × List Seq)
    (hI : splitReadIntervals E seq threshold = .ok (cq, ivs))
    (hS : splitRead E seq threshold = .ok out) (hne : seq.empty = false) :
    ∃ mx, MainChoice cq ivs mx out.1 := by
  unfold splitRead at hS
  rw [hne, hI] at hS
  simp only [Bool.false_eq_true, if_false, bind, Except.bind] at hS
  have := pickMain_choice seq.readSeq seq.kmerLength cq ivs [] 0 (-1) [] out hS
    (Or.inl ⟨rfl, rfl, fun iv hiv => absurd hiv (List.not_mem_nil iv)⟩)
  simpa using this

end FMIndexWalkProcess

/-! ### The composition filter -/

theorem binadeShift_spec (c n : Nat) : ∀ (fuel j : Nat),
    (∀ i, i < j → c * 2 ^ i < n) → n ≤ c * 2 ^ (j + fuel) →
    n ≤ c * 2 ^ binadeShift c n fuel j ∧ ∀ i, i < binadeShift c n fuel j → c * 2 ^ i < n := by
  intro fuel
  induction fuel with
  | zero => intro j hlow hhi; exact ⟨by simpa [binadeShift] using hhi, by simpa [binadeShift] using hlow⟩
  | succ f ih =>
    intro j hlow hhi
    unfold binadeShift
    split
    next h => exact ⟨h, hlow⟩
    next h =>
      apply ih (j + 1)
      · intro i hi
        rcases Nat.lt_succ_iff_lt_or_eq.1 hi with h1 | h1
        · exact hlow i h1
        · subst h1; omega
      · rw [show j + 1 + f = j + (f + 1) by omega]; exact hhi

/-- The rounded quotient reaches the double `0.9` exactly when the exact quotient exceeds
the midpoint `30198989 / 2^25` of the two single-precision neighbours of `0.9`. -/
theorem floatRatio_eq_closed_form (c n : Nat) (hc : c ≤ n) (hn : n < 16777216) :
    floatRatioAtLeastPoint9 c n = FMIndexWalkProcess.ratioAtLeastPoint9 c n := by
  unfold floatRatioAtLeastPoint9 FMIndexWalkProcess.ratioAtLeastPoint9
  by_cases h0 : c = 0 ∨ n = 0
  · rw [if_pos h0]
    have : ¬ (c * 33554432 > 30198989 * n) := by omega
    simp [this]
  · rw [if_neg h0]
    have hc0 : 0 < c := by omega
    have hn0 : 0 < n := by omega
    have e53 : (2 : Nat) ^ 53 = 9007199254740992 := by norm_num
    congr 1
    apply propext
    by_cases hcn : n ≤ c
    · -- the quotient is 1
      have hcn1 : c = n := by omega
      subst hcn1
      have hj : binadeShift c c 25 0 = 0 := by simp [binadeShift]
      have hq : c * 2 ^ 23 / c = 2 ^ 23 := Nat.mul_div_cancel_left _ hc0
      have hr : c * 2 ^ 23 % c = 0 := Nat.mul_mod_right _ _
      simp only [float32Quotient, hj, Nat.add_zero, hq, hr]
      constructor
      · intro _; omega
      · intro _; norm_num [hc0]
    · by_cases h2 : n ≤ c * 2
      · -- the quotient lies in [1/2, 1)
        have hj : binadeShift c n 25 0 = 1 := by
          simp [binadeShift, hcn, h2]
        simp only [float32Quotient, hj]
        have e24 : (2 : Nat) ^ (23 + 1) = 16777216 := by norm_num
        rw [e24, e53]
        have hdm := Nat.div_add_mod (c * 16777216) n
        have hrn : c * 16777216 % n < n := Nat.mod_lt _ hn0
        generalize c * 16777216 / n = q at hdm ⊢
        generalize c * 16777216 % n = r at hdm hrn ⊢
        generalize hm : (if 2 * r < n then q else if n < 2 * r then q + 1
          else if q % 2 = 0 then q else q + 1) = m
        have hm1 : q ≤ m ∧ m ≤ q + 1 := by
          rw [← hm]
          split
          · omega
          · split
            · omega
            · split <;> omega
        by_cases hq : 15099495 ≤ q
        · have hX : 15099495 * n ≤ n * q := by
            rw [Nat.mul_comm n q]; exact Nat.mul_le_mul_right n hq
          constructor <;> intro _ <;> omega
        · by_cases hq2 : q = 15099494
          · have hX : n * q = 15099494 * n := by rw [hq2, Nat.mul_comm]
            have hpar : q % 2 = 0 := by omega
            have hm2 : m = if n < 2 * r then q + 1 else q := by
              rw [← hm, if_pos hpar]
              by_cases a : 2 * r < n
              · rw [if_pos a, if_neg (by omega)]
              · rw [if_neg a]
            constructor
            · intro h; split at hm2 <;> omega
            · intro h; split at hm2 <;> omega
          · have hq3 : q ≤ 15099493 := by omega
            have hX : n * q ≤ 15099493 * n := by
              rw [Nat.mul_comm n q]; exact Nat.mul_le_mul_right n hq3
            constructor <;> intro _ <;> omega
      · -- the quotient is below 1/2
        have e25 : (2 : Nat) ^ (0 + 25) = 33554432 := by norm_num
        have hhi : n ≤ c * 2 ^ (0 + 25) := by
          rw [e25]; omega
        obtain ⟨hle, hmin⟩ := binadeShift_spec c n 25 0 (fun i hi => absurd hi (by omega)) hhi
        simp only [float32Quotient]
        rw [e53]
        generalize binadeShift c n 25 0 = j at hle hmin ⊢
        have hj2 : 2 ≤ j := by
          by_contra hlt
          have : j = 0 ∨ j = 1 := by omega
          rcases this with h | h
          · subst h; simp at hle; omega
          · subst h; simp at hle; omega
        have hprev := hmin (j - 1) (by omega)
        have hsplit : (2 : Nat) ^ (23 + j) = 16777216 * 2 ^ (j - 1) := by
          rw [show 23 + j = 24 + (j - 1) by omega, pow_add]
          norm_num
        have hsplit2 : (2 : Nat) ^ (j - 1) = 2 * 2 ^ (j - 2) := by
          rw [show j - 1 = (j - 2) + 1 by omega, pow_succ, Nat.mul_comm]
        have hone : 1 ≤ 2 ^ (j - 2) := Nat.one_le_two_pow
        have hnum : c * 2 ^ (23 + j) < 16777216 * n := by
          rw [hsplit]
          have : c * (16777216 * 2 ^ (j - 1)) = 16777216 * (c * 2 ^ (j - 1)) := by ring
          rw [this]
          omega
        have hbig : 33554432 ≤ 2 ^ (23 + j) := by rw [hsplit, hsplit2]; omega
        have hdm := Nat.div_add_mod (c * 2 ^ (23 + j)) n
        generalize c * 2 ^ (23 + j) = num at hdm hnum ⊢
        generalize 2 ^ (23 + j) = pw at hbig ⊢
        generalize num / n = q at hdm ⊢
        generalize num % n = r at hdm ⊢
        generalize hm : (if 2 * r < n then q else if n < 2 * r then q + 1
          else if q % 2 = 0 then q else q + 1) = m
        have hm1 : m ≤ q + 1 := by
          rw [← hm]
          split
          · omega
          · split
            · omega
            · split <;> omega
        have hq : q < 16777216 := by
          by_contra hge
          have : 16777216 * n ≤ n * q := by
            rw [Nat.mul_comm n q]; exact Nat.mul_le_mul_right n (by omega)
          omega
        constructor
        · intro h; omega
        · intro h; omega

namespace FMIndexWalkProcess

/-- For lengths below `2^24` the test `(float) count/seqLen >= 0.9` holds exactly when the
count is strictly more than nine tenths of the length. -/
theorem ratioAtLeastPoint9_iff (c n : Nat) (hn : n < 16777216) :
    ratioAtLeastPoint9 c n = decide (9 * n < 10 * c) := by
  unfold ratioAtLeastPoint9
  congr 1
  apply propext
  constructor <;> intro h <;> omega

theorem countBases_eq : ∀ (s : Seq) (a t c g : Nat), IsDNA s →
    countBases s a t c g
      = .ok (a + s.count 'A', t + s.count 'T', c + s.count 'C', g + s.count 'G') := by
  intro s
  induction s with
  | nil => intro a t c g _; rfl
  | cons x rest ih =>
    intro a t c g hd
    have hrest : IsDNA rest := fun y hy => hd y (List.mem_cons_of_mem _ hy)
    have hx := hd x (List.mem_cons_self _ _)
    unfold countBases
    rcases hx with h | h | h | h
    · subst h
      rw [if_pos rfl, ih _ _ _ _ hrest]
      simp [List.count_cons]
      omega
    · subst h
      rw [if_neg (by decide), if_pos rfl, ih _ _ _ _ hrest]
      simp [List.count_cons]
      omega
    · subst h
      rw [if_neg (by decide), if_neg (by decide), if_pos rfl, ih _ _ _ _ hrest]
      simp [List.count_cons]
      omega
    · subst h
      rw [if_neg (by decide), if_neg (by decide), if_neg (by decide), if_pos rfl,
        ih _ _ _ _ hrest]
      simp [List.count_cons]
      omega

/-- What `isLowComplexity` computes on a sequence over `A`, `C`, `G`, `T` shorter than
`2^24`: whether some base makes up strictly more than nine tenths of it. -/
theorem isLowComplexity_iff_exceeds (s : Seq) (hd : IsDNA s) (hlen : s.length < 16777216) :
    isLowComplexity s
      = .ok (decide (9 * s.length < 10 * s.count 'A') || decide (9 * s.length < 10 * s.count 'T')
          || decide (9 * s.length < 10 * s.count 'C')
          || decide (9 * s.length < 10 * s.count 'G')) := by
  unfold isLowComplexity
  rw [countBases_eq s 0 0 0 0 hd]
  simp only [bind, Except.bind, Nat.zero_add, ratioAtLeastPoint9_iff _ _ hlen]
  rfl

end FMIndexWalkProcess

/-- C17: on nine `A` and one `C` the count of `A` is exactly nine tenths of the length, and
`isLowComplexity` returns false: the single-precision quotient `(float) 9/10` is
`15099494 / 2^24`, which is below the double constant `0.9`. -/
theorem isLowComplexity_false_at_exactly_nine_tenths :
    10 * (['A', 'A', 'A', 'A', 'A', 'A', 'A', 'A', 'A', 'C'] : Seq).count 'A'
      = 9 * (['A', 'A', 'A', 'A', 'A', 'A', 'A', 'A', 'A', 'C'] : Seq).length ∧
    FMIndexWalkProcess.isLowComplexity ['A', 'A', 'A', 'A', 'A', 'A', 'A', 'A', 'A', 'C']
      = .ok false ∧
    float32Quotient 9 10 = (15099494, 24) ∧
    floatRatioAtLeastPoint9 9 10 = false :=
  ⟨by decide, by decide, by decide, by decide⟩

/-! ### The longest run -/

/-- C18 (failing behaviour). `maxCon` does not ignore `N`. On `AANAAA` the guard
`if (s[i] == 'N') continue` skips the `N` at index 2, but the `A` before it has been compared
with that `N`, which closed the run of two, and the `A` after it is compared with `s[i-1]`,
the same `N`, and starts a new run: the result is 3, the `A`-run after the `N`, while the run
computed as if the `N` were absent (the sequence `AAAAA`) has length 5. -/
theorem maxCon_breaks_run_at_N :
    FMIndexWalkProcess.maxCon ['A', 'A', 'N', 'A', 'A', 'A'] = 3 ∧
    FMIndexWalkProcess.maxCon ['A', 'A', 'N', 'A', 'A', 'A'] ≠ 5 ∧
    (['A', 'A', 'N', 'A', 'A', 'A'] : Seq).filter (fun c => c != 'N')
      = ['A', 'A', 'A', 'A', 'A'] ∧
    FMIndexWalkProcess.maxCon ['A', 'A', 'A', 'A', 'A'] = 5 :=
  ⟨by decide, by decide, by decide, by decide⟩

theorem maxConInv_differ (s : Seq) (i c mx : Nat) (hi1 : 1 ≤ i) (hi : i < s.length)
    (hinv : MaxConInv s i c mx) (hne : s.getD i 'N' ≠ s.getD (i - 1) 'N') :
    MaxConInv s (i + 1) 1 (if c > mx then c else mx) := by
  obtain ⟨h1, h2, hblk, _, ⟨a0, hb0, ha0⟩, hmx1, hall⟩ := hinv
  have hmx : mx ≤ (if c > mx then c else mx) := by split <;> omega
  refine ⟨le_refl 1, by omega, ?_, ?_, ?_, by omega, ?_⟩
  · intro j hj1 hj2
    have : j = i := by omega
    subst this
    rfl
  · right
    exact fun h => hne h.symm
  · by_cases hc : c > mx
    · rw [if_pos hc]
      refine ⟨i - c, ⟨by omega, ?_⟩, by omega⟩
      intro j hj
      rw [hblk (i - c + j) (by omega) (by omega), hblk (i - c) (le_refl _) (by omega)]
    · rw [if_neg hc]
      exact ⟨a0, hb0, by omega⟩
  · intro a m hb ham
    left
    by_cases ham2 : a + m ≤ i
    · rcases hall a m hb ham2 with h | ⟨_, _, heq⟩
      · omega
      · exact absurd heq hne
    · by_cases hm1 : m ≤ 1
      · omega
      · exfalso
        have ha := hb.2 (m - 2) (by omega)
        have hb2 := hb.2 (m - 1) (by omega)
        rw [show a + (m - 2) = i - 1 by omega] at ha
        rw [show a + (m - 1) = i by omega] at hb2
        exact hne (by rw [ha, hb2])

theorem maxConInv_equal (s : Seq) (i c mx : Nat) (hi1 : 1 ≤ i) (hi : i < s.length)
    (hinv : MaxConInv s i c mx) (heq : s.getD i 'N' = s.getD (i - 1) 'N') :
    ((i = s.length - 1 ∨ s.getD i 'N' ≠ s.getD (i + 1) 'N') →
      MaxConInv s (i + 1) (c + 1) (if c + 1 > mx then c + 1 else mx)) ∧
    (¬ (i = s.length - 1) → s.getD i 'N' = s.getD (i + 1) 'N' →
      MaxConInv s (i + 1) (c + 1) mx) := by
  obtain ⟨h1, h2, hblk, hleft, ⟨a0, hb0, ha0⟩, hmx1, hall⟩ := hinv
  have e1 : i + 1 - 1 = i := by omega
  have e2 : i + 1 - (c + 1) = i - c := by omega
  have hblk1 : ∀ j, i + 1 - (c + 1) ≤ j → j < i + 1 →
      s.getD j 'N' = s.getD (i + 1 - 1) 'N' := by
    intro j hj1 hj2
    rw [e1]
    by_cases hji : j = i
    · rw [hji]
    · rw [hblk j (by omega) (by omega), heq]
  have hleft1 : i + 1 - (c + 1) = 0 ∨
      s.getD (i + 1 - (c + 1) - 1) 'N' ≠ s.getD (i + 1 - 1) 'N' := by
    rw [e1, e2, heq]
    exact hleft
  -- a block that ends at `i` or before and is longer than `mx` lies in the current block
  have hin : ∀ a m, IsBlock s a m → a + m ≤ i + 1 → m ≤ mx ∨ i - c ≤ a := by
    intro a m hb ham
    by_cases ham2 : a + m ≤ i
    · rcases hall a m hb ham2 with h | ⟨h, _, _⟩
      · exact Or.inl h
      · exact Or.inr h
    · right
      by_contra hlt
      rcases hleft with h0 | hneq
      · omega
      · have ha := hb.2 (i - c - 1 - a) (by omega)
        have hb2 := hb.2 (m - 1) (by omega)
        rw [show a + (i - c - 1 - a) = i - c - 1 by omega] at ha
        rw [show a + (m - 1) = i by omega] at hb2
        exact hneq (by rw [ha, ← hb2, heq])
  constructor
  · intro hclosed
    have hmx : mx ≤ (if c + 1 > mx then c + 1 else mx) := by split <;> omega
    have hc1 : c + 1 ≤ (if c + 1 > mx then c + 1 else mx) := by split <;> omega
    refine ⟨by omega, by omega, hblk1, hleft1, ?_, by omega, ?_⟩
    · by_cases hc : c + 1 > mx
      · rw [if_pos hc]
        refine ⟨i - c, ⟨by omega, ?_⟩, by omega⟩
        intro j hj
        have := hblk1 (i - c + j) (by omega) (by omega)
        have h0 := hblk1 (i - c) (by omega) (by omega)
        rw [this, h0]
      · rw [if_neg hc]
        exact ⟨a0, hb0, by omega⟩
    · intro a m hb ham
      left
      rcases hin a m hb ham with h | h
      · omega
      · omega
  · intro hnl hopen
    refine ⟨by omega, by omega, hblk1, hleft1, ⟨a0, hb0, by omega⟩, hmx1, ?_⟩
    intro a m hb ham
    rcases hin a m hb ham with h | h
    · exact Or.inl h
    · right
      rw [e1, e2]
      exact ⟨h, by omega, hopen.symm⟩

theorem maxConLoop_longest (s : Seq) (hN : ∀ j, j < s.length → s.getD j 'N' ≠ 'N') :
    ∀ (remaining i c mx : Nat), i + remaining = s.length → 1 ≤ i → MaxConInv s i c mx →
      IsLongestBlock s (FMIndexWalkProcess.maxConLoop s remaining i c mx) := by
  intro remaining
  induction remaining with
  | zero =>
    intro i c mx hi hi1 hinv
    obtain ⟨_, _, _, _, ⟨a0, hb0, _⟩, _, hall⟩ := hinv
    unfold FMIndexWalkProcess.maxConLoop
    refine ⟨⟨a0, hb0⟩, ?_⟩
    intro a m hb
    rcases hall a m hb (by have := hb.1; omega) with h | ⟨_, h, _⟩
    · exact h
    · omega
  | succ n ih =>
    intro i c mx hi hi1 hinv
    have hlt : i < s.length := by omega
    unfold FMIndexWalkProcess.maxConLoop
    rw [if_neg (hN i hlt)]
    by_cases hne : s.getD i 'N' ≠ s.getD (i - 1) 'N'
    · rw [if_pos hne]
      exact ih _ _ _ (by omega) (by omega) (maxConInv_differ s i c mx hi1 hlt hinv hne)
    · rw [if_neg hne]
      have heq : s.getD i 'N' = s.getD (i - 1) 'N' := not_not.1 hne
      obtain ⟨hcl, hop⟩ := maxConInv_equal s i c mx hi1 hlt hinv heq
      simp only
      by_cases hlast : i = s.length - 1
      · rw [if_pos hlast]
        exact ih _ _ _ (by omega) (by omega) (hcl (Or.inl hlast))
      · rw [if_neg hlast]
        by_cases hnx : s.getD i 'N' ≠ s.getD (i + 1) 'N'
        · rw [if_pos hnx]
          exact ih _ _ _ (by omega) (by omega) (hcl (Or.inr hnx))
        · rw [if_neg hnx]
          exact ih _ _ _ (by omega) (by omega) (hop hlast (not_not.1 hnx))

/-- C19: for every non-empty sequence that contains no `N`, `maxCon` returns the length of
the longest block of consecutive equal characters: some block has that length and no block
is longer. -/
theorem maxCon_longest_block (s : Seq) (hne : s ≠ []) (hN : 'N' ∉ s) :
    IsLongestBlock s (FMIndexWalkProcess.maxCon s) := by
  have hlen : 1 ≤ s.length := by
    cases s with
    | nil => exact absurd rfl hne
    | cons a l => simp
  have hN1 : ∀ j, j < s.length → s.getD j 'N' ≠ 'N' := by
    intro j hj h
    rw [List.getD_eq_getElem _ _ hj] at h
    exact hN (h ▸ List.getElem_mem _)
  unfold FMIndexWalkProcess.maxCon
  apply maxConLoop_longest s hN1 _ _ _ _ (by omega) (le_refl 1)
  refine ⟨le_refl 1, le_refl 1, ?_, Or.inl rfl, ⟨0, ⟨by omega, ?_⟩, by omega⟩, le_refl 1, ?_⟩
  · intro j hj1 hj2
    have : j = 0 := by omega
    subst this
    rfl
  · intro j hj
    have : j = 0 := by omega
    subst this
    rfl
  · intro a m hb ham
    left
    omega

theorem maxCon_longest_block_witness :
    FMIndexWalkProcess.maxCon
      ['A', 'A', 'T', 'T', 'T', 'T', 'T', 'T', 'T', 'T', 'T', 'T', 'T', 'C', 'C', 'C'] = 11 ∧
    IsLongestBlock
      ['A', 'A', 'T', 'T', 'T', 'T', 'T', 'T', 'T', 'T', 'T', 'T', 'T', 'C', 'C', 'C']
      (FMIndexWalkProcess.maxCon
        ['A', 'A', 'T', 'T', 'T', 'T', 'T', 'T', 'T', 'T', 'T', 'T', 'T', 'C', 'C', 'C']) :=
  ⟨by decide,
    maxCon_longest_block
      ['A', 'A', 'T', 'T', 'T', 'T', 'T', 'T', 'T', 'T', 'T', 'T', 'T', 'C', 'C', 'C']
      (by decide) (by decide)⟩

/-! ### The filters of the segmentation fallback -/

theorem keptMain_none (mainIdx : Int) : ∀ (frags : List Seq) (i : Nat) (previous : Seq),
    mainIdx < (i : Int) → keptMain mainIdx i frags previous = previous := by
  intro frags
  induction frags with
  | nil => intro i previous _; rfl
  | cons f rest ih =>
    intro i previous h
    have hne : ¬ ((i : Int) = mainIdx) := by omega
    have hrec := ih (i + 1) previous (by omega)
    unfold keptMain at hrec ⊢
    simp only [List.enumFrom_cons, List.find?_cons, hne, decide_False, Bool.false_and]
    exact hrec

namespace FMIndexWalkProcess

/-- The filtering loop of the fallback computes the rule: the fragments pushed are the
non-main fragments that pass both filters, in order, and the corrected sequence is replaced
by the main fragment exactly when that fragment passes both filters. -/
theorem filterFragments_eq (mainIdx : Int) : ∀ (frags : List Seq) (i : Nat) (cs : Seq)
    (krs : List Seq), (∀ f ∈ frags, IsDNA f) →
    filterFragments mainIdx frags i cs krs
      = .ok (keptMain mainIdx i frags cs, krs ++ keptFragments mainIdx i frags) := by
  intro frags
  induction frags with
  | nil =>
    intro i cs krs _
    simp [filterFragments, keptMain, keptFragments, pure, Except.pure]
  | cons f rest ih =>
    intro i cs krs h
    obtain ⟨b, hb⟩ := isLowComplexity_ok f (h f (List.mem_cons_self _ _))
    have hrest : ∀ g ∈ rest, IsDNA g := fun g hg => h g (List.mem_cons_of_mem _ hg)
    simp only [filterFragments, hb, bind, Except.bind]
    cases b with
    | true =>
      have hp : passesFilters f = false := by
        unfold passesFilters
        rw [hb]
        simp
      rw [if_pos rfl, ih _ _ _ hrest]
      simp only [keptMain, keptFragments, List.enumFrom_cons, List.find?_cons, List.filter_cons,
        hp, Bool.and_false, Bool.false_eq_true, if_false]
    | false =>
      rw [if_neg (by simp)]
      by_cases hrun : maxCon f * 3 > f.length
      · have hp : passesFilters f = false := by
          unfold passesFilters
          have : ¬ (3 * maxCon f ≤ f.length) := by omega
          simp [this]
        rw [if_pos hrun, ih _ _ _ hrest]
        simp only [keptMain, keptFragments, List.enumFrom_cons, List.find?_cons,
          List.filter_cons, hp, Bool.and_false, Bool.false_eq_true, if_false]
      · have hp : passesFilters f = true := by
          unfold passesFilters
          rw [hb]
          have : 3 * maxCon f ≤ f.length := by omega
          simp [this]
        rw [if_neg hrun]
        by_cases hmain : (i : Int) = mainIdx
        · rw [if_pos hmain, ih _ _ _ hrest, keptMain_none mainIdx rest (i + 1) f (by omega)]
          simp only [keptMain, keptFragments, List.enumFrom_cons, List.find?_cons,
            List.filter_cons, hp, hmain, decide_True, Bool.and_true, ne_eq, not_true_eq_false,
            decide_False, Bool.false_eq_true, if_false]
        · rw [if_neg hmain, ih _ _ _ hrest]
          simp only [keptMain, keptFragments, List.enumFrom_cons, List.find?_cons,
            List.filter_cons, hp, hmain, decide_False, Bool.false_and, Bool.and_true, ne_eq,
            not_false_eq_true, decide_True, if_true, List.map_cons, List.append_assoc,
            List.singleton_append]

end FMIndexWalkProcess

namespace FMIndexWalkProcess

theorem kmerizeBoth_eq (E : External) (k threshold : Nat) (seqFirst seqSecond : Seq)
    (result : FMIndexWalkResult) (main1 main2 : Int) (KR1 KR2 : List Seq)
    (hS1 : (if seqFirst.length ≥ k then splitRead E (KmerContext.build E seqFirst k) threshold
      else (pure (-1, []) : Run (Int × List Seq))) = .ok (main1, KR1))
    (hS2 : (if seqSecond.length ≥ k then splitRead E (KmerContext.build E seqSecond k) threshold
      else (pure (-1, []) : Run (Int × List Seq))) = .ok (main2, KR2))
    (hD1 : ∀ f ∈ KR1, IsDNA f) (hD2 : ∀ f ∈ KR2, IsDNA f) :
    ∃ r, kmerizeBoth E k threshold seqFirst seqSecond result = .ok r ∧
      r.merge = result.merge ∧
      r.correctSequence = keptMain main1 0 KR1 result.correctSequence ∧
      r.kmerizedReads = result.kmerizedReads ++ keptFragments main1 0 KR1 ∧
      r.correctSequence2 = keptMain main2 0 KR2 result.correctSequence2 ∧
      r.kmerizedReads2 = result.kmerizedReads2 ++ keptFragments main2 0 KR2 := by
  simp only [kmerizeBoth, hS1, hS2, bind, Except.bind]
  rw [filterFragments_eq main1 KR1 0 _ _ hD1]
  simp only
  rw [filterFragments_eq main2 KR2 0 _ _ hD2]
  refine ⟨_, rfl, ?_, ?_, ?_, ?_, ?_⟩ <;> simp only <;> split <;> split <;> rfl

theorem segments_are_DNA (E : External) (k threshold : Nat) (seq : Seq) (main : Int)
    (KR : List Seq) (hk : 1 ≤ k) (hd : IsDNA seq)
    (hS : (if seq.length ≥ k then splitRead E (KmerContext.build E seq k) threshold
      else (pure (-1, []) : Run (Int × List Seq))) = .ok (main, KR)) :
    ∀ f ∈ KR, IsDNA f := by
  split at hS
  · rename_i hl
    obtain ⟨r, hr, hf⟩ := splitRead_ok E seq k threshold hk hl
    rw [hr] at hS
    simp only [Except.ok.injEq] at hS
    subst hS
    exact fun f hfm => isDNA_of_infix hd (hf f hfm)
  · simp only [pure, Except.pure, Except.ok.injEq, Prod.mk.injEq] at hS
    obtain ⟨_, h2⟩ := hS
    subst h2
    intro f hf
    simp at hf

end FMIndexWalkProcess

/-- C20: in `MergeAndKmerize` on reads over `A`, `C`, `G`, `T`, when the segmentation
fallback is reached (the suitability gate fails, or none of the three accepting tests on
the two searches holds), with `(main1, KR1)` and `(main2, KR2)` the results of segmenting
the two trimmed reads: `kmerizedReads` is exactly the list, in order, of the fragments of
`KR1` other than the main one that are not low-complexity and satisfy
`3 * maxCon <= length`, likewise `kmerizedReads2` for `KR2`; `correctSequence`
(`correctSequence2`) becomes the main fragment exactly when that fragment passes both
filters and otherwise keeps the value it had before the fallback; `merge` stays false. -/
theorem mergeAndKmerize_fallback_filters (fuel : Nat) (E : External) (T : SearchTrees)
    (P : Parameters) (threshold : Nat) (first second seqFirst seqSecond : Seq)
    (firstKRstr secondKRstr : Seq) (main1 main2 : Int) (KR1 KR2 : List Seq)
    (hk : 1 ≤ toSizeT P.kmerLength) (hd1 : IsDNA first) (hd2 : IsDNA second)
    (hT1 : FMIndexWalkProcess.trimRead fuel E first (toSizeT P.kmerLength) = .ok seqFirst)
    (hT2 : FMIndexWalkProcess.trimRead fuel E second (toSizeT P.kmerLength) = .ok seqSecond)
    (hreach : (FMIndexWalkProcess.shortForOverlap P seqFirst
        || FMIndexWalkProcess.shortForOverlap P seqSecond) = true
      ∨ (toSizeT P.kmerLength ≤ seqFirst.length ∧ toSizeT P.kmerLength ≤ seqSecond.length))
    (hK1 : substr seqFirst 0 P.minOverlap = .ok firstKRstr)
    (hK2 : substr seqSecond 0 P.minOverlap = .ok secondKRstr)
    (hfall : FMIndexWalkProcess.isSuitableForFMWalk E P firstKRstr secondKRstr = false ∨
      walksAccepted E
        (T.mergeTwoReads firstKRstr (E.reverseComplement secondKRstr)
          (first.length + second.length))
        (T.mergeTwoReads secondKRstr (E.reverseComplement firstKRstr)
          (first.length + second.length)) = false)
    (hS1 : (if seqFirst.length ≥ toSizeT P.kmerLength then
        FMIndexWalkProcess.splitRead E (KmerContext.build E seqFirst (toSizeT P.kmerLength))
          threshold
      else (pure (-1, []) : Run (Int × List Seq))) = .ok (main1, KR1))
    (hS2 : (if seqSecond.length ≥ toSizeT P.kmerLength then
        FMIndexWalkProcess.splitRead E (KmerContext.build E seqSecond (toSizeT P.kmerLength))
          threshold
      else (pure (-1, []) : Run (Int × List Seq))) = .ok (main2, KR2)) :
    ∃ r, FMIndexWalkProcess.MergeAndKmerize fuel E T P threshold first second = .ok r ∧
      r.merge = false ∧
      r.kmerizedReads = keptFragments main1 0 KR1 ∧
      r.kmerizedReads2 = keptFragments main2 0 KR2 ∧
      r.correctSequence = keptMain main1 0 KR1
        (if (FMIndexWalkProcess.shortForOverlap P seqFirst
          || FMIndexWalkProcess.shortForOverlap P seqSecond) = true then seqFirst else []) ∧
      r.correctSequence2 = keptMain main2 0 KR2
        (if (FMIndexWalkProcess.shortForOverlap P seqFirst
          || FMIndexWalkProcess.shortForOverlap P seqSecond) = true then seqSecond else []) := by
  have hguard : (!(FMIndexWalkProcess.shortForOverlap P seqFirst
        || FMIndexWalkProcess.shortForOverlap P seqSecond)
      && decide (seqFirst.length < toSizeT P.kmerLength
          ∨ seqSecond.length < toSizeT P.kmerLength)) = false := by
    rcases hreach with h | h
    · simp [h]
    · have : ¬ (seqFirst.length < toSizeT P.kmerLength
          ∨ seqSecond.length < toSizeT P.kmerLength) := by omega
      simp [this]
  have hs1 := isDNA_of_infix hd1 (FMIndexWalkProcess.trimRead_infix _ _ _ _ _ hT1)
  have hs2 := isDNA_of_infix hd2 (FMIndexWalkProcess.trimRead_infix _ _ _ _ _ hT2)
  have hD1 := FMIndexWalkProcess.segments_are_DNA E _ threshold seqFirst main1 KR1 hk hs1 hS1
  have hD2 := FMIndexWalkProcess.segments_are_DNA E _ threshold seqSecond main2 KR2 hk hs2 hS2
  have hfb := fun res => FMIndexWalkProcess.kmerizeBoth_eq E (toSizeT P.kmerLength) threshold
    seqFirst seqSecond res main1 main2 KR1 KR2 hS1 hS2 hD1 hD2
  have hrun : ∃ res : FMIndexWalkResult,
      FMIndexWalkProcess.MergeAndKmerize fuel E T P threshold first second
        = FMIndexWalkProcess.kmerizeBoth E (toSizeT P.kmerLength) threshold seqFirst seqSecond
            res ∧
      res.merge = false ∧ res.kmerizedReads = [] ∧ res.kmerizedReads2 = [] ∧
      res.correctSequence = (if (FMIndexWalkProcess.shortForOverlap P seqFirst
          || FMIndexWalkProcess.shortForOverlap P seqSecond) = true then seqFirst else []) ∧
      res.correctSequence2 = (if (FMIndexWalkProcess.shortForOverlap P seqFirst
          || FMIndexWalkProcess.shortForOverlap P seqSecond) = true then seqSecond else []) := by
    refine ⟨(if (FMIndexWalkProcess.shortForOverlap P seqFirst
        || FMIndexWalkProcess.shortForOverlap P seqSecond) = true then
        { ({} : FMIndexWalkResult) with
          kmerize := true, kmerize2 := true, correctSequence := seqFirst,
          correctSequence2 := seqSecond }
      else {}), ?_, ?_⟩
    · simp only [FMIndexWalkProcess.MergeAndKmerize, hT1, hT2, hguard, hK1, hK2, bind,
        Except.bind, Bool.false_eq_true, if_false]
      rcases hfall with hg | hw
      · rw [hg]
        simp only [Bool.false_eq_true, if_false]
      · unfold walksAccepted at hw
        simp only [Bool.or_eq_false_iff] at hw
        obtain ⟨⟨hw1, hw2⟩, hw3⟩ := hw
        split
        · rw [if_neg (by rw [hw1]; simp), if_neg (by rw [hw2]; simp),
            if_neg (by rw [hw3]; simp)]
        · rfl
    · refine ⟨?_, ?_, ?_, ?_, ?_⟩ <;> split <;> rfl
  obtain ⟨res, hres, hm, hk1, hk2, hc1, hc2⟩ := hrun
  obtain ⟨r, hr, hrm, hrc1, hrk1, hrc2, hrk2⟩ := hfb res
  refine ⟨r, by rw [hres, hr], by rw [hrm, hm], by rw [hrk1, hk1]; rfl,
    by rw [hrk2, hk2]; rfl, by rw [hrc1, hc1], by rw [hrc2, hc2]⟩

theorem mergeAndKmerize_fallback_filters_witness :
    (FMIndexWalkProcess.MergeAndKmerize 8 exampleIndex failingTrees exampleParams 2
        ['A', 'C', 'G', 'T'] ['T', 'T', 'G', 'A']).map
      (fun r => (r.merge, r.correctSequence, r.kmerizedReads, r.correctSequence2,
        r.kmerizedReads2))
      = .ok (false, ['A', 'C', 'G', 'T'], [], [], []) ∧
    ∃ r, FMIndexWalkProcess.MergeAndKmerize 8 exampleIndex failingTrees exampleParams 2
        ['A', 'C', 'G', 'T'] ['T', 'T', 'G', 'A'] = .ok r ∧
      r.merge = false ∧
      r.kmerizedReads = keptFragments 0 0 [['A', 'C', 'G', 'T']] ∧
      r.kmerizedReads2 = keptFragments 0 0 [['T', 'T', 'G', 'A']] ∧
      r.correctSequence = keptMain 0 0 [['A', 'C', 'G', 'T']]
        (if (FMIndexWalkProcess.shortForOverlap exampleParams ['A', 'C', 'G', 'T']
          || FMIndexWalkProcess.shortForOverlap exampleParams ['T', 'T', 'G', 'A']) = true
          then ['A', 'C', 'G', 'T'] else []) ∧
      r.correctSequence2 = keptMain 0 0 [['T', 'T', 'G', 'A']]
        (if (FMIndexWalkProcess.shortForOverlap exampleParams ['A', 'C', 'G', 'T']
          || FMIndexWalkProcess.shortForOverlap exampleParams ['T', 'T', 'G', 'A']) = true
          then ['T', 'T', 'G', 'A'] else []) :=
  ⟨by decide,
    mergeAndKmerize_fallback_filters 8 exampleIndex failingTrees exampleParams 2
      ['A', 'C', 'G', 'T'] ['T', 'T', 'G', 'A'] ['A', 'C', 'G', 'T'] ['T', 'T', 'G', 'A']
      ['A', 'C'] ['T', 'T'] 0 0 [['A', 'C', 'G', 'T']] [['T', 'T', 'G', 'A']]
      (by decide) (by unfold IsDNA; decide) (by unfold IsDNA; decide) (by decide) (by decide)
      (by decide) (by decide) (by decide) (by decide) (by decide) (by decide)⟩

/-! ### The longest run in the presence of `N` -/

theorem maxConInvN_skip (s : Seq) (i c mx : Nat) (hinv : MaxConInvN s i c mx)
    (hN : s.getD i 'N' = 'N') :
    MaxConInvN s (i + 1) c mx := by
  obtain ⟨h1, hmx1, hach, _, hstale, hclosed, hall⟩ := hinv
  have hcm : c ≤ mx := by
    by_cases hp : s.getD (i - 1) 'N' = 'N'
    · exact hstale hp
    · exact hclosed (fun h => hp (by rw [← h.2, hN]))
  refine ⟨h1, hmx1, ?_, ?_, fun _ => hcm, fun _ => hcm, ?_⟩
  · rcases hach with h | ⟨a, hb, ha⟩
    · exact Or.inl h
    · exact Or.inr ⟨a, hb, by omega⟩
  · intro h
    exact absurd hN h
  · intro a m hb ham
    left
    by_cases hend : a + m ≤ i
    · rcases hall a m hb hend with h | ⟨hp, _, _, heq⟩
      · exact h
      · exact absurd (by rw [← heq, hN]) hp
    · by_cases hm0 : m = 0
      · omega
      · exfalso
        have := hb.1.2 (m - 1) (by omega)
        rw [show a + (m - 1) = i by omega, hN] at this
        exact hb.2 this.symm

theorem maxConInvN_differ (s : Seq) (i c mx : Nat) (hi1 : 1 ≤ i) (hi : i < s.length)
    (hinv : MaxConInvN s i c mx) (hN : s.getD i 'N' ≠ 'N')
    (hne : s.getD i 'N' ≠ s.getD (i - 1) 'N') :
    MaxConInvN s (i + 1) 1 (if c > mx then c else mx) := by
  obtain ⟨h1, hmx1, hach, hcur, hstale, _, hall⟩ := hinv
  have hmx : mx ≤ (if c > mx then c else mx) := by split <;> omega
  refine ⟨le_refl 1, by omega, ?_, ?_, fun h => absurd h hN, fun _ => by omega, ?_⟩
  · by_cases hc : c > mx
    · rw [if_pos hc]
      have hp : s.getD (i - 1) 'N' ≠ 'N' := fun h => by have := hstale h; omega
      obtain ⟨hci, hblk, _⟩ := hcur hp
      right
      refine ⟨i - c, ⟨⟨by omega, ?_⟩, ?_⟩, by omega⟩
      · intro j hj
        rw [hblk (i - c + j) (by omega) (by omega), hblk (i - c) (le_refl _) (by omega)]
      · rw [hblk (i - c) (le_refl _) (by omega)]
        exact hp
    · rw [if_neg hc]
      rcases hach with h | ⟨a, hb, ha⟩
      · exact Or.inl h
      · exact Or.inr ⟨a, hb, by omega⟩
  · intro _
    refine ⟨by omega, ?_, Or.inr (fun h => hne h.symm)⟩
    intro j hj1 hj2
    have : j = i := by omega
    subst this
    rfl
  · intro a m hb ham
    left
    by_cases ham2 : a + m ≤ i
    · rcases hall a m hb ham2 with h | ⟨_, _, _, heq⟩
      · omega
      · exact absurd heq hne
    · by_cases hm1 : m ≤ 1
      · omega
      · exfalso
        have ha := hb.1.2 (m - 2) (by omega)
        have hb2 := hb.1.2 (m - 1) (by omega)
        rw [show a + (m - 2) = i - 1 by omega] at ha
        rw [show a + (m - 1) = i by omega] at hb2
        exact hne (by rw [ha, hb2])

theorem maxConInvN_equal (s : Seq) (i c mx : Nat) (hi1 : 1 ≤ i) (hi : i < s.length)
    (hinv : MaxConInvN s i c mx) (hN : s.getD i 'N' ≠ 'N')
    (heq : s.getD i 'N' = s.getD (i - 1) 'N') :
    ((i = s.length - 1 ∨ s.getD i 'N' ≠ s.getD (i + 1) 'N') →
      MaxConInvN s (i + 1) (c + 1) (if c + 1 > mx then c + 1 else mx)) ∧
    (¬ (i = s.length - 1) → s.getD i 'N' = s.getD (i + 1) 'N' →
      MaxConInvN s (i + 1) (c + 1) mx) := by
  obtain ⟨h1, hmx1, hach, hcur, _, _, hall⟩ := hinv
  have hp : s.getD (i - 1) 'N' ≠ 'N' := by rw [← heq]; exact hN
  obtain ⟨h2, hblk, hleft⟩ := hcur hp
  have e1 : i + 1 - 1 = i := by omega
  have e2 : i + 1 - (c + 1) = i - c := by omega
  have hblk1 : ∀ j, i + 1 - (c + 1) ≤ j → j < i + 1 →
      s.getD j 'N' = s.getD (i + 1 - 1) 'N' := by
    intro j hj1 hj2
    rw [e1]
    by_cases hji : j = i
    · rw [hji]
    · rw [hblk j (by omega) (by omega), heq]
  have hleft1 : i + 1 - (c + 1) = 0 ∨
      s.getD (i + 1 - (c + 1) - 1) 'N' ≠ s.getD (i + 1 - 1) 'N' := by
    rw [e1, e2, heq]
    exact hleft
  have hcur1 : s.getD (i + 1 - 1) 'N' ≠ 'N' →
      c + 1 ≤ i + 1 ∧ (∀ j, i + 1 - (c + 1) ≤ j → j < i + 1 →
        s.getD j 'N' = s.getD (i + 1 - 1) 'N') ∧
      (i + 1 - (c + 1) = 0 ∨
        s.getD (i + 1 - (c + 1) - 1) 'N' ≠ s.getD (i + 1 - 1) 'N') :=
    fun _ => ⟨by omega, hblk1, hleft1⟩
  have hnoN : s.getD (i + 1 - 1) 'N' = 'N' → False := by rw [e1]; exact hN
  have hach1 : ∀ mx1, mx1 = mx → (mx1 = 1 ∨ ∃ a, IsBaseBlock s a mx1 ∧ a + mx1 ≤ i + 1) := by
    intro mx1 hm
    subst hm
    rcases hach with h | ⟨a, hb, ha⟩
    · exact Or.inl h
    · exact Or.inr ⟨a, hb, by omega⟩
  have hin : ∀ a m, IsBaseBlock s a m → a + m ≤ i + 1 → m ≤ mx ∨ i - c ≤ a := by
    intro a m hb ham
    by_cases ham2 : a + m ≤ i
    · rcases hall a m hb ham2 with h | ⟨_, h, _, _⟩
      · exact Or.inl h
      · exact Or.inr h
    · right
      by_contra hlt
      rcases hleft with h0 | hneq
      · omega
      · have ha := hb.1.2 (i - c - 1 - a) (by omega)
        have hb2 := hb.1.2 (m - 1) (by omega)
        rw [show a + (i - c - 1 - a) = i - c - 1 by omega] at ha
        rw [show a + (m - 1) = i by omega] at hb2
        exact hneq (by rw [ha, ← hb2, heq])
  constructor
  · intro hcl
    have hmx : mx ≤ (if c + 1 > mx then c + 1 else mx) := by split <;> omega
    have hc1 : c + 1 ≤ (if c + 1 > mx then c + 1 else mx) := by split <;> omega
    refine ⟨by omega, by omega, ?_, hcur1, fun h => absurd h hnoN, fun _ => hc1, ?_⟩
    · by_cases hc : c + 1 > mx
      · rw [if_pos hc]
        right
        refine ⟨i - c, ⟨⟨by omega, ?_⟩, ?_⟩, by omega⟩
        · intro j hj
          have := hblk1 (i - c + j) (by omega) (by omega)
          have h0 := hblk1 (i - c) (by omega) (by omega)
          rw [this, h0]
        · have h0 := hblk1 (i - c) (by omega) (by omega)
          rw [h0, e1]
          exact hN
      · rw [if_neg hc]
        exact hach1 mx rfl
    · intro a m hb ham
      left
      rcases hin a m hb ham with h | h
      · omega
      · omega
  · intro hnl hopen
    refine ⟨by omega, hmx1, hach1 mx rfl, hcur1, fun h => absurd h hnoN, ?_, ?_⟩
    · intro hno
      exfalso
      apply hno
      rw [e1]
      exact ⟨by omega, hopen.symm⟩
    · intro a m hb ham
      rcases hin a m hb ham with h | h
      · exact Or.inl h
      · right
        rw [e1, e2]
        exact ⟨hN, h, by omega, hopen.symm⟩

theorem maxConLoop_longest_base (s : Seq) :
    ∀ (remaining i c mx : Nat), i + remaining = s.length → 1 ≤ i → MaxConInvN s i c mx →
      IsLongestBaseBlock s (FMIndexWalkProcess.maxConLoop s remaining i c mx) := by
  intro remaining
  induction remaining with
  | zero =>
    intro i c mx hi hi1 hinv
    obtain ⟨_, hmx1, hach, _, _, _, hall⟩ := hinv
    unfold FMIndexWalkProcess.maxConLoop
    refine ⟨hmx1, ?_, ?_⟩
    · rcases hach with h | ⟨a, hb, _⟩
      · exact Or.inl h
      · exact Or.inr ⟨a, hb⟩
    · intro a m hb
      rcases hall a m hb (by have := hb.1.1; omega) with h | ⟨_, _, h, _⟩
      · exact h
      · omega
  | succ n ih =>
    intro i c mx hi hi1 hinv
    have hlt : i < s.length := by omega
    unfold FMIndexWalkProcess.maxConLoop
    by_cases hN : s.getD i 'N' = 'N'
    · rw [if_pos hN]
      exact ih _ _ _ (by omega) (by omega) (maxConInvN_skip s i c mx hinv hN)
    · rw [if_neg hN]
      by_cases hne : s.getD i 'N' ≠ s.getD (i - 1) 'N'
      · rw [if_pos hne]
        exact ih _ _ _ (by omega) (by omega) (maxConInvN_differ s i c mx hi1 hlt hinv hN hne)
      · rw [if_neg hne]
        have heq : s.getD i 'N' = s.getD (i - 1) 'N' := not_not.1 hne
        obtain ⟨hcl, hop⟩ := maxConInvN_equal s i c mx hi1 hlt hinv hN heq
        simp only
        by_cases hlast : i = s.length - 1
        · rw [if_pos hlast]
          exact ih _ _ _ (by omega) (by omega) (hcl (Or.inl hlast))
        · rw [if_neg hlast]
          by_cases hnx : s.getD i 'N' ≠ s.getD (i + 1) 'N'
          · rw [if_pos hnx]
            exact ih _ _ _ (by omega) (by omega) (hcl (Or.inr hnx))
          · rw [if_neg hnx]
            exact ih _ _ _ (by omega) (by omega) (hop hlast (not_not.1 hnx))

/-- What `maxCon` computes in the presence of `N`: it does not count `N`, and an `N` ends the
run before it: for every sequence, `maxCon` returns the length of the longest block of
consecutive equal characters other than `N` (1 when there is no such block). -/
theorem maxCon_longest_block_without_N (s : Seq) :
    IsLongestBaseBlock s (FMIndexWalkProcess.maxCon s) := by
  cases hs : s with
  | nil =>
    refine ⟨by decide, Or.inl (by decide), ?_⟩
    intro i m hb
    have := hb.1.1
    simp at this
    omega
  | cons x rest =>
    rw [← hs]
    have hlen : 1 ≤ s.length := by rw [hs]; simp
    unfold FMIndexWalkProcess.maxCon
    apply maxConLoop_longest_base s _ _ _ _ (by omega) (le_refl 1)
    refine ⟨le_refl 1, le_refl 1, Or.inl rfl, ?_, fun _ => le_refl 1, fun _ => le_refl 1, ?_⟩
    · intro _
      refine ⟨le_refl 1, ?_, Or.inl rfl⟩
      intro j hj1 hj2
      have : j = 0 := by omega
      subst this
      rfl
    · intro a m hb ham
      left
      omega


/-! ### Single-read validation -/

/-- C21. Whenever `ValidateReads` reports `merge = true`, the emitted `correctSequence` is at
least as long as the read: it is the merged sequence of one of the two validation walks (of the
read, or of its reverse complement), emitted only when that sequence is not shorter than the
read, or else the read itself. Holds for every read, parameter set and outcome of the walks. -/
theorem validateReads_merged_not_shorter (fuel : Nat) (E : External) (V : ValidationSearch)
    (P : Parameters) (threshold : Nat) (read : Seq) (r : FMIndexWalkResult)
    (h : FMIndexWalkProcess.ValidateReads fuel E V P threshold read = .ok r)
    (hm : r.merge = true) :
    read.length ≤ r.correctSequence.length ∧
    (r.correctSequence = read ∨
      (r.correctSequence = (V.validate read read.length).2 ∧
        read.length ≤ (V.validate read read.length).2.length) ∨
      (r.correctSequence = (V.validate (E.reverseComplement read) read.length).2 ∧
        read.length ≤ (V.validate (E.reverseComplement read) read.length).2.length)) := by
  simp only [FMIndexWalkProcess.ValidateReads, bind, Except.bind, pure, Except.pure] at h
  split at h
  · -- the read is not longer than `minOverlap`: no merge
    cases hl : FMIndexWalkProcess.isLowComplexity read with
    | error e => rw [hl] at h; cases h
    | ok b =>
      rw [hl] at h
      cases b <;> simp at h <;> subst h <;> simp at hm
  · split at h
    · injection h with h
      subst h
      simp only [FMIndexWalkProcess.lengthRatioAtLeastOne]
      split
      · rename_i hd
        simp only [decide_eq_true_eq] at hd
        exact ⟨hd.1, Or.inr (Or.inl ⟨rfl, hd.1⟩)⟩
      · exact ⟨le_refl _, Or.inl rfl⟩
    · split at h
      · injection h with h
        subst h
        simp only [FMIndexWalkProcess.lengthRatioAtLeastOne]
        split
        · rename_i hd
          simp only [decide_eq_true_eq] at hd
          exact ⟨hd.1, Or.inr (Or.inr ⟨rfl, hd.1⟩)⟩
        · exact ⟨le_refl _, Or.inl rfl⟩
      · split at h
        · injection h with h
          subst h
          simp only [FMIndexWalkProcess.lengthRatioAtLeastOne]
          split
          · rename_i hd
            simp only [decide_eq_true_eq] at hd
            exact ⟨hd.1, Or.inr (Or.inl ⟨rfl, hd.1⟩)⟩
          · split
            · rename_i hd
              simp only [decide_eq_true_eq] at hd
              exact ⟨hd.1, Or.inr (Or.inr ⟨rfl, hd.1⟩)⟩
            · exact ⟨le_refl _, Or.inl rfl⟩
        · -- segmentation fallback: no merge
          split at h
          · cases h
          · cases hs : FMIndexWalkProcess.splitReadStream fuel E P read threshold with
            | error e => rw [hs] at h; cases h
            | ok sr =>
              rw [hs] at h
              obtain ⟨mainIdx, frags⟩ := sr
              simp only at h
              cases hv : FMIndexWalkProcess.validateFragments mainIdx frags 0
                  (if (!frags.isEmpty) = true then
                    { ({} : FMIndexWalkResult) with kmerize := true } else {}).correctSequence
                  (if (!frags.isEmpty) = true then
                    { ({} : FMIndexWalkResult) with kmerize := true } else {}).kmerizedReads with
              | error e => rw [hv] at h; cases h
              | ok vr =>
                rw [hv] at h
                injection h with h
                subst h
                exfalso
                revert hm
                split <;> simp

/-- The theorem `validateReads_merged_not_shorter` at the read `ACGT` whose forward walk gives
the longer `ACGTA`: the result is merged and carries the walk result. -/
theorem validateReads_merged_not_shorter_witness :
    FMIndexWalkProcess.ValidateReads 9 strandIndex extendingSearch exampleParams 2
        ['A', 'C', 'G', 'T']
      = .ok { merge := true, correctSequence := ['A', 'C', 'G', 'T', 'A'] } ∧
    FMIndexWalkProcess.ValidateReads 9 strandIndex collapsingSearch exampleParams 2
        ['A', 'C', 'G', 'T']
      = .ok { merge := true, correctSequence := ['A', 'C', 'G', 'T'] } ∧
    ['A', 'C', 'G', 'T'].length ≤ ['A', 'C', 'G', 'T', 'A'].length :=
  ⟨rfl, rfl,
    (validateReads_merged_not_shorter 9 strandIndex extendingSearch exampleParams 2
      ['A', 'C', 'G', 'T'] { merge := true, correctSequence := ['A', 'C', 'G', 'T', 'A'] }
      rfl rfl).1⟩

/-! ### Tallies of the self-correction loop -/

namespace PacBioCorrectionProcess

theorem onFailure_tally (P : Parameters) (readSeq : Seq) (seeds : List Seed) (code : Int)
    (o o2 : CorrectionState) (h : onFailure P readSeq seeds code o = .ok o2) :
    o2.targetSeed = o.targetSeed ∧ o2.result.totalWalkNum = o.result.totalWalkNum ∧
    o2.result.merge = o.result.merge ∧
    talliedWalks o2.result = talliedWalks o.result
      + (if code = -1 ∨ code = -2 ∨ code = -3 ∨ code = -4 then 1 else 0) := by
  simp only [onFailure, bind, Except.bind, pure, Except.pure] at h
  split at h
  · cases h
  · injection h with h
    subst h
    refine ⟨rfl, ?_, ?_, ?_⟩
    · simp only; split <;> [rfl; (split <;> [rfl; (split <;> rfl)])]
    · simp only; split <;> [rfl; (split <;> [rfl; (split <;> rfl)])]
    · simp only [talliedWalks]
      split
      · rename_i hc; rw [if_pos (by omega)]; simp only; omega
      · split
        · rename_i hc; rw [if_pos (by omega)]; simp only; omega
        · split
          · rename_i hc; rw [if_pos (by omega)]; simp only; omega
          · rw [if_neg (by omega)]; simp only; omega

theorem lookahead_tally (E : External) (T : SearchTrees) (P : Parameters)
    (seeds : List Seed) (source : Seed) (hC : ClassifiedCodes T) :
    ∀ (fuel : Nat) (s : LookaheadState) (o : CorrectionState)
      (x : LookaheadExit CorrectionState),
      lookahead E T P seeds source fuel s o = .ok x →
      (s.FMWalkReturnType = 0 ∨ s.FMWalkReturnType = -1 ∨ s.FMWalkReturnType = -2
        ∨ s.FMWalkReturnType = -3 ∨ s.FMWalkReturnType = -4) →
      (∀ result, x = .returned result → result = o.result) ∧
      (∀ code o1, x = .finished code o1 →
        (0 < code ∧ talliedWalks o1.result = talliedWalks o.result + 1 ∧
          o1.result.totalWalkNum = o.result.totalWalkNum ∧
          o1.result.merge = o.result.merge ∧ o.targetSeed ≤ o1.targetSeed) ∨
        ((code = -1 ∨ code = -2 ∨ code = -3 ∨ code = -4) ∧ o1 = o) ∨
        (code = 0 ∧ o1 = o ∧ s.FMWalkReturnType = 0 ∧
          (¬ ((s.nextTargetSeed : Int) < P.downward ∧
              o.targetSeed + s.nextTargetSeed < seeds.length) ∨
            500 ≤ (seedAt seeds (o.targetSeed + s.nextTargetSeed)).1
              - (seedAt seeds (o.targetSeed - 1)).1
              - ((seedAt seeds (o.targetSeed - 1)).2.length : Int)))) := by
  intro fuel
  induction fuel with
  | zero => intro s o x h; simp only [lookahead] at h; cases h
  | succ n ih =>
    intro s o x h hs
    simp only [lookahead] at h
    split at h
    next hcond =>
      split at h
      next hfar =>
        injection h with h
        subst h
        refine ⟨fun _ hx => (by cases hx), fun code o1 hx => ?_⟩
        injection hx with hc ho
        subst hc ho
        rcases hs with h0 | h1
        · exact Or.inr (Or.inr ⟨h0, rfl, h0, Or.inr hfar⟩)
        · exact Or.inr (Or.inl ⟨h1, rfl⟩)
      next hnear =>
        split at h
        · injection h with h
          subst h
          exact ⟨fun _ hx => by injection hx with hx; exact hx.symm,
            fun _ _ hx => by cases hx⟩
        · split at h
          next hpos =>
            simp only [bind, Except.bind, pure, Except.pure] at h
            split at h
            · cases h
            · injection h with h
              subst h
              refine ⟨fun _ hx => (by cases hx), fun code o1 hx => ?_⟩
              injection hx with hc ho
              subst hc ho
              refine Or.inl ⟨hpos, ?_, rfl, rfl, by simp⟩
              simp only [talliedWalks]
              omega
          next hnpos =>
            have hcode := hC source.2 (seedAt seeds (o.targetSeed + s.nextTargetSeed)).2
              s.mergedseq P.kmerLength s.smallKmerSize
              ((seedAt seeds (o.targetSeed + s.nextTargetSeed)).1
                - (seedAt seeds (o.targetSeed - 1)).1
                - ((seedAt seeds (o.targetSeed - 1)).2.length : Int))
            have hneg : ∀ c : Int, (0 < c ∨ c = -1 ∨ c = -2 ∨ c = -3 ∨ c = -4) → ¬ c > 0 →
                (c = -1 ∨ c = -2 ∨ c = -3 ∨ c = -4) := by
              intro c h1 h2; omega
            have hfail := hneg _ hcode hnpos
            split at h
            · injection h with h
              subst h
              refine ⟨fun _ hx => (by cases hx), fun code o1 hx => ?_⟩
              injection hx with hc ho
              subst hc ho
              exact Or.inr (Or.inl ⟨hfail, rfl⟩)
            · obtain ⟨hr, hf⟩ := ih _ o x h (Or.inr hfail)
              refine ⟨hr, fun code o1 hx => ?_⟩
              rcases hf code o1 hx with h1 | h1 | h1
              · exact Or.inl h1
              · exact Or.inr (Or.inl h1)
              · exfalso
                have h0 := h1.2.2.1
                simp only at h0
                omega
    next hncond =>
      injection h with h
      subst h
      refine ⟨fun _ hx => (by cases hx), fun code o1 hx => ?_⟩
      injection hx with hc ho
      subst hc ho
      rcases hs with h0 | h1
      · exact Or.inr (Or.inr ⟨h0, rfl, h0, Or.inl hncond⟩)
      · exact Or.inr (Or.inl ⟨h1, rfl⟩)

theorem correctLoop_tally (E : External) (T : SearchTrees) (P : Parameters)
    (readSeq : Seq) (seeds : List Seed) (hC : ClassifiedCodes T) :
    ∀ (fuel : Nat) (o : CorrectionState) (r : PacBioCorrectionResult),
      correctLoop E T P readSeq seeds fuel o = .ok r → r.merge = true →
      o.result.merge = false →
      talliedWalks r - talliedWalks o.result ≤ r.totalWalkNum - o.result.totalWalkNum ∧
      (1 ≤ P.downward → GapsBelow500 seeds → 1 ≤ o.targetSeed →
        talliedWalks r - talliedWalks o.result = r.totalWalkNum - o.result.totalWalkNum) := by
  intro fuel
  induction fuel with
  | zero => intro o r h; simp only [correctLoop] at h; cases h
  | succ n ih =>
    intro o r h hm hom
    simp only [correctLoop, bind, Except.bind, pure, Except.pure] at h
    split at h
    next hlt =>
      cases hlk : lookahead E T P seeds (o.pacbioCorrectedStrs.getLastD (0, [])) n
          { nextTargetSeed := 0, FMWalkReturnType := 0, prevFMWalkReturnType := 0,
            smallKmerSize := P.minKmerLength, mergedseq := [] } o with
      | error e => rw [hlk] at h; cases h
      | ok x =>
        rw [hlk] at h
        obtain ⟨hret, hfin⟩ := lookahead_tally E T P seeds _ hC n _ o x hlk (Or.inl rfl)
        cases x with
        | returned result =>
          simp only at h
          injection h with h
          have := hret result rfl
          rw [← h, this, hom] at hm
          cases hm
        | finished code o1 =>
          simp only at h
          have hcase := hfin code o1 rfl
          cases ho2 : (if code ≤ 0 then onFailure P readSeq seeds code o1
              else (Except.ok o1 : Run CorrectionState)) with
          | error e => rw [ho2] at h; cases h
          | ok o2 =>
            rw [ho2] at h
            simp only at h
            have hfacts : o2.result.merge = false ∧
                o2.result.totalWalkNum = o.result.totalWalkNum ∧
                o.targetSeed ≤ o2.targetSeed ∧
                (talliedWalks o2.result = talliedWalks o.result + 1 ∨
                  (talliedWalks o2.result = talliedWalks o.result ∧ code = 0 ∧
                    (¬ (((0 : Nat) : Int) < P.downward ∧ o.targetSeed + 0 < seeds.length) ∨
                      500 ≤ (seedAt seeds (o.targetSeed + 0)).1
                        - (seedAt seeds (o.targetSeed - 1)).1
                        - ((seedAt seeds (o.targetSeed - 1)).2.length : Int)))) := by
              rcases hcase with ⟨hpos, ht, htot, hmg, hts⟩ | ⟨hneg, ho⟩ | ⟨h0, ho, _, hskip⟩
              · rw [if_neg (by omega)] at ho2
                injection ho2 with ho2
                subst ho2
                exact ⟨by rw [hmg, hom], htot, hts, Or.inl ht⟩
              · subst ho
                rw [if_pos (by omega)] at ho2
                obtain ⟨ht, htot, hmg, htal⟩ := onFailure_tally P readSeq seeds code o1 o2 ho2
                rw [if_pos (by omega)] at htal
                exact ⟨by rw [hmg, hom], htot, by omega, Or.inl htal⟩
              · subst ho
                rw [if_pos (by omega)] at ho2
                obtain ⟨ht, htot, hmg, htal⟩ := onFailure_tally P readSeq seeds code o1 o2 ho2
                rw [if_neg (by omega)] at htal
                exact ⟨by rw [hmg, hom], htot, by omega,
                  Or.inr ⟨by omega, h0, hskip⟩⟩
            obtain ⟨hm2, htot2, hts2, htal2⟩ := hfacts
            obtain ⟨hle, heq⟩ := ih _ r h hm (by simp only; exact hm2)
            have ht : talliedWalks { o2.result with totalWalkNum := o2.result.totalWalkNum + 1 }
                = talliedWalks o2.result := rfl
            simp only [ht] at hle heq
            constructor
            · rcases htal2 with h1 | ⟨h1, _⟩ <;> omega
            · intro hd hg h1
              have := heq hd hg (by omega)
              rcases htal2 with h2 | ⟨_, _, hskip⟩
              · omega
              · exfalso
                rcases hskip with hs | hs
                · apply hs
                  exact ⟨by simp only [Nat.cast_zero]; omega, by omega⟩
                · have := hg o.targetSeed h1 hlt
                  simp only [Nat.add_zero] at hs
                  omega
    next hge =>
      injection h with h
      subst h
      simp only [talliedWalks]
      constructor
      · omega
      · intro _ _ _; omega

end PacBioCorrectionProcess

/-- C22 (amended). In `PacBioCorrectionProcess::PBSelfCorrection`, with a search that returns
only a positive code or one of `-1`, `-2`, `-3`, `-4`, every result with `merge = true` has
`correctedNum + highErrorNum + exceedDepthNum + exceedLeaveNum <= totalWalkNum`: each seed gap
is tallied at most once. The two sides are equal when at least one lookahead target is allowed
(`downward >= 1`) and every seed starts less than 500 bases after the end of the seed before
it, so that every gap is attempted at least once. -/
theorem pbSelfCorrection_tallies_attempted_gaps (fuel : Nat) (E : External) (T : SearchTrees)
    (P : Parameters) (readSeq : Seq) (contaminatedCutoff : Nat) (r : PacBioCorrectionResult)
    (hC : ClassifiedCodes T)
    (h : PacBioCorrectionProcess.PBSelfCorrection fuel E T P readSeq contaminatedCutoff = .ok r)
    (hm : r.merge = true) :
    talliedWalks r ≤ r.totalWalkNum ∧
    (1 ≤ P.downward →
      (∀ seeds, PacBioCorrectionProcess.searchingSeedsUsingSolidKmer fuel E P readSeq
          contaminatedCutoff = .ok seeds → GapsBelow500 seeds) →
      r.totalWalkNum = talliedWalks r) := by
  simp only [PacBioCorrectionProcess.PBSelfCorrection, bind, Except.bind] at h
  cases hs : PacBioCorrectionProcess.searchingSeedsUsingSolidKmer fuel E P readSeq
      contaminatedCutoff with
  | error e => rw [hs] at h; cases h
  | ok seeds =>
    rw [hs] at h
    simp only at h
    split at h
    · obtain ⟨hle, heq⟩ := PacBioCorrectionProcess.correctLoop_tally E T P readSeq seeds hC
        fuel _ r h hm rfl
      simp only [talliedWalks] at hle heq ⊢
      constructor
      · omega
      · intro hd hg
        have := heq hd (hg seeds rfl) (le_refl 1)
        omega
    · injection h with h
      subst h
      cases hm

/-- The theorem `pbSelfCorrection_tallies_attempted_gaps` at the read `AAGCC` with the seeds
`AA` and `CC` one base apart and a search that joins them: one gap, tallied as one success. -/
theorem pbSelfCorrection_tallies_attempted_gaps_witness :
    (PacBioCorrectionProcess.PBSelfCorrection 8 islandIndex bridgingTrees exampleParams
      ['A', 'A', 'G', 'C', 'C'] 100).map
        (fun r => (r.merge, r.totalWalkNum, r.correctedNum, r.highErrorNum, r.exceedDepthNum,
          r.exceedLeaveNum)) = .ok (true, 1, 1, 0, 0, 0) ∧
    ∀ r, PacBioCorrectionProcess.PBSelfCorrection 8 islandIndex bridgingTrees exampleParams
        ['A', 'A', 'G', 'C', 'C'] 100 = .ok r → r.merge = true →
      talliedWalks r ≤ r.totalWalkNum :=
  ⟨by decide, fun r h hm =>
    (pbSelfCorrection_tallies_attempted_gaps 8 islandIndex bridgingTrees exampleParams
      ['A', 'A', 'G', 'C', 'C'] 100 r (fun _ _ _ _ _ _ => Or.inl (show (0 : Int) < 1 by decide)) h hm).1⟩

set_option maxRecDepth 100000 in
/-- C22 (counterexample). The read `farApartRead` has two seeds, `AA` at 0 and `CC` at 502,
500 bases apart. The lookahead loop of `PacBioCorrectionProcess::PBSelfCorrection` leaves at
`dis_between_src_target >= 500` before any search is made, `FMWalkReturnType` keeps its
initial value 0, the gap is copied from the read and no failure kind is tallied, while
`totalWalkNum` is incremented: the result has `merge = true`, `totalWalkNum = 1` and all of
`correctedNum`, `highErrorNum`, `exceedDepthNum`, `exceedLeaveNum` equal to 0. The search
itself returns `-1` on every call. -/
theorem pbSelfCorrection_skipped_gap_not_tallied :
    ClassifiedCodes failingTrees ∧
    PacBioCorrectionProcess.searchingSeedsUsingSolidKmer 510 islandIndex exampleParams
      farApartRead 100 = .ok [(0, ['A', 'A']), (502, ['C', 'C'])] ∧
    (PacBioCorrectionProcess.PBSelfCorrection 510 islandIndex failingTrees exampleParams
      farApartRead 100).map
        (fun r => (r.merge, r.totalWalkNum, r.correctedNum, r.highErrorNum, r.exceedDepthNum,
          r.exceedLeaveNum)) = .ok (true, 1, 0, 0, 0, 0) ∧
    (PacBioCorrectionProcess.PBSelfCorrection 510 islandIndex failingTrees exampleParams
      farApartRead 100).map (fun r => r.correctedPacbioStrs) = .ok [farApartRead] :=
  ⟨fun _ _ _ _ _ _ => Or.inr (Or.inl rfl), by decide, by decide, by decide⟩

/-! ### Routing of results by the aggregator -/

theorem writeFragments_some (id : Seq) :
    ∀ (frags : List Seq) (i : Nat) (written : List WrittenRecord),
      writeFragments id frags i (some written)
        = some (some (written ++ (frags.enumFrom i).map (fun p => ⟨id, p.2, some p.1⟩))) := by
  intro frags
  induction frags with
  | nil => intro i written; simp [writeFragments]
  | cons f rest ih =>
    intro i written
    simp only [writeFragments, writeTo, Option.map_some', Option.bind_eq_bind,
      Option.some_bind, ih, List.enumFrom_cons, List.map_cons, List.append_assoc,
      List.singleton_append]

theorem writeKmerized_some (id correctSequence : Seq) (kmerizedReads : List Seq)
    (written : List WrittenRecord) :
    writeKmerized id correctSequence kmerizedReads (some written)
      = some (some (written ++ kmerizedRecords id correctSequence kmerizedReads)) := by
  unfold writeKmerized kmerizedRecords
  cases h : correctSequence.isEmpty
  · simp only [Bool.not_false, if_true, writeTo, Option.map_some', Option.bind_eq_bind,
      Option.some_bind, writeFragments_some, List.append_assoc, Bool.false_eq_true, if_false]
  · simp only [Bool.not_true, Bool.false_eq_true, if_false, Option.bind_eq_bind,
      Option.some_bind, writeFragments_some, if_true, List.nil_append]

/-- C23 (amended). Routing of one result by the aggregator, for the algorithms other than the
two long-read ones. Single read: a merged result is written to the corrected stream only; a
kmerized result that is not merged has its main fragment (when not empty) and then its other
fragments written to the discard stream, and nothing to the corrected stream; a result that
is neither is written to the low-complexity stream when a discard stream exists, and to the
corrected stream when there is none. Pair: a merged result is written to the corrected stream
only; otherwise, in the hybrid mode, the main fragment (when not empty) and the fragments of
each read go to the discard stream; in any other mode nothing is written. -/
theorem aggregator_routes_fragments_to_discard (pp : FMIndexWalkPostProcess)
    (id secondId : Seq) (result : FMIndexWalkResult) (longRead : PacBioCorrectionResult)
    (halg : pp.algorithm ≠ .FMW_PACBIOSELF ∧ pp.algorithm ≠ .FMW_PACBIOHYB) :
    (result.merge = true →
      (FMIndexWalkPostProcess.process pp id result longRead).map FMIndexWalkPostProcess.sinks
        = some (pp.m_pCorrectedWriter ++ [⟨id, result.correctSequence, none⟩],
            pp.m_pDiscardWriter, pp.m_pLowComplexWriter)) ∧
    (result.merge = false → result.kmerize = true → ∀ d, pp.m_pDiscardWriter = some d →
      (FMIndexWalkPostProcess.process pp id result longRead).map FMIndexWalkPostProcess.sinks
        = some (pp.m_pCorrectedWriter,
            some (d ++ kmerizedRecords id result.correctSequence result.kmerizedReads),
            pp.m_pLowComplexWriter)) ∧
    (result.merge = false → result.kmerize = false →
      (∀ d l, pp.m_pDiscardWriter = some d → pp.m_pLowComplexWriter = some l →
        (FMIndexWalkPostProcess.process pp id result longRead).map FMIndexWalkPostProcess.sinks
          = some (pp.m_pCorrectedWriter, some d,
              some (l ++ [⟨id, result.correctSequence, none⟩]))) ∧
      (pp.m_pDiscardWriter = none →
        (FMIndexWalkPostProcess.process pp id result longRead).map FMIndexWalkPostProcess.sinks
          = some (pp.m_pCorrectedWriter ++ [⟨id, result.correctSequence, none⟩], none,
              pp.m_pLowComplexWriter))) ∧
    (result.merge = true →
      (FMIndexWalkPostProcess.processPair pp id secondId result).map
          FMIndexWalkPostProcess.sinks
        = some (pp.m_pCorrectedWriter
              ++ [⟨id.takeWhile (fun c => c != '/'), result.correctSequence, none⟩],
            pp.m_pDiscardWriter, pp.m_pLowComplexWriter)) ∧
    (result.merge = false → pp.algorithm = .FMW_HYBRID → ∀ d, pp.m_pDiscardWriter = some d →
      (FMIndexWalkPostProcess.processPair pp id secondId result).map
          FMIndexWalkPostProcess.sinks
        = some (pp.m_pCorrectedWriter,
            some (d ++ kmerizedRecords id result.correctSequence result.kmerizedReads
              ++ kmerizedRecords secondId result.correctSequence2 result.kmerizedReads2),
            pp.m_pLowComplexWriter)) ∧
    (result.merge = false → pp.algorithm ≠ .FMW_HYBRID →
      (FMIndexWalkPostProcess.processPair pp id secondId result).map
          FMIndexWalkPostProcess.sinks = some pp.sinks) := by
  obtain ⟨ha1, ha2⟩ := halg
  refine ⟨?_, ?_, ?_, ?_, ?_, ?_⟩
  · intro hm
    simp only [FMIndexWalkPostProcess.process, ha1, ha2, or_self, if_false, hm, if_true]
    cases result.kmerize <;> rfl
  · intro hm hk d hd
    simp only [FMIndexWalkPostProcess.process, ha1, ha2, or_self, if_false, hm, hk, if_true,
      Bool.false_eq_true, hd, writeKmerized_some, Option.bind_eq_bind, Option.some_bind,
      Option.map_some', FMIndexWalkPostProcess.sinks]
  · intro hm hk
    constructor
    · intro d l hd hl
      simp [FMIndexWalkPostProcess.process, ha1, ha2, hm, hk, hd, hl, writeTo,
        FMIndexWalkPostProcess.sinks]
    · intro hd
      simp [FMIndexWalkPostProcess.process, ha1, ha2, hm, hk, hd,
        FMIndexWalkPostProcess.sinks]
  · intro hm
    simp only [FMIndexWalkPostProcess.processPair, hm, if_true, Option.map_some',
      FMIndexWalkPostProcess.sinks]
  · intro hm hh d hd
    simp only [FMIndexWalkPostProcess.processPair, hm, hh, Bool.false_eq_true, if_false,
      true_and, if_true]
    have : ∀ q : FMIndexWalkPostProcess, q.m_pDiscardWriter = some d →
        q.m_pCorrectedWriter = pp.m_pCorrectedWriter →
        q.m_pLowComplexWriter = pp.m_pLowComplexWriter →
        Option.map FMIndexWalkPostProcess.sinks
          (do
            let out ← writeKmerized id result.correctSequence result.kmerizedReads
              q.m_pDiscardWriter
            let out ← writeKmerized secondId result.correctSequence2 result.kmerizedReads2 out
            some { q with m_pDiscardWriter := out })
          = some (pp.m_pCorrectedWriter,
            some (d ++ kmerizedRecords id result.correctSequence result.kmerizedReads
              ++ kmerizedRecords secondId result.correctSequence2 result.kmerizedReads2),
            pp.m_pLowComplexWriter) := by
      intro q hq hc hl
      simp only [hq, writeKmerized_some, Option.bind_eq_bind, Option.some_bind,
        Option.map_some', FMIndexWalkPostProcess.sinks, hc, hl]
    split
    · split <;> split <;> exact this _ hd rfl rfl
    · exact this _ hd rfl rfl
  · intro hm hh
    simp only [FMIndexWalkPostProcess.processPair, hm, hh, Bool.false_eq_true, if_false,
      false_and, Option.map_some', FMIndexWalkPostProcess.sinks]

/-- The theorem `aggregator_routes_fragments_to_discard` at a merged result and at a kmerized
one, for a fresh aggregator of the validation mode. -/
theorem aggregator_routes_fragments_to_discard_witness :
    (FMIndexWalkPostProcess.process validateAggregator ['r', '1']
        { merge := true, correctSequence := ['A', 'C', 'G', 'T', 'A'] } {}).map
      FMIndexWalkPostProcess.sinks
      = some ([⟨['r', '1'], ['A', 'C', 'G', 'T', 'A'], none⟩], some [], some []) ∧
    (FMIndexWalkPostProcess.process validateAggregator ['r', '1']
        { kmerize := true, correctSequence := ['A', 'A', 'C'],
          kmerizedReads := [['C', 'G'], ['G', 'T']] } {}).map
      FMIndexWalkPostProcess.sinks
      = some ([], some ([] ++ kmerizedRecords ['r', '1'] ['A', 'A', 'C']
          [['C', 'G'], ['G', 'T']]), some []) :=
  ⟨(aggregator_routes_fragments_to_discard validateAggregator ['r', '1'] ['r', '2']
      { merge := true, correctSequence := ['A', 'C', 'G', 'T', 'A'] } {}
      ⟨by decide, by decide⟩).1 rfl,
    (aggregator_routes_fragments_to_discard validateAggregator ['r', '1'] ['r', '2']
      { kmerize := true, correctSequence := ['A', 'A', 'C'],
        kmerizedReads := [['C', 'G'], ['G', 'T']] } {}
      ⟨by decide, by decide⟩).2.1 rfl rfl [] rfl⟩

/-- C23 (counterexample). The read `AACGT` is validated against an index over copies of `AAC`
with a search that finds nothing: the result is kmerized, not merged, with the non-empty main
fragment `AAC` and the fragments `CG`, `GT`. The aggregator writes the main fragment and the
fragments to the discard stream; the corrected stream receives nothing. -/
theorem aggregator_main_fragment_goes_to_discard :
    FMIndexWalkProcess.ValidateReads 19 forwardStrandIndex rejectingSearch exampleParams 2
        ['A', 'A', 'C', 'G', 'T']
      = .ok { kmerize := true, correctSequence := ['A', 'A', 'C'],
              kmerizedReads := [['C', 'G'], ['G', 'T']] } ∧
    (FMIndexWalkPostProcess.process validateAggregator ['r', '1']
        { kmerize := true, correctSequence := ['A', 'A', 'C'],
          kmerizedReads := [['C', 'G'], ['G', 'T']] } {}).map
      FMIndexWalkPostProcess.sinks
      = some ([],
          some [⟨['r', '1'], ['A', 'A', 'C'], none⟩, ⟨['r', '1'], ['C', 'G'], some 0⟩,
            ⟨['r', '1'], ['G', 'T'], some 1⟩],
          some []) :=
  ⟨rfl, by decide⟩

/-! ### Where the profile-based segmenter cuts -/

namespace FMIndexWalkProcess

theorem numNextKmer_end_eq (E : External) (kmer : Seq) (threshold : Nat)
    (h : 1 ≤ kmer.length) :
    numNextKmer E kmer .NK_END threshold = .ok (rightExtensions E kmer threshold) := by
  have hsub : substr kmer 1 ((kmer.length : Int) - 1) = .ok (kmer.drop 1) := by
    unfold substr
    rw [if_neg (by omega), if_neg (by omega)]
    congr 1
    apply List.take_of_length_le
    simp only [List.length_drop, Int.toNat_one]
    omega
  simp only [numNextKmer, nBases, nextMer, hsub, rightExtensions, List.foldlM, bind,
    Except.bind, pure, Except.pure, List.filter_cons, List.filter_nil, ge_iff_le,
    decide_eq_true_eq]
  congr 1
  generalize kmer.drop 1 = t
  by_cases h1 : threshold ≤ E.countSequenceOccurrences (t ++ ['A']) <;>
  by_cases h2 : threshold ≤ E.countSequenceOccurrences (t ++ ['T']) <;>
  by_cases h3 : threshold ≤ E.countSequenceOccurrences (t ++ ['C']) <;>
  by_cases h4 : threshold ≤ E.countSequenceOccurrences (t ++ ['G']) <;>
  simp [h1, h2, h3, h4]

theorem numNextKmer_start_eq (E : External) (kmer : Seq) (threshold : Nat)
    (h : 1 ≤ kmer.length) :
    numNextKmer E kmer .NK_START threshold = .ok (leftExtensions E kmer threshold) := by
  have hsub : substr kmer 0 ((kmer.length : Int) - 1) = .ok (kmer.take (kmer.length - 1)) := by
    unfold substr
    rw [if_neg (by omega), if_neg (by omega)]
    congr 2
    omega
  simp only [numNextKmer, nBases, nextMer, hsub, leftExtensions, List.foldlM, bind,
    Except.bind, pure, Except.pure, List.filter_cons, List.filter_nil, ge_iff_le,
    decide_eq_true_eq]
  congr 1
  generalize kmer.take (kmer.length - 1) = t
  by_cases h1 : threshold ≤ E.countSequenceOccurrences ('A' :: t) <;>
  by_cases h2 : threshold ≤ E.countSequenceOccurrences ('T' :: t) <;>
  by_cases h3 : threshold ≤ E.countSequenceOccurrences ('C' :: t) <;>
  by_cases h4 : threshold ≤ E.countSequenceOccurrences ('G' :: t) <;>
  simp [h1, h2, h3, h4]

theorem isSimple_eq (E : External) (Lkmer Rkmer : Seq) (hL : 1 ≤ Lkmer.length)
    (hR : 1 ≤ Rkmer.length) :
    isSimple E Lkmer Rkmer 1
      = .ok (decide (rightExtensions E Lkmer 1 = 1 ∧ leftExtensions E Rkmer 1 = 1)) := by
  simp only [isSimple, numNextKmer_end_eq E Lkmer 1 hL, numNextKmer_start_eq E Rkmer 1 hR,
    bind, Except.bind, pure, Except.pure]

end FMIndexWalkProcess

theorem startsAt_append (ivs : List (Nat × Nat)) (a b x : Nat) :
    StartsAt (ivs ++ [(a, b)]) x ↔ StartsAt ivs x ∨ a = x := by
  unfold StartsAt
  constructor
  · rintro ⟨iv, hiv, hx⟩
    rcases List.mem_append.1 hiv with h | h
    · exact Or.inl ⟨iv, h, hx⟩
    · rw [List.mem_singleton] at h
      subst h
      exact Or.inr hx
  · rintro (⟨iv, hiv, hx⟩ | h)
    · exact ⟨iv, List.mem_append_left _ hiv, hx⟩
    · exact ⟨(a, b), List.mem_append_right _ (List.mem_singleton.2 rfl), h⟩

theorem cutLoop_starts (cut : Nat → Run Bool) (c : Nat → Bool) :
    ∀ (remaining p start : Nat) (ivs : List (Nat × Nat)) (r : List (Nat × Nat) × Nat),
      (∀ q, p ≤ q → q < p + remaining → cut q = .ok (c q)) →
      cutLoop cut remaining p start ivs = .ok r →
      ∀ x, (StartsAt r.1 x ∨ r.2 = x) ↔
        (StartsAt ivs x ∨ start = x ∨ (p ≤ x ∧ x < p + remaining ∧ c x = true)) := by
  intro remaining
  induction remaining with
  | zero =>
    intro p start ivs r _ h x
    simp only [cutLoop, pure, Except.pure] at h
    injection h with h
    subst h
    constructor
    · rintro (h | h)
      · exact Or.inl h
      · exact Or.inr (Or.inl h)
    · rintro (h | h | h)
      · exact Or.inl h
      · exact Or.inr h
      · omega
  | succ n ih =>
    intro p start ivs r hcut h x
    simp only [cutLoop, hcut p (le_refl p) (by omega), bind, Except.bind] at h
    cases hc : c p with
    | true =>
      rw [hc] at h
      simp only [if_true] at h
      rw [ih (p + 1) p _ r (fun q h1 h2 => hcut q (by omega) (by omega)) h x, startsAt_append]
      constructor
      · rintro ((h1 | h1) | h1 | ⟨h1, h2, h3⟩)
        · exact Or.inl h1
        · exact Or.inr (Or.inl h1)
        · subst h1
          exact Or.inr (Or.inr ⟨le_refl _, by omega, hc⟩)
        · exact Or.inr (Or.inr ⟨by omega, by omega, h3⟩)
      · rintro (h1 | h1 | ⟨h1, h2, h3⟩)
        · exact Or.inl (Or.inl h1)
        · exact Or.inl (Or.inr h1)
        · by_cases hx : p = x
          · exact Or.inr (Or.inl hx)
          · exact Or.inr (Or.inr ⟨by omega, by omega, h3⟩)
    | false =>
      rw [hc] at h
      simp only [Bool.false_eq_true, if_false] at h
      rw [ih (p + 1) start _ r (fun q h1 h2 => hcut q (by omega) (by omega)) h x]
      constructor
      · rintro (h1 | h1 | ⟨h1, h2, h3⟩)
        · exact Or.inl h1
        · exact Or.inr (Or.inl h1)
        · exact Or.inr (Or.inr ⟨by omega, by omega, h3⟩)
      · rintro (h1 | h1 | ⟨h1, h2, h3⟩)
        · exact Or.inl h1
        · exact Or.inr (Or.inl h1)
        · by_cases hx : p = x
          · subst hx
            rw [hc] at h3
            cases h3
          · exact Or.inr (Or.inr ⟨by omega, by omega, h3⟩)

theorem cutIntervals_starts (cut : Nat → Run Bool) (c : Nat → Bool) (numKmer : Nat)
    (ivs : List (Nat × Nat))
    (hcut : ∀ q, 1 ≤ q → q < numKmer → cut q = .ok (c q))
    (h : cutIntervals cut numKmer = .ok ivs) :
    ∀ p, 1 ≤ p → p < numKmer → (StartsAt ivs p ↔ c p = true) := by
  intro p hp1 hp
  simp only [cutIntervals, bind, Except.bind, pure, Except.pure] at h
  cases hl : cutLoop cut (numKmer - 1) 1 0 [] with
  | error e => rw [hl] at h; cases h
  | ok r =>
    rw [hl] at h
    obtain ⟨r1, r2⟩ := r
    simp only at h
    injection h with h
    subst h
    rw [startsAt_append]
    have := cutLoop_starts cut c (numKmer - 1) 1 0 [] (r1, r2)
      (fun q h1 h2 => hcut q h1 (by omega)) hl p
    simp only at this
    rw [this]
    constructor
    · rintro (⟨iv, hiv, _⟩ | h1 | ⟨_, _, h3⟩)
      · cases hiv
      · omega
      · exact h3
    · intro h3
      exact Or.inr (Or.inr ⟨hp1, by omega, h3⟩)

/-- C24. In the profile-based `splitRead` of a read of length at least `k` (`k >= 1`), the
intervals are computed, and for every k-mer position `p` with `1 <= p < numKmer` an interval
starts at `p` if and only if the positions `p-1` and `p` are not both doubly-qualified and the
pair of k-mers at `p-1` and `p` is not simple, where simple means that the k-mer at `p-1` has
exactly one right extension, and the k-mer at `p` exactly one left extension, that occurs in
the index at least once. -/
theorem splitRead_cuts_where_not_solid_and_not_simple (E : External) (seq : Seq)
    (k threshold : Nat) (hk : 1 ≤ k) (hlen : k ≤ seq.length) :
    ∃ cq ivs,
      FMIndexWalkProcess.splitReadIntervals E (KmerContext.build E seq k) threshold
        = .ok (cq, ivs) ∧
      ∀ p, 1 ≤ p → p < seq.length - k + 1 →
        (StartsAt ivs p ↔
          ¬ (qualifiedStrands E seq k threshold (p - 1) = 2 ∧
              qualifiedStrands E seq k threshold p = 2) ∧
          ¬ SimplePair E (kmerAt seq k (p - 1)) (kmerAt seq k p)) := by
  obtain ⟨hnum, _, _, _, _, hkm⟩ := build_numKmer E seq k hlen
  have hcutv : ∀ q, 1 ≤ q → q < seq.length - k + 1 →
      FMIndexWalkProcess.splitReadCut E (KmerContext.build E seq k)
        ((List.range (seq.length - k + 1)).map (qualifiedStrands E seq k threshold)) q
      = .ok (decide (¬ (qualifiedStrands E seq k threshold (q - 1) = 2 ∧
              qualifiedStrands E seq k threshold q = 2) ∧
          ¬ (rightExtensions E (kmerAt seq k (q - 1)) 1 = 1 ∧
              leftExtensions E (kmerAt seq k q) 1 = 1))) := by
    intro q hq1 hq
    have hL : 1 ≤ (kmerAt seq k (q - 1)).length := by
      simp only [kmerAt, List.length_take, List.length_drop]; omega
    have hR : 1 ≤ (kmerAt seq k q).length := by
      simp only [kmerAt, List.length_take, List.length_drop]; omega
    simp only [FMIndexWalkProcess.splitReadCut,
      FMIndexWalkProcess.getD_qualified E seq k threshold (q - 1) (by omega),
      FMIndexWalkProcess.getD_qualified E seq k threshold q hq, hkm (q - 1) (by omega),
      hkm q hq]
    split
    next hboth => simp [hboth]; rfl
    next hnb =>
      have e1 : (seq.drop (q - 1)).take k = kmerAt seq k (q - 1) := rfl
      have e2 : (seq.drop q).take k = kmerAt seq k q := rfl
      rw [e1, e2, FMIndexWalkProcess.isSimple_eq E _ _ hL hR]
      simp only [bind, Except.bind, pure, Except.pure]
      congr 1
      by_cases hs : rightExtensions E (kmerAt seq k (q - 1)) 1 = 1 ∧
          leftExtensions E (kmerAt seq k q) 1 = 1
      · simp [hs]
      · simp [hs, hnb]
  obtain ⟨ivs, hiv, _⟩ := cutIntervals_tiles
    (FMIndexWalkProcess.splitReadCut E (KmerContext.build E seq k)
      ((List.range (seq.length - k + 1)).map (qualifiedStrands E seq k threshold)))
    (seq.length - k + 1) (by omega) (fun q h1 h2 => ⟨_, hcutv q h1 h2⟩)
  refine ⟨(List.range (seq.length - k + 1)).map (qualifiedStrands E seq k threshold), ivs,
    ?_, ?_⟩
  · simp only [FMIndexWalkProcess.splitReadIntervals,
      FMIndexWalkProcess.countQualifiedOf_eq E seq k threshold hlen, hnum, hiv, bind,
      Except.bind, pure, Except.pure]
  · intro p hp1 hp
    rw [cutIntervals_starts _ _ _ ivs hcutv hiv p hp1 hp, decide_eq_true_eq]
    rfl

/-- The theorem `splitRead_cuts_where_not_solid_and_not_simple` at the read `AAACC` with
`k = 2` over the index in which only `AA` and `CC` are solid: positions 0 and 1 are both
doubly-qualified, the intervals are `[0,1]`, `[2,2]`, `[3,3]`. -/
theorem splitRead_cuts_where_not_solid_and_not_simple_witness :
    FMIndexWalkProcess.splitReadIntervals islandIndex
        (KmerContext.build islandIndex ['A', 'A', 'A', 'C', 'C'] 2) 2
      = .ok ([2, 2, 0, 2], [(0, 1), (2, 2), (3, 3)]) ∧
    ∃ cq ivs,
      FMIndexWalkProcess.splitReadIntervals islandIndex
          (KmerContext.build islandIndex ['A', 'A', 'A', 'C', 'C'] 2) 2
        = .ok (cq, ivs) ∧
      ∀ p, 1 ≤ p → p < ['A', 'A', 'A', 'C', 'C'].length - 2 + 1 →
        (StartsAt ivs p ↔
          ¬ (qualifiedStrands islandIndex ['A', 'A', 'A', 'C', 'C'] 2 2 (p - 1) = 2 ∧
              qualifiedStrands islandIndex ['A', 'A', 'A', 'C', 'C'] 2 2 p = 2) ∧
          ¬ SimplePair islandIndex (kmerAt ['A', 'A', 'A', 'C', 'C'] 2 (p - 1))
              (kmerAt ['A', 'A', 'A', 'C', 'C'] 2 p)) :=
  ⟨by decide,
    splitRead_cuts_where_not_solid_and_not_simple islandIndex
      ['A', 'A', 'A', 'C', 'C'] 2 2 (by decide) (by decide)⟩

/-! ### The trimming rule -/

namespace FMIndexWalkProcess

theorem kmer_lookup (readSeq : Seq) (k : Nat) (pos : Int) (hk : 1 ≤ k) (h0 : 0 ≤ pos)
    (h1 : pos + k ≤ (readSeq.length : Int)) :
    substr readSeq pos k = .ok (kmerAt readSeq k pos.toNat) ∧
      1 ≤ (kmerAt readSeq k pos.toNat).length := by
  constructor
  · have := substr_kmerAt readSeq k pos.toNat (by omega)
    rw [Int.toNat_of_nonneg h0] at this
    exact this
  · simp only [kmerAt, List.length_take, List.length_drop]
    omega

theorem trimHead_least (E : External) (readSeq : Seq) (k : Nat) (tail : Int) (hk : 1 ≤ k)
    (ht : tail + k ≤ (readSeq.length : Int)) :
    ∀ (fuel : Nat) (head h : Int), 0 ≤ head → trimHead E readSeq k tail fuel head = .ok h →
      head ≤ h ∧ (h ≤ tail + 1 ∨ h = head) ∧
      (∀ p : Int, head ≤ p → p < h → leftExtensions E (kmerAt readSeq k p.toNat) 1 < 2) ∧
      (h ≤ tail → 2 ≤ leftExtensions E (kmerAt readSeq k h.toNat) 1) := by
  intro fuel
  induction fuel with
  | zero => intro head h _ hh; simp [trimHead] at hh
  | succ m ih =>
    intro head h h0 hh
    simp only [trimHead] at hh
    split at hh
    next hle =>
      obtain ⟨hs, hl⟩ := kmer_lookup readSeq k head hk h0 (by omega)
      simp only [hs, numNextKmer_start_eq E _ 1 hl, bind, Except.bind] at hh
      split at hh
      next hge =>
        simp only [pure, Except.pure, Except.ok.injEq] at hh
        subst hh
        exact ⟨le_refl _, Or.inr rfl, fun p h1 h2 => by omega, fun _ => hge⟩
      next hlt =>
        obtain ⟨h1, h2, h3, h4⟩ := ih (head + 1) h (by omega) hh
        refine ⟨by omega, Or.inl (by omega), fun p hp1 hp2 => ?_, h4⟩
        by_cases hp : p = head
        · subst hp; omega
        · exact h3 p (by omega) hp2
    next hgt =>
      simp only [pure, Except.pure, Except.ok.injEq] at hh
      subst hh
      exact ⟨le_refl _, Or.inr rfl, fun p h1 h2 => by omega, fun h => by omega⟩

theorem trimTail_greatest (E : External) (readSeq : Seq) (k : Nat) (head : Int) (hk : 1 ≤ k)
    (hh0 : 0 ≤ head) :
    ∀ (fuel : Nat) (tail t : Int), tail + k ≤ (readSeq.length : Int) →
      trimTail E readSeq k head fuel tail = .ok t →
      t ≤ tail ∧ (head - 1 ≤ t ∨ t = tail) ∧
      (∀ p : Int, t < p → p ≤ tail → head ≤ p →
        rightExtensions E (kmerAt readSeq k p.toNat) 1 < 2) ∧
      (head ≤ t → 2 ≤ rightExtensions E (kmerAt readSeq k t.toNat) 1) := by
  intro fuel
  induction fuel with
  | zero => intro tail t _ hh; simp [trimTail] at hh
  | succ m ih =>
    intro tail t ht hh
    simp only [trimTail] at hh
    split at hh
    next hle =>
      obtain ⟨hs, hl⟩ := kmer_lookup readSeq k tail hk (by omega) ht
      simp only [hs, numNextKmer_end_eq E _ 1 hl, bind, Except.bind] at hh
      split at hh
      next hge =>
        simp only [pure, Except.pure, Except.ok.injEq] at hh
        subst hh
        exact ⟨le_refl _, Or.inr rfl, fun p h1 h2 _ => by omega, fun _ => hge⟩
      next hlt =>
        obtain ⟨h1, h2, h3, h4⟩ := ih (tail - 1) t (by omega) hh
        refine ⟨by omega, Or.inl (by omega), fun p hp1 hp2 hp3 => ?_, h4⟩
        by_cases hp : p = tail
        · subst hp; omega
        · exact h3 p hp1 (by omega) hp3
    next hgt =>
      simp only [pure, Except.pure, Except.ok.injEq] at hh
      subst hh
      exact ⟨le_refl _, Or.inr rfl, fun p h1 h2 _ => by omega, fun h => by omega⟩

end FMIndexWalkProcess

/-- C25. The rule of `trimRead` for a read of length at least `k` (`k >= 1`), with `tail0` the
position of the last k-mer. The function returns the empty sequence when `head > tail` and
the part of the read from `head` up to and including the k-mer at `tail` otherwise, where:
`head = 0` when the leading k-mer has at least one left extension occurring in the index;
otherwise `head` is the smallest position `p >= 1` whose k-mer has at least two such
extensions, and `head = tail0 + 1` when there is none up to the last k-mer;
`tail = tail0` when the trailing k-mer has at least one right extension; otherwise `tail` is
the largest position below `tail0` and not below `head` whose k-mer has at least two right
extensions, and `tail < head` when there is none. A read whose first and last k-mers both
have an extension is returned unchanged. -/
theorem trimRead_follows_trimming_rule (fuel : Nat) (E : External) (readSeq : Seq) (k : Nat)
    (hk : 1 ≤ k) (hlen : k ≤ readSeq.length) (hfuel : readSeq.length < fuel) :
    (∃ head tail : Int,
      FMIndexWalkProcess.trimRead fuel E readSeq k
        = .ok (if head > tail then [] else slice readSeq head (tail + k)) ∧
      0 ≤ head ∧ tail + k ≤ (readSeq.length : Int) ∧
      ((leftExtensions E (kmerAt readSeq k 0) 1 ≠ 0 ∧ head = 0) ∨
        (leftExtensions E (kmerAt readSeq k 0) 1 = 0 ∧ 1 ≤ head ∧
          head ≤ (readSeq.length : Int) - k + 1 ∧
          (∀ p : Int, 1 ≤ p → p < head → leftExtensions E (kmerAt readSeq k p.toNat) 1 < 2) ∧
          (head ≤ (readSeq.length : Int) - k →
            2 ≤ leftExtensions E (kmerAt readSeq k head.toNat) 1))) ∧
      ((rightExtensions E (kmerAt readSeq k (readSeq.length - k)) 1 ≠ 0 ∧
          tail = (readSeq.length : Int) - k) ∨
        (rightExtensions E (kmerAt readSeq k (readSeq.length - k)) 1 = 0 ∧
          tail < (readSeq.length : Int) - k ∧
          (∀ p : Int, tail < p → p < (readSeq.length : Int) - k → head ≤ p →
            rightExtensions E (kmerAt readSeq k p.toNat) 1 < 2) ∧
          (head ≤ tail → 2 ≤ rightExtensions E (kmerAt readSeq k tail.toNat) 1)))) ∧
    (leftExtensions E (kmerAt readSeq k 0) 1 ≠ 0 →
      rightExtensions E (kmerAt readSeq k (readSeq.length - k)) 1 ≠ 0 →
      FMIndexWalkProcess.trimRead fuel E readSeq k = .ok readSeq) := by
  have hT : ((readSeq.length : Int) - (k : Int)).toNat = readSeq.length - k := by omega
  obtain ⟨hs0, hl0⟩ := FMIndexWalkProcess.kmer_lookup readSeq k 0 hk (le_refl 0) (by omega)
  obtain ⟨hsT, hlT⟩ := FMIndexWalkProcess.kmer_lookup readSeq k ((readSeq.length : Int) - k) hk
    (by omega) (by omega)
  rw [hT] at hsT hlT
  simp only [Int.toNat_zero] at hs0 hl0
  -- the head pointer
  have hHead : ∃ head : Int,
      (if leftExtensions E (kmerAt readSeq k 0) 1 = 0 then
        FMIndexWalkProcess.trimHead E readSeq k ((readSeq.length : Int) - (k : Int)) fuel (0 + 1)
        else (pure 0 : Run Int)) = .ok head ∧ 0 ≤ head ∧
      ((leftExtensions E (kmerAt readSeq k 0) 1 ≠ 0 ∧ head = 0) ∨
        (leftExtensions E (kmerAt readSeq k 0) 1 = 0 ∧ 1 ≤ head ∧
          head ≤ (readSeq.length : Int) - k + 1 ∧
          (∀ p : Int, 1 ≤ p → p < head → leftExtensions E (kmerAt readSeq k p.toNat) 1 < 2) ∧
          (head ≤ (readSeq.length : Int) - k →
            2 ≤ leftExtensions E (kmerAt readSeq k head.toNat) 1))) := by
    split
    next hz =>
      obtain ⟨h, hh, _, _⟩ := FMIndexWalkProcess.trimHead_spec E readSeq k
        ((readSeq.length : Int) - k) hk (by omega) fuel (0 + 1) (by omega) (by omega)
      obtain ⟨h1, h2, h3, h4⟩ := FMIndexWalkProcess.trimHead_least E readSeq k
        ((readSeq.length : Int) - k) hk (by omega) fuel (0 + 1) h (by omega) hh
      exact ⟨h, hh, by omega, Or.inr ⟨hz, by omega, by omega,
        fun p hp1 hp2 => h3 p (by omega) hp2, h4⟩⟩
    next hnz => exact ⟨0, rfl, le_refl 0, Or.inl ⟨hnz, rfl⟩⟩
  obtain ⟨head, hhead, hh0, hheadRule⟩ := hHead
  -- the tail pointer
  have hTail : ∃ tail : Int,
      (if rightExtensions E (kmerAt readSeq k (readSeq.length - k)) 1 = 0 then
        FMIndexWalkProcess.trimTail E readSeq k head fuel ((readSeq.length : Int) - (k : Int) - 1)
        else (pure ((readSeq.length : Int) - (k : Int)) : Run Int)) = .ok tail ∧
      tail + k ≤ (readSeq.length : Int) ∧
      ((rightExtensions E (kmerAt readSeq k (readSeq.length - k)) 1 ≠ 0 ∧
          tail = (readSeq.length : Int) - k) ∨
        (rightExtensions E (kmerAt readSeq k (readSeq.length - k)) 1 = 0 ∧
          tail < (readSeq.length : Int) - k ∧
          (∀ p : Int, tail < p → p < (readSeq.length : Int) - k → head ≤ p →
            rightExtensions E (kmerAt readSeq k p.toNat) 1 < 2) ∧
          (head ≤ tail → 2 ≤ rightExtensions E (kmerAt readSeq k tail.toNat) 1))) := by
    split
    next hz =>
      obtain ⟨t, ht, _, _⟩ := FMIndexWalkProcess.trimTail_spec E readSeq k head hk hh0 fuel
        ((readSeq.length : Int) - k - 1) (by omega) (by omega)
      obtain ⟨h1, h2, h3, h4⟩ := FMIndexWalkProcess.trimTail_greatest E readSeq k head hk hh0
        fuel ((readSeq.length : Int) - k - 1) t (by omega) ht
      exact ⟨t, ht, by omega, Or.inr ⟨hz, by omega,
        fun p hp1 hp2 hp3 => h3 p hp1 (by omega) hp3, h4⟩⟩
    next hnz => exact ⟨_, rfl, by omega, Or.inl ⟨hnz, rfl⟩⟩
  obtain ⟨tail, htail, htb, htailRule⟩ := hTail
  have hrun : FMIndexWalkProcess.trimRead fuel E readSeq k
      = .ok (if head > tail then [] else slice readSeq head (tail + k)) := by
    simp only [FMIndexWalkProcess.trimRead, bind, Except.bind, pure, Except.pure]
    rw [hs0]
    simp only [FMIndexWalkProcess.numNextKmer_start_eq E _ 1 hl0]
    simp only [pure, Except.pure] at hhead htail
    rw [hhead]
    simp only
    rw [hsT]
    simp only [FMIndexWalkProcess.numNextKmer_end_eq E _ 1 hlT]
    rw [htail]
    simp only
    split
    · rfl
    · rename_i hgt
      have := substr_eq_slice (s := readSeq) (a := head) (b := tail + k) hh0 (by omega) htb
      rw [show tail + (k : Int) - head = tail - head + (k : Int) by ring] at this
      exact this
  refine ⟨⟨head, tail, hrun, hh0, htb, hheadRule, htailRule⟩, ?_⟩
  intro hL hR
  rw [hrun]
  rcases hheadRule with ⟨_, hh⟩ | ⟨hz, _⟩
  · rcases htailRule with ⟨_, ht⟩ | ⟨hz, _⟩
    · subst hh ht
      rw [if_neg (by omega)]
      congr 1
      simp only [slice, Int.toNat_zero, List.drop_zero, sub_zero]
      apply List.take_of_length_le
      omega
    · exact absurd hz hR
  · exact absurd hz hL

/-- The theorem `trimRead_follows_trimming_rule` at the read `ACGT` with `k = 2`, every word
occurring in the index: both end k-mers have extensions and the read is returned unchanged.
Over the index in which no word occurs, no position has an extension and the result is
empty. -/
theorem trimRead_follows_trimming_rule_witness :
    FMIndexWalkProcess.trimRead 5 strandIndex ['A', 'C', 'G', 'T'] 2
      = .ok ['A', 'C', 'G', 'T'] ∧
    FMIndexWalkProcess.trimRead 5 emptyIndex ['A', 'C', 'G', 'T'] 2 = .ok [] :=
  ⟨(trimRead_follows_trimming_rule 5 strandIndex ['A', 'C', 'G', 'T'] 2 (by decide)
    (by decide) (by decide)).2 (by decide) (by decide), by decide⟩

/-! ### Fragments of the two segmenters -/

theorem tiles_adjacent : ∀ (ivs : List (Nat × Nat)) (s e : Nat), Tiles s ivs e →
    ∀ i, i + 1 < ivs.length → (ivs.getD (i + 1) (0, 0)).1 = (ivs.getD i (0, 0)).2 + 1 := by
  intro ivs
  induction ivs with
  | nil => intro s e _ i hi; simp at hi
  | cons a rest ih =>
    intro s e h i hi
    obtain ⟨_, _, hrest⟩ := h
    cases i with
    | zero =>
      cases rest with
      | nil => simp at hi
      | cons b rest2 =>
        obtain ⟨hb, _, _⟩ := hrest
        simpa using hb
    | succ j =>
      have := ih _ _ hrest j (by simpa using hi)
      simpa using this

theorem fragmentOf_length (seq : Seq) (k : Nat) (iv : Nat × Nat) (h1 : iv.1 ≤ iv.2)
    (h2 : iv.2 + k ≤ seq.length) : (fragmentOf seq k iv).length = iv.2 - iv.1 + k := by
  simp only [fragmentOf, List.length_take, List.length_drop]
  omega

theorem fragmentOf_overlap (seq : Seq) (k : Nat) (a b : Nat × Nat) (ha : a.1 ≤ a.2)
    (hb : b.1 ≤ b.2) (hab : b.1 = a.2 + 1) (hk : 1 ≤ k) :
    (fragmentOf seq k a).drop (a.2 - a.1 + k - (k - 1)) = (fragmentOf seq k b).take (k - 1) := by
  simp only [fragmentOf, List.drop_take, List.drop_drop, List.take_take, hab]
  have e1 : a.2 - a.1 + k - (a.2 - a.1 + k - (k - 1)) = k - 1 := by omega
  have e2 : a.1 + (a.2 - a.1 + k - (k - 1)) = a.2 + 1 := by omega
  have e3 : min (k - 1) (b.2 - (a.2 + 1) + k) = k - 1 := by omega
  rw [e1, e2, e3]

namespace FMIndexWalkProcess

theorem pickMainStream_fragments (seq : Seq) (k : Nat) :
    ∀ (ivs : List (Nat × Nat)) (i mx : Nat) (main : Int) (frags : List Seq),
      (∀ iv ∈ ivs, iv.1 ≤ iv.2 ∧ iv.1 ≤ seq.length) →
      ∃ main', pickMainStream seq (k : Int) ivs i mx main frags
        = .ok (main', frags ++ ivs.map (fragmentOf seq k)) := by
  intro ivs
  induction ivs with
  | nil => intro i mx main frags _; exact ⟨main, by simp [pickMainStream]; rfl⟩
  | cons iv rest ih =>
    intro i mx main frags hb
    obtain ⟨h1, h2⟩ := hb iv (List.mem_cons_self _ _)
    have hs : substr seq (iv.1 : Int) ((iv.2 : Int) - (iv.1 : Int) + (k : Int))
        = .ok (fragmentOf seq k iv) := by
      unfold substr fragmentOf
      rw [if_neg (by omega), if_neg (by omega)]
      congr 2
      omega
    simp only [pickMainStream, hs, bind, Except.bind]
    obtain ⟨m, hm⟩ := ih (i + 1)
      (if decide (mx < iv.2 - iv.1) = true then iv.2 - iv.1 else mx)
      (if decide (mx < iv.2 - iv.1) = true then (i : Int) else main)
      (frags ++ [fragmentOf seq k iv]) (fun x hx => hb x (List.mem_cons_of_mem _ hx))
    exact ⟨m, by rw [hm]; simp⟩

end FMIndexWalkProcess

theorem splitReadStreamIntervals_tiles (fuel : Nat) (E : External) (P : Parameters)
    (seq : Seq) (k threshold : Nat) (hk : 1 ≤ k) (hlen : k ≤ seq.length)
    (hP : P.kmerLength = (k : Int)) (hfuel : 2 * (seq.length - k + 1) < fuel) :
    ∃ ivs, FMIndexWalkProcess.splitReadStreamIntervals fuel E P seq threshold = .ok ivs ∧
      Tiles 0 ivs (seq.length - k + 1) := by
  have hnum : ((seq.length : Int) - P.kmerLength + 1).toNat = seq.length - k + 1 := by
    rw [hP]; omega
  obtain ⟨w, hw⟩ := substr_ok_of_range seq 0 P.kmerLength (le_refl 0) (by omega)
  obtain ⟨cq, hcq⟩ := FMIndexWalkProcess.classify_total E P seq threshold (by omega) fuel
    { i := 0, fwdInterval := E.findInterval true w.reverse,
      rvcInterval := E.findInterval false (E.reverseComplement w),
      currKmerSize := P.kmerLength,
      currKmerFreq := FMIndexWalkProcess.intervalFreq (E.findInterval true w.reverse)
        (E.findInterval false (E.reverseComplement w)),
      countQualified := List.replicate ((seq.length : Int) - P.kmerLength + 1).toNat 0 }
    (le_refl _) (by simp only [gt_iff_lt, lt_self_iff_false, if_false]; rw [hP]; omega)
  obtain ⟨ivs, hivs, htiles, _⟩ := cutIntervals_tiles
    (FMIndexWalkProcess.streamCut E P seq cq) (seq.length - k + 1) (by omega)
    (fun q h1 h2 => FMIndexWalkProcess.streamCut_ok E P seq cq q (by omega) h1
      (by rw [hP]; omega))
  refine ⟨ivs, ?_, htiles⟩
  rw [hnum] at hcq
  simp only [FMIndexWalkProcess.splitReadStreamIntervals,
    FMIndexWalkProcess.streamQualifiedOf, hw, hnum, hcq, hivs, bind, Except.bind]

/-- C26. For a read of length at least `k` (`k >= 1`), both `splitRead` variants return one
fragment per interval, in order: the fragment of the interval `(start, end)` is
`read[start, end + k)`, of length `end - start + k`, and the last `k-1` bases of each
fragment are the first `k-1` bases of the next one. -/
theorem splitRead_fragments_overlap (fuel : Nat) (E : External) (P : Parameters) (seq : Seq)
    (k threshold : Nat) (hk : 1 ≤ k) (hlen : k ≤ seq.length) (hP : P.kmerLength = (k : Int))
    (hfuel : 2 * (seq.length - k + 1) < fuel) :
    (∃ cq ivs main,
      FMIndexWalkProcess.splitReadIntervals E (KmerContext.build E seq k) threshold
        = .ok (cq, ivs) ∧
      FMIndexWalkProcess.splitRead E (KmerContext.build E seq k) threshold
        = .ok (main, ivs.map (fragmentOf seq k)) ∧
      (∀ iv ∈ ivs, (fragmentOf seq k iv).length = iv.2 - iv.1 + k) ∧
      ∀ i, i + 1 < ivs.length →
        (fragmentOf seq k (ivs.getD i (0, 0))).drop
            ((fragmentOf seq k (ivs.getD i (0, 0))).length - (k - 1))
          = (fragmentOf seq k (ivs.getD (i + 1) (0, 0))).take (k - 1)) ∧
    (∃ ivs main,
      FMIndexWalkProcess.splitReadStreamIntervals fuel E P seq threshold = .ok ivs ∧
      FMIndexWalkProcess.splitReadStream fuel E P seq threshold
        = .ok (main, ivs.map (fragmentOf seq k)) ∧
      (∀ iv ∈ ivs, (fragmentOf seq k iv).length = iv.2 - iv.1 + k) ∧
      ∀ i, i + 1 < ivs.length →
        (fragmentOf seq k (ivs.getD i (0, 0))).drop
            ((fragmentOf seq k (ivs.getD i (0, 0))).length - (k - 1))
          = (fragmentOf seq k (ivs.getD (i + 1) (0, 0))).take (k - 1)) := by
  -- what the tiling of the k-mer positions gives for the fragments
  have hfr : ∀ ivs : List (Nat × Nat), Tiles 0 ivs (seq.length - k + 1) →
      (∀ iv ∈ ivs, iv.1 ≤ iv.2 ∧ iv.1 ≤ seq.length) ∧
      (∀ iv ∈ ivs, (fragmentOf seq k iv).length = iv.2 - iv.1 + k) ∧
      ∀ i, i + 1 < ivs.length →
        (fragmentOf seq k (ivs.getD i (0, 0))).drop
            ((fragmentOf seq k (ivs.getD i (0, 0))).length - (k - 1))
          = (fragmentOf seq k (ivs.getD (i + 1) (0, 0))).take (k - 1) := by
    intro ivs ht
    have hb := tiles_bounds ht
    have hmem : ∀ i, i < ivs.length → ivs.getD i (0, 0) ∈ ivs := by
      intro i hi
      rw [List.getD_eq_getElem _ _ hi]
      exact List.getElem_mem hi
    refine ⟨fun iv hiv => ?_, fun iv hiv => ?_, fun i hi => ?_⟩
    · have := hb iv hiv; omega
    · have := hb iv hiv
      exact fragmentOf_length seq k iv this.2.1 (by omega)
    · have h1 := hb _ (hmem i (by omega))
      have h2 := hb _ (hmem (i + 1) hi)
      rw [fragmentOf_length seq k _ h1.2.1 (by omega)]
      exact fragmentOf_overlap seq k _ _ h1.2.1 h2.2.1 (tiles_adjacent ivs _ _ ht i hi) hk
  obtain ⟨hn, _, _, hrs, hkl, _⟩ := build_numKmer E seq k hlen
  constructor
  · obtain ⟨cq, hcq, hcql⟩ := FMIndexWalkProcess.countQualifiedOf_ok E seq k threshold hlen
    obtain ⟨ivs, hivs, htiles, _⟩ := cutIntervals_tiles
      (FMIndexWalkProcess.splitReadCut E (KmerContext.build E seq k) cq) (seq.length - k + 1)
      (by omega)
      (fun q h1 h2 => FMIndexWalkProcess.splitReadCut_ok E seq k cq q hk hlen h1 h2)
    obtain ⟨hbnd, hlens, hov⟩ := hfr ivs htiles
    have hb := tiles_bounds htiles
    obtain ⟨mS, hS⟩ := FMIndexWalkProcess.pickMainStream_fragments seq k ivs 0 0 (-1) [] hbnd
    have hPS := FMIndexWalkProcess.pickMain_fragments seq k cq ivs 0 0 0 (-1) (-1) []
      (fun iv hiv => by have := hb iv hiv; omega)
    rw [hS] at hPS
    have hI : FMIndexWalkProcess.splitReadIntervals E (KmerContext.build E seq k) threshold
        = .ok (cq, ivs) := by
      simp only [FMIndexWalkProcess.splitReadIntervals, hcq, hn, hivs, bind, Except.bind]
      rfl
    have hne : (KmerContext.build E seq k).empty = false := by
      unfold KmerContext.empty
      rw [hrs]
      cases seq with
      | nil => simp at hlen; omega
      | cons a l => rfl
    cases hpm : FMIndexWalkProcess.pickMain seq k cq ivs 0 0 (-1) [] with
    | error e => rw [hpm] at hPS; cases hPS
    | ok r =>
      rw [hpm] at hPS
      obtain ⟨main, frags⟩ := r
      simp only [Except.map, List.nil_append, Except.ok.injEq] at hPS
      subst hPS
      refine ⟨cq, ivs, main, hI, ?_, hlens, hov⟩
      simp only [FMIndexWalkProcess.splitRead, hne, hI, hrs, hkl, bind, Except.bind,
        Bool.false_eq_true, if_false]
      exact hpm
  · obtain ⟨ivs, hivs, htiles⟩ := splitReadStreamIntervals_tiles fuel E P seq k threshold hk
      hlen hP hfuel
    obtain ⟨hbnd, hlens, hov⟩ := hfr ivs htiles
    obtain ⟨mS, hS⟩ := FMIndexWalkProcess.pickMainStream_fragments seq k ivs 0 0 (-1) [] hbnd
    refine ⟨ivs, mS, hivs, ?_, hlens, hov⟩
    unfold FMIndexWalkProcess.splitReadStream
    rw [hivs, if_neg (by rw [hP]; omega), hP]
    simp only [bind, Except.bind]
    rw [hS]
    rfl

/-- The theorem `splitRead_fragments_overlap` at the read `AAACC` with `k = 2` over the index
in which only `AA` and `CC` are solid: the profile-based segmenter cuts the read into `AAA`,
`AC`, `CC`, each sharing one base with the next. -/
theorem splitRead_fragments_overlap_witness :
    FMIndexWalkProcess.splitRead islandIndex
        (KmerContext.build islandIndex ['A', 'A', 'A', 'C', 'C'] 2) 2
      = .ok (0, [['A', 'A', 'A'], ['A', 'C'], ['C', 'C']]) ∧
    ∃ cq ivs main,
      FMIndexWalkProcess.splitReadIntervals islandIndex
          (KmerContext.build islandIndex ['A', 'A', 'A', 'C', 'C'] 2) 2 = .ok (cq, ivs) ∧
      FMIndexWalkProcess.splitRead islandIndex
          (KmerContext.build islandIndex ['A', 'A', 'A', 'C', 'C'] 2) 2
        = .ok (main, ivs.map (fragmentOf ['A', 'A', 'A', 'C', 'C'] 2)) ∧
      (∀ iv ∈ ivs, (fragmentOf ['A', 'A', 'A', 'C', 'C'] 2 iv).length = iv.2 - iv.1 + 2) ∧
      ∀ i, i + 1 < ivs.length →
        (fragmentOf ['A', 'A', 'A', 'C', 'C'] 2 (ivs.getD i (0, 0))).drop
            ((fragmentOf ['A', 'A', 'A', 'C', 'C'] 2 (ivs.getD i (0, 0))).length - (2 - 1))
          = (fragmentOf ['A', 'A', 'A', 'C', 'C'] 2 (ivs.getD (i + 1) (0, 0))).take (2 - 1) :=
  ⟨by decide,
    (splitRead_fragments_overlap 9 islandIndex exampleParams ['A', 'A', 'A', 'C', 'C'] 2 2
      (by decide) (by decide) (by decide) (by decide)).1⟩

/-! ### Seeds of the fixed-k extractor are maximal runs of solid k-mers -/

theorem substr_kmer_at (readSeq : Seq) (q k : Int) (h0 : 0 ≤ q)
    (h1 : q ≤ (readSeq.length : Int)) (hk : 0 ≤ k) :
    substr readSeq q k = .ok (kmerAt readSeq k.toNat q.toNat) := by
  unfold substr kmerAt
  rw [if_neg (by omega), if_neg (by omega)]

namespace FMIndexWalkProcess

theorem groupSolid_run (E : External) (P : Parameters) (readSeq : Seq)
    (hk : 0 ≤ P.kmerLength) :
    ∀ (fuel : Nat) (i seedLen : Int) (r : Int × Int), 0 ≤ i →
      groupSolid E P readSeq fuel i seedLen = .ok r →
      i ≤ r.1 ∧ (∀ q : Int, i ≤ q → q < r.1 → PassesAt E P readSeq q) ∧
      (r.1 + P.kmerLength ≤ (readSeq.length : Int) → ¬ PassesAt E P readSeq r.1) ∧
      (r.1 + P.kmerLength ≤ (readSeq.length : Int) + 1 ∨ r.1 = i) := by
  intro fuel
  induction fuel with
  | zero => intro i seedLen r _ h; simp [groupSolid] at h
  | succ n ih =>
    intro i seedLen r h0 h
    simp only [groupSolid] at h
    split at h
    next hin =>
      rw [substr_kmer_at readSeq i P.kmerLength h0 (by omega) hk] at h
      simp only [bind, Except.bind] at h
      split at h
      next hsolid =>
        obtain ⟨h1, h2, h3, h4⟩ := ih _ _ _ (by omega) h
        refine ⟨by omega, fun q hq1 hq2 => ?_, h3, Or.inl (by omega)⟩
        by_cases hq : q = i
        · subst hq; exact hsolid
        · exact h2 q (by omega) hq2
      next hns =>
        simp only [pure, Except.pure, Except.ok.injEq] at h
        subst h
        exact ⟨le_refl _, fun q h1 h2 => by omega, fun _ => hns, Or.inl (by omega)⟩
    next hout =>
      simp only [pure, Except.pure, Except.ok.injEq] at h
      subst h
      exact ⟨le_refl _, fun q h1 h2 => by omega, fun h => absurd h hout, Or.inr rfl⟩

theorem seed_of_run (E : External) (P : Parameters) (readSeq : Seq) (hk : 1 ≤ P.kmerLength)
    (n : Nat) (i i1 seedLen : Int) (h0 : 0 ≤ i)
    (hin : i + P.kmerLength ≤ (readSeq.length : Int)) (hsolid : PassesAt E P readSeq i)
    (hg : groupSolid E P readSeq n (i + 1) 0 = .ok (i1, seedLen)) :
    ∃ str, substr readSeq i (seedLen + P.kmerLength) = .ok str ∧
      i1 - 2 + P.kmerLength + 1 = i + (str.length : Int) ∧
      MaximalPassingSeed E P readSeq (i, str) := by
  obtain ⟨hd, hs0⟩ := groupSolid_spec E P readSeq _ _ _ _ hg
  obtain ⟨h1, h2, h3, h4⟩ := groupSolid_run E P readSeq (by omega) _ _ _ _ (by omega) hg
  simp only at hd hs0 h1 h2 h3 h4
  obtain ⟨str, hstr⟩ := substr_ok_of_range readSeq i (seedLen + P.kmerLength) h0 (by omega)
  have hlen : (str.length : Int) = seedLen + P.kmerLength :=
    substr_length_ge hstr (by omega) (by omega)
  obtain ⟨_, _, hsl⟩ := substr_slice hstr
  refine ⟨str, hstr, by omega, h0, by simp only [seedEnd]; omega, hsl, by simp only; omega,
    fun q hq1 hq2 => ?_, fun hin2 => ?_⟩
  · simp only [seedEnd] at hq2
    by_cases hq : q = i
    · subst hq; exact hsolid
    · exact h2 q (by simp only at hq1; omega) (by omega)
  · simp only [seedEnd] at hin2 ⊢
    have e : i + (str.length : Int) - P.kmerLength + 1 = i1 := by omega
    rw [e]
    exact h3 (by omega)

theorem seedLoop_maximal (E : External) (P : Parameters) (readSeq : Seq)
    (hk : 1 ≤ P.kmerLength) :
    ∀ (fuel : Nat) (i : Int) (seeds out : List Seed), 0 ≤ i →
      (∀ s ∈ seeds, MaximalPassingSeed E P readSeq s) →
      seedLoop E P readSeq fuel i seeds = .ok out →
      ∀ s ∈ out, MaximalPassingSeed E P readSeq s := by
  intro fuel
  induction fuel with
  | zero => intro i seeds out _ _ h; simp [seedLoop] at h
  | succ n ih =>
    intro i seeds out h0 hb h
    simp only [seedLoop] at h
    split at h
    next hin =>
      rw [substr_kmer_at readSeq i P.kmerLength h0 (by omega) (by omega)] at h
      simp only [bind, Except.bind] at h
      split at h
      next hsolid =>
        cases hg : groupSolid E P readSeq n (i + 1) 0 with
        | error e => simp [hg] at h
        | ok r =>
          obtain ⟨i1, seedLen⟩ := r
          simp only [hg] at h
          obtain ⟨str, hstr, hres, hmax⟩ := seed_of_run E P readSeq hk n i i1 seedLen h0 hin
            hsolid hg
          simp only [hstr] at h
          refine ih _ _ _ ?_ ?_ h
          · omega
          · intro s hs
            rcases List.mem_append.1 hs with hs | hs
            · exact hb s hs
            · simp only [List.mem_singleton] at hs
              subst hs
              exact hmax
      next hns => exact ih _ _ _ (by omega) hb h
    next hout =>
      simp only [pure, Except.pure, Except.ok.injEq] at h
      subst h
      exact hb

end FMIndexWalkProcess

theorem toInt32_eq (x : Int) (h0 : 0 ≤ x) (h : x < 2147483648) : toInt32 x = x := by
  unfold toInt32
  omega

theorem kmerFreqs_eq_combinedCount (E : External) (w : Seq)
    (h : FMIndexWalkProcess.combinedCount E w < 2147483648) :
    FMIndexWalkProcess.kmerFreqs E w = FMIndexWalkProcess.combinedCount E w := by
  unfold FMIndexWalkProcess.kmerFreqs
  apply toInt32_eq _ _ h
  unfold FMIndexWalkProcess.combinedCount
  omega

theorem solidAt_iff_passesAt (E : External) (P : Parameters) (readSeq : Seq)
    (hcount : ∀ w : Seq, FMIndexWalkProcess.combinedCount E w < 2147483648) (q : Int) :
    SolidAt E P readSeq q ↔ PassesAt E P readSeq q := by
  unfold SolidAt PassesAt
  rw [kmerFreqs_eq_combinedCount E _ (hcount _)]

theorem maximalSolid_of_passing (E : External) (P : Parameters) (readSeq : Seq)
    (hcount : ∀ w : Seq, FMIndexWalkProcess.combinedCount E w < 2147483648) (s : Seed)
    (h : MaximalPassingSeed E P readSeq s) : MaximalSolidSeed E P readSeq s := by
  obtain ⟨h1, h2, h3, h4, h5, h6⟩ := h
  exact ⟨h1, h2, h3, h4,
    fun q hq1 hq2 => (solidAt_iff_passesAt E P readSeq hcount q).2 (h5 q hq1 hq2),
    fun hin hs => h6 hin ((solidAt_iff_passesAt E P readSeq hcount _).1 hs)⟩

/-- C27 (amended). Over an index whose combined counts are below `2^31` (they fit the `int`
in which the extractor accumulates them), `FMIndexWalkProcess::searchingSeedsUsingSolidKmer`
for `kmerLength >= 1` returns, and every returned seed `(p, s)` is a maximal run of solid
k-mers: `s = read[p, p+|s|)` with `|s| >= k`, every k-mer starting in `[p, p+|s|-k]` has
combined count at least the seed threshold, and the k-mer starting at `p+|s|-k+1`, if it lies
within the read, has a combined count below it. When the scan meets a solid k-mer at position
`i`, it pushes the seed `(i, s)` and resumes at position `i+|s|`. -/
theorem searchingSeeds_returns_maximal_solid_runs (fuel : Nat) (E : External)
    (P : Parameters) (readSeq : Seq) (hk : 1 ≤ P.kmerLength)
    (hcount : ∀ w : Seq, FMIndexWalkProcess.combinedCount E w < 2147483648)
    (hfuel : readSeq.length + 1 < fuel) :
    (∃ seeds, FMIndexWalkProcess.searchingSeedsUsingSolidKmer fuel E P readSeq = .ok seeds ∧
      ∀ s ∈ seeds, MaximalSolidSeed E P readSeq s) ∧
    (∀ (n : Nat) (i : Int) (seeds : List Seed), 0 ≤ i →
      i + P.kmerLength ≤ (readSeq.length : Int) → SolidAt E P readSeq i →
      readSeq.length < n →
      ∃ str, MaximalSolidSeed E P readSeq (i, str) ∧
        FMIndexWalkProcess.seedLoop E P readSeq (n + 1) i seeds
          = FMIndexWalkProcess.seedLoop E P readSeq n (i + (str.length : Int))
              (seeds ++ [(i, str)])) := by
  constructor
  · unfold FMIndexWalkProcess.searchingSeedsUsingSolidKmer
    split
    · obtain ⟨out, hout⟩ := FMIndexWalkProcess.seedLoop_total E P readSeq hk fuel 0 []
        (le_refl 0) (by omega)
      exact ⟨out, hout, fun s hs => maximalSolid_of_passing E P readSeq hcount s
        (FMIndexWalkProcess.seedLoop_maximal E P readSeq hk fuel 0 [] out
          (le_refl 0) (fun s hs => by cases hs) hout s hs)⟩
    · exact ⟨[], rfl, fun s hs => by cases hs⟩
  · intro n i seeds h0 hin hsolid hn
    have hpass : PassesAt E P readSeq i := (solidAt_iff_passesAt E P readSeq hcount i).1 hsolid
    obtain ⟨r, hg⟩ := FMIndexWalkProcess.groupSolid_total E P readSeq (by omega) n (i + 1) 0
      (by omega) (by omega)
    obtain ⟨i1, seedLen⟩ := r
    obtain ⟨str, hstr, hres, hmax⟩ := FMIndexWalkProcess.seed_of_run E P readSeq hk n i i1
      seedLen h0 hin hpass hg
    refine ⟨str, maximalSolid_of_passing E P readSeq hcount _ hmax, ?_⟩
    have hsolid2 : FMIndexWalkProcess.kmerFreqs E
        (kmerAt readSeq P.kmerLength.toNat i.toNat) ≥ P.seedKmerThreshold := hpass
    simp only [FMIndexWalkProcess.seedLoop, if_pos hin,
      substr_kmer_at readSeq i P.kmerLength h0 (by omega) (by omega), bind, Except.bind,
      if_pos hsolid2, hg, hstr, hres]

/-- The theorem `searchingSeeds_returns_maximal_solid_runs` at the read `AAAGCC` over the
index in which only `AA` and `CC` are solid (combined count 6): the seeds are `AAA` at 0 and
`CC` at 4. -/
theorem searchingSeeds_returns_maximal_solid_runs_witness :
    FMIndexWalkProcess.searchingSeedsUsingSolidKmer 9 islandIndex exampleParams
        ['A', 'A', 'A', 'G', 'C', 'C']
      = .ok [(0, ['A', 'A', 'A']), (4, ['C', 'C'])] ∧
    ∃ seeds, FMIndexWalkProcess.searchingSeedsUsingSolidKmer 9 islandIndex exampleParams
        ['A', 'A', 'A', 'G', 'C', 'C'] = .ok seeds ∧
      ∀ s ∈ seeds, MaximalSolidSeed islandIndex exampleParams ['A', 'A', 'A', 'G', 'C', 'C'] s :=
  ⟨by decide,
    (searchingSeeds_returns_maximal_solid_runs 9 islandIndex exampleParams
      ['A', 'A', 'A', 'G', 'C', 'C'] (by decide)
      (fun w => by
        simp only [FMIndexWalkProcess.combinedCount, islandIndex, exampleIndex]
        split <;> decide)
      (by decide)).1⟩

/-- C27 (counterexample). The counts are accumulated into a 32-bit `int`. In the read `AAC`
(k = 2, threshold 5) the k-mer `AA` has the combined count 6 and `AC` the combined count
`2^31`, which the `int` holds as `-2^31`: the extractor returns the seed `(0, AA)` and stops
it before the k-mer at position 1, although that k-mer lies within the read and its combined
count is not below the threshold. -/
theorem searchingSeeds_stops_at_wrapped_count :
    FMIndexWalkProcess.searchingSeedsUsingSolidKmer 9 wrapIndex exampleParams ['A', 'A', 'C']
      = .ok [(0, ['A', 'A'])] ∧
    FMIndexWalkProcess.combinedCount wrapIndex ['A', 'C'] = 2147483648 ∧
    FMIndexWalkProcess.kmerFreqs wrapIndex ['A', 'C'] = -2147483648 ∧
    SolidAt wrapIndex exampleParams ['A', 'A', 'C'] 1 ∧
    ¬ MaximalSolidSeed wrapIndex exampleParams ['A', 'A', 'C'] (0, ['A', 'A']) := by
  have hsolid : SolidAt wrapIndex exampleParams ['A', 'A', 'C'] 1 := by
    unfold SolidAt
    decide
  refine ⟨by decide, by decide, by decide, hsolid, fun h => ?_⟩
  exact h.2.2.2.2.2 (by decide) hsolid

/-! ### The k-mer lengths used by the adaptive extractor -/

theorem dynLoopTraced_seeds (E : External) (P : Parameters) (readSeq : Seq) :
    ∀ (fuel : Nat) (st : DynState) (lookups : List Int),
      (dynLoopTraced E P readSeq fuel st lookups).map Prod.fst
        = dynLoop E P readSeq fuel st := by
  intro fuel
  induction fuel with
  | zero => intro st lookups; rfl
  | succ n ih =>
    intro st lookups
    simp only [dynLoopTraced, dynLoop]
    split
    · cases substr readSeq st.i st.kmerLen with
      | error e => rfl
      | ok kmer =>
        simp only [bind, Except.bind]
        split
        · cases dynContiguous E P readSeq st.kmerLen n (st.i + 1) with
          | error e => rfl
          | ok i1 =>
            simp only
            cases substr readSeq st.i (st.kmerLen + i1 - st.i - 1) with
            | error e => rfl
            | ok str => exact ih _ _
        · split
          · split
            · exact ih _ _
            · exact ih _ _
          · exact ih _ _
    · rfl

theorem findSeedsTraced_seeds (fuel : Nat) (E : External) (P : Parameters) (readSeq : Seq) :
    (findSeedsUsingDynamicKmerLenTraced fuel E P readSeq).map Prod.fst
      = findSeedsUsingDynamicKmerLen fuel E P readSeq := by
  unfold findSeedsUsingDynamicKmerLenTraced findSeedsUsingDynamicKmerLen
  split
  · exact dynLoopTraced_seeds E P readSeq fuel _ _
  · rfl

theorem dynLoopTraced_bounds (E : External) (P : Parameters) (readSeq : Seq)
    (hmk : P.minKmerLength ≤ P.kmerLength) :
    ∀ (fuel : Nat) (st : DynState) (lookups : List Int) (r : List Seed × List Int),
      (P.minKmerLength - 1 ≤ st.kmerLen ∧ st.kmerLen ≤ P.kmerLength ∧
        ((P.kmerLength - P.minKmerLength) % 2 = 0 →
          P.minKmerLength ≤ st.kmerLen ∧ (st.kmerLen - P.minKmerLength) % 2 = 0)) →
      (∀ k ∈ lookups, P.minKmerLength - 1 ≤ k ∧ k ≤ P.kmerLength ∧
        ((P.kmerLength - P.minKmerLength) % 2 = 0 → P.minKmerLength ≤ k)) →
      dynLoopTraced E P readSeq fuel st lookups = .ok r →
      ∀ k ∈ r.2, P.minKmerLength - 1 ≤ k ∧ k ≤ P.kmerLength ∧
        ((P.kmerLength - P.minKmerLength) % 2 = 0 → P.minKmerLength ≤ k) := by
  intro fuel
  induction fuel with
  | zero => intro st lookups r _ _ h; simp [dynLoopTraced] at h
  | succ n ih =>
    intro st lookups r hst hl h
    have hl2 : ∀ k ∈ lookups ++ [st.kmerLen], P.minKmerLength - 1 ≤ k ∧ k ≤ P.kmerLength ∧
        ((P.kmerLength - P.minKmerLength) % 2 = 0 → P.minKmerLength ≤ k) := by
      intro k hk
      rcases List.mem_append.1 hk with hk | hk
      · exact hl k hk
      · simp only [List.mem_singleton] at hk
        subst hk
        exact ⟨hst.1, hst.2.1, fun he => (hst.2.2 he).1⟩
    have hreset : P.minKmerLength - 1 ≤ P.kmerLength ∧ P.kmerLength ≤ P.kmerLength ∧
        ((P.kmerLength - P.minKmerLength) % 2 = 0 →
          P.minKmerLength ≤ P.kmerLength ∧ (P.kmerLength - P.minKmerLength) % 2 = 0) :=
      ⟨by omega, le_refl _, fun he => ⟨hmk, he⟩⟩
    simp only [dynLoopTraced] at h
    split at h
    · cases hs : substr readSeq st.i st.kmerLen with
      | error e => simp [hs, bind, Except.bind] at h
      | ok kmer =>
        simp only [hs, bind, Except.bind] at h
        split at h
        · cases hc : dynContiguous E P readSeq st.kmerLen n (st.i + 1) with
          | error e => simp [hc] at h
          | ok i1 =>
            simp only [hc] at h
            cases hs2 : substr readSeq st.i (st.kmerLen + i1 - st.i - 1) with
            | error e => simp [hs2] at h
            | ok str =>
              simp only [hs2] at h
              exact ih _ _ r hreset hl2 h
        · split at h
          · split at h
            · exact ih _ _ r hreset hl2 h
            · rename_i hgt
              refine ih _ _ r ⟨by simp only; omega, by simp only; omega, fun he => ?_⟩ hl2 h
              have := hst.2.2 he
              simp only
              omega
          · exact ih _ _ r (by simpa using hst) hl2 h
    · simp only [pure, Except.pure, Except.ok.injEq] at h
      subst h
      exact hl

/-- With `minKmerLength <= kmerLength`, every k-mer length used by a lookup of
`findSeedsUsingDynamicKmerLen` lies in `[minKmerLength - 1, kmerLength]`, and in
`[minKmerLength, kmerLength]` when `kmerLength - minKmerLength` is even. -/
theorem findSeedsTraced_bounds (fuel : Nat) (E : External) (P : Parameters) (readSeq : Seq)
    (hmk : P.minKmerLength ≤ P.kmerLength) (r : List Seed × List Int)
    (h : findSeedsUsingDynamicKmerLenTraced fuel E P readSeq = .ok r) :
    ∀ k ∈ r.2, P.minKmerLength - 1 ≤ k ∧ k ≤ P.kmerLength ∧
      ((P.kmerLength - P.minKmerLength) % 2 = 0 → P.minKmerLength ≤ k) := by
  unfold findSeedsUsingDynamicKmerLenTraced at h
  split at h
  · exact dynLoopTraced_bounds E P readSeq hmk fuel _ [] r
      ⟨by simp only; omega, le_refl _, fun he => ⟨hmk, he⟩⟩ (fun k hk => by cases hk) h
  · simp only [pure, Except.pure, Except.ok.injEq] at h
    subst h
    intro k hk
    cases hk

/-- C28. With `kmerLength = 4` and `minKmerLength = 3` (so `minKmerLength <= kmerLength`) and
two positions walked before the k-mer length is reduced, `findSeedsUsingDynamicKmerLen` on
the read `AAGTGT` looks up k-mers of the lengths 4, 4, 2, 4 in this order: the test
`kmerLen <= minKmerLen` fails for 4 and `kmerLen -= 2` gives 2, below the minimum 3. The
lookup of length 2 finds the seed `AA`, shorter than `minKmerLength`, which is returned. -/
theorem dynamic_kmer_length_drops_below_minimum :
    oddGapParams.minKmerLength ≤ oddGapParams.kmerLength ∧
    findSeedsUsingDynamicKmerLenTraced 40 islandIndex oddGapParams
        ['A', 'A', 'G', 'T', 'G', 'T']
      = .ok ([(0, ['A', 'A'])], [4, 4, 2, 4]) ∧
    findSeedsUsingDynamicKmerLen 40 islandIndex oddGapParams ['A', 'A', 'G', 'T', 'G', 'T']
      = .ok [(0, ['A', 'A'])] ∧
    (2 : Int) < oddGapParams.minKmerLength :=
  ⟨by decide, by decide, by decide, by decide⟩

/-! ### A successful bridge in the self-correction loop -/

theorem appendToBack_snoc (rest : List Seed) (source : Seed) (str : Seq) :
    appendToBack (rest ++ [source]) str = rest ++ [(source.1, source.2 ++ str)] := by
  simp [appendToBack]

theorem substrFrom_append (a b : Seq) : substrFrom (a ++ b) (a.length : Int) = .ok b := by
  unfold substrFrom
  rw [if_neg (by simp)]
  simp

/-- C29 (amended). A successful bridge in `PBSelfCorrection`, in both classes. When the
lookahead loop is at offset `j = nextTargetSeed` and the search towards the target
`targetSeed + j` returns a positive code and a merged sequence `source ++ ext` that extends
the current corrected prefix `source` (the last corrected string), the loop is left with the
last corrected string replaced by exactly the merged sequence, every other corrected string
untouched and none added, `correctedNum` increased by one and `targetSeed` moved to the
reached target; the outer loop then continues with the gap after the reached target. In
`FMIndexWalkProcess` this holds for `collectedSeeds >= 1` (the loop reads the first collected
target before it tests the code), and the extension must be non-empty (the merged sequence is
asserted to be longer than the source). -/
theorem pbSelfCorrection_successful_bridge (E : External) (T : SearchTrees) (P : Parameters)
    (readSeq : Seq) (seeds : List Seed) (source : Seed) (rest : List Seed) (ext : Seq)
    (code : Int) (o : CorrectionState) (hpos : 0 < code)
    (hstrs : o.pacbioCorrectedStrs = rest ++ [source]) :
    (∀ (fuel : Nat) (s : PacBioCorrectionProcess.LookaheadState),
      (s.nextTargetSeed : Int) < P.downward →
      o.targetSeed + s.nextTargetSeed < seeds.length →
      (seedAt seeds (o.targetSeed + s.nextTargetSeed)).1 - (seedAt seeds (o.targetSeed - 1)).1
        - ((seedAt seeds (o.targetSeed - 1)).2.length : Int) < 500 →
      T.addHashLeft source.2 P.kmerLength s.smallKmerSize
        ((seedAt seeds (o.targetSeed + s.nextTargetSeed)).1
          - (seedAt seeds (o.targetSeed - 1)).1
          - ((seedAt seeds (o.targetSeed - 1)).2.length : Int)) = true →
      T.addHashRight source.2
        (E.reverseComplement (seedAt seeds (o.targetSeed + s.nextTargetSeed)).2) P.kmerLength
        s.smallKmerSize
        ((seedAt seeds (o.targetSeed + s.nextTargetSeed)).1
          - (seedAt seeds (o.targetSeed - 1)).1
          - ((seedAt seeds (o.targetSeed - 1)).2.length : Int)) = true →
      T.mergeTwoSeedsUsingHash source.2 (seedAt seeds (o.targetSeed + s.nextTargetSeed)).2
        s.mergedseq P.kmerLength s.smallKmerSize
        ((seedAt seeds (o.targetSeed + s.nextTargetSeed)).1
          - (seedAt seeds (o.targetSeed - 1)).1
          - ((seedAt seeds (o.targetSeed - 1)).2.length : Int)) = (code, source.2 ++ ext) →
      PacBioCorrectionProcess.lookahead E T P seeds source (fuel + 1) s o
        = .ok (.finished code
            { targetSeed := o.targetSeed + s.nextTargetSeed,
              pacbioCorrectedStrs := rest ++ [(source.1, source.2 ++ ext)],
              result := { o.result with
                correctedLen := o.result.correctedLen + ext.length,
                correctedNum := o.result.correctedNum + 1,
                seedDis := o.result.seedDis
                  + ((seedAt seeds (o.targetSeed + s.nextTargetSeed)).1
                    - (seedAt seeds (o.targetSeed - 1)).1
                    - ((seedAt seeds (o.targetSeed - 1)).2.length : Int)) } })) ∧
    (∀ (fuel : Nat) (o1 : CorrectionState),
      o.targetSeed < seeds.length →
      PacBioCorrectionProcess.lookahead E T P seeds (o.pacbioCorrectedStrs.getLastD (0, []))
        fuel { nextTargetSeed := 0, FMWalkReturnType := 0, prevFMWalkReturnType := 0,
               smallKmerSize := P.minKmerLength, mergedseq := [] } o
        = .ok (.finished code o1) →
      PacBioCorrectionProcess.correctLoop E T P readSeq seeds (fuel + 1) o
        = PacBioCorrectionProcess.correctLoop E T P readSeq seeds fuel
            { o1 with targetSeed := o1.targetSeed + 1,
                      result := { o1.result with
                        totalWalkNum := o1.result.totalWalkNum + 1 } }) ∧
    (∀ (fuel nextTargetSeed : Nat) (FMWalkReturnType : Int) (mergedseq : Seq)
        (targets : List (Int × Seq)),
      1 ≤ P.collectedSeeds →
      (nextTargetSeed : Int) < P.downward →
      o.targetSeed + nextTargetSeed < seeds.length →
      FMIndexWalkProcess.collectTargets P seeds o.targetSeed (o.targetSeed + nextTargetSeed)
        fuel 0 [] = .ok targets →
      T.gapMergeTwoSeedsUsingHash source.2 targets mergedseq = (code, source.2 ++ ext) →
      ext ≠ [] →
      FMIndexWalkProcess.lookahead T P seeds source (fuel + 1) nextTargetSeed FMWalkReturnType
          mergedseq o
        = .ok (.finished code
            { targetSeed := o.targetSeed + nextTargetSeed,
              pacbioCorrectedStrs := rest ++ [(source.1, source.2 ++ ext)],
              result := { o.result with
                correctedLen := o.result.correctedLen + ext.length,
                correctedNum := o.result.correctedNum + 1,
                seedDis := o.result.seedDis
                  + ((seedAt seeds (o.targetSeed + nextTargetSeed)).1 - source.1
                      - (source.2.length : Int)) } })) ∧
    (∀ (fuel : Nat) (o1 : CorrectionState),
      o.targetSeed < seeds.length →
      FMIndexWalkProcess.lookahead T P seeds (o.pacbioCorrectedStrs.getLastD (0, [])) fuel 0
        (-1) [] o = .ok (.finished code o1) →
      FMIndexWalkProcess.correctLoop T P readSeq seeds (fuel + 1) o
        = FMIndexWalkProcess.correctLoop T P readSeq seeds fuel
            { o1 with targetSeed := o1.targetSeed + 1,
                      result := { o1.result with
                        totalWalkNum := o1.result.totalWalkNum + 1 } }) := by
  refine ⟨?_, ?_, ?_, ?_⟩
  · intro fuel s h1 h2 hnear hL hR hW
    simp only [PacBioCorrectionProcess.lookahead, if_pos (And.intro h1 h2),
      if_neg (not_le.2 hnear), hL, hR, hW, Bool.not_true, Bool.or_self, Bool.false_eq_true,
      if_false, gt_iff_lt, if_pos hpos, substrFrom_append, bind, Except.bind, pure,
      Except.pure, hstrs, appendToBack_snoc]
  · intro fuel o1 hlt hlk
    simp only [PacBioCorrectionProcess.correctLoop, if_pos hlt, hlk, bind, Except.bind,
      if_neg (not_le.2 hpos), pure, Except.pure]
  · intro fuel nextTargetSeed FMWalkReturnType mergedseq targets hcs h1 h2 hT hW hne
    have hlen : ((source.2 ++ ext).length : Int) > (source.2.length : Int) := by
      have : 0 < ext.length := List.length_pos.2 hne
      simp only [List.length_append, Nat.cast_add]
      omega
    have hfirst := FMIndexWalkProcess.collectTargets_nonempty P seeds o.targetSeed
      (o.targetSeed + nextTargetSeed) fuel targets hcs h2 hT
    simp only [FMIndexWalkProcess.lookahead, if_pos (And.intro h1 h2), hT, hW, bind,
      Except.bind, hfirst, Bool.false_eq_true, if_false, gt_iff_lt, if_pos hpos, pure,
      Except.pure, substrFrom_append, hstrs, appendToBack_snoc]
    rw [if_neg (not_not.2 hlen)]
  · intro fuel o1 hlt hlk
    simp only [FMIndexWalkProcess.correctLoop, if_pos hlt, hlk, bind, Except.bind,
      if_neg (not_lt.2 (le_of_lt hpos)), pure, Except.pure]

/-- The theorem `pbSelfCorrection_successful_bridge` at the read `AAGCCGAA` with the seeds
`AA`, `CC`, `AA`, two lookahead targets and a search that fails towards `CC` and reaches the
second `AA`: at offset 1 the corrected prefix `AA` becomes the merged `AAGCCGAA`, the seed
`CC` gives no fragment, and one gap is counted, in both classes. -/
theorem pbSelfCorrection_successful_bridge_witness :
    (PacBioCorrectionProcess.PBSelfCorrection 12 islandIndex skippingTrees lookaheadParams
        ['A', 'A', 'G', 'C', 'C', 'G', 'A', 'A'] 100).map
      (fun r => (r.merge, r.totalWalkNum, r.correctedNum, r.correctedPacbioStrs))
      = .ok (true, 1, 1, [['A', 'A', 'G', 'C', 'C', 'G', 'A', 'A']]) ∧
    (FMIndexWalkProcess.PBSelfCorrection 12 islandIndex skippingTrees lookaheadParams
        ['A', 'A', 'G', 'C', 'C', 'G', 'A', 'A']).map
      (fun r => (r.merge, r.totalWalkNum, r.correctedNum, r.correctedPacbioStrs))
      = .ok (true, 1, 1, [['A', 'A', 'G', 'C', 'C', 'G', 'A', 'A']]) ∧
    PacBioCorrectionProcess.lookahead islandIndex skippingTrees lookaheadParams
        [(0, ['A', 'A']), (3, ['C', 'C']), (6, ['A', 'A'])] (0, ['A', 'A']) (5 + 1)
        { nextTargetSeed := 1, FMWalkReturnType := -3, prevFMWalkReturnType := -3,
          smallKmerSize := 1, mergedseq := [] }
        { targetSeed := 1, pacbioCorrectedStrs := [] ++ [(0, ['A', 'A'])], result := {} }
      = .ok (.finished 1
          { targetSeed := 1 + 1,
            pacbioCorrectedStrs :=
              [] ++ [(0, ['A', 'A'] ++ ['G', 'C', 'C', 'G', 'A', 'A'])],
            result := { correctedLen := 0 + 6, correctedNum := 0 + 1,
                        seedDis := 0 + (6 - 0 - 2) } }) ∧
    (1 : Int) ≤ lookaheadParams.collectedSeeds ∧
    FMIndexWalkProcess.lookahead skippingTrees lookaheadParams
        [(0, ['A', 'A']), (3, ['C', 'C']), (6, ['A', 'A'])] (0, ['A', 'A']) (5 + 1) 1 (-3) []
        { targetSeed := 1, pacbioCorrectedStrs := [] ++ [(0, ['A', 'A'])], result := {} }
      = .ok (.finished 1
          { targetSeed := 1 + 1,
            pacbioCorrectedStrs :=
              [] ++ [(0, ['A', 'A'] ++ ['G', 'C', 'C', 'G', 'A', 'A'])],
            result := { correctedLen := 0 + 6, correctedNum := 0 + 1,
                        seedDis := 0 + (6 - 0 - 2) } }) :=
  ⟨by decide, by decide,
    (pbSelfCorrection_successful_bridge islandIndex skippingTrees lookaheadParams
      ['A', 'A', 'G', 'C', 'C', 'G', 'A', 'A']
      [(0, ['A', 'A']), (3, ['C', 'C']), (6, ['A', 'A'])] (0, ['A', 'A']) []
      ['G', 'C', 'C', 'G', 'A', 'A'] 1
      { targetSeed := 1, pacbioCorrectedStrs := [] ++ [(0, ['A', 'A'])], result := {} }
      (by decide) rfl).1 5
      { nextTargetSeed := 1, FMWalkReturnType := -3, prevFMWalkReturnType := -3,
        smallKmerSize := 1, mergedseq := [] }
      (by decide) (by decide) (by decide) rfl rfl rfl,
    by decide,
    (pbSelfCorrection_successful_bridge islandIndex skippingTrees lookaheadParams
      ['A', 'A', 'G', 'C', 'C', 'G', 'A', 'A']
      [(0, ['A', 'A']), (3, ['C', 'C']), (6, ['A', 'A'])] (0, ['A', 'A']) []
      ['G', 'C', 'C', 'G', 'A', 'A'] 1
      { targetSeed := 1, pacbioCorrectedStrs := [] ++ [(0, ['A', 'A'])], result := {} }
      (by decide) rfl).2.2.1 5 1 (-3) [] [(4, ['A', 'A'])]
      (by decide) (by decide) (by decide) rfl rfl (by decide)⟩

/-- C29 (counterexample). With `collectedSeeds = 0` no target is collected for a search. Over
search trees that return code 1 and the source extended by `G` whatever the targets, the
first bridge attempt of `FMIndexWalkProcess::PBSelfCorrection` on the seeds `AA` at 0 and `CC`
at 3 succeeds with the merged sequence `AAG`, a proper extension of the corrected prefix `AA`;
the loop then reads `targets[0].first` of the empty `targets` and the run ends there: the
corrected prefix does not become the merged sequence. With one collected target the same
search bridges the gap. -/
theorem fmi_bridge_without_targets_faults :
    noTargetParams.collectedSeeds = 0 ∧
    FMIndexWalkProcess.collectTargets noTargetParams [(0, ['A', 'A']), (3, ['C', 'C'])] 1 1 5
        0 [] = .ok [] ∧
    eagerTrees.gapMergeTwoSeedsUsingHash ['A', 'A'] [] [] = (1, ['A', 'A'] ++ ['G']) ∧
    FMIndexWalkProcess.lookahead eagerTrees noTargetParams
        [(0, ['A', 'A']), (3, ['C', 'C'])] (0, ['A', 'A']) (5 + 1) 0 (-1) []
        { targetSeed := 1, pacbioCorrectedStrs := [(0, ['A', 'A'])], result := {} }
      = .error .outOfRange ∧
    (FMIndexWalkProcess.PBSelfCorrection 12 islandIndex eagerTrees noTargetParams
        ['A', 'A', 'G', 'C', 'C']).map (fun r => r.correctedPacbioStrs)
      = .error .outOfRange ∧
    (FMIndexWalkProcess.PBSelfCorrection 12 islandIndex eagerTrees exampleParams
        ['A', 'A', 'G', 'C', 'C']).map (fun r => (r.correctedNum, r.correctedPacbioStrs))
      = .ok (1, [['A', 'A', 'G']]) :=
  ⟨by decide, by decide, by decide, rfl, by decide, by decide⟩

/-! ### The three rounds of the hybrid correction -/

theorem appendToBackStr_singleton (x str : Seq) : appendToBackStr [x] str = [x ++ str] := by
  simp [appendToBackStr]

theorem hybridGapLoop_single_string (fuel : Nat) (signedAssert : Bool) (E : External)
    (T : SearchTrees) (P : Parameters) (corReadSeq : Seq) (seeds : List Seed) (round : Nat)
    (hround : round ≠ 1) :
    ∀ (remaining i : Nat) (h h' : HybridState),
      h.pacbioCorrectedStrs.length = 1 →
      hybridGapLoop fuel signedAssert E T P corReadSeq seeds round remaining i h = .ok h' →
      h'.pacbioCorrectedStrs.length = 1 ∧
      h'.result.correctedPacbioStrs = h.result.correctedPacbioStrs := by
  intro remaining
  induction remaining with
  | zero =>
    intro i h h' hl hh
    simp only [hybridGapLoop, pure, Except.pure, Except.ok.injEq] at hh
    subst hh
    exact ⟨hl, rfl⟩
  | succ n ih =>
    intro i h h' hl hh
    obtain ⟨x, hx⟩ : ∃ x, h.pacbioCorrectedStrs = [x] := List.length_eq_one.1 hl
    simp only [hybridGapLoop, bind, Except.bind] at hh
    split at hh
    · cases hh
    · rename_i v hsolve
      obtain ⟨code, mergedseq⟩ := v
      simp only at hh
      split at hh
      · cases hh
      · rename_i h1 hstep
        have hfacts : h1.pacbioCorrectedStrs.length = 1 ∧
            h1.result.correctedPacbioStrs = h.result.correctedPacbioStrs := by
          by_cases hc : code = 1
          · rw [if_pos hc] at hstep
            by_cases hg : (mergedseq.length : Int) > ((seedAt seeds (i - 1)).2.length : Int)
            · rw [if_pos hg] at hstep
              split at hstep
              · cases hstep
              · simp only [pure, Except.pure, Except.ok.injEq] at hstep
                subst hstep
                refine ⟨by simp [hx, appendToBackStr_singleton], ?_⟩
                simp only
                rw [if_neg hround]
            · rw [if_neg hg] at hstep
              simp only [pure, Except.pure, Except.ok.injEq] at hstep
              subst hstep
              exact ⟨hl, rfl⟩
          · rw [if_neg hc, if_pos hround] at hstep
            split at hstep
            · cases hstep
            · simp only [pure, Except.pure, Except.ok.injEq] at hstep
              subst hstep
              exact ⟨by simp [hx, appendToBackStr_singleton], rfl⟩
        obtain ⟨hl1, hr1⟩ := hfacts
        obtain ⟨hl2, hr2⟩ := ih _ _ h' (by simpa using hl1) hh
        refine ⟨hl2, ?_⟩
        rw [hr2, ← hr1]
        simp only
        split
        · split <;> [rfl; (split <;> [rfl; (split <;> [rfl; (split <;> rfl)])])]
        · rfl

theorem hybridGapLoop_carries_result (fuel : Nat) (signedAssert : Bool) (E : External)
    (T : SearchTrees) (P : Parameters) (corReadSeq : Seq) (seeds : List Seed) (round : Nat) :
    ∀ (remaining i : Nat) (h h' : HybridState),
      hybridGapLoop fuel signedAssert E T P corReadSeq seeds round remaining i h = .ok h' →
      h'.result.correctedPacbioStrs = h.result.correctedPacbioStrs := by
  intro remaining
  induction remaining with
  | zero =>
    intro i h h' hh
    simp only [hybridGapLoop, pure, Except.pure, Except.ok.injEq] at hh
    subst hh
    rfl
  | succ n ih =>
    intro i h h' hh
    simp only [hybridGapLoop, bind, Except.bind] at hh
    split at hh
    · cases hh
    · rename_i v hsolve
      obtain ⟨code, mergedseq⟩ := v
      simp only at hh
      split at hh
      · cases hh
      · rename_i h1 hstep
        have hfacts : h1.result.correctedPacbioStrs = h.result.correctedPacbioStrs := by
          by_cases hc : code = 1
          · rw [if_pos hc] at hstep
            by_cases hg : (mergedseq.length : Int) > ((seedAt seeds (i - 1)).2.length : Int)
            · rw [if_pos hg] at hstep
              split at hstep
              · cases hstep
              · simp only [pure, Except.pure, Except.ok.injEq] at hstep
                subst hstep
                simp only
                split <;> rfl
            · rw [if_neg hg] at hstep
              simp only [pure, Except.pure, Except.ok.injEq] at hstep
              subst hstep
              rfl
          · rw [if_neg hc] at hstep
            by_cases hr : round ≠ 1
            · rw [if_pos hr] at hstep
              split at hstep
              · cases hstep
              · simp only [pure, Except.pure, Except.ok.injEq] at hstep
                subst hstep
                rfl
            · rw [if_neg hr] at hstep
              simp only [pure, Except.pure, Except.ok.injEq] at hstep
              subst hstep
              rfl
        have hr2 := ih _ _ h' hh
        rw [hr2, ← hfacts]
        simp only
        split
        · split <;> [rfl; (split <;> [rfl; (split <;> [rfl; (split <;> rfl)])])]
        · rfl

theorem hybridRounds_round (fuel : Nat) (signedAssert : Bool) (E : External) (T : SearchTrees)
    (P : Parameters) (readSeq corReadSeq : Seq) (round : Nat) (strs : List Seq)
    (result r : PacBioCorrectionResult)
    (h : hybridRounds fuel signedAssert E T P readSeq (round + 1) corReadSeq strs result = .ok r)
    (hm : r.merge = true) :
    ∃ seeds res h1 last,
      findSeedsUsingDynamicKmerLen fuel E P corReadSeq = .ok seeds ∧ 1 ≤ seeds.length ∧
      res.correctedPacbioStrs = result.correctedPacbioStrs ∧
      hybridGapLoop fuel signedAssert E T P corReadSeq seeds (round + 1) (seeds.length - 1) 1
        { pacbioCorrectedStrs := [(seedAt seeds 0).2], result := res } = .ok h1 ∧
      h1.pacbioCorrectedStrs.getLast? = some last ∧
      hybridRounds fuel signedAssert E T P readSeq round last h1.pacbioCorrectedStrs h1.result
        = .ok r := by
  simp only [hybridRounds, bind, Except.bind] at h
  cases hs : findSeedsUsingDynamicKmerLen fuel E P corReadSeq with
  | error e => rw [hs] at h; cases h
  | ok seeds =>
    rw [hs] at h
    simp only at h
    split at h
    next hge =>
      split at h
      · cases h
      · rename_i h1 hloop
        cases hl : h1.pacbioCorrectedStrs.getLast? with
        | none => rw [hl] at h; cases h
        | some last =>
          rw [hl] at h
          exact ⟨seeds,
            { result with correctedLen := 0 + ((seedAt seeds 0).2.length : Int) }, h1, last,
            rfl, hge, rfl, hloop, hl, h⟩
    next hlt =>
      simp only [pure, Except.pure, Except.ok.injEq] at h
      subst h
      cases hm

/-- C30. `PBHybridCorrection` (both classes) makes at most three passes of seed extraction and
gap bridging, numbered 3, 2, 1. In a pass other than the last the corrected output is always
one string. A result with `merge = true` comes from three passes that each found at least one
seed: pass 3 reads the input read, pass 2 extracts its seeds from the single output string of
pass 3, pass 1 from the single output string of pass 2, and the corrected strings of the
result are exactly the strings of pass 1. -/
theorem pbHybridCorrection_three_rounds (fuel : Nat) (signedAssert : Bool) (E : External)
    (T : SearchTrees) (P : Parameters) (readSeq : Seq) :
    (∀ (corReadSeq : Seq) (seeds : List Seed) (round : Nat) (res : PacBioCorrectionResult)
        (h : HybridState), round ≠ 1 →
      hybridGapLoop fuel signedAssert E T P corReadSeq seeds round (seeds.length - 1) 1
        { pacbioCorrectedStrs := [(seedAt seeds 0).2], result := res } = .ok h →
      h.pacbioCorrectedStrs.length = 1) ∧
    (∀ r, hybridRounds fuel signedAssert E T P readSeq 3 readSeq [] {} = .ok r →
      r.merge = true →
      ∃ seeds3 res3 h3 out3 seeds2 res2 h2 out2 seeds1 res1 h1,
        findSeedsUsingDynamicKmerLen fuel E P readSeq = .ok seeds3 ∧ 1 ≤ seeds3.length ∧
        hybridGapLoop fuel signedAssert E T P readSeq seeds3 3 (seeds3.length - 1) 1
          { pacbioCorrectedStrs := [(seedAt seeds3 0).2], result := res3 } = .ok h3 ∧
        h3.pacbioCorrectedStrs = [out3] ∧
        findSeedsUsingDynamicKmerLen fuel E P out3 = .ok seeds2 ∧ 1 ≤ seeds2.length ∧
        hybridGapLoop fuel signedAssert E T P out3 seeds2 2 (seeds2.length - 1) 1
          { pacbioCorrectedStrs := [(seedAt seeds2 0).2], result := res2 } = .ok h2 ∧
        h2.pacbioCorrectedStrs = [out2] ∧
        findSeedsUsingDynamicKmerLen fuel E P out2 = .ok seeds1 ∧ 1 ≤ seeds1.length ∧
        hybridGapLoop fuel signedAssert E T P out2 seeds1 1 (seeds1.length - 1) 1
          { pacbioCorrectedStrs := [(seedAt seeds1 0).2], result := res1 } = .ok h1 ∧
        r.correctedPacbioStrs = h1.pacbioCorrectedStrs) ∧
    PacBioCorrectionProcess.PBHybridCorrection fuel E T P readSeq
      = hybridRounds fuel true E T P readSeq 3 readSeq [] {} ∧
    FMIndexWalkProcess.PBHybridCorrection fuel E T P readSeq
      = hybridRounds fuel false E T P readSeq 3 readSeq [] {} := by
  have hsingle : ∀ (corReadSeq : Seq) (seeds : List Seed) (round : Nat)
      (res : PacBioCorrectionResult) (h : HybridState), round ≠ 1 →
      hybridGapLoop fuel signedAssert E T P corReadSeq seeds round (seeds.length - 1) 1
        { pacbioCorrectedStrs := [(seedAt seeds 0).2], result := res } = .ok h →
      h.pacbioCorrectedStrs.length = 1 ∧ h.result.correctedPacbioStrs = res.correctedPacbioStrs :=
    fun corReadSeq seeds round res h hr hh =>
      hybridGapLoop_single_string fuel signedAssert E T P corReadSeq seeds round hr
        (seeds.length - 1) 1 { pacbioCorrectedStrs := [(seedAt seeds 0).2], result := res } h
        rfl hh
  refine ⟨fun c s rd res h hr hh => (hsingle c s rd res h hr hh).1, ?_, rfl, rfl⟩
  intro r hr hm
  obtain ⟨seeds3, res3, h3, out3, hs3, hn3, hres3, hl3, hlast3, hr3⟩ :=
    hybridRounds_round fuel signedAssert E T P readSeq readSeq 2 [] {} r hr hm
  obtain ⟨hlen3, hcp3⟩ := hsingle readSeq seeds3 3 res3 h3 (by decide) hl3
  obtain ⟨x3, hx3⟩ := List.length_eq_one.1 hlen3
  rw [hx3] at hlast3
  simp only [List.getLast?_singleton, Option.some.injEq] at hlast3
  subst hlast3
  obtain ⟨seeds2, res2, h2, out2, hs2, hn2, hres2, hl2, hlast2, hr2⟩ :=
    hybridRounds_round fuel signedAssert E T P readSeq x3 1 _ _ r hr3 hm
  obtain ⟨hlen2, hcp2⟩ := hsingle x3 seeds2 2 res2 h2 (by decide) hl2
  obtain ⟨x2, hx2⟩ := List.length_eq_one.1 hlen2
  rw [hx2] at hlast2
  simp only [List.getLast?_singleton, Option.some.injEq] at hlast2
  subst hlast2
  obtain ⟨seeds1, res1, h1, out1, hs1, hn1, hres1, hl1, hlast1, hr1⟩ :=
    hybridRounds_round fuel signedAssert E T P readSeq x2 0 _ _ r hr2 hm
  refine ⟨seeds3, res3, h3, x3, seeds2, res2, h2, x2, seeds1, res1, h1, hs3, hn3, hl3, hx3,
    hs2, hn2, hl2, hx2, hs1, hn1, hl1, ?_⟩
  have hcp1 := (hybridGapLoop_carries_result fuel signedAssert E T P x2 seeds1 1
    (seeds1.length - 1) 1 _ h1 hl1)
  simp only [hybridRounds, pure, Except.pure, Except.ok.injEq] at hr1
  subst hr1
  simp only at hcp1 ⊢
  rw [hcp1, hres1, hcp2, hres2, hcp3, hres3]
  rfl

/-- The theorem `pbHybridCorrection_three_rounds` at the read `GAAGCCT` with the seeds `AA` and
`CC` and a search that always fails: the first two passes copy the gap and keep one string,
`AAGCC`, the last pass cuts and returns the two fragments `AA` and `CC`, in both classes. -/
theorem pbHybridCorrection_three_rounds_witness :
    (PacBioCorrectionProcess.PBHybridCorrection 40 islandIndex failingTrees exampleParams
        ['G', 'A', 'A', 'G', 'C', 'C', 'T']).map (fun r => (r.merge, r.correctedPacbioStrs))
      = .ok (true, [['A', 'A'], ['C', 'C']]) ∧
    (FMIndexWalkProcess.PBHybridCorrection 40 islandIndex failingTrees exampleParams
        ['G', 'A', 'A', 'G', 'C', 'C', 'T']).map (fun r => (r.merge, r.correctedPacbioStrs))
      = .ok (true, [['A', 'A'], ['C', 'C']]) ∧
    (hybridGapLoop 40 true islandIndex failingTrees exampleParams
        ['G', 'A', 'A', 'G', 'C', 'C', 'T'] [(1, ['A', 'A']), (4, ['C', 'C'])] 3 1 1
        { pacbioCorrectedStrs := [['A', 'A']], result := {} }).map
          (fun h => h.pacbioCorrectedStrs) = .ok [['A', 'A', 'G', 'C', 'C']] ∧
    ∃ out3 out2 seeds1,
      findSeedsUsingDynamicKmerLen 40 islandIndex exampleParams out2 = .ok seeds1 ∧
      1 ≤ seeds1.length ∧
      findSeedsUsingDynamicKmerLen 40 islandIndex exampleParams out3 ≠ .ok [] := by
  refine ⟨by decide, by decide, by decide, ?_⟩
  obtain ⟨s3, r3, h3, o3, s2, r2, h2, o2, s1, r1, h1, _, _, _, _, hs2, hn2, _, _, hs1, hn1, _, _⟩ :=
    (pbHybridCorrection_three_rounds 40 true islandIndex failingTrees exampleParams
      ['G', 'A', 'A', 'G', 'C', 'C', 'T']).2.1
      { merge := true, totalReadsLen := 7, correctedLen := 4, totalSeedNum := 2,
        totalWalkNum := 1, highErrorNum := 1,
        correctedPacbioStrs := [['A', 'A'], ['C', 'C']] } rfl rfl
  refine ⟨o3, o2, s1, hs1, hn1, ?_⟩
  rw [hs2]
  intro h
  injection h with h
  subst h
  simp at hn2

/-! ### The retry schedule of `solveHighError` -/

theorem overlapAt_shift (M : Int) : ∀ j, overlapAt M (j + 1) = overlapAt (Int.tdiv (M * 2) 3) j := by
  intro j
  induction j with
  | zero => rfl
  | succ n ih =>
    show Int.tdiv (overlapAt M (n + 1) * 2) 3 = Int.tdiv (overlapAt (Int.tdiv (M * 2) 3) n * 2) 3
    rw [ih]

theorem overlapAt_bound (M : Int) (hM : 0 ≤ M) :
    ∀ j, 0 ≤ overlapAt M j ∧ overlapAt M j * 3 ^ j ≤ M * 2 ^ j := by
  intro j
  induction j with
  | zero => exact ⟨hM, by simp [overlapAt]⟩
  | succ n ih =>
    obtain ⟨h0, hb⟩ := ih
    have e : overlapAt M (n + 1) = overlapAt M n * 2 / 3 := tdiv_two_thirds_eq _ h0
    have h3 : overlapAt M (n + 1) * 3 ≤ overlapAt M n * 2 := by rw [e]; omega
    refine ⟨by rw [e]; omega, ?_⟩
    calc overlapAt M (n + 1) * 3 ^ (n + 1)
        = (overlapAt M (n + 1) * 3) * 3 ^ n := by ring
      _ ≤ (overlapAt M n * 2) * 3 ^ n := by
          apply Int.mul_le_mul_of_nonneg_right h3
          positivity
      _ = (overlapAt M n * 3 ^ n) * 2 := by ring
      _ ≤ (M * 2 ^ n) * 2 := by omega
      _ = M * 2 ^ (n + 1) := by ring

theorem three_halves_growth : ∀ j : Nat, 2 ^ j * (j + 2) ≤ 2 * 3 ^ j := by
  intro j
  induction j with
  | zero => simp
  | succ n ih =>
    have h1 : 2 ^ (n + 1) * (n + 1 + 2) = 2 * (2 ^ n * (n + 3)) := by ring
    have h2 : 2 * (2 ^ n * (n + 3)) ≤ 3 * (2 ^ n * (n + 2)) := by
      have : 2 ^ n * (2 * (n + 3)) ≤ 2 ^ n * (3 * (n + 2)) :=
        Nat.mul_le_mul_left _ (by omega)
      calc 2 * (2 ^ n * (n + 3)) = 2 ^ n * (2 * (n + 3)) := by ring
        _ ≤ 2 ^ n * (3 * (n + 2)) := this
        _ = 3 * (2 ^ n * (n + 2)) := by ring
    calc 2 ^ (n + 1) * (n + 1 + 2) = 2 * (2 ^ n * (n + 3)) := h1
      _ ≤ 3 * (2 ^ n * (n + 2)) := h2
      _ ≤ 3 * (2 * 3 ^ n) := Nat.mul_le_mul_left _ ih
      _ = 2 * 3 ^ (n + 1) := by ring

theorem le_floorLogThreeHalves (M j : Nat) (h : 3 ^ j ≤ M * 2 ^ j) :
    j ≤ floorLogThreeHalves M := by
  unfold floorLogThreeHalves
  refine Nat.le_findGreatest (P := fun j => 3 ^ j ≤ M * 2 ^ j) ?_ h
  have hg := three_halves_growth j
  have h2 : 2 ^ j * (j + 2) ≤ 2 ^ j * (2 * M) := by
    calc 2 ^ j * (j + 2) ≤ 2 * 3 ^ j := hg
      _ ≤ 2 * (M * 2 ^ j) := Nat.mul_le_mul_left _ h
      _ = 2 ^ j * (2 * M) := by ring
  have := Nat.le_of_mul_le_mul_left h2 (by positivity)
  omega

theorem floorLogThreeHalves_spec (M : Nat) (hM : 1 ≤ M) :
    3 ^ floorLogThreeHalves M ≤ M * 2 ^ floorLogThreeHalves M ∧
    M * 2 ^ (floorLogThreeHalves M + 1) < 3 ^ (floorLogThreeHalves M + 1) := by
  constructor
  · unfold floorLogThreeHalves
    exact Nat.findGreatest_spec (P := fun j => 3 ^ j ≤ M * 2 ^ j) (Nat.zero_le _)
      (by simpa using hM)
  · by_contra hlt
    have := le_floorLogThreeHalves M (floorLogThreeHalves M + 1) (by omega)
    omega

theorem solveHighErrorLoop_schedule (signedAssert : Bool) (E : External) (T : SearchTrees)
    (P : Parameters) (firstSeed secondSeed : Seed) (needWalkLen : Int)
    (hmin : 1 ≤ P.minKmerLength) :
    ∀ (fuel : Nat) (m : Int) (mergedseq : Seq), 1 ≤ m → overlapAt m fuel < 1 →
      ∃ n codes seqs,
        RetryRun
          (fun o s => doubleFMWalkForPacbio signedAssert E T firstSeed secondSeed o needWalkLen s)
          P.minKmerLength m mergedseq
          (solveHighErrorLoop signedAssert E T P firstSeed secondSeed needWalkLen fuel m
            mergedseq) n codes seqs := by
  intro fuel
  induction fuel with
  | zero => intro m ms h1 h2; simp only [overlapAt] at h2; omega
  | succ f ih =>
    intro m ms h1 hfuel
    cases hd : doubleFMWalkForPacbio signedAssert E T firstSeed secondSeed m needWalkLen ms with
    | error e =>
      refine ⟨1, fun _ => 0, fun _ => ms, le_refl 1, rfl, fun j hj => by omega, Or.inr ⟨e, hd, ?_⟩⟩
      simp only [solveHighErrorLoop, hd, bind, Except.bind]
    | ok r =>
      obtain ⟨c, s'⟩ := r
      by_cases hc : c ≠ 1 ∧ Int.tdiv (m * 2) 3 ≥ P.minKmerLength
      · have hloop : solveHighErrorLoop signedAssert E T P firstSeed secondSeed needWalkLen
            (f + 1) m ms
            = solveHighErrorLoop signedAssert E T P firstSeed secondSeed needWalkLen f
                (Int.tdiv (m * 2) 3) s' := by
          simp only [solveHighErrorLoop, hd, bind, Except.bind, if_pos hc]
        obtain ⟨n, codes, seqs, hn, hs0, hmid, hlast⟩ := ih (Int.tdiv (m * 2) 3) s'
          (by omega) (by rw [← overlapAt_shift]; exact hfuel)
        refine ⟨n + 1, fun j => match j with | 0 => c | j + 1 => codes j,
          fun j => match j with | 0 => ms | j + 1 => seqs j, by omega, rfl, ?_, ?_⟩
        · intro j hj
          cases j with
          | zero =>
            simp only [overlapAt, hs0]
            exact ⟨hd, hc.1, hc.2⟩
          | succ i =>
            have := hmid i (by omega)
            rw [overlapAt_shift m i, overlapAt_shift m (i + 1)]
            exact this
        · obtain ⟨k, rfl⟩ : ∃ k, n = k + 1 := ⟨n - 1, by omega⟩
          rw [Nat.add_sub_cancel] at hlast
          rw [Nat.add_sub_cancel, overlapAt_shift m k, overlapAt_shift m (k + 1), hloop]
          exact hlast
      · refine ⟨1, fun _ => c, fun j => match j with | 0 => ms | _ + 1 => s', le_refl 1, rfl,
          fun j hj => by omega, Or.inl ⟨hd, ?_, ?_⟩⟩
        · by_cases h1c : c = 1
          · exact Or.inl h1c
          · right
            show Int.tdiv (overlapAt m 0 * 2) 3 < P.minKmerLength
            simp only [overlapAt]
            by_contra hge
            exact hc ⟨h1c, by omega⟩
        · simp only [solveHighErrorLoop, hd, bind, Except.bind, if_neg hc, pure, Except.pure]

/-- C31. For `minKmerLength >= 1` and an initial overlap `M >= 1`, `solveHighError` (both
classes) tries the overlaps `m_0 = M`, `m_{j+1} = floor(2 * m_j / 3)`, each at least 1 and
smaller than the one before; it stops at the first attempt that returns 1 or as soon as the
next overlap is below `minKmerLength`; it makes `n` attempts with
`1 <= n <= 1 + floor(log_{3/2} M)`, and returns the code (and merged sequence) of the last
attempt made, or throws if that attempt throws. A budget of `1 + floor(log_{3/2} M)` loop
iterations is enough. -/
theorem solveHighError_retry_schedule (fuel : Nat) (signedAssert : Bool) (E : External)
    (T : SearchTrees) (P : Parameters) (firstSeed secondSeed : Seed)
    (M needWalkLen : Int) (mergedseq : Seq) (hmin : 1 ≤ P.minKmerLength) (hM : 1 ≤ M)
    (hfuel : 1 + floorLogThreeHalves M.toNat ≤ fuel) :
    ∃ n codes seqs,
      RetryRun
        (fun o s => doubleFMWalkForPacbio signedAssert E T firstSeed secondSeed o needWalkLen s)
        P.minKmerLength M mergedseq
        (solveHighError fuel signedAssert E T P firstSeed secondSeed M needWalkLen mergedseq)
        n codes seqs ∧
      n ≤ 1 + floorLogThreeHalves M.toNat ∧
      ∀ j, j < n → 1 ≤ overlapAt M j ∧ overlapAt M (j + 1) < overlapAt M j ∧
        overlapAt M (j + 1) = overlapAt M j * 2 / 3 := by
  have hpos : ∀ j, 1 ≤ overlapAt M j → j ≤ floorLogThreeHalves M.toNat := by
    intro j hj
    obtain ⟨_, hb⟩ := overlapAt_bound M (by omega) j
    apply le_floorLogThreeHalves
    have h1 : (3 : Int) ^ j ≤ M * 2 ^ j := by
      calc (3 : Int) ^ j = 1 * 3 ^ j := by ring
        _ ≤ overlapAt M j * 3 ^ j := Int.mul_le_mul_of_nonneg_right hj (by positivity)
        _ ≤ M * 2 ^ j := hb
    have hMn : ((M.toNat : Nat) : Int) = M := Int.toNat_of_nonneg (by omega)
    have : ((3 ^ j : Nat) : Int) ≤ ((M.toNat * 2 ^ j : Nat) : Int) := by
      push_cast
      rw [hMn]
      exact h1
    exact_mod_cast this
  have hend : overlapAt M fuel < 1 := by
    by_contra hge
    have := hpos fuel (by omega)
    omega
  obtain ⟨n, codes, seqs, hrun⟩ := solveHighErrorLoop_schedule signedAssert E T P firstSeed
    secondSeed needWalkLen hmin fuel M mergedseq hM hend
  have htried : ∀ j, j < n → 1 ≤ overlapAt M j := by
    intro j hj
    cases j with
    | zero => exact hM
    | succ i =>
      have := (hrun.2.2.1 i (by omega)).2.2
      omega
  refine ⟨n, codes, seqs, hrun, ?_, fun j hj => ?_⟩
  · have := hpos (n - 1) (htried (n - 1) (by have := hrun.1; omega))
    omega
  · have h1 := htried j hj
    have e : overlapAt M (j + 1) = overlapAt M j * 2 / 3 := tdiv_two_thirds_eq _ (by omega)
    exact ⟨h1, by rw [e]; omega, e⟩

/-- The theorem `solveHighError_retry_schedule` at the overlap 4 with a search that always
fails: the overlaps 4, 2, 1 are tried, `1 + floor(log_{3/2} 4) = 4`, and the code `-1` of the
last attempt is returned. -/
theorem solveHighError_retry_schedule_witness :
    floorLogThreeHalves 4 = 3 ∧
    (overlapAt 4 0, overlapAt 4 1, overlapAt 4 2, overlapAt 4 3) = (4, 2, 1, 0) ∧
    solveHighError 4 true exampleIndex failingTrees exampleParams (0, ['A', 'C', 'G', 'T'])
        (6, ['G', 'G', 'T', 'A']) 4 2 [] = .ok (-1, []) ∧
    ∃ n codes seqs,
      RetryRun
        (fun o s => doubleFMWalkForPacbio true exampleIndex failingTrees
          (0, ['A', 'C', 'G', 'T']) (6, ['G', 'G', 'T', 'A']) o 2 s)
        exampleParams.minKmerLength 4 []
        (solveHighError 4 true exampleIndex failingTrees exampleParams
          (0, ['A', 'C', 'G', 'T']) (6, ['G', 'G', 'T', 'A']) 4 2 [])
        n codes seqs ∧
      n ≤ 1 + floorLogThreeHalves (4 : Int).toNat ∧
      ∀ j, j < n → 1 ≤ overlapAt 4 j ∧ overlapAt 4 (j + 1) < overlapAt 4 j ∧
        overlapAt 4 (j + 1) = overlapAt 4 j * 2 / 3 :=
  ⟨by decide, by decide, by decide,
    solveHighError_retry_schedule 4 true exampleIndex failingTrees exampleParams
      (0, ['A', 'C', 'G', 'T']) (6, ['G', 'G', 'T', 'A']) 4 2 [] (by decide) (by decide)
      (by decide)⟩

/-- C32 (amended). For `0 <= minOverlap < 2^64`, `isSuitableForFMWalk` returns true if and
only if both prefixes have length at least `minOverlap` and each prefix's occurrence count
is below the integer part of `1.3 * median`, that is `count + 1 <= 1.3 * median`
(`10 * (count + 1) <= 13 * median`): the threshold is truncated to `size_t` before the
comparison. -/
theorem isSuitableForFMWalk_iff_below_truncated_threshold (E : External) (P : Parameters)
    (seqFirst seqSecond : Seq) (h0 : 0 ≤ P.minOverlap)
    (h64 : P.minOverlap < 18446744073709551616) :
    FMIndexWalkProcess.isSuitableForFMWalk E P seqFirst seqSecond = true ↔
      (P.minOverlap ≤ (seqFirst.length : Int) ∧ P.minOverlap ≤ (seqSecond.length : Int)) ∧
      10 * (E.countSequenceOccurrencesBWT seqFirst + 1) ≤ 13 * E.median ∧
      10 * (E.countSequenceOccurrencesBWT seqSecond + 1) ≤ 13 * E.median := by
  have hsz : ((toSizeT P.minOverlap : Nat) : Int) = P.minOverlap := by
    unfold toSizeT
    rw [Int.emod_eq_of_lt h0 h64]
    exact Int.toNat_of_nonneg h0
  have hlt : ∀ c : Nat, c < E.median * 13 / 10 ↔ 10 * (c + 1) ≤ 13 * E.median := by
    intro c
    rw [Nat.lt_iff_add_one_le, Nat.le_div_iff_mul_le (by decide)]
    omega
  unfold FMIndexWalkProcess.isSuitableForFMWalk
  by_cases hl : seqFirst.length ≥ toSizeT P.minOverlap ∧
      seqSecond.length ≥ toSizeT P.minOverlap
  · have hl2 : P.minOverlap ≤ (seqFirst.length : Int) ∧
        P.minOverlap ≤ (seqSecond.length : Int) := by
      obtain ⟨a, b⟩ := hl
      constructor <;> omega
    simp only [hl, hl2, and_self, decide_True, Bool.not_true, Bool.false_eq_true, if_false,
      Bool.and_eq_true, decide_eq_true_eq, hlt, true_and]
  · have hl2 : ¬ (P.minOverlap ≤ (seqFirst.length : Int) ∧
        P.minOverlap ≤ (seqSecond.length : Int)) := by
      intro h
      apply hl
      obtain ⟨a, b⟩ := h
      constructor <;> omega
    simp only [hl, hl2, decide_False, Bool.not_false, if_true, Bool.false_eq_true, false_and]

/-- The theorem `isSuitableForFMWalk_iff_below_truncated_threshold` at the prefixes `AA` and
`AC` over an index in which every word occurs 3 times and the median is 10: the threshold is
13 and the gate opens. -/
theorem isSuitableForFMWalk_iff_below_truncated_threshold_witness :
    FMIndexWalkProcess.isSuitableForFMWalk exampleIndex exampleParams ['A', 'A'] ['A', 'C'] = true ∧
    (FMIndexWalkProcess.isSuitableForFMWalk exampleIndex exampleParams ['A', 'A'] ['A', 'C'] = true ↔
      (exampleParams.minOverlap ≤ ((['A', 'A'] : Seq).length : Int) ∧
        exampleParams.minOverlap ≤ ((['A', 'C'] : Seq).length : Int)) ∧
      10 * (exampleIndex.countSequenceOccurrencesBWT ['A', 'A'] + 1) ≤ 13 * exampleIndex.median ∧
      10 * (exampleIndex.countSequenceOccurrencesBWT ['A', 'C'] + 1)
        ≤ 13 * exampleIndex.median) :=
  ⟨by decide, isSuitableForFMWalk_iff_below_truncated_threshold exampleIndex exampleParams
    ['A', 'A'] ['A', 'C'] (by decide) (by decide)⟩

/-- C32 (counterexample). With median 3 the bound `1.3 * median` is 3.9; the prefixes `AA`
and `AC` have length 2 = `minOverlap` and occur 3 times each, so each count is below
`1.3 * median` (`10 * 3 < 13 * 3`), yet `isSuitableForFMWalk` returns false: the count is
compared with the truncated threshold 3. -/
theorem isSuitableForFMWalk_rejects_count_below_bound :
    exampleParams.minOverlap ≤ ((['A', 'A'] : Seq).length : Int) ∧
    exampleParams.minOverlap ≤ ((['A', 'C'] : Seq).length : Int) ∧
    10 * forwardStrandIndex.countSequenceOccurrencesBWT ['A', 'A']
      < 13 * forwardStrandIndex.median ∧
    10 * forwardStrandIndex.countSequenceOccurrencesBWT ['A', 'C']
      < 13 * forwardStrandIndex.median ∧
    FMIndexWalkProcess.isSuitableForFMWalk forwardStrandIndex exampleParams ['A', 'A'] ['A', 'C'] = false := by
  decide

/-! ### Pair-merge-only mode -/

set_option maxRecDepth 100000 in
/-- C33 (failing behaviour). `MergePairedReads` has no test on the leaves used: for the pair
`ACGT`, `TTGA`, whose first directional search succeeds with three leaves while the second
finds nothing, it returns `merge = true` with the sequence of the first search; the sibling
`MergeAndKmerize`, which requires `getMaxUsedLeaves() <= 1` of both searches, does not merge
the same pair. -/
theorem mergePairedReads_accepts_branching_walk :
    (branchingTrees.mergeTwoReads ['A', 'C'] (exampleIndex.reverseComplement ['T', 'T'])
      8).maxUsedLeaves = 3 ∧
    (branchingTrees.mergeTwoReads ['T', 'T'] (exampleIndex.reverseComplement ['A', 'C'])
      8).mergedseq = [] ∧
    (FMIndexWalkProcess.MergePairedReads 8 exampleIndex branchingTrees exampleParams
        ['A', 'C', 'G', 'T'] ['T', 'T', 'G', 'A']).map (fun r => (r.merge, r.correctSequence))
      = .ok (true, ['A', 'C', 'G', 'T']) ∧
    (FMIndexWalkProcess.MergeAndKmerize 8 exampleIndex branchingTrees exampleParams 2
        ['A', 'C', 'G', 'T'] ['T', 'T', 'G', 'A']).map (fun r => r.merge) = .ok false :=
  ⟨by decide, by decide, by decide, by decide⟩

/-! ### The contamination filter of the solid-k-mer extractor -/

/-- C35 (failing behaviour). In the read `AAG` (k = 2, threshold 5, cutoff 100) the run of
qualifying k-mers is the single k-mer `AA` at position 0, with combined count 6 < 100; the
k-mer `AG` that ends the run does not qualify (its reverse complement does not occur) but
has combined count 1000, and `searchingSeedsUsingSolidKmer` returns no seed: `maxKmerFreq` is
updated before the qualification test. In the read `AAC`, where the k-mer after the run is
absent from the index, the same run is returned as the seed `(0, AA)`. -/
theorem pacbio_seed_dropped_by_kmer_outside_run :
    PacBioCorrectionProcess.isSolid exampleParams
      (repeatIndex.countSequenceOccurrencesSingleStrand ['A', 'A'])
      (repeatIndex.countSequenceOccurrencesSingleStrand
        (repeatIndex.reverseComplement ['A', 'A'])) = true ∧
    repeatIndex.countSequenceOccurrencesSingleStrand ['A', 'A']
      + repeatIndex.countSequenceOccurrencesSingleStrand
          (repeatIndex.reverseComplement ['A', 'A']) = 6 ∧
    PacBioCorrectionProcess.isSolid exampleParams
      (repeatIndex.countSequenceOccurrencesSingleStrand ['A', 'G'])
      (repeatIndex.countSequenceOccurrencesSingleStrand
        (repeatIndex.reverseComplement ['A', 'G'])) = false ∧
    PacBioCorrectionProcess.isSolid exampleParams
      (repeatIndex.countSequenceOccurrencesSingleStrand ['A', 'C'])
      (repeatIndex.countSequenceOccurrencesSingleStrand
        (repeatIndex.reverseComplement ['A', 'C'])) = false ∧
    PacBioCorrectionProcess.searchingSeedsUsingSolidKmer 8 repeatIndex exampleParams
      ['A', 'A', 'G'] 100 = .ok [] ∧
    PacBioCorrectionProcess.searchingSeedsUsingSolidKmer 8 repeatIndex exampleParams
      ['A', 'A', 'C'] 100 = .ok [(0, ['A', 'A'])] :=
  ⟨by decide, by decide, by decide, by decide, by decide, by decide⟩

/-! ### `correctedLen` when fragments are cut -/

theorem totalLength_append (a b : List Seq) :
    totalLength (a ++ b) = totalLength a + totalLength b := by
  simp [totalLength]

theorem totalLength_singleton (s : Seq) : totalLength [s] = (s.length : Int) := by
  simp [totalLength]

theorem appendToBack_total (strs : List Seed) (str : Seq) (hne : strs ≠ []) :
    appendToBack strs str ≠ [] ∧
    totalLength ((appendToBack strs str).map Prod.snd)
      = totalLength (strs.map Prod.snd) + (str.length : Int) := by
  obtain ⟨rest, last, rfl⟩ : ∃ rest last, strs = rest ++ [last] :=
    ⟨strs.dropLast, strs.getLast hne, (List.dropLast_append_getLast hne).symm⟩
  rw [appendToBack_snoc]
  refine ⟨by simp, ?_⟩
  simp only [List.map_append, List.map_cons, List.map_nil, totalLength_append,
    totalLength_singleton, List.length_append]
  push_cast
  ring

theorem appendToBackStr_total (strs : List Seq) (str : Seq) (hne : strs ≠ []) :
    appendToBackStr strs str ≠ [] ∧
    totalLength (appendToBackStr strs str) = totalLength strs + (str.length : Int) := by
  obtain ⟨rest, last, rfl⟩ : ∃ rest last, strs = rest ++ [last] :=
    ⟨strs.dropLast, strs.getLast hne, (List.dropLast_append_getLast hne).symm⟩
  have e : appendToBackStr (rest ++ [last]) str = rest ++ [last ++ str] := by
    simp [appendToBackStr]
  rw [e]
  refine ⟨by simp, ?_⟩
  simp only [totalLength_append, totalLength_singleton, List.length_append]
  push_cast
  ring

namespace PacBioCorrectionProcess

theorem lookahead_cut (E : External) (T : SearchTrees) (P : Parameters)
    (seeds : List Seed) (source : Seed) :
    ∀ (fuel : Nat) (s : LookaheadState) (o : CorrectionState)
      (x : LookaheadExit CorrectionState),
      lookahead E T P seeds source fuel s o = .ok x → CutInvariant o →
      (∀ result, x = .returned result → result.merge = false) ∧
      (∀ code o1, x = .finished code o1 → CutInvariant o1) := by
  intro fuel
  induction fuel with
  | zero => intro s o x h; simp only [lookahead] at h; cases h
  | succ n ih =>
    intro s o x h hinv
    simp only [lookahead] at h
    split at h
    next hcond =>
      split at h
      next hfar =>
        injection h with h
        subst h
        refine ⟨fun _ hx => (by cases hx), fun code o1 hx => ?_⟩
        injection hx with hc ho
        subst hc ho
        exact hinv
      next hnear =>
        split at h
        · injection h with h
          subst h
          exact ⟨fun _ hx => by injection hx with hx; rw [← hx]; exact hinv.2.2.1,
            fun _ _ hx => by cases hx⟩
        · split at h
          next hpos =>
            simp only [bind, Except.bind, pure, Except.pure] at h
            split at h
            · cases h
            · injection h with h
              subst h
              refine ⟨fun _ hx => (by cases hx), fun code o1 hx => ?_⟩
              injection hx with hc ho
              subst hc ho
              obtain ⟨hne, hlen, hm, hs⟩ := hinv
              obtain ⟨hne2, htot⟩ := appendToBack_total o.pacbioCorrectedStrs _ hne
              exact ⟨hne2, by simp only [htot, hlen], hm, hs⟩
          next hnpos =>
            split at h
            · injection h with h
              subst h
              refine ⟨fun _ hx => (by cases hx), fun code o1 hx => ?_⟩
              injection hx with hc ho
              subst hc ho
              exact hinv
            · exact ih _ o x h hinv
    next hncond =>
      injection h with h
      subst h
      refine ⟨fun _ hx => (by cases hx), fun code o1 hx => ?_⟩
      injection hx with hc ho
      subst hc ho
      exact hinv

theorem onFailure_cut (P : Parameters) (readSeq : Seq) (seeds : List Seed) (code : Int)
    (o o2 : CorrectionState) (hsplit : P.isSplit = true)
    (h : onFailure P readSeq seeds code o = .ok o2) (hinv : CutInvariant o) :
    CutInvariant o2 := by
  simp only [onFailure, hsplit, Bool.not_true, Bool.false_eq_true, if_false, bind,
    Except.bind, pure, Except.pure] at h
  injection h with h
  subst h
  obtain ⟨hne, hlen, hm, hs⟩ := hinv
  refine ⟨by simp, ?_, ?_, ?_⟩
  · simp only [List.map_append, List.map_cons, List.map_nil, totalLength_append,
      totalLength_singleton, hlen]
    split <;> [rfl; (split <;> [rfl; (split <;> rfl)])]
  · simp only; split <;> [exact hm; (split <;> [exact hm; (split <;> exact hm)])]
  · simp only; split <;> [exact hs; (split <;> [exact hs; (split <;> exact hs)])]

theorem correctLoop_cut (E : External) (T : SearchTrees) (P : Parameters)
    (readSeq : Seq) (seeds : List Seed) (hsplit : P.isSplit = true) :
    ∀ (fuel : Nat) (o : CorrectionState) (r : PacBioCorrectionResult),
      correctLoop E T P readSeq seeds fuel o = .ok r → r.merge = true → CutInvariant o →
      r.correctedLen = totalLength r.correctedPacbioStrs := by
  intro fuel
  induction fuel with
  | zero => intro o r h; simp only [correctLoop] at h; cases h
  | succ n ih =>
    intro o r h hm hinv
    simp only [correctLoop, bind, Except.bind, pure, Except.pure] at h
    split at h
    next hlt =>
      cases hlk : lookahead E T P seeds (o.pacbioCorrectedStrs.getLastD (0, [])) n
          { nextTargetSeed := 0, FMWalkReturnType := 0, prevFMWalkReturnType := 0,
            smallKmerSize := P.minKmerLength, mergedseq := [] } o with
      | error e => rw [hlk] at h; cases h
      | ok x =>
        rw [hlk] at h
        obtain ⟨hret, hfin⟩ := lookahead_cut E T P seeds _ n _ o x hlk hinv
        cases x with
        | returned result =>
          simp only at h
          injection h with h
          have := hret result rfl
          rw [← h, this] at hm
          cases hm
        | finished code o1 =>
          simp only at h
          have hinv1 := hfin code o1 rfl
          cases ho2 : (if code ≤ 0 then onFailure P readSeq seeds code o1
              else (Except.ok o1 : Run CorrectionState)) with
          | error e => rw [ho2] at h; cases h
          | ok o2 =>
            rw [ho2] at h
            simp only at h
            have hinv2 : CutInvariant o2 := by
              by_cases hc : code ≤ 0
              · rw [if_pos hc] at ho2
                exact onFailure_cut P readSeq seeds code o1 o2 hsplit ho2 hinv1
              · rw [if_neg hc] at ho2
                injection ho2 with ho2
                subst ho2
                exact hinv1
            exact ih _ r h hm hinv2
    next hge =>
      injection h with h
      subst h
      obtain ⟨hne, hlen, hm0, hs⟩ := hinv
      simp only [hs, List.nil_append, hlen]

end PacBioCorrectionProcess

theorem hybridGapLoop_cut (fuel : Nat) (signedAssert : Bool) (E : External)
    (T : SearchTrees) (P : Parameters) (corReadSeq : Seq) (seeds : List Seed) :
    ∀ (remaining i : Nat) (h h' : HybridState),
      hybridGapLoop fuel signedAssert E T P corReadSeq seeds 1 remaining i h = .ok h' →
      h.pacbioCorrectedStrs ≠ [] →
      h.result.correctedLen = totalLength h.pacbioCorrectedStrs →
      h'.pacbioCorrectedStrs ≠ [] ∧
      h'.result.correctedLen = totalLength h'.pacbioCorrectedStrs := by
  intro remaining
  induction remaining with
  | zero =>
    intro i h h' hh hne hlen
    simp only [hybridGapLoop, pure, Except.pure, Except.ok.injEq] at hh
    subst hh
    exact ⟨hne, hlen⟩
  | succ n ih =>
    intro i h h' hh hne hlen
    simp only [hybridGapLoop, bind, Except.bind] at hh
    split at hh
    · cases hh
    · rename_i v hsolve
      obtain ⟨code, mergedseq⟩ := v
      simp only at hh
      split at hh
      · cases hh
      · rename_i h1 hstep
        have hfacts : h1.pacbioCorrectedStrs ≠ [] ∧
            h1.result.correctedLen = totalLength h1.pacbioCorrectedStrs := by
          by_cases hc : code = 1
          · rw [if_pos hc] at hstep
            by_cases hg : (mergedseq.length : Int) > ((seedAt seeds (i - 1)).2.length : Int)
            · rw [if_pos hg] at hstep
              split at hstep
              · cases hstep
              · simp only [pure, Except.pure, Except.ok.injEq] at hstep
                subst hstep
                obtain ⟨hne2, htot⟩ := appendToBackStr_total h.pacbioCorrectedStrs _ hne
                exact ⟨hne2, by simp only [if_true, htot, hlen]⟩
            · rw [if_neg hg] at hstep
              simp only [pure, Except.pure, Except.ok.injEq] at hstep
              subst hstep
              exact ⟨hne, hlen⟩
          · rw [if_neg hc, if_neg (by simp)] at hstep
            simp only [pure, Except.pure, Except.ok.injEq] at hstep
            subst hstep
            refine ⟨by simp, ?_⟩
            simp only [totalLength_append, totalLength_singleton, hlen]
        obtain ⟨hne1, hlen1⟩ := hfacts
        exact ih _ _ h' hh (by simpa using hne1) (by simpa using hlen1)

theorem hybridRounds_cut (fuel : Nat) (signedAssert : Bool) (E : External) (T : SearchTrees)
    (P : Parameters) (readSeq : Seq) :
    ∀ (round : Nat) (corReadSeq : Seq) (strs : List Seq) (result r : PacBioCorrectionResult),
      hybridRounds fuel signedAssert E T P readSeq round corReadSeq strs result = .ok r →
      r.merge = true → result.correctedPacbioStrs = [] →
      (round = 0 → result.correctedLen = totalLength strs) →
      r.correctedLen = totalLength r.correctedPacbioStrs := by
  intro round
  induction round with
  | zero =>
    intro corReadSeq strs result r h hm hs hlen
    simp only [hybridRounds, pure, Except.pure, Except.ok.injEq] at h
    subst h
    simp only [hs, List.nil_append, hlen rfl]
  | succ n ih =>
    intro corReadSeq strs result r h hm hs _
    simp only [hybridRounds, bind, Except.bind] at h
    cases hseeds : findSeedsUsingDynamicKmerLen fuel E P corReadSeq with
    | error e => rw [hseeds] at h; cases h
    | ok seeds =>
      rw [hseeds] at h
      simp only at h
      split at h
      next hge =>
        split at h
        · cases h
        · rename_i h1 hloop
          split at h
          · cases h
          · rename_i last hl
            refine ih last h1.pacbioCorrectedStrs h1.result r h hm ?_ ?_
            · rw [hybridGapLoop_carries_result fuel signedAssert E T P corReadSeq seeds (n + 1)
                _ _ _ h1 hloop]
              exact hs
            · intro hn
              subst hn
              exact (hybridGapLoop_cut fuel signedAssert E T P corReadSeq seeds _ _ _ h1 hloop
                (by simp) (by simp [totalLength_singleton])).2
      next hlt =>
        simp only [pure, Except.pure, Except.ok.injEq] at h
        subst h
        cases hm

/-- C38. When fragments are cut rather than copied over, every result with `merge = true`
has `correctedLen` equal to the sum of the lengths of its corrected strings: for
`PacBioCorrectionProcess::PBSelfCorrection` with `isSplit = true`, and for
`PBHybridCorrection` (whose last round cuts), on every read, index, search and fuel. -/
theorem correctedLen_is_sum_of_fragment_lengths (fuel : Nat) (E : External) (T : SearchTrees)
    (P : Parameters) (readSeq : Seq) (contaminatedCutoff : Nat) (r : PacBioCorrectionResult)
    (h : (P.isSplit = true ∧
          PacBioCorrectionProcess.PBSelfCorrection fuel E T P readSeq contaminatedCutoff = .ok r)
        ∨ PacBioCorrectionProcess.PBHybridCorrection fuel E T P readSeq = .ok r)
    (hm : r.merge = true) :
    r.correctedLen = totalLength r.correctedPacbioStrs := by
  rcases h with ⟨hsplit, h⟩ | h
  · simp only [PacBioCorrectionProcess.PBSelfCorrection, bind, Except.bind] at h
    cases hs : PacBioCorrectionProcess.searchingSeedsUsingSolidKmer fuel E P readSeq
        contaminatedCutoff with
    | error e => rw [hs] at h; cases h
    | ok seeds =>
      rw [hs] at h
      simp only at h
      split at h
      · refine PacBioCorrectionProcess.correctLoop_cut E T P readSeq seeds hsplit fuel _ r h hm
          ⟨by simp, ?_, rfl, rfl⟩
        simp [totalLength_singleton]
      · injection h with h
        subst h
        cases hm
  · exact hybridRounds_cut fuel true E T P readSeq 3 readSeq [] {} r h hm rfl
      (fun h3 => by cases h3)

/-- The theorem `correctedLen_is_sum_of_fragment_lengths` at the reads `AAGCC` (self
correction in split mode) and `GAAGCCT` (hybrid correction) with a search that always fails:
the fragments `AA` and `CC` are returned and `correctedLen` is 4. -/
theorem correctedLen_is_sum_of_fragment_lengths_witness :
    (PacBioCorrectionProcess.PBSelfCorrection 8 islandIndex failingTrees exampleSplitParams
        ['A', 'A', 'G', 'C', 'C'] 100).map
          (fun r => (r.merge, r.correctedLen, r.correctedPacbioStrs))
      = .ok (true, 4, [['A', 'A'], ['C', 'C']]) ∧
    (PacBioCorrectionProcess.PBHybridCorrection 40 islandIndex failingTrees exampleParams
        ['G', 'A', 'A', 'G', 'C', 'C', 'T']).map
          (fun r => (r.merge, r.correctedLen, r.correctedPacbioStrs))
      = .ok (true, 4, [['A', 'A'], ['C', 'C']]) ∧
    (4 : Int) = totalLength [['A', 'A'], ['C', 'C']] ∧
    (4 : Int) = totalLength [['A', 'A'], ['C', 'C']] :=
  ⟨by decide, by decide,
    correctedLen_is_sum_of_fragment_lengths 8 islandIndex failingTrees exampleSplitParams
      ['A', 'A', 'G', 'C', 'C'] 100
      { merge := true, totalReadsLen := 5, correctedLen := 4, totalSeedNum := 2,
        totalWalkNum := 1, highErrorNum := 1, seedDis := 1,
        correctedPacbioStrs := [['A', 'A'], ['C', 'C']] } (Or.inl ⟨rfl, rfl⟩) rfl,
    correctedLen_is_sum_of_fragment_lengths 40 islandIndex failingTrees exampleParams
      ['G', 'A', 'A', 'G', 'C', 'C', 'T'] 100
      { merge := true, totalReadsLen := 7, correctedLen := 4, totalSeedNum := 2,
        totalWalkNum := 1, highErrorNum := 1,
        correctedPacbioStrs := [['A', 'A'], ['C', 'C']] } (Or.inr rfl) rfl⟩

/-! ### The entry assertion of `doubleFMWalkForPacbio` in the hybrid correction -/

theorem doubleFMWalkForPacbio_entry (signedAssert : Bool) (E : External) (T : SearchTrees)
    (firstSeed secondSeed : Seed) (minOverlap needWalkLen : Int) (mergedseq : Seq) :
    doubleFMWalkForPacbio signedAssert E T firstSeed secondSeed minOverlap needWalkLen mergedseq
      = if entryAssertion signedAssert firstSeed secondSeed minOverlap then
          doubleFMWalkAfterAssert E T firstSeed secondSeed minOverlap needWalkLen mergedseq
        else .error .assertion := by
  unfold doubleFMWalkForPacbio entryAssertion doubleFMWalkAfterAssert
  simp only [Bool.and_eq_true]
  by_cases h : ((if signedAssert = true then decide (minOverlap ≤ (firstSeed.2.length : Int))
        else decide (toSizeT minOverlap ≤ firstSeed.2.length)) = true ∧
      (if signedAssert = true then decide (minOverlap ≤ (secondSeed.2.length : Int))
        else decide (toSizeT minOverlap ≤ secondSeed.2.length)) = true)
  · rw [if_neg (not_not.2 h), if_pos h]
  · rw [if_pos h, if_neg h]

theorem solveHighErrorLoop_eq_retryLoop (signedAssert : Bool) (E : External) (T : SearchTrees)
    (P : Parameters) (firstSeed secondSeed : Seed) (needWalkLen : Int) :
    ∀ (fuel : Nat) (m : Int) (mergedseq : Seq),
      solveHighErrorLoop signedAssert E T P firstSeed secondSeed needWalkLen fuel m mergedseq
        = retryLoop (fun o s => doubleFMWalkForPacbio signedAssert E T firstSeed secondSeed o
            needWalkLen s) P.minKmerLength fuel m mergedseq := by
  intro fuel
  induction fuel with
  | zero => intro m ms; rfl
  | succ n ih =>
    intro m ms
    simp only [solveHighErrorLoop, retryLoop, ih]

theorem retryLoop_congr (a b : Int → Seq → Run (Int × Seq)) (minKmerLength : Int) :
    ∀ (fuel : Nat) (m : Int) (mergedseq : Seq),
      (∀ j s, a (overlapAt m j) s = b (overlapAt m j) s) →
      retryLoop a minKmerLength fuel m mergedseq = retryLoop b minKmerLength fuel m mergedseq := by
  intro fuel
  induction fuel with
  | zero => intro m ms _; rfl
  | succ n ih =>
    intro m ms h
    have h0 : a m ms = b m ms := h 0 ms
    have hstep : ∀ s, retryLoop a minKmerLength n (Int.tdiv (m * 2) 3) s
        = retryLoop b minKmerLength n (Int.tdiv (m * 2) 3) s := fun s =>
      ih (Int.tdiv (m * 2) 3) s (fun j s => by
        have := h (j + 1) s
        rwa [overlapAt_shift] at this)
    simp only [retryLoop, h0, hstep]

theorem overlapAt_le (len : Int) (hlen : 0 ≤ len) :
    ∀ (j : Nat) (m : Int), m ≤ len → overlapAt m j ≤ len := by
  intro j
  induction j with
  | zero => intro m h; exact h
  | succ n ih =>
    intro m h
    rw [overlapAt_shift]
    apply ih
    by_cases hm : 0 ≤ m
    · rw [tdiv_two_thirds_eq m hm]
      omega
    · have := tdiv_two_thirds_nonpos m (by omega)
      omega

theorem hybridGapLoop_attempt_ok (fuel : Nat) (signedAssert : Bool) (E : External)
    (T : SearchTrees) (P : Parameters) (corReadSeq : Seq) (seeds : List Seed)
    (round remaining i : Nat) (h h' : HybridState)
    (hh : hybridGapLoop fuel signedAssert E T P corReadSeq seeds round (remaining + 1) i h
      = .ok h') :
    ∃ r, solveHighError fuel signedAssert E T P (seedAt seeds (i - 1)) (seedAt seeds i)
      (hybridMinOverlap P (seedAt seeds (i - 1)) (seedAt seeds i))
      ((seedAt seeds i).1 - (seedAt seeds (i - 1)).1 - ((seedAt seeds (i - 1)).2.length : Int))
      [] = .ok r := by
  simp only [hybridGapLoop, bind, Except.bind] at hh
  split at hh
  · cases hh
  · rename_i v hsolve
    exact ⟨v, hsolve⟩

theorem hybridGapLoop_attempt_error (fuel : Nat) (signedAssert : Bool) (E : External)
    (T : SearchTrees) (P : Parameters) (corReadSeq : Seq) (seeds : List Seed)
    (round remaining i : Nat) (h : HybridState) (e : Fault)
    (hs : solveHighError fuel signedAssert E T P (seedAt seeds (i - 1)) (seedAt seeds i)
      (hybridMinOverlap P (seedAt seeds (i - 1)) (seedAt seeds i))
      ((seedAt seeds i).1 - (seedAt seeds (i - 1)).1 - ((seedAt seeds (i - 1)).2.length : Int))
      [] = .error e) :
    hybridGapLoop fuel signedAssert E T P corReadSeq seeds round (remaining + 1) i h
      = .error e := by
  unfold hybridMinOverlap at hs
  simp only [hybridGapLoop, bind, Except.bind, hs]

/-- C39. In `PacBioCorrectionProcess::PBHybridCorrection` (every `int` value of `maxOverlap`,
every pair of seeds) the minimum overlap chosen for a gap exceeds the length of neither seed,
and neither does any overlap `m_j` of the retry schedule of `solveHighError`; the assertion
that opens `doubleFMWalkForPacbio` therefore holds on every call, and `solveHighError` runs
as the same loop over `doubleFMWalkForPacbio` without that assertion. -/
theorem hybrid_min_overlap_within_both_seeds (P : Parameters) (source target : Seed)
    (hmax : P.maxOverlap < 18446744073709551616) :
    (hybridMinOverlap P source target ≤ (source.2.length : Int) ∧
      hybridMinOverlap P source target ≤ (target.2.length : Int)) ∧
    (∀ j, overlapAt (hybridMinOverlap P source target) j ≤ (source.2.length : Int) ∧
      overlapAt (hybridMinOverlap P source target) j ≤ (target.2.length : Int) ∧
      entryAssertion true source target (overlapAt (hybridMinOverlap P source target) j)
        = true) ∧
    ∀ (fuel : Nat) (E : External) (T : SearchTrees) (needWalkLen : Int) (mergedseq : Seq),
      solveHighError fuel true E T P source target (hybridMinOverlap P source target)
          needWalkLen mergedseq
        = retryLoop (fun o s => doubleFMWalkAfterAssert E T source target o needWalkLen s)
            P.minKmerLength fuel (hybridMinOverlap P source target) mergedseq := by
  have hchoice : hybridMinOverlap P source target ≤ (source.2.length : Int) ∧
      hybridMinOverlap P source target ≤ (target.2.length : Int) := by
    unfold hybridMinOverlap
    split
    next hboth =>
      obtain ⟨h1, h2⟩ := hboth
      by_cases hneg : P.maxOverlap < 0
      · constructor <;> omega
      · have hsz : ((toSizeT P.maxOverlap : Nat) : Int) = P.maxOverlap := by
          unfold toSizeT
          rw [Int.emod_eq_of_lt (by omega) hmax]
          exact Int.toNat_of_nonneg (by omega)
        constructor <;> omega
    next hnot =>
      split <;> constructor <;> omega
  have hall : ∀ j, overlapAt (hybridMinOverlap P source target) j ≤ (source.2.length : Int) ∧
      overlapAt (hybridMinOverlap P source target) j ≤ (target.2.length : Int) := fun j =>
    ⟨overlapAt_le _ (by omega) j _ hchoice.1, overlapAt_le _ (by omega) j _ hchoice.2⟩
  have hentry : ∀ j, entryAssertion true source target
      (overlapAt (hybridMinOverlap P source target) j) = true := by
    intro j
    obtain ⟨h1, h2⟩ := hall j
    simp only [entryAssertion, if_true, Bool.and_eq_true, decide_eq_true_eq]
    exact ⟨h1, h2⟩
  refine ⟨hchoice, fun j => ⟨(hall j).1, (hall j).2, hentry j⟩, ?_⟩
  intro fuel E T needWalkLen mergedseq
  unfold solveHighError
  rw [solveHighErrorLoop_eq_retryLoop]
  apply retryLoop_congr
  intro j s
  rw [doubleFMWalkForPacbio_entry, hentry j, if_pos rfl]

/-- The theorem `hybrid_min_overlap_within_both_seeds` at `maxOverlap = 3` and the seeds
`ACGT`, `GGTA`: the chosen overlap is 1, and seeds shorter than `maxOverlap` give the length
of the shorter one. -/
theorem hybrid_min_overlap_within_both_seeds_witness :
    hybridMinOverlap exampleParams (0, ['A', 'C', 'G', 'T']) (6, ['G', 'G', 'T', 'A']) = 1 ∧
    hybridMinOverlap exampleParams (0, ['A', 'C']) (6, ['G', 'G', 'T', 'A']) = 2 ∧
    (hybridMinOverlap exampleParams (0, ['A', 'C', 'G', 'T']) (6, ['G', 'G', 'T', 'A'])
        ≤ (((0, ['A', 'C', 'G', 'T']) : Seed).2.length : Int) ∧
      hybridMinOverlap exampleParams (0, ['A', 'C', 'G', 'T']) (6, ['G', 'G', 'T', 'A'])
        ≤ (((6, ['G', 'G', 'T', 'A']) : Seed).2.length : Int)) :=
  ⟨by decide, by decide,
    (hybrid_min_overlap_within_both_seeds exampleParams (0, ['A', 'C', 'G', 'T'])
      (6, ['G', 'G', 'T', 'A']) (by decide)).1⟩

/-! ### The streaming classification against a direct lookup -/

theorem tracks_refl (iv : BWTInterval) : Tracks iv iv :=
  ⟨fun _ => rfl, fun h => h⟩

theorem tracks_freq (fw rv fw' rv' : BWTInterval) (hf : Tracks fw fw') (hr : Tracks rv rv') :
    FMIndexWalkProcess.intervalFreq fw rv = FMIndexWalkProcess.intervalFreq fw' rv' := by
  have one : ∀ a b : BWTInterval, Tracks a b →
      (if a.isValid = true then a.size else 0) = (if b.isValid = true then b.size else 0) := by
    intro a b h
    cases ha : a.isValid
    · simp [h.2 ha]
    · rw [← h.1 ha, ha]
  unfold FMIndexWalkProcess.intervalFreq
  rw [one fw fw' hf, one rv rv' hr]

theorem vecAtI_getD (seq : Seq) (x : Nat) (b : Char)
    (h : vecAtI seq (x : Int) = .ok b) : b = seq.getD x 'N' := by
  unfold vecAtI vecAt at h
  rw [if_neg (by omega)] at h
  simp only [Int.toNat_ofNat] at h
  cases hx : seq[x]? with
  | none => rw [hx] at h; cases h
  | some c =>
    rw [hx] at h
    simp only [pure, Except.pure, Except.ok.injEq] at h
    subst h
    simp [List.getD, hx]

namespace FMIndexWalkProcess

theorem classify_matches_lookup (E : External) (P : Parameters) (seq : Seq)
    (k threshold : Nat) (hP : P.kmerLength = (k : Int)) (hlen : k ≤ seq.length)
    (hmodel : IntervalsCountWindows E seq k) :
    ∀ (fuel : Nat) (st : StreamState), st.i ≤ seq.length - k + 1 →
      (st.i < seq.length - k + 1 →
        ∃ L : Nat, st.currKmerSize = (L : Int) ∧ k ≤ L ∧ L ≤ st.i + k ∧
          Tracks st.fwdInterval (fwdFind E (kmerAt seq L (st.i + k - L))) ∧
          Tracks st.rvcInterval (rvcFind E (kmerAt seq L (st.i + k - L))) ∧
          st.currKmerFreq = intervalFreq st.fwdInterval st.rvcInterval) →
      st.countQualified.length = seq.length - k + 1 →
      (∀ j, j < seq.length - k + 1 →
        st.countQualified[j]? =
          some (if j < st.i ∧ (threshold : Int) ≤ freshKmerFreq E seq k j then 1 else 0)) →
      2 * (seq.length - k + 1 - st.i) + (if st.currKmerSize > (k : Int) then 1 else 0) < fuel →
      ∃ cq, classify E P seq threshold fuel st = .ok cq ∧ cq.length = seq.length - k + 1 ∧
        ∀ j, j < seq.length - k + 1 →
          cq[j]? = some (if (threshold : Int) ≤ freshKmerFreq E seq k j then 1 else 0) := by
  intro fuel
  induction fuel with
  | zero => intro st _ _ _ _ hf; omega
  | succ n ih =>
    intro st hi htr hl hcq hf
    obtain ⟨i, fw, rv, sz, fr, cq⟩ := st
    simp only at hi htr hl hcq hf
    simp only [classify, hP]
    split
    next hin =>
      have hin' : i < seq.length - k + 1 := by omega
      obtain ⟨L, hsz, hkL, hLi, hfw, hrv, hfr⟩ := htr hin'
      have hfreq : fr = wordFreq E (kmerAt seq L (i + k - L)) := by
        rw [hfr]
        exact tracks_freq _ _ _ _ hfw hrv
      have hbound : fr ≤ freshKmerFreq E seq k i := by
        rw [hfreq]
        by_cases hLk : L = k
        · subst hLk
          rw [Nat.add_sub_cancel]
          exact le_refl _
        · have := (hmodel (i + k - L) (by omega) (L - 1) (by omega) (by omega)
            (by omega)).2.2.2.2
          have e1 : L - 1 + 1 = L := by omega
          have e2 : i + k - L + (L - 1) + 1 - k = i := by omega
          rw [e1, e2] at this
          exact this
      split
      next hq =>
        have hqual : (threshold : Int) ≤ freshKmerFreq E seq k i := by omega
        have hmod : ∀ j, j < seq.length - k + 1 →
            (List.modify (fun x => x + 1) i cq)[j]? =
              some (if j < i + 1 ∧ (threshold : Int) ≤ freshKmerFreq E seq k j then 1
                else 0) := by
          intro j hj
          by_cases hji : j = i
          · subst hji
            rw [List.getElem?_modify_eq, hcq j hj]
            simp [hqual]
          · rw [List.getElem?_modify_ne _ _ (Ne.symm hji), hcq j hj]
            by_cases hlt : j < i
            · simp [hlt, Nat.lt_succ_of_lt hlt]
            · have : ¬ j < i + 1 := by omega
              simp [hlt, this]
        split
        next hlt =>
          obtain ⟨b, hb⟩ := vecAt_ok seq ((i : Int) + (k : Int)).toNat (by omega)
          have hb' : vecAtI seq ((i : Int) + (k : Int)) = .ok b := by
            unfold vecAtI
            rw [if_neg (by omega)]
            exact hb
          have hbd : b = seq.getD (i + k - L + L) 'N' := by
            have e : i + k - L + L = i + k := by omega
            rw [e]
            exact vecAtI_getD seq (i + k) b (by exact_mod_cast hb')
          obtain ⟨hu1, hu2, hu3, hu4, _⟩ := hmodel (i + k - L) (by omega) L (by omega) hkL
            (by omega)
          simp only [hb', bind, Except.bind]
          refine ih _ (by simp only; omega) ?_ (by simp [hl]) hmod ?_
          · intro _
            refine ⟨L + 1, by simp only; omega, by omega, by simp only; omega, ?_, ?_, rfl⟩
            · have e : i + 1 + k - (L + 1) = i + k - L := by omega
              simp only [e]
              cases hv : fw.isValid
              · simp only [Bool.false_eq_true, if_false]
                exact ⟨fun h => (by rw [hv] at h; cases h), fun _ => hu2 (hfw.2 hv)⟩
              · simp only [if_true]
                have hfw1 := hfw.1 hv
                rw [hfw1, hbd, hu1 (by rw [← hfw1]; exact hv)]
                exact tracks_refl _
            · have e : i + 1 + k - (L + 1) = i + k - L := by omega
              simp only [e]
              cases hv : rv.isValid
              · simp only [Bool.false_eq_true, if_false]
                exact ⟨fun h => (by rw [hv] at h; cases h), fun _ => hu4 (hrv.2 hv)⟩
              · simp only [if_true]
                have hrv1 := hrv.1 hv
                rw [hrv1, hbd, hu3 (by rw [← hrv1]; exact hv)]
                exact tracks_refl _
          · simp only
            split at hf <;> split <;> omega
        next hlt =>
          refine ih _ (by simp only; omega) ?_ (by simp [hl]) hmod ?_
          · intro h2; simp only at h2; omega
          · simp only
            split at hf <;> split <;> omega
      next hq =>
        split
        next hgt =>
          rw [recompute_fresh E P seq k i _ hP (by omega)]
          simp only [bind, Except.bind]
          refine ih _ hi ?_ hl hcq ?_
          · intro _
            exact ⟨k, rfl, le_refl k, by omega, by
              simp only [Nat.add_sub_cancel]; exact tracks_refl _, by
              simp only [Nat.add_sub_cancel]; exact tracks_refl _, rfl⟩
          · simp only [gt_iff_lt, lt_self_iff_false, if_false]
            rw [if_pos hgt] at hf
            omega
        next hgt =>
          have hLk : L = k := by omega
          subst hLk
          have hnq : ¬ (threshold : Int) ≤ freshKmerFreq E seq L i := by
            have : freshKmerFreq E seq L i = fr := by
              rw [hfreq, Nat.add_sub_cancel]
              rfl
            omega
          have hstay : ∀ j, j < seq.length - L + 1 →
              cq[j]? = some (if j < i + 1 ∧ (threshold : Int) ≤ freshKmerFreq E seq L j
                then 1 else 0) := by
            intro j hj
            rw [hcq j hj]
            by_cases hji : j = i
            · subst hji
              simp [hnq]
            · by_cases hlt : j < i
              · simp [hlt, Nat.lt_succ_of_lt hlt]
              · have : ¬ j < i + 1 := by omega
                simp [hlt, this]
          rw [if_pos hsz]
          split
          next hlt =>
            have hrc := recompute_fresh E P seq L (i + 1)
              { i := i, fwdInterval := fw, rvcInterval := rv, currKmerSize := sz,
                currKmerFreq := fr, countQualified := cq } hP (by omega)
            have hcast : ((i : Int) + 1) = ((i + 1 : Nat) : Int) := by push_cast; rfl
            rw [hcast, hrc]
            simp only [bind, Except.bind]
            refine ih _ (by simp only; omega) ?_ hl hstay ?_
            · intro _
              exact ⟨L, rfl, le_refl L, by simp only; omega, by
                simp only [Nat.add_sub_cancel]; exact tracks_refl _, by
                simp only [Nat.add_sub_cancel]; exact tracks_refl _, rfl⟩
            · simp only [gt_iff_lt, lt_self_iff_false, if_false]
              split at hf <;> omega
          next hlt =>
            refine ih _ (by simp only; omega) ?_ hl hstay ?_
            · intro h2; simp only at h2; omega
            · simp only
              split at hf <;> split <;> omega
    next hin =>
      have hi' : i = seq.length - k + 1 := by omega
      refine ⟨cq, rfl, hl, ?_⟩
      intro j hj
      rw [hcq j hj]
      have : j < i := by omega
      simp [this]

end FMIndexWalkProcess

/-- C36. The streaming `splitRead` computes the qualification of a direct lookup. When the
intervals of the index behave as occurrence counts on the windows of the read (extending the
interval of a window gives the interval of the extended window, and a window extended to the
left occurs at most as often as the k-mer at its end), the classification loop returns, and
`countQualified[i]` is 1 if the forward plus reverse-complement count of the k-mer at `i` is
at least the threshold and 0 otherwise, for every position `i`. -/
theorem streaming_qualification_matches_lookup (fuel : Nat) (E : External) (P : Parameters)
    (seq : Seq) (k threshold : Nat) (hP : P.kmerLength = (k : Int)) (hlen : k ≤ seq.length)
    (hmodel : IntervalsCountWindows E seq k) (hfuel : 2 * (seq.length - k + 1) < fuel) :
    ∃ cq, FMIndexWalkProcess.streamQualifiedOf fuel E P seq threshold = .ok cq ∧
      cq.length = seq.length - k + 1 ∧
      ∀ i, i < seq.length - k + 1 →
        (cq.getD i 0 = 1 ↔ (threshold : Int) ≤ freshKmerFreq E seq k i) ∧
        (cq.getD i 0 = 0 ↔ freshKmerFreq E seq k i < (threshold : Int)) := by
  have hsub := substr_kmerAt seq k 0 (Nat.zero_le _)
  have hnum : ((seq.length : Int) - (k : Int) + 1).toNat = seq.length - k + 1 := by omega
  obtain ⟨cq, hcq, hl, hall⟩ := FMIndexWalkProcess.classify_matches_lookup E P seq k threshold
    hP hlen hmodel fuel
    { i := 0, fwdInterval := fwdFind E (kmerAt seq k 0),
      rvcInterval := rvcFind E (kmerAt seq k 0), currKmerSize := (k : Int),
      currKmerFreq := FMIndexWalkProcess.intervalFreq (fwdFind E (kmerAt seq k 0))
        (rvcFind E (kmerAt seq k 0)),
      countQualified := List.replicate (seq.length - k + 1) 0 }
    (Nat.zero_le _)
    (fun _ => ⟨k, rfl, le_refl k, by simp only; omega, by
      simp only [Nat.zero_add, Nat.sub_self]; exact tracks_refl _, by
      simp only [Nat.zero_add, Nat.sub_self]; exact tracks_refl _, rfl⟩)
    (by simp)
    (fun j hj => by simp [List.getElem?_replicate, hj])
    (by simp only [gt_iff_lt, lt_self_iff_false, if_false]; omega)
  refine ⟨cq, ?_, hl, fun i hi => ?_⟩
  · unfold FMIndexWalkProcess.streamQualifiedOf
    rw [hP]
    have h0 : ((0 : Nat) : Int) = 0 := rfl
    rw [← h0, hsub, hnum]
    exact hcq
  · have := hall i hi
    have hget : cq.getD i 0 = if (threshold : Int) ≤ freshKmerFreq E seq k i then 1 else 0 := by
      simp [List.getD, this]
    rw [hget]
    by_cases hq : (threshold : Int) ≤ freshKmerFreq E seq k i
    · rw [if_pos hq]
      exact ⟨⟨fun _ => hq, fun _ => rfl⟩, ⟨fun h => absurd h (by decide), fun h => by omega⟩⟩
    · rw [if_neg hq]
      exact ⟨⟨fun h => absurd h (by decide), fun h => absurd h hq⟩,
        ⟨fun _ => by omega, fun _ => rfl⟩⟩

set_option maxRecDepth 100000 in
/-- The theorem `streaming_qualification_matches_lookup` at the read `AACG` over a corpus with
three copies of `AA` and of `AC` and no longer word (k = 2, threshold 3): the loop extends
`AA` to the absent `AAC`, looks `AC` up afresh, and returns `1, 1, 0`, the lookup counts
being 3, 3 and 0. -/
theorem streaming_qualification_matches_lookup_witness :
    FMIndexWalkProcess.streamQualifiedOf 20 pairIndex exampleParams ['A', 'A', 'C', 'G'] 3
      = .ok [1, 1, 0] ∧
    [0, 1, 2].map (fun i => freshKmerFreq pairIndex ['A', 'A', 'C', 'G'] 2 i) = [3, 3, 0] ∧
    ∃ cq, FMIndexWalkProcess.streamQualifiedOf 20 pairIndex exampleParams
        ['A', 'A', 'C', 'G'] 3 = .ok cq ∧
      cq.length = (['A', 'A', 'C', 'G'] : Seq).length - 2 + 1 ∧
      ∀ i, i < (['A', 'A', 'C', 'G'] : Seq).length - 2 + 1 →
        (cq.getD i 0 = 1 ↔ ((3 : Nat) : Int) ≤ freshKmerFreq pairIndex ['A', 'A', 'C', 'G'] 2 i) ∧
        (cq.getD i 0 = 0 ↔ freshKmerFreq pairIndex ['A', 'A', 'C', 'G'] 2 i < ((3 : Nat) : Int)) :=
  ⟨by decide, by decide,
    streaming_qualification_matches_lookup 20 pairIndex exampleParams ['A', 'A', 'C', 'G'] 2 3
      (by decide) (by decide)
      (by
        intro s hs len hl hk hsl
        have hcases : (s = 0 ∧ len = 2) ∨ (s = 0 ∧ len = 3) ∨ (s = 1 ∧ len = 2) := by
          simp only [List.length_cons, List.length_nil] at hs hl hsl
          omega
        rcases hcases with ⟨rfl, rfl⟩ | ⟨rfl, rfl⟩ | ⟨rfl, rfl⟩ <;> decide)
      (by decide)⟩

/-! ### Iterations of the streaming classification loop -/

namespace FMIndexWalkProcess

theorem classifyTraced_qualified (E : External) (P : Parameters) (seq : Seq)
    (threshold : Nat) :
    ∀ (fuel : Nat) (st : StreamState) (log : List (Nat × Bool)),
      (classifyTraced E P seq threshold fuel st log).map Prod.fst
        = classify E P seq threshold fuel st := by
  intro fuel
  induction fuel with
  | zero => intro st log; rfl
  | succ n ih =>
    intro st log
    simp only [classifyTraced, classify]
    split
    · split
      · split
        · cases vecAtI seq ((st.i : Int) + P.kmerLength) with
          | error e => rfl
          | ok b => exact ih _ _
        · exact ih _ _
      · split
        · cases recompute E P seq st.i st with
          | error e => rfl
          | ok st1 => exact ih _ _
        · split
          · split
            · cases recompute E P seq ((st.i : Int) + 1) st with
              | error e => rfl
              | ok st1 => exact ih _ _
            · exact ih _ _
          · rfl
    · rfl

theorem streamQualifiedTraced_qualified (fuel : Nat) (E : External) (P : Parameters)
    (seq : Seq) (threshold : Nat) :
    (streamQualifiedTraced fuel E P seq threshold).map Prod.fst
      = streamQualifiedOf fuel E P seq threshold := by
  unfold streamQualifiedTraced streamQualifiedOf
  cases substr seq 0 P.kmerLength with
  | error e => rfl
  | ok w => exact classifyTraced_qualified E P seq threshold fuel _ _

end FMIndexWalkProcess

theorem count_positions_snoc (log : List (Nat × Bool)) (i : Nat) (b : Bool) (p : Nat) :
    ((log ++ [(i, b)]).map Prod.fst).count p
      = (log.map Prod.fst).count p + (if p = i then 1 else 0) := by
  rw [List.map_append, List.count_append]
  by_cases h : p = i
  · subst h
    simp
  · have h' : ¬ i = p := fun e => h e.symm
    simp [h, h', List.count_cons]

theorem count_positions_beyond (log : List (Nat × Bool)) (i p : Nat)
    (h : ∀ e ∈ log, e.1 ≤ i) (hp : i < p) : (log.map Prod.fst).count p = 0 := by
  rw [List.count_eq_zero]
  intro hm
  obtain ⟨e, he, hep⟩ := List.mem_map.1 hm
  have := h e he
  omega

theorem logInvariant_advance (k i : Nat) (size size' : Int) (log : List (Nat × Bool))
    (h : LogInvariant k i size log) : LogInvariant k (i + 1) size' (log ++ [(i, false)]) := by
  obtain ⟨h2, hpos, h1, _⟩ := h
  have hle : ∀ e ∈ log ++ [(i, false)], e.1 ≤ i ∧ (e.2 = true → 1 ≤ e.1) := by
    intro e he
    rcases List.mem_append.1 he with he | he
    · exact hpos e he
    · simp only [List.mem_singleton] at he
      subst he
      exact ⟨le_refl _, fun hb => by cases hb⟩
  have hzero : ((log ++ [(i, false)]).map Prod.fst).count (i + 1) = 0 :=
    count_positions_beyond _ i (i + 1) (fun e he => (hle e he).1) (by omega)
  refine ⟨fun p => ?_, fun e he => ⟨by have := (hle e he).1; omega, (hle e he).2⟩, by omega,
    fun _ => hzero⟩
  rw [count_positions_snoc]
  by_cases hp : p = i
  · subst hp
    rw [if_pos rfl]
    omega
  · rw [if_neg hp]
    exact h2 p

theorem logInvariant_stepBack (k i : Nat) (size : Int) (log : List (Nat × Bool))
    (h : LogInvariant k i size log) (hsize : size > (k : Int)) (hi : 1 ≤ i) :
    LogInvariant k i (k : Int) (log ++ [(i, true)]) := by
  obtain ⟨h2, hpos, _, h0⟩ := h
  have hz := h0 hsize
  refine ⟨fun p => ?_, fun e he => ?_, ?_, fun hk => by omega⟩
  · rw [count_positions_snoc]
    by_cases hp : p = i
    · subst hp
      rw [if_pos rfl]
      omega
    · rw [if_neg hp]
      exact h2 p
  · rcases List.mem_append.1 he with he | he
    · exact hpos e he
    · simp only [List.mem_singleton] at he
      subst he
      exact ⟨le_refl _, fun _ => hi⟩
  · rw [count_positions_snoc, if_pos rfl]
    omega

namespace FMIndexWalkProcess

theorem classifyTraced_facts (E : External) (P : Parameters) (seq : Seq) (k threshold : Nat)
    (hP : P.kmerLength = (k : Int)) (hlen : k ≤ seq.length) :
    ∀ (fuel : Nat) (st : StreamState) (log : List (Nat × Bool)),
      (k : Int) ≤ st.currKmerSize → (st.currKmerSize > (k : Int) → 1 ≤ st.i) →
      st.i ≤ seq.length - k + 1 →
      LogInvariant k st.i st.currKmerSize log →
      2 * (seq.length - k + 1 - st.i) + (if st.currKmerSize > (k : Int) then 1 else 0) < fuel →
      ∃ cq log', classifyTraced E P seq threshold fuel st log = .ok (cq, log') ∧
        (∀ p, (log'.map Prod.fst).count p ≤ 2) ∧
        (∀ e ∈ log', e.2 = true → 1 ≤ e.1) ∧
        log'.length ≤ log.length + 2 * (seq.length - k + 1 - st.i)
          + (if st.currKmerSize > (k : Int) then 1 else 0) := by
  intro fuel
  induction fuel with
  | zero => intro st log _ _ _ _ hf; omega
  | succ n ih =>
    intro st log hsz hback hi hinv hf
    obtain ⟨i, fw, rv, sz, fr, cq⟩ := st
    simp only at hsz hback hi hinv hf
    simp only [classifyTraced, hP]
    split
    next hin =>
      have hin' : i < seq.length - k + 1 := by omega
      split
      next hq =>
        split
        next hlt =>
          obtain ⟨b, hb⟩ := vecAt_ok seq ((i : Int) + (k : Int)).toNat (by omega)
          have hb' : vecAtI seq ((i : Int) + (k : Int)) = .ok b := by
            unfold vecAtI
            rw [if_neg (by omega)]
            exact hb
          simp only [hb', bind, Except.bind]
          refine (ih _ _ ?_ ?_ ?_ (logInvariant_advance k i sz _ log hinv) ?_).imp
            fun cq' h => h.imp fun log' h' => ⟨h'.1, h'.2.1, h'.2.2.1, ?_⟩
          · simp only; omega
          · intro _; simp only; omega
          · simp only; omega
          · simp only; split at hf <;> split <;> omega
          · have hl := h'.2.2.2
            simp only [List.length_append, List.length_singleton] at hl
            split at hl <;> split <;> omega
        next hlt =>
          refine (ih _ _ ?_ ?_ ?_ (logInvariant_advance k i sz _ log hinv) ?_).imp
            fun cq' h => h.imp fun log' h' => ⟨h'.1, h'.2.1, h'.2.2.1, ?_⟩
          · simp only; omega
          · intro _; simp only; omega
          · simp only; omega
          · simp only; split at hf <;> split <;> omega
          · have hl := h'.2.2.2
            simp only [List.length_append, List.length_singleton] at hl
            split at hl <;> split <;> omega
      next hq =>
        split
        next hgt =>
          rw [recompute_fresh E P seq k i _ hP (by omega)]
          simp only [bind, Except.bind]
          refine (ih _ _ ?_ ?_ ?_ (logInvariant_stepBack k i sz log hinv hgt (hback hgt))
            ?_).imp fun cq' h => h.imp fun log' h' => ⟨h'.1, h'.2.1, h'.2.2.1, ?_⟩
          · simp only; omega
          · intro h; simp only at h; omega
          · exact hi
          · simp only [gt_iff_lt, lt_self_iff_false, if_false]
            rw [if_pos hgt] at hf
            omega
          · have hl := h'.2.2.2
            simp only [List.length_append, List.length_singleton, gt_iff_lt,
              lt_self_iff_false, if_false] at hl
            omega
        next hgt =>
          have hsk : sz = (k : Int) := by omega
          rw [if_pos hsk]
          split
          next hlt =>
            have hrc := recompute_fresh E P seq k (i + 1)
              { i := i, fwdInterval := fw, rvcInterval := rv, currKmerSize := sz,
                currKmerFreq := fr, countQualified := cq } hP (by omega)
            have hcast : ((i : Int) + 1) = ((i + 1 : Nat) : Int) := by push_cast; rfl
            rw [hcast, hrc]
            simp only [bind, Except.bind]
            refine (ih _ _ ?_ ?_ ?_ (logInvariant_advance k i sz _ log hinv) ?_).imp
              fun cq' h => h.imp fun log' h' => ⟨h'.1, h'.2.1, h'.2.2.1, ?_⟩
            · simp only; omega
            · intro h; simp only at h; omega
            · simp only; omega
            · simp only [gt_iff_lt, lt_self_iff_false, if_false]
              split at hf <;> omega
            · have hl := h'.2.2.2
              simp only [List.length_append, List.length_singleton, gt_iff_lt,
                lt_self_iff_false, if_false] at hl
              omega
          next hlt =>
            refine (ih _ _ ?_ ?_ ?_ (logInvariant_advance k i sz _ log hinv) ?_).imp
              fun cq' h => h.imp fun log' h' => ⟨h'.1, h'.2.1, h'.2.2.1, ?_⟩
            · simp only; omega
            · intro h; simp only at h; omega
            · simp only; omega
            · simp only; split at hf <;> split <;> omega
            · have hl := h'.2.2.2
              simp only [List.length_append, List.length_singleton] at hl
              split at hl <;> omega
    next hin =>
      refine ⟨cq, log, rfl, hinv.1, fun e he => (hinv.2.1 e he).2, by omega⟩

end FMIndexWalkProcess

namespace FMIndexWalkProcess

theorem vecAtI_error {α : Type} (v : List α) (i : Int) (e : Fault)
    (h : vecAtI v i = .error e) : e = .outOfRange := by
  unfold vecAtI vecAt at h
  split at h
  · injection h with h; exact h.symm
  · split at h
    · cases h
    · injection h with h; exact h.symm

theorem recompute_error (E : External) (P : Parameters) (seq : Seq) (pos : Int)
    (st : StreamState) (e : Fault) (h : recompute E P seq pos st = .error e) :
    e = .outOfRange := by
  unfold recompute substr at h
  split at h
  · injection h with h; exact h.symm
  · cases h

theorem classify_never_asserts (E : External) (P : Parameters) (seq : Seq) (threshold : Nat) :
    ∀ (fuel : Nat) (st : StreamState), P.kmerLength ≤ st.currKmerSize →
      classify E P seq threshold fuel st ≠ .error .assertion := by
  intro fuel
  induction fuel with
  | zero => intro st _ h; simp only [classify] at h; cases h
  | succ n ih =>
    intro st hsz
    simp only [classify]
    split
    · split
      · split
        · cases hb : vecAtI seq ((st.i : Int) + P.kmerLength) with
          | error e =>
            have := vecAtI_error _ _ _ hb
            subst this
            intro h
            cases h
          | ok b => exact ih _ (by simp only; omega)
        · exact ih _ (by simpa using hsz)
      · split
        · cases hr : recompute E P seq st.i st with
          | error e =>
            have := recompute_error _ _ _ _ _ _ hr
            subst this
            intro h
            cases h
          | ok st1 =>
            obtain ⟨st2, h1, _, h3⟩ : ∃ st2, recompute E P seq st.i st = .ok st2 ∧
                st2.i = st.i ∧ st2.currKmerSize = P.kmerLength := by
              unfold recompute at hr ⊢
              cases hs : substr seq st.i P.kmerLength with
              | error e => rw [hs] at hr; cases hr
              | ok w => exact ⟨_, rfl, rfl, rfl⟩
            rw [hr] at h1
            injection h1 with h1
            subst h1
            exact ih _ (by omega)
        · split
          · split
            · cases hr : recompute E P seq ((st.i : Int) + 1) st with
              | error e =>
                have := recompute_error _ _ _ _ _ _ hr
                subst this
                intro h
                cases h
              | ok st1 =>
                obtain ⟨st2, h1, _, h3⟩ : ∃ st2, recompute E P seq ((st.i : Int) + 1) st
                    = .ok st2 ∧ st2.i = st.i ∧ st2.currKmerSize = P.kmerLength := by
                  unfold recompute at hr ⊢
                  cases hs : substr seq ((st.i : Int) + 1) P.kmerLength with
                  | error e => rw [hs] at hr; cases hr
                  | ok w => exact ⟨_, rfl, rfl, rfl⟩
                rw [hr] at h1
                injection h1 with h1
                subst h1
                exact ih _ (by simp only; omega)
            · exact ih _ (by simpa using hsz)
          · omega
    · intro h; cases h

end FMIndexWalkProcess

/-- C37. The classification loop of the streaming `splitRead` terminates on every read of
length at least `k`, for every threshold and index: it returns within `2 * numKmer`
iterations, each position is examined at most twice, the cursor is stepped back (`i--`) only
at positions of at least 1, and the final `assert(false)` is not reached, whatever the
budget of steps. The log of iterations is that of `classifyTraced`, whose result is the one
of the loop. -/
theorem streaming_classification_terminates (fuel : Nat) (E : External) (P : Parameters)
    (seq : Seq) (k threshold : Nat) (hP : P.kmerLength = (k : Int)) (hlen : k ≤ seq.length)
    (hfuel : 2 * (seq.length - k + 1) < fuel) :
    (∃ cq log, FMIndexWalkProcess.streamQualifiedTraced fuel E P seq threshold = .ok (cq, log) ∧
      FMIndexWalkProcess.streamQualifiedOf fuel E P seq threshold = .ok cq ∧
      (∀ p, (log.map Prod.fst).count p ≤ 2) ∧
      (∀ e ∈ log, e.2 = true → 1 ≤ e.1) ∧
      log.length ≤ 2 * (seq.length - k + 1)) ∧
    ∀ budget, FMIndexWalkProcess.streamQualifiedOf budget E P seq threshold
      ≠ .error .assertion := by
  have hsub := substr_kmerAt seq k 0 (Nat.zero_le _)
  have h0 : ((0 : Nat) : Int) = 0 := rfl
  constructor
  · obtain ⟨cq, log, hrun, hc, hs, hl⟩ := FMIndexWalkProcess.classifyTraced_facts E P seq k
      threshold hP hlen fuel
      { i := 0, fwdInterval := E.findInterval true (kmerAt seq k 0).reverse,
        rvcInterval := E.findInterval false (E.reverseComplement (kmerAt seq k 0)),
        currKmerSize := (k : Int),
        currKmerFreq := FMIndexWalkProcess.intervalFreq
          (E.findInterval true (kmerAt seq k 0).reverse)
          (E.findInterval false (E.reverseComplement (kmerAt seq k 0))),
        countQualified := List.replicate ((seq.length : Int) - (k : Int) + 1).toNat 0 } []
      (le_refl _) (fun h => by simp only at h; omega) (Nat.zero_le _)
      ⟨fun p => by simp, fun e he => (by cases he), by simp, fun _ => by simp⟩
      (by simp only [gt_iff_lt, lt_self_iff_false, if_false]; omega)
    have htr : FMIndexWalkProcess.streamQualifiedTraced fuel E P seq threshold
        = .ok (cq, log) := by
      unfold FMIndexWalkProcess.streamQualifiedTraced
      rw [hP, ← h0, hsub]
      exact hrun
    refine ⟨cq, log, htr, ?_, hc, hs, ?_⟩
    · rw [← FMIndexWalkProcess.streamQualifiedTraced_qualified, htr]
      rfl
    · simp only [List.length_nil, gt_iff_lt, lt_self_iff_false, if_false] at hl
      omega
  · intro budget
    unfold FMIndexWalkProcess.streamQualifiedOf
    rw [hP, ← h0, hsub]
    exact FMIndexWalkProcess.classify_never_asserts E P seq threshold budget _
      (by simp only [hP]; exact le_refl _)

set_option maxRecDepth 100000 in
/-- The theorem `streaming_classification_terminates` at the read `AACG` (k = 2, threshold 3)
over the corpus of `pairIndex`: positions 1 and 2 are examined twice, each after one `i--`,
position 0 once. -/
theorem streaming_classification_terminates_witness :
    FMIndexWalkProcess.streamQualifiedTraced 20 pairIndex exampleParams ['A', 'A', 'C', 'G'] 3
      = .ok ([1, 1, 0], [(0, false), (1, true), (1, false), (2, true), (2, false)]) ∧
    ((∃ cq log, FMIndexWalkProcess.streamQualifiedTraced 20 pairIndex exampleParams
        ['A', 'A', 'C', 'G'] 3 = .ok (cq, log) ∧
      FMIndexWalkProcess.streamQualifiedOf 20 pairIndex exampleParams ['A', 'A', 'C', 'G'] 3
        = .ok cq ∧
      (∀ p, (log.map Prod.fst).count p ≤ 2) ∧
      (∀ e ∈ log, e.2 = true → 1 ≤ e.1) ∧
      log.length ≤ 2 * ((['A', 'A', 'C', 'G'] : Seq).length - 2 + 1)) ∧
    ∀ budget, FMIndexWalkProcess.streamQualifiedOf budget pairIndex exampleParams
      ['A', 'A', 'C', 'G'] 3 ≠ .error .assertion) :=
  ⟨by decide,
    streaming_classification_terminates 20 pairIndex exampleParams ['A', 'A', 'C', 'G'] 2 3
      (by decide) (by decide) (by decide)⟩

/-! ### Merging intervals keeps the partition -/

theorem tiles_from : ∀ (ivs : List (Nat × Nat)) (a n e : Nat), Tiles a ivs n →
    e < ivs.length →
    a ≤ (ivs.getD e (0, 0)).1 ∧ (ivs.getD e (0, 0)).1 ≤ (ivs.getD e (0, 0)).2 ∧
      Tiles ((ivs.getD e (0, 0)).2 + 1) (ivs.drop (e + 1)) n := by
  intro ivs
  induction ivs with
  | nil => intro a n e _ he; simp at he
  | cons x rest ih =>
    intro a n e h he
    obtain ⟨h1, h2, h3⟩ := h
    cases e with
    | zero =>
      simp only [List.getD_cons_zero, List.drop_succ_cons, List.drop_zero]
      exact ⟨by omega, h2, h3⟩
    | succ e' =>
      simp only [List.getD_cons_succ, List.drop_succ_cons]
      obtain ⟨g1, g2, g3⟩ := ih (x.2 + 1) n e' h3 (by simpa using he)
      exact ⟨by omega, g2, g3⟩

theorem mergeAt_eq : ∀ (ivs : List (Nat × Nat)) (s e : Nat), s < e → e < ivs.length →
    FMIndexWalkProcess.mergeAt ivs s e
      = ivs.take s ++ [((ivs.getD s (0, 0)).1, (ivs.getD e (0, 0)).2)] ++ ivs.drop (e + 1) := by
  intro ivs
  induction ivs with
  | nil => intro s e _ he; simp at he
  | cons x rest ih =>
    intro s e hse he
    cases e with
    | zero => omega
    | succ e' =>
      cases s with
      | zero =>
        simp [FMIndexWalkProcess.mergeAt]
      | succ s' =>
        have := ih s' e' (by omega) (by simpa using he)
        simp only [FMIndexWalkProcess.mergeAt, List.getD_cons_succ, List.set_cons_succ,
          List.take_succ_cons, List.drop_succ_cons, List.cons_append] at this ⊢
        rw [this]

theorem tiles_merge : ∀ (ivs : List (Nat × Nat)) (a n s e : Nat), Tiles a ivs n →
    s < e → e < ivs.length →
    Tiles a (ivs.take s ++ [((ivs.getD s (0, 0)).1, (ivs.getD e (0, 0)).2)]
      ++ ivs.drop (e + 1)) n ∧
    (ivs.getD s (0, 0)).2 + 1 ≤ (ivs.getD e (0, 0)).1 := by
  intro ivs
  induction ivs with
  | nil => intro a n s e _ _ he; simp at he
  | cons x rest ih =>
    intro a n s e h hse he
    obtain ⟨h1, h2, h3⟩ := h
    cases e with
    | zero => omega
    | succ e' =>
      cases s with
      | zero =>
        obtain ⟨g1, g2, g3⟩ := tiles_from rest (x.2 + 1) n e' h3 (by simpa using he)
        simp only [List.take_zero, List.nil_append, List.getD_cons_zero, List.getD_cons_succ,
          List.drop_succ_cons, List.singleton_append]
        exact ⟨⟨h1, by simp only; omega, g3⟩, g1⟩
      | succ s' =>
        obtain ⟨g1, g2⟩ := ih (x.2 + 1) n s' e' h3 (by omega) (by simpa using he)
        simp only [List.take_succ_cons, List.getD_cons_succ, List.drop_succ_cons,
          List.cons_append]
        exact ⟨⟨h1, h2, g1⟩, g2⟩

theorem mergeAt_length (ivs : List (Nat × Nat)) (s e : Nat) (hse : s < e)
    (he : e < ivs.length) : (FMIndexWalkProcess.mergeAt ivs s e).length < ivs.length := by
  rw [mergeAt_eq ivs s e hse he]
  simp only [List.length_append, List.length_take, List.length_singleton, List.length_drop]
  omega

theorem vecAt_getD {α : Type} (v : List α) (i : Nat) (d : α) (h : i < v.length) :
    vecAt v i = .ok (v.getD i d) := by
  unfold vecAt
  rw [List.getElem?_eq_getElem h]
  simp [List.getD, List.getElem?_eq_getElem h]
  rfl

namespace FMIndexWalkProcess

theorem isPathReliable_ok (X Y : Nat × Nat) (cq : List Nat) (h : X.2 + 1 ≤ Y.1) :
    ∃ b, isPathReliable X Y cq = .ok b := by
  unfold isPathReliable
  split
  · exact ⟨true, rfl⟩
  · have hY : Y.1 ≠ 0 := by omega
    simp only [hY, if_false]
    rw [if_neg (by omega)]
    exact ⟨_, rfl⟩

theorem mergeScan_facts (ivs : List (Nat × Nat)) (cq : List Nat) (flags : List Bool)
    (a n : Nat) (ht : Tiles a ivs n) (hfl : flags.length = ivs.length) :
    ∀ (remaining i : Nat) (s : Int), i + remaining = ivs.length →
      (s < 0 ∨ (0 ≤ s ∧ s.toNat < i ∧ flags.getD s.toNat false = true)) →
      ∃ b ivs', mergeScan ivs cq flags remaining i s = .ok (b, ivs') ∧
        (b = false → ivs' = ivs) ∧
        (b = true → ∃ s' e', s' < e' ∧ e' < ivs.length ∧ flags.getD s' false = true ∧
          flags.getD e' false = true ∧
          isPathReliable (ivs.getD s' (0, 0)) (ivs.getD e' (0, 0)) cq = .ok true ∧
          ivs' = mergeAt ivs s' e') := by
  intro remaining
  induction remaining with
  | zero =>
    intro i s _ _
    exact ⟨false, ivs, rfl, fun _ => rfl, fun h => by cases h⟩
  | succ r ih =>
    intro i s hi hs
    have hlt : i < flags.length := by omega
    simp only [mergeScan, vecAt_getD flags i false hlt, bind, Except.bind]
    by_cases hfirst : flags.getD i false = true ∧ s < 0
    · rw [if_pos hfirst]
      exact ih (i + 1) i (by omega) (Or.inr ⟨by omega, by simp, by simpa using hfirst.1⟩)
    · rw [if_neg hfirst]
      by_cases hstrong : flags.getD i false = true
      · rw [if_pos hstrong]
        have hs0 : 0 ≤ s ∧ s.toNat < i ∧ flags.getD s.toNat false = true := by
          rcases hs with h | h
          · exact absurd ⟨hstrong, h⟩ hfirst
          · exact h
        have hord := (tiles_merge ivs a n s.toNat i ht hs0.2.1 (by omega)).2
        obtain ⟨b, hb⟩ := isPathReliable_ok (ivs.getD s.toNat (0, 0)) (ivs.getD i (0, 0)) cq
          hord
        rw [hb]
        cases b with
        | true =>
          exact ⟨true, _, rfl, fun h => (by cases h), fun _ => ⟨s.toNat, i, hs0.2.1,
            by omega, hs0.2.2, hstrong, hb, rfl⟩⟩
        | false =>
          exact ih (i + 1) i (by omega) (Or.inr ⟨by omega, by simp, by simpa using hstrong⟩)
      · rw [if_neg hstrong]
        refine ih (i + 1) s (by omega) ?_
        rcases hs with h | ⟨h1, h2, h3⟩
        · exact Or.inl h
        · exact Or.inr ⟨h1, by omega, h3⟩

theorem isIntervalMerge_facts (ivs : List (Nat × Nat)) (cq : List Nat) (n : Nat)
    (ht : Tiles 0 ivs n) (hcq : cq.length = n) :
    ∃ b ivs', isIntervalMerge ivs cq = .ok (b, ivs') ∧
      (b = false → ivs' = ivs) ∧
      (b = true → ∃ s e, s < e ∧ e < ivs.length ∧
        isIntervalExistStrongKmer (ivs.getD s (0, 0)) cq = .ok true ∧
        isIntervalExistStrongKmer (ivs.getD e (0, 0)) cq = .ok true ∧
        isPathReliable (ivs.getD s (0, 0)) (ivs.getD e (0, 0)) cq = .ok true ∧
        ivs' = mergeAt ivs s e) := by
  have hb := tiles_bounds ht
  have hall : ∀ iv ∈ ivs, isIntervalExistStrongKmer iv cq
      = .ok ((isIntervalExistStrongKmer iv cq).toOption.getD false) := by
    intro iv hiv
    obtain ⟨b, hb'⟩ := strong_ok_of_bound cq iv (by have := hb iv hiv; omega)
    rw [hb']
    rfl
  have hmap := mapM_eq_map (fun iv => isIntervalExistStrongKmer iv cq)
    (fun iv => (isIntervalExistStrongKmer iv cq).toOption.getD false) ivs hall
  have hflag : ∀ i, i < ivs.length →
      (ivs.map (fun iv => (isIntervalExistStrongKmer iv cq).toOption.getD false)).getD i false
        = true → isIntervalExistStrongKmer (ivs.getD i (0, 0)) cq = .ok true := by
    intro i hi hf
    have hmem : ivs.getD i (0, 0) ∈ ivs := by
      rw [List.getD_eq_getElem _ _ hi]
      exact List.getElem_mem hi
    have h1 := hall _ hmem
    have h2 : (ivs.map (fun iv => (isIntervalExistStrongKmer iv cq).toOption.getD false)).getD
        i false = (isIntervalExistStrongKmer (ivs.getD i (0, 0)) cq).toOption.getD false := by
      simp [List.getD, List.getElem?_eq_getElem hi]
    rw [h2] at hf
    rw [h1, hf]
  simp only [isIntervalMerge, hmap, bind, Except.bind]
  split
  · exact ⟨false, ivs, rfl, fun _ => rfl, fun h => by cases h⟩
  · obtain ⟨b, ivs', hrun, hf, htr⟩ := mergeScan_facts ivs cq _ 0 n ht (List.length_map _ _) ivs.length 0
      (-1) (by omega) (Or.inl (by omega))
    refine ⟨b, ivs', hrun, hf, fun hb' => ?_⟩
    obtain ⟨s, e, hse, he, hfs, hfe, hrel, heq⟩ := htr hb'
    exact ⟨s, e, hse, he, hflag s (by omega) hfs, hflag e he hfe, hrel, heq⟩

theorem mergeRepeat_facts (cq : List Nat) (n : Nat) (hcq : cq.length = n) :
    ∀ (fuel : Nat) (ivs : List (Nat × Nat)) (merges : Nat), Tiles 0 ivs n →
      ivs.length < fuel →
      ∃ out m, mergeRepeat cq fuel ivs merges = .ok (out, m) ∧ merges ≤ m ∧
        m - merges ≤ ivs.length - 1 ∧ Tiles 0 out n ∧
        isIntervalMerge out cq = .ok (false, out) := by
  intro fuel
  induction fuel with
  | zero => intro ivs merges _ h; omega
  | succ f ih =>
    intro ivs merges ht hfuel
    obtain ⟨b, ivs', hrun, hfalse, htrue⟩ := isIntervalMerge_facts ivs cq n ht hcq
    simp only [mergeRepeat, hrun, bind, Except.bind]
    cases b with
    | false =>
      have := hfalse rfl
      subst this
      exact ⟨ivs', merges, rfl, le_refl _, by omega, ht, hrun⟩
    | true =>
      obtain ⟨s, e, hse, he, _, _, _, heq⟩ := htrue rfl
      have hlen : ivs'.length < ivs.length := by
        rw [heq]
        exact mergeAt_length ivs s e hse he
      have ht' : Tiles 0 ivs' n := by
        rw [heq, mergeAt_eq ivs s e hse he]
        exact (tiles_merge ivs 0 n s e ht hse he).1
      obtain ⟨out, m, hr, h1, h2, h3, h4⟩ := ih ivs' (merges + 1) ht' (by omega)
      exact ⟨out, m, hr, by omega, by omega, h3, h4⟩

end FMIndexWalkProcess

/-- C34. `isIntervalMerge` keeps the partition. On intervals that tile the positions
`[0, n-1]` of `countQualified`, it returns; when it returns true, two strong intervals `s < e`
that `isPathReliable` links, and everything between them, have been replaced by the one
interval from the start of `s` to the end of `e`, and the list still tiles `[0, n-1]` and is
strictly shorter; when it returns false the list is unchanged. Repeating it until it returns
false therefore ends after at most `intervals.size() - 1` merges, with a tiling on which it
returns false. -/
theorem isIntervalMerge_keeps_partition (ivs : List (Nat × Nat)) (cq : List Nat) (n : Nat)
    (ht : Tiles 0 ivs n) (hcq : cq.length = n) :
    (∃ b ivs', FMIndexWalkProcess.isIntervalMerge ivs cq = .ok (b, ivs') ∧
      (b = false → ivs' = ivs) ∧
      (b = true → Tiles 0 ivs' n ∧ ivs'.length < ivs.length ∧
        ∃ s e, s < e ∧ e < ivs.length ∧
          FMIndexWalkProcess.isIntervalExistStrongKmer (ivs.getD s (0, 0)) cq = .ok true ∧
          FMIndexWalkProcess.isIntervalExistStrongKmer (ivs.getD e (0, 0)) cq = .ok true ∧
          FMIndexWalkProcess.isPathReliable (ivs.getD s (0, 0)) (ivs.getD e (0, 0)) cq
            = .ok true ∧
          ivs' = ivs.take s ++ [((ivs.getD s (0, 0)).1, (ivs.getD e (0, 0)).2)]
            ++ ivs.drop (e + 1))) ∧
    ∀ fuel, ivs.length < fuel →
      ∃ out merges, FMIndexWalkProcess.mergeRepeat cq fuel ivs 0 = .ok (out, merges) ∧
        merges ≤ ivs.length - 1 ∧ Tiles 0 out n ∧
        FMIndexWalkProcess.isIntervalMerge out cq = .ok (false, out) := by
  constructor
  · obtain ⟨b, ivs', hrun, hfalse, htrue⟩ :=
      FMIndexWalkProcess.isIntervalMerge_facts ivs cq n ht hcq
    refine ⟨b, ivs', hrun, hfalse, fun hb => ?_⟩
    obtain ⟨s, e, hse, he, hs, hes, hrel, heq⟩ := htrue hb
    have hlen := mergeAt_length ivs s e hse he
    rw [mergeAt_eq ivs s e hse he] at heq
    refine ⟨?_, by rw [heq, ← mergeAt_eq ivs s e hse he]; exact hlen,
      s, e, hse, he, hs, hes, hrel, heq⟩
    rw [heq]
    exact (tiles_merge ivs 0 n s e ht hse he).1
  · intro fuel hfuel
    obtain ⟨out, m, hr, _, h2, h3, h4⟩ :=
      FMIndexWalkProcess.mergeRepeat_facts cq n hcq fuel ivs 0 ht hfuel
    exact ⟨out, m, hr, by omega, h3, h4⟩

/-- The theorem `isIntervalMerge_keeps_partition` at five intervals over seven positions: the
strong intervals `[0,1]` and `[3,4]` are linked through position 2 and merged into `[0,4]`,
the second pass merges `[0,4]` and `[6,6]` through position 5, and the third pass returns
false: two merges. -/
theorem isIntervalMerge_keeps_partition_witness :
    FMIndexWalkProcess.isIntervalMerge [(0, 1), (2, 2), (3, 4), (5, 5), (6, 6)]
      [2, 2, 1, 2, 2, 1, 2] = .ok (true, [(0, 4), (5, 5), (6, 6)]) ∧
    FMIndexWalkProcess.mergeRepeat [2, 2, 1, 2, 2, 1, 2] 6
      [(0, 1), (2, 2), (3, 4), (5, 5), (6, 6)] 0 = .ok ([(0, 6)], 2) ∧
    ∃ out merges, FMIndexWalkProcess.mergeRepeat [2, 2, 1, 2, 2, 1, 2] 6
        [(0, 1), (2, 2), (3, 4), (5, 5), (6, 6)] 0 = .ok (out, merges) ∧
      merges ≤ [(0, 1), (2, 2), (3, 4), (5, 5), (6, 6)].length - 1 ∧ Tiles 0 out 7 ∧
      FMIndexWalkProcess.isIntervalMerge out [2, 2, 1, 2, 2, 1, 2] = .ok (false, out) :=
  ⟨by decide, by decide,
    (isIntervalMerge_keeps_partition [(0, 1), (2, 2), (3, 4), (5, 5), (6, 6)]
      [2, 2, 1, 2, 2, 1, 2] 7 (by simp [Tiles]) (by decide)).2 6 (by decide)⟩

/-! ### The rewind anchor of the adaptive extractor -/

theorem dynLoop_step (E : External) (P : Parameters) (readSeq : Seq) (fuel : Nat)
    (st : DynState) :
    dynLoop E P readSeq (fuel + 1) st
      = match dynStep E P readSeq fuel st with
        | .error e => .error e
        | .ok none => .ok st.seeds
        | .ok (some (_, st1)) => dynLoop E P readSeq fuel st1 := by
  simp only [dynLoop, dynStep]
  split
  · cases substr readSeq st.i st.kmerLen with
    | error e => rfl
    | ok kmer =>
      simp only [bind, Except.bind]
      split
      · cases dynContiguous E P readSeq st.kmerLen fuel (st.i + 1) with
        | error e => rfl
        | ok i1 =>
          simp only
          cases substr readSeq st.i (st.kmerLen + i1 - st.i - 1) with
          | error e => rfl
          | ok str => rfl
      · split
        · split
          · rfl
          · rfl
        · rfl
  · rfl

theorem dynLoopAnchored_seeds (E : External) (P : Parameters) (readSeq : Seq) :
    ∀ (fuel : Nat) (st : DynState) (log : AnchorLog),
      (dynLoopAnchored E P readSeq fuel st log).map Prod.fst = dynLoop E P readSeq fuel st := by
  intro fuel
  induction fuel with
  | zero => intro st log; rfl
  | succ n ih =>
    intro st log
    rw [dynLoop_step]
    simp only [dynLoopAnchored, bind, Except.bind]
    cases dynStep E P readSeq n st with
    | error e => rfl
    | ok o =>
      cases o with
      | none => rfl
      | some p => exact ih _ _

theorem findSeedsAnchored_seeds (fuel : Nat) (E : External) (P : Parameters) (readSeq : Seq) :
    (findSeedsUsingDynamicKmerLenAnchored fuel E P readSeq).map Prod.fst
      = findSeedsUsingDynamicKmerLen fuel E P readSeq := by
  unfold findSeedsUsingDynamicKmerLenAnchored findSeedsUsingDynamicKmerLen
  split
  · exact dynLoopAnchored_seeds E P readSeq fuel _ _
  · rfl

theorem dynStep_facts (E : External) (P : Parameters) (readSeq : Seq)
    (hk : 1 ≤ P.kmerLength) (hm : 1 ≤ P.minKmerLength) (fuel : Nat) (st st1 : DynState)
    (move : DynMove) (hinv : DynInv E P readSeq st)
    (h : dynStep E P readSeq fuel st = .ok (some (move, st1))) :
    DynInv E P readSeq st1 ∧ MoveFacts P move st st1 := by
  obtain ⟨hk0, ⟨ha1, ha2⟩, hst, hbd, hJ, hord⟩ := hinv
  have hlink : st.seeds ≠ [] →
      (if st.start = false then st.newStartPos else st.newStartPos2) = st.newStartPos2 := by
    intro hne
    cases hstart : st.start
    · exact absurd (hst hstart) hne
    · simp
  have hanc : st.anchor = (if st.start = false then st.newStartPos else st.newStartPos2) := rfl
  rw [← hanc] at ha1 ha2 hlink
  have hbd2 : ∀ s ∈ st.seeds, s.1 < st.anchor + 1 ∧ seedEnd s ≤ st.anchor + 1 := by
    intro s hsm
    have h1 := hbd s hsm
    have h2 := hlink (List.ne_nil_of_mem hsm)
    omega
  simp only [dynStep] at h
  split at h
  next hcond =>
    cases hs : substr readSeq st.i st.kmerLen with
    | error e => simp [hs, bind, Except.bind] at h
    | ok kmer =>
      simp only [hs, bind, Except.bind] at h
      split at h
      next hq =>
        cases hg : dynContiguous E P readSeq st.kmerLen fuel (st.i + 1) with
        | error e => simp [hg] at h
        | ok i1 =>
          simp only [hg] at h
          cases hs2 : substr readSeq st.i (st.kmerLen + i1 - st.i - 1) with
          | error e => simp [hs2] at h
          | ok str =>
            simp only [hs2, pure, Except.pure, Except.ok.injEq, Option.some.injEq,
              Prod.mk.injEq] at h
            obtain ⟨hmove, hst1⟩ := h
            subst hmove hst1
            have hge := dynContiguous_ge E P readSeq st.kmerLen _ _ _ hg
            have hlen1 : (1 : Int) ≤ str.length := by
              by_cases hk1 : st.kmerLen = 0
              · rw [hk1] at hs hg hs2
                have hkm := substr_zero hs
                subst hkm
                have hlt : st.i < (readSeq.length : Int) := by
                  rcases hJ hk1 with h1 | h1
                  · exact h1
                  · omega
                have h2 := dynContiguous_zero E P readSeq (by omega) _ _ _ (by omega) hg
                have hge2 := dynContiguous_ge E P readSeq 0 _ _ _ hg
                have := substr_length_ge hs2 (by omega) (by omega)
                omega
              · have := substr_length_ge hs2 (by omega) (by omega)
                omega
            refine ⟨⟨by simp only; omega, ?_, ?_, ?_, ?_, ?_⟩, ?_⟩
            · simp only [Bool.true_eq_false, if_false]
              omega
            · simp
            · simp only
              intro s hsm
              rcases List.mem_append.1 hsm with hsm | hsm
              · have := hbd2 s hsm
                omega
              · simp only [List.mem_singleton] at hsm
                subst hsm
                simp only [seedEnd]
                omega
            · simp only
              intro h0
              omega
            · simp only
              refine List.pairwise_append.2 ⟨hord, List.pairwise_singleton _ _, ?_⟩
              intro a ha b hb2
              simp only [List.mem_singleton] at hb2
              subst hb2
              have := hbd2 a ha
              simp only
              omega
            · simp only [MoveFacts, DynState.anchor, Bool.true_eq_false, if_false]
              rw [← hanc]
              exact ⟨by omega, trivial⟩
      next hq =>
        split at h
        · split at h
          next hmin =>
            simp only [pure, Except.pure, Except.ok.injEq, Option.some.injEq,
              Prod.mk.injEq] at h
            obtain ⟨hmove, hst1⟩ := h
            subst hmove hst1
            refine ⟨⟨by simp only; omega, ?_, ?_, ?_, ?_, hord⟩, ?_⟩
            · simp only [ite_self]
              omega
            · simpa using hst
            · simp only
              intro s hsm
              have := hbd2 s hsm
              omega
            · simp only
              intro h0
              omega
            · simp only [MoveFacts, DynState.anchor, ite_self]
              rw [← hanc]
              exact ⟨by omega, trivial, hmin⟩
          next hmin =>
            simp only [pure, Except.pure, Except.ok.injEq, Option.some.injEq,
              Prod.mk.injEq] at h
            obtain ⟨hmove, hst1⟩ := h
            subst hmove hst1
            refine ⟨⟨by simp only; omega, ?_, ?_, ?_, ?_, hord⟩, ?_⟩
            · simp only
              rw [← hanc]
              omega
            · simpa using hst
            · simpa using hbd
            · simp only
              intro h0
              left
              rw [← hanc]
              omega
            · simp only [MoveFacts, DynState.anchor]
              exact ⟨trivial, trivial, by omega, trivial⟩
        · simp only [pure, Except.pure, Except.ok.injEq, Option.some.injEq,
            Prod.mk.injEq] at h
          obtain ⟨hmove, hst1⟩ := h
          subst hmove hst1
          refine ⟨⟨by simpa using hk0, ?_, ?_, ?_, ?_, hord⟩, ?_⟩
          · simp only
            rw [← hanc]
            omega
          · simpa using hst
          · simpa using hbd
          · simp only
            intro h0
            right
            rw [h0] at hs
            have := substr_zero hs
            subst this
            omega
          · simp only [MoveFacts, DynState.anchor]
            exact ⟨trivial, trivial, trivial⟩
  next hcond =>
    simp [pure, Except.pure] at h

theorem dynLoopAnchored_safe (E : External) (P : Parameters) (readSeq : Seq)
    (hk : 1 ≤ P.kmerLength) (hm : 1 ≤ P.minKmerLength) :
    ∀ (fuel : Nat) (st : DynState) (log : AnchorLog) (r : List Seed × AnchorLog),
      DynInv E P readSeq st →
      ((-1 : Int) :: log.anchors).Pairwise (· < ·) →
      (∀ a ∈ ((-1 : Int) :: log.anchors), a ≤ st.anchor) →
      log.maxRewinds ≤ rewindsLeft P P.kmerLength →
      log.rewinds + rewindsLeft P st.kmerLen ≤ rewindsLeft P P.kmerLength →
      dynLoopAnchored E P readSeq fuel st log = .ok r →
      ((-1 : Int) :: r.2.anchors).Pairwise (· < ·) ∧
        r.2.maxRewinds ≤ rewindsLeft P P.kmerLength := by
  intro fuel
  induction fuel with
  | zero => intro st log r _ _ _ _ _ h; simp [dynLoopAnchored] at h
  | succ n ih =>
    intro st log r hinv hpw hle hmax hrew h
    simp only [dynLoopAnchored, bind, Except.bind] at h
    cases hstep : dynStep E P readSeq n st with
    | error e => rw [hstep] at h; cases h
    | ok o =>
      rw [hstep] at h
      cases o with
      | none =>
        simp only [pure, Except.pure, Except.ok.injEq] at h
        subst h
        exact ⟨hpw, hmax⟩
      | some p =>
        obtain ⟨move, st1⟩ := p
        simp only at h
        obtain ⟨hinv1, hfacts⟩ := dynStep_facts E P readSeq hk hm n st st1 move hinv hstep
        have hadvance : st.anchor < st1.anchor →
            ((-1 : Int) :: (log.anchors ++ [st1.anchor])).Pairwise (· < ·) ∧
            ∀ a ∈ ((-1 : Int) :: (log.anchors ++ [st1.anchor])), a ≤ st1.anchor := by
          intro hlt
          constructor
          · rw [← List.cons_append]
            refine List.pairwise_append.2 ⟨hpw, List.pairwise_singleton _ _, ?_⟩
            intro a ha b hb
            simp only [List.mem_singleton] at hb
            subst hb
            have := hle a ha
            omega
          · intro a ha
            rw [← List.cons_append] at ha
            rcases List.mem_append.1 ha with ha | ha
            · have := hle a ha
              omega
            · simp only [List.mem_singleton] at ha
              omega
        cases move with
        | seed =>
          obtain ⟨hlt, hkl⟩ := hfacts
          obtain ⟨h1, h2⟩ := hadvance hlt
          exact ih st1 (log.record .seed st1.anchor) r hinv1 h1 h2 hmax
            (by simp only [AnchorLog.record, hkl]; omega) h
        | giveUp =>
          obtain ⟨hlt, hkl, _⟩ := hfacts
          obtain ⟨h1, h2⟩ := hadvance hlt
          exact ih st1 (log.record .giveUp st1.anchor) r hinv1 h1 h2 hmax
            (by simp only [AnchorLog.record, hkl]; omega) h
        | rewind =>
          obtain ⟨heq, hkl, hgt, _⟩ := hfacts
          have hstep1 : rewindsLeft P st.kmerLen = rewindsLeft P st1.kmerLen + 1 := by
            unfold rewindsLeft
            rw [hkl]
            omega
          refine ih st1 (log.record .rewind st1.anchor) r hinv1 hpw
            (fun a ha => by rw [heq]; exact hle a ha) ?_ ?_ h
          · simp only [AnchorLog.record]
            omega
          · simp only [AnchorLog.record]
            omega
        | walk =>
          obtain ⟨heq, hkl, _⟩ := hfacts
          exact ih st1 (log.record .walk st1.anchor) r hinv1 hpw
            (fun a ha => by rw [heq]; exact hle a ha) hmax
            (by simp only [AnchorLog.record, hkl]; exact hrew) h

theorem shrink_contiguous (n : Nat) :
    dynContiguous suffixIndex shrinkParams ['A', 'C'] (-1) n 1 = .error .fuel ∨
    dynContiguous suffixIndex shrinkParams ['A', 'C'] (-1) n 1 = .ok 2 := by
  rcases n with _ | _ | n
  · left; rfl
  · left; rfl
  · right; rfl

theorem shrink_loop : ∀ (fuel : Nat) (st : DynState), st.i = 0 →
    (st.kmerLen = 1 ∨ st.kmerLen = -1) → st.walkDistance = 0 → st.anchor = -1 →
    dynLoop suffixIndex shrinkParams ['A', 'C'] fuel st = .error .fuel := by
  intro fuel
  induction fuel with
  | zero => intro st _ _ _ _; rfl
  | succ n ih =>
    intro st hi hk hw ha
    obtain ⟨i, k, start, nsp, nsp2, wd, seeds⟩ := st
    simp only at hi hk hw
    subst hi hw
    rcases hk with hk | hk
    · subst hk
      have hs : substr ['A', 'C'] 0 1 = .ok ['A'] := rfl
      have hf : ¬ FMIndexWalkProcess.kmerFreqs suffixIndex ['A']
          ≥ shrinkParams.seedKmerThreshold := by decide
      have hwd : (0 : Int) + 1 ≥ shrinkParams.seedWalkDistance 1 := by decide
      have hmin : ¬ (1 : Int) ≤ shrinkParams.minKmerLength := by decide
      simp only [dynLoop]
      rw [if_pos (by decide), hs]
      simp only [bind, Except.bind]
      rw [if_neg hf, if_pos hwd, if_neg hmin]
      refine ih _ ?_ (Or.inr (by simp only; omega)) rfl ha
      simp only [DynState.anchor] at ha
      simp only [ha]
      rfl
    · subst hk
      have hs : substr ['A', 'C'] 0 (-1) = .ok ['A', 'C'] := rfl
      have hf : FMIndexWalkProcess.kmerFreqs suffixIndex ['A', 'C']
          ≥ shrinkParams.seedKmerThreshold := by decide
      simp only [dynLoop]
      rw [if_pos (by decide), hs]
      simp only [bind, Except.bind]
      rw [if_pos hf]
      rcases shrink_contiguous n with hc | hc
      · simp only [zero_add, hc]
      · have hs2 : substr ['A', 'C'] 0 (-1 + 2 - 0 - 1) = .ok [] := rfl
        simp only [zero_add, hc, hs2]
        exact ih _ rfl (Or.inl rfl) rfl rfl

/-- C40 (amended). For `kmerLength >= 1` and `minKmerLength >= 1`,
`findSeedsUsingDynamicKmerLen` terminates on every read, index and walk-distance table: with
enough step budget it returns its seeds. Along the run the rewind anchors set by the seeds
and give-ups strictly increase from the initial `-1`, and at most
`(kmerLength - minKmerLength)/2 + 1` rewinds are made at one anchor (none when the minimum
exceeds the initial length). Iteration by iteration: a seed or a give-up moves the anchor
strictly forward and resets the k-mer length, a rewind keeps the anchor and takes two off a
k-mer length above the minimum, a walk keeps both. -/
theorem findSeeds_terminates_with_advancing_anchor (E : External) (P : Parameters)
    (readSeq : Seq) (hk : 1 ≤ P.kmerLength) (hm : 1 ≤ P.minKmerLength) :
    (∃ N seeds, ∀ fuel, N ≤ fuel →
      findSeedsUsingDynamicKmerLen fuel E P readSeq = .ok seeds ∧
      ∃ log, findSeedsUsingDynamicKmerLenAnchored fuel E P readSeq = .ok (seeds, log) ∧
        ((-1 : Int) :: log.anchors).Pairwise (· < ·) ∧
        (log.maxRewinds : Int) ≤ max 0 ((P.kmerLength - P.minKmerLength) / 2 + 1)) ∧
    ∀ (fuel : Nat) (st st1 : DynState) (move : DynMove), DynInv E P readSeq st →
      dynStep E P readSeq fuel st = .ok (some (move, st1)) →
      DynInv E P readSeq st1 ∧ MoveFacts P move st st1 := by
  have hbound : (rewindsLeft P P.kmerLength : Int)
      ≤ max 0 ((P.kmerLength - P.minKmerLength) / 2 + 1) := by
    unfold rewindsLeft
    omega
  constructor
  · obtain ⟨N, seeds, hN⟩ := findSeedsUsingDynamicKmerLen_total E P readSeq hk hm
    refine ⟨N, seeds, fun fuel hfuel => ⟨hN fuel hfuel, ?_⟩⟩
    have hmap := findSeedsAnchored_seeds fuel E P readSeq
    rw [hN fuel hfuel] at hmap
    cases hrun : findSeedsUsingDynamicKmerLenAnchored fuel E P readSeq with
    | error e => rw [hrun] at hmap; cases hmap
    | ok r =>
      rw [hrun] at hmap
      obtain ⟨s, log⟩ := r
      have hs : s = seeds := by
        simp only [Except.map, Except.ok.injEq] at hmap
        exact hmap
      subst hs
      refine ⟨log, rfl, ?_⟩
      unfold findSeedsUsingDynamicKmerLenAnchored at hrun
      split at hrun
      · have hinit : DynInv E P readSeq
            { i := 0, kmerLen := P.kmerLength, start := false, newStartPos := -1,
              newStartPos2 := -1, walkDistance := 0, seeds := [] } := by
          refine ⟨by simp only; omega, ?_, ?_, ?_, ?_, List.Pairwise.nil⟩
          · simp
          · simp
          · simp
          · simp only
            intro h0
            omega
        obtain ⟨h1, h2⟩ := dynLoopAnchored_safe E P readSeq hk hm fuel _ {} (s, log) hinit
          (by simp) (by simp [DynState.anchor]) (Nat.zero_le _)
          (by simp only [Nat.zero_add]; exact le_refl _) hrun
        exact ⟨h1, by simp only at h2; omega⟩
      · simp only [pure, Except.pure, Except.ok.injEq, Prod.mk.injEq] at hrun
        obtain ⟨_, hlog⟩ := hrun
        subst hlog
        exact ⟨by simp, by simp only [Nat.cast_zero]; omega⟩
  · intro fuel st st1 move hinv hstep
    exact dynStep_facts E P readSeq hk hm fuel st st1 move hinv hstep

/-- The theorem `findSeeds_terminates_with_advancing_anchor` at the read `AAGTGT` with
`kmerLength = 4`, `minKmerLength = 3`: one rewind at the anchor `-1` (the bound is
`(4 - 3)/2 + 1 = 1`), then the seed `AA` moves the anchor to 1. -/
theorem findSeeds_terminates_with_advancing_anchor_witness :
    findSeedsUsingDynamicKmerLenAnchored 40 islandIndex oddGapParams
        ['A', 'A', 'G', 'T', 'G', 'T']
      = .ok ([(0, ['A', 'A'])], { anchors := [1], rewinds := 0, maxRewinds := 1 }) ∧
    ∃ N seeds, ∀ fuel, N ≤ fuel →
      findSeedsUsingDynamicKmerLen fuel islandIndex oddGapParams
          ['A', 'A', 'G', 'T', 'G', 'T'] = .ok seeds ∧
      ∃ log, findSeedsUsingDynamicKmerLenAnchored fuel islandIndex oddGapParams
          ['A', 'A', 'G', 'T', 'G', 'T'] = .ok (seeds, log) ∧
        ((-1 : Int) :: log.anchors).Pairwise (· < ·) ∧
        (log.maxRewinds : Int)
          ≤ max 0 ((oddGapParams.kmerLength - oddGapParams.minKmerLength) / 2 + 1) :=
  ⟨by decide,
    (findSeeds_terminates_with_advancing_anchor islandIndex oddGapParams
      ['A', 'A', 'G', 'T', 'G', 'T'] (by decide) (by decide)).1⟩

/-- C40 (counterexample). With `kmerLength = 1` and `minKmerLength = 0` the loop need not
terminate: on the read `AC`, over an index in which `AC` and `C` occur five times and `A`
does not, the k-mer length drops from 1 to -1, the lookup of `substr(0, -1)` (the whole read)
succeeds and pushes the empty seed at 0, which puts the cursor and the anchor back where they
were; the two iterations repeat for ever. -/
theorem findSeeds_diverges_with_zero_minimum :
    1 ≤ shrinkParams.kmerLength ∧ shrinkParams.minKmerLength = 0 ∧
    Diverges (fun fuel =>
      findSeedsUsingDynamicKmerLen fuel suffixIndex shrinkParams ['A', 'C']) := by
  refine ⟨by decide, rfl, fun fuel => ?_⟩
  show findSeedsUsingDynamicKmerLen fuel suffixIndex shrinkParams ['A', 'C'] = .error .fuel
  unfold findSeedsUsingDynamicKmerLen
  rw [if_pos (by decide)]
  exact shrink_loop fuel _ rfl (Or.inl rfl) rfl rfl

end StriDe
